import Mathlib

/-!
# cmp_bmfont v0.2 (`src/cmp_bmfont.hpp`): the BMFont text parser

A shallow embedding of the tokenizer, the key/value helpers, the typed value
extraction, the five section parsers and the driver `bmfont_parse_file`.

Conventions of the embedding.

* A file is a `List Char`, one `Char` per byte. `FILE *file` together with the
  lookahead `next_char` is the field `stream`: its head is `next_char`, its tail
  is what `fgetc` has not delivered yet, and `[]` means `next_char == EOF`.
* `next_token` holds the C string stored in the token buffer (the text before
  the terminating NUL).
* `flags` is split into the two booleans `ok` and `eof`.
* The process-wide buffer `bmfont__error` is the field `error` of the parser
  state, which is threaded through every function that can write it.
* `int` line and column counters are natural numbers (they only ever grow and
  stay below the input length plus one).
* Allocation never fails and `calloc(0, _)` returns a non-null empty block.
* `long` is 64 bits wide.
* Three model-only flags record that a run has left the behaviour the C++
  standard defines or that the model ran out of fuel: `oob` (a store through
  `page_names[id]`, `chars[i]` or `kernings[i]` outside the allocated block),
  `assert_failed` (the entry assertion of `bmfont__load_next_token` was
  violated) and `fuel_out`. A run is meaningful for the C++ program only while
  all three are `false`.
* The model-only field `raised` lists, in the order of the calls, the messages
  that `bmfont__set_parser_error` has written into the error buffer.
-/

namespace cmp

/-- The record `BMFont::Char`. -/
structure BMFont_Char where
  id : Nat
  x : Nat
  y : Nat
  width : Nat
  height : Nat
  x_offset : Nat
  y_offset : Nat
  x_advance : Nat
  page : Nat
  channel : Nat
  deriving DecidableEq, Inhabited

/-- The record `BMFont::Kerning`. -/
structure BMFont_Kerning where
  first : Nat
  second : Nat
  amount : Int
  deriving DecidableEq, Inhabited

/-- The record `BMFont`. A pointer field is `none` when it is `nullptr`. -/
structure BMFont where
  font_name : Option (List Char)
  page_names : Option (List (Option (List Char)))
  chars : Option (List BMFont_Char)
  kernings : Option (List BMFont_Kerning)
  font_size : Int
  line_height : Nat
  base : Nat
  scale_w : Nat
  scale_h : Nat
  num_pages : Nat
  num_chars : Nat
  num_kernings : Nat
  alpha_channel : Nat
  red_channel : Nat
  green_channel : Nat
  blue_channel : Nat
  deriving DecidableEq, Inhabited

/-- The constant `BMFONT_MAX_TOKEN_LENGTH`. -/
def BMFONT_MAX_TOKEN_LENGTH : Nat := 1024

/-- The size of the buffer `bmfont__error`. -/
def bmfont__error_size : Nat := BMFONT_MAX_TOKEN_LENGTH * 2 + 1024

/-- The record `BMFont__Parser`, the error buffer and the model-only fields. -/
structure BMFont__Parser where
  stream : List Char
  next_token : List Char
  start_line : Nat
  start_col : Nat
  curr_line : Nat
  curr_col : Nat
  ok : Bool
  eof : Bool
  error : List Char
  pages_read : Nat
  chars_read : Nat
  kernings_read : Nat
  oob : Bool
  assert_failed : Bool
  fuel_out : Bool
  raised : List (List Char)
  deriving DecidableEq, Inhabited

/-- The text of a C string stored in a buffer: everything before the first NUL. -/
def cstr (buf : List Char) : List Char := buf.takeWhile (fun c => c ≠ Char.ofNat 0)

/-- Output of `%d` / `%ld` for a non-negative value. -/
def fmt_nat (n : Nat) : List Char := Nat.toDigits 10 n

/-- Output of `%d` / `%ld`. -/
def fmt_int (v : Int) : List Char :=
  if v < 0 then '-' :: fmt_nat v.natAbs else fmt_nat v.natAbs

/-- `bmfont__parser_ok`. -/
def bmfont__parser_ok (p : BMFont__Parser) : Bool := p.ok

/-- `bmfont__parser_ready`. -/
def bmfont__parser_ready (p : BMFont__Parser) : Bool := bmfont__parser_ok p && !p.eof

/-- `bmfont__set_parser_error`: `vsnprintf` into the error buffer (at most
`sizeof(bmfont__error) - 1` characters are kept) and clear the ok flag. The
text written is added to `raised`. -/
def bmfont__set_parser_error (p : BMFont__Parser) (msg : List Char) : BMFont__Parser :=
  { p with error := msg.take (bmfont__error_size - 1), ok := false,
           raised := p.raised ++ [msg.take (bmfont__error_size - 1)] }

/-- The whitespace loop of `bmfont__load_next_token` on the pair
(`next_char` and unread file, `curr_col`). Inside the loop `next_char` is a
space or a carriage return, so its `EOF` and newline tests never fire. -/
def skip_blank : List Char → Nat → List Char × Nat
  | [], col => ([], col)
  | c :: cs, col =>
    if c = ' ' ∨ c = '\r' then skip_blank cs (if c = ' ' then col + 1 else col)
    else (c :: cs, col)

/-- The loop condition of the word loop, evaluated after `fgetc` has put the
head of `cs` into `next_char` and `len` characters are stored. -/
def word_continues (cs : List Char) (len : Nat) : Bool :=
  match cs with
  | [] => false
  | d :: _ => d ≠ '=' ∧ d ≠ ' ' ∧ d ≠ '\r' ∧ d ≠ '\n' ∧ len < BMFONT_MAX_TOKEN_LENGTH

/-- The `do ... while` word loop of `bmfont__load_next_token`, entered with
`next_char` (the head of the stream) not `EOF` and `len` characters stored:
returns the characters stored from here on and the stream afterwards. -/
def word_loop : List Char → Nat → List Char × List Char
  | [], _ => ([], [])
  | c :: cs, len =>
    if word_continues cs (len + 1) then
      ((c :: (word_loop cs (len + 1)).1), (word_loop cs (len + 1)).2)
    else ([c], cs)

/-- The message of the token-length error. -/
def msg_token_too_long (line col : Nat) : List Char :=
  "Token length is too large to parse (line ".toList ++ fmt_nat line ++ ", col ".toList
    ++ fmt_nat col ++ ").".toList

/-- `bmfont__load_next_token`. When the length bound is hit the buffer is left
without a terminating NUL; the model keeps the stored characters as the text of
the token; what `strcmp` and `%s` would read behind the unterminated buffer
is not part of the model. -/
def bmfont__load_next_token (p0 : BMFont__Parser) : Bool × BMFont__Parser :=
  let p := { p0 with assert_failed := p0.assert_failed || !bmfont__parser_ok p0 }
  if bmfont__parser_ready p then
    let sk := skip_blank p.stream p.curr_col
    let p1 := { p with stream := sk.1, curr_col := sk.2, start_col := sk.2,
                       start_line := p.curr_line }
    match sk.1 with
    | [] => (true, { p1 with eof := true })
    | c :: cs =>
      if c = '\n' then
        (true, { p1 with curr_col := 1, curr_line := p1.curr_line + 1,
                         next_token := ['\n'], stream := cs })
      else if c = '=' then
        (true, { p1 with curr_col := p1.curr_col + 1, next_token := ['='], stream := cs })
      else
        let w := word_loop (c :: cs) 0
        let p2 := { p1 with curr_col := p1.curr_col + w.1.length, stream := w.2 }
        if w.1.length = BMFONT_MAX_TOKEN_LENGTH then
          (false, bmfont__set_parser_error { p2 with next_token := cstr w.1 }
                    (msg_token_too_long p2.start_line p2.start_col))
        else (true, { p2 with next_token := cstr w.1 })
  else (bmfont__parser_ok p, p)

/-- The message of the premature end-of-stream error. -/
def msg_unexpected_eof (line col : Nat) : List Char :=
  "Unexpectedly reached EOF (line ".toList ++ fmt_nat line ++ ", col ".toList
    ++ fmt_nat col ++ "). Expected token.".toList

/-- `bmfont__expect_more_tokens`. -/
def bmfont__expect_more_tokens (p : BMFont__Parser) : Bool × BMFont__Parser :=
  if p.eof then
    (false, bmfont__set_parser_error p (msg_unexpected_eof p.start_line p.start_col))
  else (true, p)

/-- `bmfont__match_token_and_advance`. -/
def bmfont__match_token_and_advance (p : BMFont__Parser) (token : List Char) :
    Bool × BMFont__Parser :=
  let r := bmfont__expect_more_tokens p
  if !r.1 || !bmfont__parser_ok r.2 || r.2.next_token ≠ token then (false, r.2)
  else bmfont__load_next_token r.2

/-- The message of the unexpected-token error. -/
def msg_unexpected_token (line col : Nat) (got expected : List Char) : List Char :=
  "Unexpected token (line ".toList ++ fmt_nat line ++ ", col ".toList ++ fmt_nat col
    ++ "): ".toList ++ got ++ ". Expected token: ".toList ++ expected

/-- `bmfont__expect_token_and_advance`. -/
def bmfont__expect_token_and_advance (p : BMFont__Parser) (token : List Char) :
    Bool × BMFont__Parser :=
  let r := bmfont__match_token_and_advance p token
  if !r.1 then
    if !r.2.eof then
      (false, bmfont__set_parser_error r.2
                (msg_unexpected_token r.2.start_line r.2.start_col r.2.next_token token))
    else (false, r.2)
  else (true, r.2)

/-- `bmfont__match_key_and_advance_to_value`. -/
def bmfont__match_key_and_advance_to_value (p : BMFont__Parser) (token : List Char) :
    Bool × BMFont__Parser :=
  if p.next_token = token then
    let r := bmfont__load_next_token p
    if r.1 then bmfont__match_token_and_advance r.2 ['='] else (false, r.2)
  else (false, p)

/-- The C library predicate `isspace` in the "C" locale. -/
def isspace (c : Char) : Bool :=
  c = ' ' ∨ c = '\t' ∨ c = '\n' ∨ c = Char.ofNat 11 ∨ c = Char.ofNat 12 ∨ c = '\r'

/-- The value of a character as a digit of `strtol` (letters stand for 10..35). -/
def digit_value (c : Char) : Option Nat :=
  if '0' ≤ c ∧ c ≤ '9' then some (c.toNat - '0'.toNat)
  else if 'a' ≤ c ∧ c ≤ 'z' then some (c.toNat - 'a'.toNat + 10)
  else if 'A' ≤ c ∧ c ≤ 'Z' then some (c.toNat - 'A'.toNat + 10)
  else none

/-- Whether a character is a digit of the given base. -/
def is_digit_of (base : Nat) (c : Char) : Bool :=
  match digit_value c with
  | some d => d < base
  | none => false

/-- The number written by a list of digit characters of the given base. -/
def digits_value (base : Nat) (ds : List Char) : Nat :=
  ds.foldl (fun acc c => acc * base + (digit_value c).getD 0) 0

/-- The constant `LONG_MAX` of a 64-bit `long`. -/
def LONG_MAX : Int := 9223372036854775807

/-- The constant `LONG_MIN` of a 64-bit `long`. -/
def LONG_MIN : Int := -9223372036854775808

/-- Whether the text starts with `0x` or `0X` followed by a hexadecimal digit. -/
def starts_hex : List Char → Bool
  | z :: x :: h :: _ => z = '0' ∧ (x = 'x' ∨ x = 'X') ∧ is_digit_of 16 h
  | _ => false

/-- The base `strtol` chooses for base 0 from the text after the sign. -/
def strtol_base (s : List Char) : Nat :=
  if starts_hex s then 16 else if s.head? = some '0' then 8 else 10

/-- The C library function `strtol(s, &end_ptr, 0)`: the converted value and the
text `end_ptr` points to. White space is skipped, an optional sign is read, the
base is 16 after `0x` or `0X` followed by a hexadecimal digit, 8 after a leading
`0` and 10 otherwise; the longest run of digits of that base is converted and
clamped to the range of `long`. Without any digit no conversion is performed:
the value is 0 and `end_ptr` is `s`. -/
def strtol (s : List Char) : Int × List Char :=
  let s1 := s.dropWhile isspace
  let neg : Bool := s1.head? = some '-'
  let s2 := if s1.head? = some '-' ∨ s1.head? = some '+' then s1.tail else s1
  let base := strtol_base s2
  let s3 := if starts_hex s2 then s2.drop 2 else s2
  let ds := s3.takeWhile (is_digit_of base)
  let rest := s3.dropWhile (is_digit_of base)
  if ds = [] then (0, s)
  else
    let mag : Int := digits_value base ds
    (if neg then max (-mag) LONG_MIN else min mag LONG_MAX, rest)

/-- The message of the not-an-integer error. -/
def msg_expected_integer (line col : Nat) (got : List Char) : List Char :=
  "Expected an integer value (line ".toList ++ fmt_nat line ++ ", col ".toList ++ fmt_nat col
    ++ "). Got: ".toList ++ got

/-- The message of the out-of-range error. -/
def msg_out_of_range (line col : Nat) (got : Int) : List Char :=
  "Integer value out of range (line ".toList ++ fmt_nat line ++ ", col ".toList ++ fmt_nat col
    ++ "). Got: ".toList ++ fmt_int got

/-- `bmfont__do_get_token_as_int_and_advance`: the returned flag, the parser
afterwards, and the value stored through `dest` (`none` when `dest` is not
written). -/
def bmfont__do_get_token_as_int_and_advance (p : BMFont__Parser) (min max : Int) :
    Bool × BMFont__Parser × Option Int :=
  let r := bmfont__expect_more_tokens p
  if !r.1 then (false, r.2, none)
  else
    let conv := strtol r.2.next_token
    if conv.2 ≠ [] then
      (false, bmfont__set_parser_error r.2
                (msg_expected_integer r.2.start_line r.2.start_col r.2.next_token), none)
    else if conv.1 < min ∨ conv.1 > max then
      (false, bmfont__set_parser_error r.2
                (msg_out_of_range r.2.start_line r.2.start_col conv.1), none)
    else
      let l := bmfont__load_next_token r.2
      (l.1, l.2, some conv.1)

/-- The conversion `(int16_t)long_value`. -/
def to_int16 (v : Int) : Int := (v + 32768) % 65536 - 32768

/-- `bmfont__get_token_as_int_and_advance(parser, int16_t *dest)`: the value
assigned to `*dest` is `none` when `*dest` is not written. -/
def bmfont__get_token_as_int16_and_advance (p : BMFont__Parser) :
    Bool × BMFont__Parser × Option Int :=
  let r := bmfont__do_get_token_as_int_and_advance p (-32768) 32767
  match r.1, r.2.2 with
  | true, some long_value => (true, r.2.1, some (to_int16 long_value))
  | _, _ => (false, r.2.1, none)

/-- `bmfont__get_token_as_int_and_advance(parser, uint16_t *dest)`: the
assignment converts `(int16_t)long_value` to `uint16_t`. -/
def bmfont__get_token_as_uint16_and_advance (p : BMFont__Parser) :
    Bool × BMFont__Parser × Option Nat :=
  let r := bmfont__do_get_token_as_int_and_advance p 0 65535
  match r.1, r.2.2 with
  | true, some long_value => (true, r.2.1, some ((to_int16 long_value) % 65536).toNat)
  | _, _ => (false, r.2.1, none)

/-- `bmfont__get_token_as_int_and_advance(parser, uint32_t *dest)`: the
assignment converts `(int16_t)long_value` to `uint32_t`. -/
def bmfont__get_token_as_uint32_and_advance (p : BMFont__Parser) :
    Bool × BMFont__Parser × Option Nat :=
  let r := bmfont__do_get_token_as_int_and_advance p 0 4294967295
  match r.1, r.2.2 with
  | true, some long_value => (true, r.2.1, some ((to_int16 long_value) % 4294967296).toNat)
  | _, _ => (false, r.2.1, none)

/-- `bmfont__copy_token_and_advance`: the third component is the string
assigned to `*dest`, `none` when `*dest` is not written. -/
def bmfont__copy_token_and_advance (p : BMFont__Parser) :
    Bool × BMFont__Parser × Option (List Char) :=
  let r := bmfont__expect_more_tokens p
  if !r.1 then (false, r.2, none)
  else
    let l := bmfont__load_next_token r.2
    (l.1, l.2, some r.2.next_token)

/-- The message of the quoted-string error. -/
def msg_expected_quoted (line col : Nat) (got : List Char) : List Char :=
  "Expected quoted string (line ".toList ++ fmt_nat line ++ ", col ".toList ++ fmt_nat col
    ++ "). Got: ".toList ++ got

/-- `bmfont__copy_quoted_token_and_advance`: the third component is the string
assigned to `*dest` (`len - 2` characters copied from `next_token + 1` into a
zeroed block of `len - 2` pointer-sized elements; for `len = 2` the block has
no bytes and the model takes the empty string), `none` when `*dest` is not
written. -/
def bmfont__copy_quoted_token_and_advance (p : BMFont__Parser) :
    Bool × BMFont__Parser × Option (List Char) :=
  let r := bmfont__expect_more_tokens p
  if !r.1 then (false, r.2, none)
  else
    let tok := r.2.next_token
    let len := tok.length
    if len < 2 ∨ tok.head? ≠ some '"' ∨ tok.getLast? ≠ some '"' then
      (false, bmfont__set_parser_error r.2
                (msg_expected_quoted r.2.start_line r.2.start_col tok), none)
    else
      let l := bmfont__load_next_token r.2
      (l.1, l.2, some ((tok.drop 1).take (len - 2)))

/-- The effect of a typed extraction on its destination: the destination takes
the value when the extraction wrote one and keeps its old contents otherwise. -/
def store_opt {α β : Type} (a : α) (v : Option β) (upd : α → β → α) : α :=
  match v with
  | some x => upd a x
  | none => a

/-- The fall-through branch of every key/value loop: skip an unknown key. -/
def skip_unknown_pair (p : BMFont__Parser) : BMFont__Parser :=
  (bmfont__load_next_token (bmfont__match_token_and_advance p ['=']).2).2

/-- The loop `while (bmfont__parser_ready(parser) &&
!bmfont__match_token_and_advance(parser, "\n")) body` shared by all section
parsers, over the data `a` the body fills in. The loop is run with a bound on
the number of iterations; reaching it sets `fuel_out`. -/
def kv_loop {α : Type} (body : BMFont__Parser → α → BMFont__Parser × α) :
    Nat → BMFont__Parser → α → BMFont__Parser × α
  | 0, p, a => ({ p with fuel_out := true }, a)
  | fuel + 1, p, a =>
    if bmfont__parser_ready p then
      let m := bmfont__match_token_and_advance p ['\n']
      if m.1 then (m.2, a)
      else
        let b := body m.2 a
        kv_loop body fuel b.1 b.2
    else (p, a)

/-- The bound given to a key/value loop: every iteration that does not end the
loop takes at least one character from the stream or sets a flag. -/
def kv_fuel (p : BMFont__Parser) : Nat := p.stream.length + 2

/-- The body of the key/value loop of `bmfont__parse_info`. -/
def parse_info_body (p : BMFont__Parser) (font : BMFont) : BMFont__Parser × BMFont :=
  let k1 := bmfont__match_key_and_advance_to_value p "face".toList
  if k1.1 then
    let r := bmfont__copy_token_and_advance k1.2
    (r.2.1, store_opt font r.2.2 (fun f s => { f with font_name := some s }))
  else
    let k2 := bmfont__match_key_and_advance_to_value k1.2 "size".toList
    if k2.1 then
      let r := bmfont__get_token_as_int16_and_advance k2.2
      (r.2.1, store_opt font r.2.2 (fun f v => { f with font_size := v }))
    else (skip_unknown_pair k2.2, font)

/-- `bmfont__parse_info`. -/
def bmfont__parse_info (p : BMFont__Parser) (font : BMFont) :
    Bool × BMFont__Parser × BMFont :=
  let e := bmfont__expect_token_and_advance p "info".toList
  if !e.1 then (false, e.2, font)
  else
    let r := kv_loop parse_info_body (kv_fuel e.2) e.2 font
    (bmfont__parser_ok r.1, r.1, r.2)

/-- The body of the key/value loop of `bmfont__parse_common`. After `pages` the
page-name block is allocated with the current `num_pages`, whether or not the
value was read. -/
def parse_common_body (p : BMFont__Parser) (font : BMFont) : BMFont__Parser × BMFont :=
  let k1 := bmfont__match_key_and_advance_to_value p "lineHeight".toList
  if k1.1 then
    let r := bmfont__get_token_as_uint16_and_advance k1.2
    (r.2.1, store_opt font r.2.2 (fun f n => { f with line_height := n }))
  else
    let k2 := bmfont__match_key_and_advance_to_value k1.2 "base".toList
    if k2.1 then
      let r := bmfont__get_token_as_uint16_and_advance k2.2
      (r.2.1, store_opt font r.2.2 (fun f n => { f with base := n }))
    else
      let k3 := bmfont__match_key_and_advance_to_value k2.2 "scaleW".toList
      if k3.1 then
        let r := bmfont__get_token_as_uint16_and_advance k3.2
        (r.2.1, store_opt font r.2.2 (fun f n => { f with scale_w := n }))
      else
        let k4 := bmfont__match_key_and_advance_to_value k3.2 "scaleH".toList
        if k4.1 then
          let r := bmfont__get_token_as_uint16_and_advance k4.2
          (r.2.1, store_opt font r.2.2 (fun f n => { f with scale_h := n }))
        else
          let k5 := bmfont__match_key_and_advance_to_value k4.2 "pages".toList
          if k5.1 then
            let r := bmfont__get_token_as_uint16_and_advance k5.2
            let f1 := store_opt font r.2.2 (fun f n => { f with num_pages := n })
            (r.2.1, { f1 with page_names := some (List.replicate f1.num_pages none) })
          else (skip_unknown_pair k5.2, font)

/-- `bmfont__parse_common`. -/
def bmfont__parse_common (p : BMFont__Parser) (font : BMFont) :
    Bool × BMFont__Parser × BMFont :=
  let e := bmfont__expect_token_and_advance p "common".toList
  if !e.1 then (false, e.2, font)
  else
    let r := kv_loop parse_common_body (kv_fuel e.2) e.2 font
    (bmfont__parser_ok r.1, r.1, r.2)

/-- The body of the key/value loop of a page record, over the locals
`id` and `filename`. -/
def parse_page_body (p : BMFont__Parser) (a : Nat × Option (List Char)) :
    BMFont__Parser × (Nat × Option (List Char)) :=
  let k1 := bmfont__match_key_and_advance_to_value p "id".toList
  if k1.1 then
    let r := bmfont__get_token_as_uint32_and_advance k1.2
    (r.2.1, store_opt a r.2.2 (fun x v => (v, x.2)))
  else
    let k2 := bmfont__match_key_and_advance_to_value k1.2 "file".toList
    if k2.1 then
      let r := bmfont__copy_quoted_token_and_advance k2.2
      (r.2.1, store_opt a r.2.2 (fun x s => (x.1, some s)))
    else (skip_unknown_pair k2.2, a)

/-- The message of the missing-filename error. -/
def msg_page_missing_filename (line : Nat) : List Char :=
  "Page tag missing filename (line ".toList ++ fmt_nat line ++ ")".toList

/-- The store `font->page_names[id] = filename`; a store outside the allocated
block sets `oob` and has no further effect in the model. -/
def store_page_name (p : BMFont__Parser) (font : BMFont) (id : Nat) (filename : List Char) :
    BMFont__Parser × BMFont :=
  match font.page_names with
  | some names =>
    if id < names.length then (p, { font with page_names := some (names.set id (some filename)) })
    else ({ p with oob := true }, font)
  | none => ({ p with oob := true }, font)

/-- The record loop of `bmfont__parse_pages`, with `n` iterations left before
`i` reaches `num_pages`: the final `i`, whether the function returned from
inside the loop, and the state. -/
def parse_pages_loop : Nat → Nat → BMFont__Parser → BMFont →
    Nat × Bool × BMFont__Parser × BMFont
  | 0, i, p, font => (i, false, p, font)
  | n + 1, i, p, font =>
    let m := bmfont__match_token_and_advance p "page".toList
    if !m.1 then (i, false, m.2, font)
    else
      let r := kv_loop parse_page_body (kv_fuel m.2) m.2 (0, none)
      match r.2.2 with
      | none =>
        (i, true, bmfont__set_parser_error r.1 (msg_page_missing_filename r.1.start_line), font)
      | some filename =>
        let st := store_page_name r.1 font r.2.1 filename
        parse_pages_loop n (i + 1) st.1 st.2

/-- The message of a count mismatch; `what` is `pages`, `chars` or `kernings`. -/
def msg_fewer (what : List Char) (expected actual : Nat) : List Char :=
  "Fewer ".toList ++ what ++ " than specified in file. Expected: ".toList ++ fmt_nat expected
    ++ ", actual: ".toList ++ fmt_nat actual

/-- `bmfont__parse_pages`. The final value of `i` is recorded in `pages_read`. -/
def bmfont__parse_pages (p : BMFont__Parser) (font : BMFont) :
    Bool × BMFont__Parser × BMFont :=
  let r := parse_pages_loop font.num_pages 0 p font
  let p1 := { r.2.2.1 with pages_read := r.1 }
  if r.2.1 then (false, p1, r.2.2.2)
  else
    let p2 := if r.1 ≠ r.2.2.2.num_pages then
        bmfont__set_parser_error p1 (msg_fewer "pages".toList r.2.2.2.num_pages r.1)
      else p1
    (bmfont__parser_ok p2, p2, r.2.2.2)

/-- The body of the first key/value loop of `bmfont__parse_chars`. -/
def parse_chars_count_body (p : BMFont__Parser) (font : BMFont) : BMFont__Parser × BMFont :=
  let k1 := bmfont__match_key_and_advance_to_value p "count".toList
  if k1.1 then
    let r := bmfont__get_token_as_uint16_and_advance k1.2
    if r.1 then
      let f1 := store_opt font r.2.2 (fun f n => { f with num_chars := n })
      (r.2.1, { f1 with chars := some (List.replicate f1.num_chars default) })
    else (r.2.1, font)
  else (skip_unknown_pair k1.2, font)

/-- The body of the key/value loop of a char record, over the glyph `*ch`. -/
def parse_char_body (p : BMFont__Parser) (ch : BMFont_Char) : BMFont__Parser × BMFont_Char :=
  let k1 := bmfont__match_key_and_advance_to_value p "id".toList
  if k1.1 then
    let r := bmfont__get_token_as_uint32_and_advance k1.2
    (r.2.1, store_opt ch r.2.2 (fun c n => { c with id := n }))
  else
    let k2 := bmfont__match_key_and_advance_to_value k1.2 "x".toList
    if k2.1 then
      let r := bmfont__get_token_as_uint16_and_advance k2.2
      (r.2.1, store_opt ch r.2.2 (fun c n => { c with x := n }))
    else
      let k3 := bmfont__match_key_and_advance_to_value k2.2 "y".toList
      if k3.1 then
        let r := bmfont__get_token_as_uint16_and_advance k3.2
        (r.2.1, store_opt ch r.2.2 (fun c n => { c with y := n }))
      else
        let k4 := bmfont__match_key_and_advance_to_value k3.2 "width".toList
        if k4.1 then
          let r := bmfont__get_token_as_uint16_and_advance k4.2
          (r.2.1, store_opt ch r.2.2 (fun c n => { c with width := n }))
        else
          let k5 := bmfont__match_key_and_advance_to_value k4.2 "height".toList
          if k5.1 then
            let r := bmfont__get_token_as_uint16_and_advance k5.2
            (r.2.1, store_opt ch r.2.2 (fun c n => { c with height := n }))
          else
            let k6 := bmfont__match_key_and_advance_to_value k5.2 "xoffset".toList
            if k6.1 then
              let r := bmfont__get_token_as_uint16_and_advance k6.2
              (r.2.1, store_opt ch r.2.2 (fun c n => { c with x_offset := n }))
            else
              let k7 := bmfont__match_key_and_advance_to_value k6.2 "yoffset".toList
              if k7.1 then
                let r := bmfont__get_token_as_uint16_and_advance k7.2
                (r.2.1, store_opt ch r.2.2 (fun c n => { c with y_offset := n }))
              else
                let k8 := bmfont__match_key_and_advance_to_value k7.2 "xadvance".toList
                if k8.1 then
                  let r := bmfont__get_token_as_uint16_and_advance k8.2
                  (r.2.1, store_opt ch r.2.2 (fun c n => { c with x_advance := n }))
                else (skip_unknown_pair k8.2, ch)

/-- The record loop of `bmfont__parse_chars`, with `n` iterations left before
`i` reaches `num_chars`. The loop works on `font->chars[i]` in place; an index
outside the allocated block sets `oob`. -/
def parse_chars_loop : Nat → Nat → BMFont__Parser → BMFont → Nat × BMFont__Parser × BMFont
  | 0, i, p, font => (i, p, font)
  | n + 1, i, p, font =>
    let m := bmfont__match_token_and_advance p "char".toList
    if !m.1 then (i, m.2, font)
    else
      match font.chars with
      | some cs =>
        if i < cs.length then
          let r := kv_loop parse_char_body (kv_fuel m.2) m.2 (cs.getD i default)
          parse_chars_loop n (i + 1) r.1 { font with chars := some (cs.set i r.2) }
        else
          let r := kv_loop parse_char_body (kv_fuel m.2) m.2 default
          parse_chars_loop n (i + 1) { r.1 with oob := true } font
      | none =>
        let r := kv_loop parse_char_body (kv_fuel m.2) m.2 default
        parse_chars_loop n (i + 1) { r.1 with oob := true } font

/-- `bmfont__parse_chars`. The final value of `i` is recorded in `chars_read`. -/
def bmfont__parse_chars (p : BMFont__Parser) (font : BMFont) :
    Bool × BMFont__Parser × BMFont :=
  let e := bmfont__expect_token_and_advance p "chars".toList
  if !e.1 then (false, e.2, font)
  else
    let h := kv_loop parse_chars_count_body (kv_fuel e.2) e.2 font
    let r := parse_chars_loop h.2.num_chars 0 h.1 h.2
    let p1 := { r.2.1 with chars_read := r.1 }
    let p2 := if r.1 ≠ r.2.2.num_chars then
        bmfont__set_parser_error p1 (msg_fewer "chars".toList r.2.2.num_chars r.1)
      else p1
    (bmfont__parser_ok p2, p2, r.2.2)

/-- The body of the first key/value loop of `bmfont__parse_kernings`. -/
def parse_kernings_count_body (p : BMFont__Parser) (font : BMFont) : BMFont__Parser × BMFont :=
  let k1 := bmfont__match_key_and_advance_to_value p "count".toList
  if k1.1 then
    let r := bmfont__get_token_as_uint16_and_advance k1.2
    if r.1 then
      let f1 := store_opt font r.2.2 (fun f n => { f with num_kernings := n })
      (r.2.1, { f1 with kernings := some (List.replicate f1.num_kernings default) })
    else (r.2.1, font)
  else (skip_unknown_pair k1.2, font)

/-- The body of the key/value loop of a kerning record, over `*kerning`. -/
def parse_kerning_body (p : BMFont__Parser) (k : BMFont_Kerning) :
    BMFont__Parser × BMFont_Kerning :=
  let k1 := bmfont__match_key_and_advance_to_value p "first".toList
  if k1.1 then
    let r := bmfont__get_token_as_uint32_and_advance k1.2
    (r.2.1, store_opt k r.2.2 (fun x n => { x with first := n }))
  else
    let k2 := bmfont__match_key_and_advance_to_value k1.2 "second".toList
    if k2.1 then
      let r := bmfont__get_token_as_uint32_and_advance k2.2
      (r.2.1, store_opt k r.2.2 (fun x n => { x with second := n }))
    else
      let k3 := bmfont__match_key_and_advance_to_value k2.2 "amount".toList
      if k3.1 then
        let r := bmfont__get_token_as_int16_and_advance k3.2
        (r.2.1, store_opt k r.2.2 (fun x v => { x with amount := v }))
      else (skip_unknown_pair k3.2, k)

/-- The record loop of `bmfont__parse_kernings`, with `n` iterations left
before `i` reaches `num_kernings`. -/
def parse_kernings_loop : Nat → Nat → BMFont__Parser → BMFont → Nat × BMFont__Parser × BMFont
  | 0, i, p, font => (i, p, font)
  | n + 1, i, p, font =>
    let m := bmfont__match_token_and_advance p "kerning".toList
    if !m.1 then (i, m.2, font)
    else
      match font.kernings with
      | some ks =>
        if i < ks.length then
          let r := kv_loop parse_kerning_body (kv_fuel m.2) m.2 (ks.getD i default)
          parse_kernings_loop n (i + 1) r.1 { font with kernings := some (ks.set i r.2) }
        else
          let r := kv_loop parse_kerning_body (kv_fuel m.2) m.2 default
          parse_kernings_loop n (i + 1) { r.1 with oob := true } font
      | none =>
        let r := kv_loop parse_kerning_body (kv_fuel m.2) m.2 default
        parse_kernings_loop n (i + 1) { r.1 with oob := true } font

/-- `bmfont__parse_kernings`. The final value of `i` is recorded in
`kernings_read`. -/
def bmfont__parse_kernings (p : BMFont__Parser) (font : BMFont) :
    Bool × BMFont__Parser × BMFont :=
  if !bmfont__parser_ready p then (false, p, { font with kernings := some [] })
  else
    let e := bmfont__expect_token_and_advance p "kernings".toList
    let h := kv_loop parse_kernings_count_body (kv_fuel e.2) e.2 font
    let r := parse_kernings_loop h.2.num_kernings 0 h.1 h.2
    let p1 := { r.2.1 with kernings_read := r.1 }
    let p2 := if r.1 ≠ r.2.2.num_kernings then
        bmfont__set_parser_error p1 (msg_fewer "kernings".toList r.2.2.num_kernings r.1)
      else p1
    (bmfont__parser_ok p2, p2, r.2.2)

/-- The parser record `bmfont_parse_file` sets up before it loads the first
token: zero-initialized, position (1, 1), `next_char` the first character of
the file, ok flag set, and `"Success"` in the error buffer. -/
def parser_at_start (input : List Char) : BMFont__Parser :=
  { stream := input, next_token := [], start_line := 0, start_col := 0, curr_line := 1,
    curr_col := 1, ok := true, eof := false, error := "Success".toList, pages_read := 0,
    chars_read := 0, kernings_read := 0, oob := false, assert_failed := false,
    fuel_out := false, raised := [] }

/-- The zero-initialized font record returned by `bmfont__calloc(1, sizeof(BMFont))`. -/
def empty_font : BMFont :=
  { font_name := none, page_names := none, chars := none, kernings := none, font_size := 0,
    line_height := 0, base := 0, scale_w := 0, scale_h := 0, num_pages := 0, num_chars := 0,
    num_kernings := 0, alpha_channel := 0, red_channel := 0, green_channel := 0,
    blue_channel := 0 }

/-- The chain `bmfont__parse_info(...) && bmfont__parse_common(...) &&
bmfont__parse_pages(...) && bmfont__parse_chars(...) && bmfont__parse_kernings(...)`. -/
def parse_sections (p : BMFont__Parser) (font : BMFont) : Bool × BMFont__Parser × BMFont :=
  let r1 := bmfont__parse_info p font
  if !r1.1 then r1
  else
    let r2 := bmfont__parse_common r1.2.1 r1.2.2
    if !r2.1 then r2
    else
      let r3 := bmfont__parse_pages r2.2.1 r2.2.2
      if !r3.1 then r3
      else
        let r4 := bmfont__parse_chars r3.2.1 r3.2.2
        if !r4.1 then r4
        else bmfont__parse_kernings r4.2.1 r4.2.2

/-- The message of the trailing-content error. -/
def msg_expected_eof (line col : Nat) (got : List Char) : List Char :=
  "Expected EOF (line ".toList ++ fmt_nat line ++ ", col ".toList ++ fmt_nat col
    ++ "). Got: ".toList ++ got

/-- What a call of `bmfont_parse_file` leaves behind: the returned pointer
(`none` for `nullptr`), the parser record at the return (with the error buffer
and the model-only fields) and the font record as it was built, which is the
one passed to `bmfont_free` on failure. -/
structure ParseRun where
  returned : Option BMFont
  parser : BMFont__Parser
  built : BMFont
  deriving DecidableEq

/-- `bmfont_parse_file` on a file that could be opened, given by its contents. -/
def bmfont_parse_file (input : List Char) : ParseRun :=
  let p0 := (bmfont__load_next_token (parser_at_start input)).2
  let r := parse_sections p0 empty_font
  if !bmfont__parser_ok r.2.1 then { returned := none, parser := r.2.1, built := r.2.2 }
  else if !r.2.1.eof then
    { returned := none,
      parser := bmfont__set_parser_error r.2.1
        (msg_expected_eof r.2.1.start_line r.2.1.start_col r.2.1.next_token),
      built := r.2.2 }
  else { returned := some r.2.2, parser := r.2.1, built := r.2.2 }

/-- `bmfont_get_error_string` after a call of `bmfont_parse_file`. -/
def bmfont_get_error_string (run : ParseRun) : List Char := run.parser.error

/-- A run stayed inside defined behaviour and inside the model's fuel. -/
def ParseRun.clean (run : ParseRun) : Bool :=
  !run.parser.oob && !run.parser.assert_failed && !run.parser.fuel_out

/-- A character that ends a word token. -/
def is_delim (c : Char) : Bool := c = '=' ∨ c = ' ' ∨ c = '\r' ∨ c = '\n'

/-- A text the tokenizer delivers as one word token equal to the text itself:
not empty, shorter than the token buffer, without delimiter and without NUL. -/
def is_word (w : List Char) : Bool :=
  w ≠ [] ∧ w.length < BMFONT_MAX_TOKEN_LENGTH ∧ w.all (fun c => !is_delim c && c ≠ Char.ofNat 0)

/-- A stream at which a word token ends: the end of the file or a delimiter. -/
def delim_start : List Char → Bool
  | [] => true
  | d :: _ => is_delim d

/-- The parser is ok, with end-of-stream flag `e`, current token `t` (when not
at the end of the stream), unread stream `s` and `oob` flag `b`, the other
model-only flags clear and the error buffer still holding `"Success"`. -/
structure Good (p : BMFont__Parser) (t s : List Char) (e b : Bool) : Prop where
  ok : p.ok = true
  eof : p.eof = e
  tok : e = false → p.next_token = t
  str : p.stream = s
  oob : p.oob = b
  af : p.assert_failed = false
  fo : p.fuel_out = false
  err : p.error = "Success".toList

/-- Loading a token from the stream `s` succeeds and leaves the stream `s1`,
with the token `t` when `e` is `false` and at the end of the stream when `e`
is `true`. -/
def Next (s t s1 : List Char) (e : Bool) : Prop :=
  ∀ p t0 b, Good p t0 s false b →
    (bmfont__load_next_token p).1 = true ∧ Good (bmfont__load_next_token p).2 t s1 e b

/-- The text ` k=v` in front of `rest`. -/
def pair (k v rest : List Char) : List Char := ' ' :: (k ++ '=' :: (v ++ rest))

/-- A key/value loop body as a table of keys and handlers tried in order, with
the skip of an unknown key at the end. -/
def dispatch {α : Type} :
    List (List Char × (BMFont__Parser → α → BMFont__Parser × α)) →
    BMFont__Parser → α → BMFont__Parser × α
  | [], p, a => (skip_unknown_pair p, a)
  | (k, h) :: tl, p, a =>
    let m := bmfont__match_key_and_advance_to_value p k
    if m.1 then h m.2 a else dispatch tl m.2 a

/-- The handler of the first entry of a table with the given key. -/
def find_handler {α : Type} :
    List (List Char × (BMFont__Parser → α → BMFont__Parser × α)) → List Char →
    Option (BMFont__Parser → α → BMFont__Parser × α)
  | [], _ => none
  | (k, h) :: tl, key => if k = key then some h else find_handler tl key

/-- What the `uint32_t` overload stores for the value `n`. -/
def narrow32 (n : Nat) : Nat := ((to_int16 (n : Int)) % 4294967296).toNat

/-- The handler of a key whose value is read by the `uint16_t` overload. -/
def on_u16 {α : Type} (upd : α → Nat → α) (q : BMFont__Parser) (a : α) : BMFont__Parser × α :=
  ((bmfont__get_token_as_uint16_and_advance q).2.1,
    store_opt a (bmfont__get_token_as_uint16_and_advance q).2.2 upd)

/-- The handler of a key whose value is read by the `uint32_t` overload. -/
def on_u32 {α : Type} (upd : α → Nat → α) (q : BMFont__Parser) (a : α) : BMFont__Parser × α :=
  ((bmfont__get_token_as_uint32_and_advance q).2.1,
    store_opt a (bmfont__get_token_as_uint32_and_advance q).2.2 upd)

/-- The handler of a key whose value is read by the `int16_t` overload. -/
def on_i16 {α : Type} (upd : α → Int → α) (q : BMFont__Parser) (a : α) : BMFont__Parser × α :=
  ((bmfont__get_token_as_int16_and_advance q).2.1,
    store_opt a (bmfont__get_token_as_int16_and_advance q).2.2 upd)

/-- The handler of a key whose value is copied verbatim. -/
def on_copy {α : Type} (upd : α → List Char → α) (q : BMFont__Parser) (a : α) :
    BMFont__Parser × α :=
  ((bmfont__copy_token_and_advance q).2.1, store_opt a (bmfont__copy_token_and_advance q).2.2 upd)

/-- The handler of a key whose value is a quoted string. -/
def on_quoted {α : Type} (upd : α → List Char → α) (q : BMFont__Parser) (a : α) :
    BMFont__Parser × α :=
  ((bmfont__copy_quoted_token_and_advance q).2.1,
    store_opt a (bmfont__copy_quoted_token_and_advance q).2.2 upd)

/-- The handler of `pages` in the common line. -/
def on_pages (q : BMFont__Parser) (font : BMFont) : BMFont__Parser × BMFont :=
  ((bmfont__get_token_as_uint16_and_advance q).2.1,
    { store_opt font (bmfont__get_token_as_uint16_and_advance q).2.2
        (fun f n => { f with num_pages := n }) with
      page_names := some (List.replicate
        (store_opt font (bmfont__get_token_as_uint16_and_advance q).2.2
          (fun f n => { f with num_pages := n })).num_pages none) })

/-- The handler of `count` in the chars line. -/
def on_chars_count (q : BMFont__Parser) (font : BMFont) : BMFont__Parser × BMFont :=
  if (bmfont__get_token_as_uint16_and_advance q).1 then
    ((bmfont__get_token_as_uint16_and_advance q).2.1,
      { store_opt font (bmfont__get_token_as_uint16_and_advance q).2.2
          (fun f n => { f with num_chars := n }) with
        chars := some (List.replicate
          (store_opt font (bmfont__get_token_as_uint16_and_advance q).2.2
            (fun f n => { f with num_chars := n })).num_chars default) })
  else ((bmfont__get_token_as_uint16_and_advance q).2.1, font)

/-- The handler of `count` in the kernings line. -/
def on_kernings_count (q : BMFont__Parser) (font : BMFont) : BMFont__Parser × BMFont :=
  if (bmfont__get_token_as_uint16_and_advance q).1 then
    ((bmfont__get_token_as_uint16_and_advance q).2.1,
      { store_opt font (bmfont__get_token_as_uint16_and_advance q).2.2
          (fun f n => { f with num_kernings := n }) with
        kernings := some (List.replicate
          (store_opt font (bmfont__get_token_as_uint16_and_advance q).2.2
            (fun f n => { f with num_kernings := n })).num_kernings default) })
  else ((bmfont__get_token_as_uint16_and_advance q).2.1, font)

/-- The keys and handlers of the info line. -/
def info_table : List (List Char × (BMFont__Parser → BMFont → BMFont__Parser × BMFont)) :=
  [("face".toList, on_copy (fun f s => { f with font_name := some s })),
   ("size".toList, on_i16 (fun f v => { f with font_size := v }))]

/-- The keys and handlers of the common line. -/
def common_table : List (List Char × (BMFont__Parser → BMFont → BMFont__Parser × BMFont)) :=
  [("lineHeight".toList, on_u16 (fun f n => { f with line_height := n })),
   ("base".toList, on_u16 (fun f n => { f with base := n })),
   ("scaleW".toList, on_u16 (fun f n => { f with scale_w := n })),
   ("scaleH".toList, on_u16 (fun f n => { f with scale_h := n })),
   ("pages".toList, on_pages)]

/-- The keys and handlers of a page record. -/
def page_table : List (List Char × (BMFont__Parser → Nat × Option (List Char) →
    BMFont__Parser × (Nat × Option (List Char)))) :=
  [("id".toList, on_u32 (fun x v => (v, x.2))),
   ("file".toList, on_quoted (fun x s => (x.1, some s)))]

/-- The keys and handlers of the chars line. -/
def chars_count_table : List (List Char × (BMFont__Parser → BMFont → BMFont__Parser × BMFont)) :=
  [("count".toList, on_chars_count)]

/-- The keys and handlers of a char record. -/
def char_table : List (List Char × (BMFont__Parser → BMFont_Char →
    BMFont__Parser × BMFont_Char)) :=
  [("id".toList, on_u32 (fun c n => { c with id := n })),
   ("x".toList, on_u16 (fun c n => { c with x := n })),
   ("y".toList, on_u16 (fun c n => { c with y := n })),
   ("width".toList, on_u16 (fun c n => { c with width := n })),
   ("height".toList, on_u16 (fun c n => { c with height := n })),
   ("xoffset".toList, on_u16 (fun c n => { c with x_offset := n })),
   ("yoffset".toList, on_u16 (fun c n => { c with y_offset := n })),
   ("xadvance".toList, on_u16 (fun c n => { c with x_advance := n }))]

/-- The keys and handlers of the kernings line. -/
def kernings_count_table :
    List (List Char × (BMFont__Parser → BMFont → BMFont__Parser × BMFont)) :=
  [("count".toList, on_kernings_count)]

/-- The keys and handlers of a kerning record. -/
def kerning_table : List (List Char × (BMFont__Parser → BMFont_Kerning →
    BMFont__Parser × BMFont_Kerning)) :=
  [("first".toList, on_u32 (fun x n => { x with first := n })),
   ("second".toList, on_u32 (fun x n => { x with second := n })),
   ("amount".toList, on_i16 (fun x v => { x with amount := v }))]

/-- The key/value loop started in `(p, a)` ends in `(q, a1)` whenever it is
given at least `n` units of fuel. -/
def Runs {α : Type} (body : BMFont__Parser → α → BMFont__Parser × α) (p : BMFont__Parser)
    (a : α) (n : Nat) (q : BMFont__Parser) (a1 : α) : Prop :=
  ∀ fuel, n ≤ fuel → kv_loop body fuel p a = (q, a1)

/-- The text of an info line, `info face=<face> size=<size>`, in front of `rest`. -/
def render_info (face : List Char) (size : Int) (rest : List Char) : List Char :=
  "info".toList ++ pair "face".toList face (pair "size".toList (fmt_int size) ('\n' :: rest))

/-- The text of a common line, `common lineHeight=<a> base=<b> scaleW=<c>
scaleH=<d> pages=<pages>`, in front of `rest`. -/
def render_common (a b c d pages : Nat) (rest : List Char) : List Char :=
  "common".toList ++ pair "lineHeight".toList (fmt_nat a) (pair "base".toList (fmt_nat b)
    (pair "scaleW".toList (fmt_nat c) (pair "scaleH".toList (fmt_nat d)
      (pair "pages".toList (fmt_nat pages) ('\n' :: rest)))))

/-- The values of a page line. -/
structure PageLine where
  id : Nat
  file : List Char
  deriving DecidableEq

/-- The text of a page line after its keyword, in front of `rest`. -/
def page_fields (pg : PageLine) (rest : List Char) : List Char :=
  pair "id".toList (fmt_nat pg.id) (pair "file".toList ('"' :: (pg.file ++ ['"'])) ('\n' :: rest))

/-- The text of a page line, `page id=<id> file="<file>"`, in front of `rest`. -/
def render_page (pg : PageLine) (rest : List Char) : List Char :=
  "page".toList ++ page_fields pg rest

/-- The text of a list of page lines in front of `rest`. -/
def render_pages : List PageLine → List Char → List Char
  | [], rest => rest
  | pg :: pgs, rest => render_page pg (render_pages pgs rest)

/-- The text of a chars line, `chars count=<count>`, in front of `rest`. -/
def render_chars_header (count : Nat) (rest : List Char) : List Char :=
  "chars".toList ++ pair "count".toList (fmt_nat count) ('\n' :: rest)

/-- The values of a char line. -/
structure CharLine where
  id : Nat
  x : Nat
  y : Nat
  width : Nat
  height : Nat
  xoffset : Nat
  yoffset : Nat
  xadvance : Nat
  deriving DecidableEq

/-- The text of a char line after its keyword, in front of `rest`. -/
def char_fields (c : CharLine) (rest : List Char) : List Char :=
  pair "id".toList (fmt_nat c.id) (pair "x".toList (fmt_nat c.x)
    (pair "y".toList (fmt_nat c.y) (pair "width".toList (fmt_nat c.width)
      (pair "height".toList (fmt_nat c.height) (pair "xoffset".toList (fmt_nat c.xoffset)
        (pair "yoffset".toList (fmt_nat c.yoffset)
          (pair "xadvance".toList (fmt_nat c.xadvance) ('\n' :: rest))))))))

/-- The text of a char line, `char id=<id> x=<x> y=<y> width=<width>
height=<height> xoffset=<xoffset> yoffset=<yoffset> xadvance=<xadvance>`, in
front of `rest`. -/
def render_char (c : CharLine) (rest : List Char) : List Char :=
  "char".toList ++ char_fields c rest

/-- The text of a list of char lines in front of `rest`. -/
def render_chars : List CharLine → List Char → List Char
  | [], rest => rest
  | c :: cs, rest => render_char c (render_chars cs rest)

/-- The text of a kernings line, `kernings count=<count>`, in front of `rest`. -/
def render_kernings_header (count : Nat) (rest : List Char) : List Char :=
  "kernings".toList ++ pair "count".toList (fmt_nat count) ('\n' :: rest)

/-- The values of a kerning line. -/
structure KerningLine where
  first : Nat
  second : Nat
  amount : Int
  deriving DecidableEq

/-- The text of a kerning line after its keyword, in front of `rest`. -/
def kerning_fields (k : KerningLine) (rest : List Char) : List Char :=
  pair "first".toList (fmt_nat k.first) (pair "second".toList (fmt_nat k.second)
    (pair "amount".toList (fmt_int k.amount) ('\n' :: rest)))

/-- The text of a kerning line, `kerning first=<first> second=<second>
amount=<amount>`, in front of `rest`. -/
def render_kerning (k : KerningLine) (rest : List Char) : List Char :=
  "kerning".toList ++ kerning_fields k rest

/-- The text of a list of kerning lines in front of `rest`. -/
def render_kernings : List KerningLine → List Char → List Char
  | [], rest => rest
  | k :: ks, rest => render_kerning k (render_kernings ks rest)

/-- The page-name block after the store of one page line: the file name goes to
the index the `uint32_t` overload produced, when that index lies inside the
block. -/
def page_store (names : List (Option (List Char))) (pg : PageLine) :
    List (Option (List Char)) :=
  if narrow32 pg.id < names.length then names.set (narrow32 pg.id) (some pg.file) else names

/-- The page-name block after the stores of a list of page lines. -/
def fill_pages (names : List (Option (List Char))) : List PageLine → List (Option (List Char))
  | [] => names
  | pg :: pgs => fill_pages (page_store names pg) pgs

/-- Whether one of the page lines stores outside a block of `len` slots. -/
def pages_oob (len : Nat) (pgs : List PageLine) : Bool :=
  pgs.any (fun pg => !decide (narrow32 pg.id < len))

/-- The glyph a char line leaves in a record that started as `g`. -/
def apply_char (g : BMFont_Char) (c : CharLine) : BMFont_Char :=
  { g with id := narrow32 c.id, x := c.x, y := c.y, width := c.width, height := c.height,
           x_offset := c.xoffset, y_offset := c.yoffset, x_advance := c.xadvance }

/-- The glyph block after a list of char lines was read into it from index `i`. -/
def fill_chars (gl : List BMFont_Char) (i : Nat) : List CharLine → List BMFont_Char
  | [] => gl
  | c :: cs => fill_chars (gl.set i (apply_char (gl.getD i default) c)) (i + 1) cs

/-- The kerning a kerning line leaves in a record that started as `k`. -/
def apply_kerning (k : BMFont_Kerning) (l : KerningLine) : BMFont_Kerning :=
  { k with first := narrow32 l.first, second := narrow32 l.second, amount := l.amount }

/-- The kerning block after a list of kerning lines was read into it from index `i`. -/
def fill_kernings (ks : List BMFont_Kerning) (i : Nat) : List KerningLine → List BMFont_Kerning
  | [] => ks
  | l :: ls => fill_kernings (ks.set i (apply_kerning (ks.getD i default) l)) (i + 1) ls

/-- A file name that can stand between double quotes in a page line: not empty
(the block allocated for an empty name has no bytes), no delimiter, no NUL, and
short enough for the quoted text to fit the token buffer. -/
def is_file_name (f : List Char) : Bool :=
  f ≠ [] ∧ f.all (fun c => !is_delim c && c ≠ Char.ofNat 0) ∧
    f.length + 2 < BMFONT_MAX_TOKEN_LENGTH

/-- The values of a char line lie in the ranges of their fields. -/
@[reducible]
def CharLine.in_range (c : CharLine) : Prop :=
  c.id ≤ 4294967295 ∧ c.x ≤ 65535 ∧ c.y ≤ 65535 ∧ c.width ≤ 65535 ∧ c.height ≤ 65535 ∧
    c.xoffset ≤ 65535 ∧ c.yoffset ≤ 65535 ∧ c.xadvance ≤ 65535

/-- The values of a kerning line lie in the ranges of their fields. -/
@[reducible]
def KerningLine.in_range (k : KerningLine) : Prop :=
  k.first ≤ 4294967295 ∧ k.second ≤ 4294967295 ∧ -32768 ≤ k.amount ∧ k.amount ≤ 32767

/-- The token, stream and end-of-stream flag the tokenizer is at after it has
loaded the first token of a list of page lines followed by a stream whose
first token is given by `(t1, s1, e1)`. -/
def pages_ahead (pgs : List PageLine) (rest t1 s1 : List Char) (e1 : Bool) :
    List Char × List Char × Bool :=
  match pgs with
  | [] => (t1, s1, e1)
  | pg :: pgs1 =>
    ("page".toList, page_fields pg (render_pages pgs1 rest), false)

/-- As `pages_ahead`, for char lines. -/
def chars_ahead (cs : List CharLine) (rest t1 s1 : List Char) (e1 : Bool) :
    List Char × List Char × Bool :=
  match cs with
  | [] => (t1, s1, e1)
  | c :: cs1 => ("char".toList, char_fields c (render_chars cs1 rest), false)

/-- As `pages_ahead`, for kerning lines. -/
def kernings_ahead (ks : List KerningLine) (rest t1 s1 : List Char) (e1 : Bool) :
    List Char × List Char × Bool :=
  match ks with
  | [] => (t1, s1, e1)
  | k :: ks1 => ("kerning".toList, kerning_fields k (render_kernings ks1 rest), false)

/-- The values written in a document: the info line, the common line, the page
lines, the char lines and, when the document has a kernings section, the
kerning lines. The `pages=` and `count=` values are the numbers of lines. -/
structure Doc where
  face : List Char
  size : Int
  lineHeight : Nat
  base : Nat
  scaleW : Nat
  scaleH : Nat
  pages : List PageLine
  chars : List CharLine
  kernings : Option (List KerningLine)

/-- The text of the kernings section of a document: nothing when the document
has none. -/
def render_kernings_section : Option (List KerningLine) → List Char
  | none => []
  | some ks => render_kernings_header ks.length (render_kernings ks [])

/-- The text of a document: every line ends in a newline, the pairs of a line
are separated by one space, and every integer is written in decimal. -/
def render (d : Doc) : List Char :=
  render_info d.face d.size
    (render_common d.lineHeight d.base d.scaleW d.scaleH d.pages.length
      (render_pages d.pages
        (render_chars_header d.chars.length
          (render_chars d.chars (render_kernings_section d.kernings)))))

/-- A well-formed document: the face is a word, every file name can be quoted,
every integer lies in the range of its field, the counts fit `uint16_t`, and the
page ids are a permutation of `0 .. P - 1` (pairwise distinct and below the
number `P` of page lines). -/
structure Doc.well_formed (d : Doc) : Prop where
  face : is_word d.face = true
  size_lo : -32768 ≤ d.size
  size_hi : d.size ≤ 32767
  lineHeight : d.lineHeight ≤ 65535
  base : d.base ≤ 65535
  scaleW : d.scaleW ≤ 65535
  scaleH : d.scaleH ≤ 65535
  pages_count : d.pages.length ≤ 65535
  page_ids : ∀ pg ∈ d.pages, pg.id < d.pages.length
  page_ids_distinct : (d.pages.map (fun pg => pg.id)).Nodup
  page_files : ∀ pg ∈ d.pages, is_file_name pg.file = true
  chars_count : d.chars.length ≤ 65535
  chars : ∀ c ∈ d.chars, c.in_range
  kernings_count : ∀ ks, d.kernings = some ks → ks.length ≤ 65535
  kernings : ∀ ks, d.kernings = some ks → ∀ k ∈ ks, k.in_range

/-- The font the parser builds from a document. -/
def parsed_font (d : Doc) : BMFont :=
  { font_name := some d.face,
    page_names := some (fill_pages (List.replicate d.pages.length none) d.pages),
    chars := some (d.chars.map (apply_char default)),
    kernings := some ((d.kernings.getD []).map (apply_kerning default)),
    font_size := d.size,
    line_height := d.lineHeight,
    base := d.base,
    scale_w := d.scaleW,
    scale_h := d.scaleH,
    num_pages := d.pages.length,
    num_chars := d.chars.length,
    num_kernings := (d.kernings.getD []).length,
    alpha_channel := 0,
    red_channel := 0,
    green_channel := 0,
    blue_channel := 0 }

/-- The page lines `page id=0 file="p"` up to `page id=n-1 file="p"`. -/
def many_pages (n : Nat) : List PageLine :=
  (List.range n).map (fun i => { id := i, file := ['p'] })

/-- A document with `n` page lines, ids 0 to `n - 1`, no char line and the
given kernings section. -/
def doc_with_pages (n : Nat) (ks : Option (List KerningLine)) : Doc :=
  { face := ['a'], size := 1, lineHeight := 1, base := 1, scaleW := 1, scaleH := 1,
    pages := many_pages n, chars := [], kernings := ks }

/-- A document whose only char line has the id 70000. -/
def doc_wide_glyph_id : Doc :=
  { face := ['a'], size := 1, lineHeight := 1, base := 1, scaleW := 1, scaleH := 1,
    pages := [{ id := 0, file := ['p'] }],
    chars := [{ id := 70000, x := 2, y := 3, width := 6, height := 7, xoffset := 0,
                yoffset := 1, xadvance := 8 }],
    kernings := some [] }

/-- A document whose only kerning line has the first id 40000. -/
def doc_wide_kerning_id : Doc :=
  { face := ['a'], size := 1, lineHeight := 1, base := 1, scaleW := 1, scaleH := 1,
    pages := [{ id := 0, file := ['p'] }],
    chars := [],
    kernings := some [{ first := 40000, second := 34, amount := -4 }] }

/-- A document whose only page line has the id 32768. -/
def doc_one_wide_page : Doc :=
  { face := ['a'], size := 1, lineHeight := 1, base := 1, scaleW := 1, scaleH := 1,
    pages := [{ id := 32768, file := ['p'] }], chars := [], kernings := none }

/-- The text of a document up to its page lines, with `declared` as the value
of `pages=`, in front of `rest`. -/
def render_upto_pages (d : Doc) (declared : Nat) (rest : List Char) : List Char :=
  render_info d.face d.size
    (render_common d.lineHeight d.base d.scaleW d.scaleH declared (render_pages d.pages rest))

/-- The text of a document up to its char lines, with `declared` as the value
of `count=` in the chars line, in front of `rest`. -/
def render_upto_chars (d : Doc) (declared : Nat) (rest : List Char) : List Char :=
  render_upto_pages d d.pages.length
    (render_chars_header declared (render_chars d.chars rest))

/-- The text of a document up to the kerning lines `ks`, with `declared` as the
value of `count=` in the kernings line, in front of `rest`. -/
def render_upto_kernings (d : Doc) (ks : List KerningLine) (declared : Nat)
    (rest : List Char) : List Char :=
  render_upto_chars d d.chars.length
    (render_kernings_header declared (render_kernings ks rest))

/-- The values of the info line and of the common line of a document lie in the
ranges of their fields and the face is a word. -/
structure Doc.preamble_ok (d : Doc) : Prop where
  face : is_word d.face = true
  size_lo : -32768 ≤ d.size
  size_hi : d.size ≤ 32767
  lineHeight : d.lineHeight ≤ 65535
  base : d.base ≤ 65535
  scaleW : d.scaleW ≤ 65535
  scaleH : d.scaleH ≤ 65535

/-- The page lines of a document are well-formed records for a font with
`declared` pages: every id is below `declared` and every file name can be
quoted. -/
def Doc.pages_ok (d : Doc) (declared : Nat) : Prop :=
  ∀ pg ∈ d.pages, pg.id < declared ∧ is_file_name pg.file = true

/-- The stream `rest` is the end of the input or starts with the keyword `kw`
followed by a space. -/
def ends_or_continues (kw rest : List Char) : Prop :=
  rest = [] ∨ ∃ tail, rest = kw ++ ' ' :: tail

/-- The font after the info line and the common line of a document with
`declared` as the value of `pages=`. -/
def font_after_common (d : Doc) (declared : Nat) : BMFont :=
  { empty_font with
    font_name := some d.face, font_size := d.size, line_height := d.lineHeight,
    base := d.base, scale_w := d.scaleW, scale_h := d.scaleH, num_pages := declared,
    page_names := some (List.replicate declared none) }

/-- The model-only flags of a parser state: `oob` is `b` and the other two are
clear. -/
def Flags (p : BMFont__Parser) (b : Bool) : Prop :=
  p.oob = b ∧ p.assert_failed = false ∧ p.fuel_out = false

/-- The font after the page lines of a document that supplies as many page
lines as it declares. -/
def font_after_pages (d : Doc) : BMFont :=
  { font_after_common d d.pages.length with
    page_names := some (fill_pages (List.replicate d.pages.length none) d.pages) }

/-- The three record counters of a parser state. -/
def counters (p : BMFont__Parser) : Nat × Nat × Nat :=
  (p.pages_read, p.chars_read, p.kernings_read)

/-- The number of slots of a block: 0 for `nullptr`. -/
def slots {α : Type} (block : Option (List α)) : Nat := (block.getD []).length

/-- The page-name block and the page count of a font. -/
def page_part (f : BMFont) : Option (List (Option (List Char))) × Nat :=
  (f.page_names, f.num_pages)

/-- The glyph block and the glyph count of a font. -/
def char_part (f : BMFont) : Option (List BMFont_Char) × Nat := (f.chars, f.num_chars)

/-- The kerning block and the kerning count of a font. -/
def kern_part (f : BMFont) : Option (List BMFont_Kerning) × Nat := (f.kernings, f.num_kernings)

/-- The three blocks of a font with their counts. -/
def blocks (f : BMFont) : (Option (List (Option (List Char))) × Nat) ×
    (Option (List BMFont_Char) × Nat) × (Option (List BMFont_Kerning) × Nat) :=
  (page_part f, char_part f, kern_part f)

/-- The page-name block has as many slots as `num_pages` says. -/
def sized_pages (f : BMFont) : Prop := slots f.page_names = f.num_pages

/-- The glyph block has as many entries as `num_chars` says. -/
def sized_chars (f : BMFont) : Prop := slots f.chars = f.num_chars

/-- The kerning block has as many entries as `num_kernings` says. -/
def sized_kernings (f : BMFont) : Prop := slots f.kernings = f.num_kernings

/-- The chain `bmfont__parse_info(...) && bmfont__parse_common(...) &&
bmfont__parse_pages(...) && bmfont__parse_chars(...)`: its result is the state in
which `bmfont__parse_kernings` is entered when all four return true. -/
def parse_leading_sections (p : BMFont__Parser) (font : BMFont) :
    Bool × BMFont__Parser × BMFont :=
  let r1 := bmfont__parse_info p font
  if !r1.1 then r1
  else
    let r2 := bmfont__parse_common r1.2.1 r1.2.2
    if !r2.1 then r2
    else
      let r3 := bmfont__parse_pages r2.2.1 r2.2.2
      if !r3.1 then r3
      else bmfont__parse_chars r3.2.1 r3.2.2

/-- The parser is at the end of the stream when `bmfont__parse_kernings` is
entered: the file has no kernings section. -/
def kernings_section_absent (input : List Char) : Prop :=
  (parse_leading_sections (bmfont__load_next_token (parser_at_start input)).2
    empty_font).2.1.eof = true
/-- A `0x`-prefixed hexadecimal literal without sign: `0x` or `0X` followed by
one or more hexadecimal digits. -/
def is_hex_literal (body : List Char) : Bool :=
  body.head? = some '0' ∧ (body.tail.head? = some 'x' ∨ body.tail.head? = some 'X') ∧
    body.drop 2 ≠ [] ∧ (body.drop 2).all (is_digit_of 16)

/-- A `0`-prefixed octal literal without sign: `0` followed by octal digits. -/
def is_octal_literal (body : List Char) : Bool :=
  body.head? = some '0' ∧ body.all (is_digit_of 8)

/-- A decimal literal without sign: one or more decimal digits, the first not `0`. -/
def is_decimal_literal (body : List Char) : Bool :=
  body ≠ [] ∧ body.head? ≠ some '0' ∧ body.all (is_digit_of 10)

/-- The number a literal without sign denotes, `none` when the text is not such
a literal. -/
def literal_magnitude (body : List Char) : Option Nat :=
  if is_hex_literal body then some (digits_value 16 (body.drop 2))
  else if is_octal_literal body then some (digits_value 8 body)
  else if is_decimal_literal body then some (digits_value 10 body)
  else none

/-- The integer literals of C base-0 syntax as the specification words them: an
optional sign, then decimal, `0x`-prefixed hexadecimal or `0`-prefixed octal
digits. The result is the value the literal denotes, `none` when the whole text
is not such a literal. -/
def c_int_literal (tok : List Char) : Option Int :=
  (literal_magnitude
    (if tok.head? = some '-' ∨ tok.head? = some '+' then tok.tail else tok)).map
    (fun m => if tok.head? = some '-' then -(m : Int) else (m : Int))

/-- What `strtol` makes of a whole token: the value of the literal that is left
after the leading white space, and 0 for the empty token. -/
def accepted_value (tok : List Char) : Option Int :=
  if tok = [] then some 0 else c_int_literal (tok.dropWhile isspace)

/-- A parser record that is ok and not at the end of the stream, holding the
current token `tok` with `stream` still unread. -/
def parser_holding (tok stream : List Char) : BMFont__Parser :=
  { parser_at_start stream with next_token := tok }

/-- A word of `BMFONT_MAX_TOKEN_LENGTH` characters, one more than the token
buffer holds besides its terminator. -/
def long_word : List Char := List.replicate BMFONT_MAX_TOKEN_LENGTH 'a'
/-- The check of `bmfont__copy_quoted_token_and_advance` rejects the token: it
has fewer than 2 characters or its first or last character is not a double
quote. -/
@[reducible]
def quotes_missing (tok : List Char) : Prop :=
  tok.length < 2 ∨ tok.head? ≠ some '"' ∨ tok.getLast? ≠ some '"'

/-- The text of a page line whose file value is written as the word `tok`,
`page id=<id> file=<tok>`, in front of `rest`. -/
def render_page_raw (id : Nat) (tok rest : List Char) : List Char :=
  "page".toList ++ pair "id".toList (fmt_nat id) (pair "file".toList tok ('\n' :: rest))

/-- A complete one-page document with an empty chars section and an empty
kernings section. -/
def small_document : List Char :=
  ("info face=a size=1\ncommon lineHeight=1 base=1 scaleW=1 scaleH=1 pages=1\n" ++
    "page id=0 file=\"p\"\nchars count=0\nkernings count=0\n").toList

/-- The heap blocks a font record owns: the record itself, the font name, the
page-name array, the page name in slot `i`, the glyph array and the kerning
array. -/
inductive Block where
  | font_record
  | font_name
  | page_names
  | page_name (i : Nat)
  | chars
  | kernings
  deriving DecidableEq

/-- `bmfont_free`: the blocks handed to `free`, in the order of the calls. A
null pointer releases nothing. -/
def bmfont_free (font : BMFont) : List Block :=
  (if font.font_name.isSome then [Block.font_name] else []) ++
  (match font.page_names with
    | some names =>
      ((List.range font.num_pages).filter (fun i => (names.getD i none).isSome)).map
        Block.page_name ++ [Block.page_names]
    | none => []) ++
  (if font.chars.isSome then [Block.chars] else []) ++
  [Block.font_record]

/-- The blocks a font record points to, as the specification lists them: the
font record, the font name, the page-name array and every page name in it, the
glyph array and the kerning array, each when it was allocated. -/
def font_blocks (font : BMFont) : List Block :=
  [Block.font_record] ++
  (if font.font_name.isSome then [Block.font_name] else []) ++
  (match font.page_names with
    | some names =>
      Block.page_names ::
        ((List.range names.length).filter (fun i => (names.getD i none).isSome)).map
          Block.page_name
    | none => []) ++
  (if font.chars.isSome then [Block.chars] else []) ++
  (if font.kernings.isSome then [Block.kernings] else [])

/-- A document whose kernings section declares two kerning lines and supplies
one. -/
def short_kernings_document : List Char :=
  ("info face=a size=1\ncommon lineHeight=1 base=1 scaleW=1 scaleH=1 pages=1\n" ++
    "page id=0 file=\"p\"\nchars count=0\nkernings count=2\n" ++
    "kerning first=1 second=2 amount=3\n").toList
/-- The part of a parser state that only `bmfont__set_parser_error` writes: the
ok flag, the error buffer and the messages raised so far. -/
def errs (p : BMFont__Parser) : Bool × List Char × List (List Char) :=
  (p.ok, p.error, p.raised)

/-- A property of parser states that depends only on the ok flag, the error
buffer and the messages raised, and that `bmfont__set_parser_error` keeps. -/
def ErrClosed (P : BMFont__Parser → Prop) : Prop :=
  (∀ p q, errs q = errs p → P p → P q) ∧ (∀ p msg, P p → P (bmfont__set_parser_error p msg))

/-- The error buffer holds the last message raised, or `Success` when none was
raised, and the ok flag is set exactly when none was raised. -/
def last_error_kept (p : BMFont__Parser) : Prop :=
  (p.ok = true ↔ p.raised = []) ∧
    p.error = (p.raised.getLast?).getD "Success".toList

/-- A document whose only page line has a file name without closing quote. -/
def unclosed_quote_document : List Char :=
  ("info face=a size=1\ncommon lineHeight=1 base=1 scaleW=1 scaleH=1 pages=1\n" ++
    "page id=0 file=\"p\n").toList

/-- The text of a page line without file pair, `page id=<id>`, in front of
`rest`. -/
def render_page_no_file (id : Nat) (rest : List Char) : List Char :=
  "page".toList ++ pair "id".toList (fmt_nat id) ('\n' :: rest)

/-- The text of a page line without id pair, `page file="<file>"`, in front of
`rest`. -/
def render_page_no_id (file rest : List Char) : List Char :=
  "page".toList ++ pair "file".toList ('"' :: (file ++ ['"'])) ('\n' :: rest)

/-- The text of a list of page lines in front of `rest`, with the line at
index `i` written without its id pair. -/
def render_pages_without_id : Nat → List PageLine → List Char → List Char
  | _, [], rest => rest
  | 0, pg :: pgs, rest => render_page_no_id pg.file (render_pages pgs rest)
  | i + 1, pg :: pgs, rest => render_page pg (render_pages_without_id i pgs rest)

/-- The text of a document with the page line at index `i` written without its
id pair. -/
def render_without_id (d : Doc) (i : Nat) : List Char :=
  render_info d.face d.size
    (render_common d.lineHeight d.base d.scaleW d.scaleH d.pages.length
      (render_pages_without_id i d.pages
        (render_chars_header d.chars.length
          (render_chars d.chars (render_kernings_section d.kernings)))))

/-- The page lines with the id of the line at index `i` replaced by 0, the
initial value of the variable `id` in `bmfont__parse_pages`. -/
def zero_id : Nat → List PageLine → List PageLine
  | _, [] => []
  | 0, pg :: pgs => { pg with id := 0 } :: pgs
  | i + 1, pg :: pgs => pg :: zero_id i pgs

/-- A one-page document whose page line has no id pair. -/
def no_id_document : List Char :=
  ("info face=a size=1\ncommon lineHeight=1 base=1 scaleW=1 scaleH=1 pages=1\n" ++
    "page file=\"p\"\nchars count=0\nkernings count=0\n").toList

/-- The tags of a char line. -/
inductive CharTag where
  | id | x | y | width | height | xoffset | yoffset | xadvance
  deriving DecidableEq

/-- The key of a tag as written in the file. -/
def CharTag.key : CharTag → List Char
  | .id => "id".toList
  | .x => "x".toList
  | .y => "y".toList
  | .width => "width".toList
  | .height => "height".toList
  | .xoffset => "xoffset".toList
  | .yoffset => "yoffset".toList
  | .xadvance => "xadvance".toList

/-- The largest value the reader of a tag accepts: `id` is read by the
`uint32_t` overload and the other tags by the `uint16_t` overload. -/
def CharTag.limit : CharTag → Nat
  | .id => 4294967295
  | _ => 65535

/-- The glyph after the handler of a tag has stored the value `n`. -/
def CharTag.store : CharTag → Nat → BMFont_Char → BMFont_Char
  | .id, n, g => { g with id := narrow32 n }
  | .x, n, g => { g with x := n }
  | .y, n, g => { g with y := n }
  | .width, n, g => { g with width := n }
  | .height, n, g => { g with height := n }
  | .xoffset, n, g => { g with x_offset := n }
  | .yoffset, n, g => { g with y_offset := n }
  | .xadvance, n, g => { g with x_advance := n }

/-- The text of the pairs of a char line, ` <key>=<value>` for each, in front
of `rest`. -/
def render_tags (ps : List (CharTag × Nat)) (rest : List Char) : List Char :=
  ps.foldr (fun kv acc => pair kv.1.key (fmt_nat kv.2) acc) rest

/-- The glyph after the stores of the pairs of a char line, in their order. -/
def apply_tags (g : BMFont_Char) (ps : List (CharTag × Nat)) : BMFont_Char :=
  ps.foldl (fun acc kv => kv.1.store kv.2 acc) g

/-- One char record as `bmfont__parse_chars` reads it into the glyph `g`: the
keyword `char` is matched and the key/value loop runs to the end of the line. -/
def read_char_record (p : BMFont__Parser) (g : BMFont_Char) : BMFont__Parser × BMFont_Char :=
  kv_loop parse_char_body (kv_fuel (bmfont__match_token_and_advance p "char".toList).2)
    (bmfont__match_token_and_advance p "char".toList).2 g

/-- The parser `p` after the tokenizer, started at column `c` of the current
line, has read the newline that ends it. -/
def at_newline (p : BMFont__Parser) (c : Nat) (rest : List Char) : BMFont__Parser :=
  { p with stream := rest, next_token := ['\n'], start_line := p.curr_line, start_col := c,
           curr_line := p.curr_line + 1, curr_col := 1 }

/-- The parser `p` after the tokenizer, started at column `c` of the current
line in front of the pairs `ps` and the newline, has loaded the next token:
the first key, or the newline when there is no pair. -/
def line_state (p : BMFont__Parser) (c : Nat) (ps : List (CharTag × Nat)) (rest : List Char) :
    BMFont__Parser :=
  match ps with
  | [] => at_newline p c rest
  | kv :: ps1 =>
    { p with stream := '=' :: (fmt_nat kv.2 ++ render_tags ps1 ('\n' :: rest)),
             next_token := kv.1.key, start_line := p.curr_line, start_col := c + 1,
             curr_col := c + 1 + kv.1.key.length }

/-- The text of a list of pairs, ` <key>=<value>` for each, in front of `rest`. -/
def render_pairs (ps : List (List Char × List Char)) (rest : List Char) : List Char :=
  ps.foldr (fun kv acc => pair kv.1 kv.2 acc) rest

/-- The token and the stream the tokenizer is at after it has loaded the first
token of a list of pairs followed by a newline. -/
def pairs_ahead (ps : List (List Char × List Char)) (rest : List Char) :
    List Char × List Char :=
  match ps with
  | [] => (['\n'], rest)
  | kv :: ps1 => (kv.1, '=' :: (kv.2 ++ render_pairs ps1 ('\n' :: rest)))

/-- The change a line makes to its data when it holds the pair with the given
key, as a list of keys and changes; a key that is not in the list changes
nothing. -/
def effect_of {α : Type} : List (List Char × (α → α)) → List Char → α → α
  | [], _, a => a
  | (k, f) :: tl, key, a => if k = key then f a else effect_of tl key a

/-- A pair the key/value loop with the given table processes as a whole: the
key and the value are words, and either the key is not in the table, or its
handler reads the value, makes the change `u` and loads the next token. -/
def Handles {α : Type}
    (table : List (List Char × (BMFont__Parser → α → BMFont__Parser × α)))
    (u : List Char → α → α) (kv : List Char × List Char) : Prop :=
  is_word kv.1 = true ∧ is_word kv.2 = true ∧
    ((find_handler table kv.1 = none ∧ ∀ a, u kv.1 a = a) ∨
     ∃ hd, find_handler table kv.1 = some hd ∧
       ∀ (q : BMFont__Parser) (rest t1 s1 : List Char) (e b : Bool),
         Good q kv.2 rest false b → Next rest t1 s1 e →
         ∃ q1, Good q1 t1 s1 e b ∧ ∀ a, hd q a = (q1, u kv.1 a))

/-- A pair whose key is none of `keys`: the key and the value are words
(not empty, shorter than the token buffer, without delimiter or NUL). -/
def unknown_pair (keys : List (List Char)) (kv : List Char × List Char) : Prop :=
  is_word kv.1 = true ∧ is_word kv.2 = true ∧ kv.1 ∉ keys

/-- The pair of a chars line or of a kernings line. -/
def count_pairs (n : Nat) : List (List Char × List Char) := [("count".toList, fmt_nat n)]

/-- The keys the key/value loop of each kind of line recognises. -/
def info_keys : List (List Char) := ["face".toList, "size".toList]

/-- The keys of a char line. -/
def char_keys : List (List Char) :=
  ["id".toList, "x".toList, "y".toList, "width".toList, "height".toList, "xoffset".toList,
   "yoffset".toList, "xadvance".toList]

/-- The keys of a kerning line. -/
def kerning_keys : List (List Char) := ["first".toList, "second".toList, "amount".toList]

/-- The change the pair of the chars line makes to the font. -/
def chars_count_effects (n : Nat) : List (List Char × (BMFont → BMFont)) :=
  [("count".toList, fun f => { f with num_chars := n, chars := some (List.replicate n default) })]

/-- The change the pair of the kernings line makes to the font. -/
def kernings_count_effects (n : Nat) : List (List Char × (BMFont → BMFont)) :=
  [("count".toList,
    fun f => { f with num_kernings := n, kernings := some (List.replicate n default) })]

/-- The part of the parser record a helper call can move: the current token,
the start and current positions, the end-of-stream flag and the unread stream. -/
def token_state (p : BMFont__Parser) :
    List Char × Nat × Nat × Nat × Nat × Bool × List Char :=
  (p.next_token, p.start_line, p.start_col, p.curr_line, p.curr_col, p.eof, p.stream)

/-- The parser of a file that holds nothing but blanks, after the first call of
`bmfont__load_next_token`: at the end of the stream with the ok flag set. -/
def parser_at_end : BMFont__Parser :=
  (bmfont__load_next_token (parser_at_start [' ', ' '])).2

/-- A complete document that ends after its chars section. -/
def document_without_kernings : List Char :=
  ("info face=a size=1\ncommon lineHeight=1 base=1 scaleW=1 scaleH=1 pages=1\n" ++
    "page id=0 file=\"p\"\nchars count=0\n").toList

/-- A helper call that started on the parser `p` returned failure with the ok
flag cleared and moved nothing of the token state. -/
def failed_in_place (p : BMFont__Parser) (r : Bool × BMFont__Parser) : Prop :=
  r.1 = false ∧ token_state r.2 = token_state p ∧ r.2.ok = false

/-- The test of `bmfont__copy_quoted_token_and_advance` on the current token:
at least two characters, the first and the last a double quote. -/
def is_quoted (tok : List Char) : Bool :=
  ¬ (tok.length < 2 ∨ tok.head? ≠ some '"' ∨ tok.getLast? ≠ some '"')

/-- The fields of a glyph no key of a char line is stored in. -/
def glyph_unassigned (c : BMFont_Char) : Prop := c.page = 0 ∧ c.channel = 0

/-- The fields of the font no key of any line is stored in are zero, in the
font record and in every glyph of its block. -/
def channels_unassigned (f : BMFont) : Prop :=
  f.alpha_channel = 0 ∧ f.red_channel = 0 ∧ f.green_channel = 0 ∧ f.blue_channel = 0 ∧
    ∀ cs, f.chars = some cs → ∀ c ∈ cs, glyph_unassigned c

/-- A complete document with one glyph whose lines carry the keys `page`,
`chnl`, `alphaChnl`, `redChnl`, `greenChnl` and `blueChnl`. -/
def document_with_channels : List Char :=
  ("info face=a size=1\n" ++
    "common lineHeight=1 base=1 scaleW=1 scaleH=1 pages=1 alphaChnl=1 redChnl=2 " ++
    "greenChnl=3 blueChnl=4\npage id=0 file=\"p\"\nchars count=1\n" ++
    "char id=65 x=1 page=5 chnl=15\nkernings count=0\n").toList

/-- The font `bmfont_parse_file` returns for `document_with_channels`. -/
def font_of_document_with_channels : BMFont :=
  { font_name := some ['a'], page_names := some [some ['p']],
    chars := some [{ id := 65, x := 1, y := 0, width := 0, height := 0, x_offset := 0,
                     y_offset := 0, x_advance := 0, page := 0, channel := 0 }],
    kernings := some [], font_size := 1, line_height := 1, base := 1, scale_w := 1,
    scale_h := 1, num_pages := 1, num_chars := 1, num_kernings := 0, alpha_channel := 0,
    red_channel := 0, green_channel := 0, blue_channel := 0 }

/-- The changes the pairs `face=<t>` and `size=<v>` make to the font. -/
def face_size_effects (t : List Char) (v : Int) : List (List Char × (BMFont → BMFont)) :=
  [("face".toList, fun f => { f with font_name := some t }),
   ("size".toList, fun f => { f with font_size := v })]

/-- A pair of an info line with the face `t` and the size `v`: `face=<t>`,
`size=<v>`, or a pair of words whose key is neither `face` nor `size`. -/
def info_line_pair (t : List Char) (v : Int) (kv : List Char × List Char) : Prop :=
  kv = ("face".toList, t) ∨ kv = ("size".toList, fmt_int v) ∨ unknown_pair info_keys kv

/-- A complete document whose face is written between double quotes. -/
def document_quoted_face : List Char :=
  ("info face=\"Arial\" size=8\ncommon lineHeight=8 base=7 scaleW=128 scaleH=512 pages=1\n" ++
    "page id=0 file=\"valid.png\"\nchars count=0\nkernings count=0\n").toList

/-- A complete document with the face of the test font. -/
def document_plain_face : List Char :=
  ("info face=valid size=8\ncommon lineHeight=8 base=7 scaleW=128 scaleH=512 pages=1\n" ++
    "page id=0 file=\"valid.png\"\nchars count=0\nkernings count=0\n").toList

/-- The tags of a kerning line. -/
inductive KerningTag where
  | first | second | amount
  deriving DecidableEq

/-- The key of a tag of a kerning line as written in the file. -/
def KerningTag.key : KerningTag → List Char
  | .first => "first".toList
  | .second => "second".toList
  | .amount => "amount".toList

/-- The field of the glyph the handler of a tag stores into. -/
def CharTag.field : CharTag → BMFont_Char → Nat
  | .id, g => g.id
  | .x, g => g.x
  | .y, g => g.y
  | .width, g => g.width
  | .height, g => g.height
  | .xoffset, g => g.x_offset
  | .yoffset, g => g.y_offset
  | .xadvance, g => g.x_advance

/-- The field of the kerning the handler of a tag stores into. -/
def KerningTag.field : KerningTag → BMFont_Kerning → Int
  | .first, k => k.first
  | .second, k => k.second
  | .amount, k => k.amount

/-- The tag of a char line with the given key, if there is one. -/
def char_tag_of (k : List Char) : Option CharTag :=
  [CharTag.id, CharTag.x, CharTag.y, CharTag.width, CharTag.height, CharTag.xoffset,
    CharTag.yoffset, CharTag.xadvance].find? (fun t => t.key = k)

/-- The change a pair of a char line makes to the glyph: the store of the tag
with that key, and nothing for another key. -/
def char_pair_effect (kv : List Char × List Char) (g : BMFont_Char) : BMFont_Char :=
  match char_tag_of kv.1 with
  | some tag => tag.store (strtol kv.2).1.toNat g
  | none => g

/-- The change a pair of a kerning line makes to the kerning. -/
def kerning_pair_effect (kv : List Char × List Char) (k : BMFont_Kerning) : BMFont_Kerning :=
  if kv.1 = "first".toList then { k with first := narrow32 (strtol kv.2).1.toNat }
  else if kv.1 = "second".toList then { k with second := narrow32 (strtol kv.2).1.toNat }
  else if kv.1 = "amount".toList then { k with amount := (strtol kv.2).1 }
  else k

/-- The glyph of a char line: the changes of its pairs, in their order, made to
the zero-valued slot. -/
def build_char (ps : List (List Char × List Char)) : BMFont_Char :=
  ps.foldl (fun g kv => char_pair_effect kv g) default

/-- The kerning of a kerning line: the changes of its pairs, in their order,
made to the zero-valued slot. -/
def build_kerning (ps : List (List Char × List Char)) : BMFont_Kerning :=
  ps.foldl (fun k kv => kerning_pair_effect kv k) default

/-- A pair of a char line: one of the eight tags with a value its reader
accepts, written in decimal, or a pair of words with another key. -/
def char_line_pair (kv : List Char × List Char) : Prop :=
  (∃ tag n, n ≤ CharTag.limit tag ∧ kv = (CharTag.key tag, fmt_nat n)) ∨
    unknown_pair char_keys kv

/-- A pair of a kerning line: `first` or `second` with a value of 32 bits,
`amount` with a value of `int16_t`, written in decimal, or a pair of words with
another key. -/
def kerning_line_pair (kv : List Char × List Char) : Prop :=
  (∃ n, n ≤ 4294967295 ∧ kv = ("first".toList, fmt_nat n)) ∨
    (∃ n, n ≤ 4294967295 ∧ kv = ("second".toList, fmt_nat n)) ∨
    (∃ v : Int, -32768 ≤ v ∧ v ≤ 32767 ∧ kv = ("amount".toList, fmt_int v)) ∨
    unknown_pair kerning_keys kv

/-- The text of record lines given by their pairs, each line the keyword `kw`,
the pairs and a newline, in front of `rest`. -/
def render_lines (kw : List Char) :
    List (List (List Char × List Char)) → List Char → List Char
  | [], rest => rest
  | ps :: ls, rest => kw ++ render_pairs ps ('\n' :: render_lines kw ls rest)

/-- The token, stream and end-of-stream flag the tokenizer is at after it has
loaded the first token of a list of record lines. -/
def lines_ahead (kw : List Char) (ls : List (List (List Char × List Char)))
    (rest t1 s1 : List Char) (e1 : Bool) : List Char × List Char × Bool :=
  match ls with
  | [] => (t1, s1, e1)
  | ps :: ls1 => (kw, render_pairs ps ('\n' :: render_lines kw ls1 rest), false)

/-- The text of a document whose char lines and kerning lines are given by
their pairs: the info line, the common line and the page lines of `d`, the
chars line, the char lines, the kernings line and the kerning lines. -/
def render_with_lines (d : Doc) (lines klines : List (List (List Char × List Char))) :
    List Char :=
  render_upto_pages d d.pages.length
    (render_chars_header lines.length
      (render_lines "char".toList lines
        (render_kernings_header klines.length (render_lines "kerning".toList klines []))))

/-- A pair the key/value loop with the given table processes as a whole, with
the change `u` that may depend on the value: the key and the value are words,
and either the key is not in the table, or its handler reads the value, makes
the change and loads the next token. -/
def Reads {α : Type}
    (table : List (List Char × (BMFont__Parser → α → BMFont__Parser × α)))
    (u : List Char × List Char → α → α) (kv : List Char × List Char) : Prop :=
  is_word kv.1 = true ∧ is_word kv.2 = true ∧
    ((find_handler table kv.1 = none ∧ ∀ a, u kv a = a) ∨
     ∃ hd, find_handler table kv.1 = some hd ∧
       ∀ (q : BMFont__Parser) (rest t1 s1 : List Char) (e b : Bool),
         Good q kv.2 rest false b → Next rest t1 s1 e →
         ∃ q1, Good q1 t1 s1 e b ∧ ∀ a, hd q a = (q1, u kv a))

/-- A document with two glyphs and one kerning whose lines leave keys out. -/
def document_sparse_records : List Char :=
  ("info face=a size=1\ncommon lineHeight=1 base=1 scaleW=1 scaleH=1 pages=1\n" ++
    "page id=0 file=\"p\"\nchars count=2\nchar id=65 width=7\nchar\n" ++
    "kernings count=1\nkerning second=66\n").toList

/-- The values of the info line, the common line and the one page line of
`document_sparse_records`. -/
def sparse_preamble : Doc :=
  { face := ['a'], size := 1, lineHeight := 1, base := 1, scaleW := 1, scaleH := 1,
    pages := [{ id := 0, file := ['p'] }], chars := [], kernings := none }

/-- The font with the given glyphs and kernings after the info line, the common
line and the page lines of a document. -/
def font_with_records (d : Doc) (cs : List BMFont_Char) (ks : List BMFont_Kerning) : BMFont :=
  { font_after_pages d with
    num_chars := cs.length, chars := some cs, num_kernings := ks.length, kernings := some ks }

/-- The characters the tokenizer skips in front of a token. -/
def is_blank (c : Char) : Bool := c = ' ' ∨ c = '\r'

/-- The 1-based line of the character that follows the text `pre`: 1 plus the
number of newline characters of `pre`. -/
def line_of (pre : List Char) : Nat := 1 + pre.count '\n'

/-- The 1-based column of the character that follows the text `pre`: 1 plus the
number of characters other than carriage return after the last newline of
`pre` (after the start when `pre` has no newline). -/
def col_of (pre : List Char) : Nat :=
  1 + ((pre.reverse.takeWhile (fun c => c ≠ '\n')).filter (fun c => c ≠ '\r')).length

/-- The parser after `n` calls of `bmfont__load_next_token` on a file with the
contents `input`, the first of them the priming call of `bmfont_parse_file`. -/
def after_loads (n : Nat) (input : List Char) : BMFont__Parser :=
  Nat.iterate (fun q => (bmfont__load_next_token q).2) n (parser_at_start input)

/-- The positions of the parser `q` are exact for the file `input`: the input is
a text `pre`, the characters `chars` of the current token and the unread
stream; the start position is the position after `pre` and the current
position the one after `pre ++ chars`; at the end of the stream nothing is
left and there is no token; otherwise the token is the text of `chars`, which
is a newline, an equals sign or a run without delimiter. -/
def token_located (input : List Char) (q : BMFont__Parser) : Prop :=
  ∃ pre chars, input = pre ++ chars ++ q.stream ∧
    q.start_line = line_of pre ∧ q.start_col = col_of pre ∧
    q.curr_line = line_of (pre ++ chars) ∧ q.curr_col = col_of (pre ++ chars) ∧
    (q.eof = true → chars = [] ∧ q.stream = []) ∧
    (q.eof = false → chars ≠ [] ∧ q.next_token = cstr chars ∧
      (chars = ['\n'] ∨ chars = ['='] ∨ ∀ c ∈ chars, is_delim c = false))

/-- The tokens of a text as the specification describes them, with a bound on
their number: runs of space and carriage return are skipped in front of a
token; a newline and an equals sign are tokens of their own; any other
character starts a word that runs up to, and not including, the next equals
sign, space, carriage return, newline or the end of the text. -/
def spec_tokens_from : Nat → List Char → List (List Char)
  | 0, _ => []
  | fuel + 1, s =>
    match s.dropWhile is_blank with
    | [] => []
    | c :: cs =>
      if c = '\n' ∨ c = '=' then [c] :: spec_tokens_from fuel cs
      else (c :: cs).takeWhile (fun d => !is_delim d) ::
        spec_tokens_from fuel ((c :: cs).dropWhile (fun d => !is_delim d))

/-- The tokens of an input as the specification describes them. -/
def spec_tokens (input : List Char) : List (List Char) :=
  spec_tokens_from (input.length + 1) input

/-- The tokens `bmfont__load_next_token` produces when it is called again and
again from the parser `p` until the end-of-stream flag is set: `none` when a
call fails or the flag is not set after `fuel` calls. -/
def token_run : Nat → BMFont__Parser → Option (List (List Char))
  | 0, _ => none
  | fuel + 1, p =>
    if (bmfont__load_next_token p).1 then
      if (bmfont__load_next_token p).2.eof then some []
      else
        match token_run fuel (bmfont__load_next_token p).2 with
        | some ts => some ((bmfont__load_next_token p).2.next_token :: ts)
        | none => none
    else none

/-- The tokens of a file: the priming call of `bmfont_parse_file` and the calls
that follow it, up to the end of the stream. Every call but the last takes at
least one character from the stream. -/
def file_tokens (input : List Char) : Option (List (List Char)) :=
  token_run (input.length + 1) (parser_at_start input)

/-- No run of characters other than the four delimiters reaches the length
`BMFONT_MAX_TOKEN_LENGTH`. -/
def short_runs (s : List Char) : Prop :=
  ∀ pre w post, s = pre ++ w ++ post → (∀ c ∈ w, is_delim c = false) →
    w.length < BMFONT_MAX_TOKEN_LENGTH

/-- The text `pre` is empty or ends with a delimiter. -/
def ends_delim (pre : List Char) : Prop :=
  pre = [] ∨ ∃ pre1 d, pre = pre1 ++ [d] ∧ is_delim d = true

/-- The texts `bmfont__set_parser_error` is called with all start with a
character other than `S`, the first character of `Success`. -/
def parser_message (msg : List Char) : Bool :=
  match msg with
  | c :: _ => c ≠ 'S'
  | [] => false

/-- A property of parser states that every primitive step of the parser keeps:
a call of `bmfont__load_next_token`, a call of `bmfont__set_parser_error` with
one of the parser's messages, and the updates of the model-only `oob` flag and
of the three record counters. -/
structure OpClosed (P : BMFont__Parser → Prop) : Prop where
  load : ∀ p, P p → P (bmfont__load_next_token p).2
  error : ∀ p msg, parser_message msg = true → P p → P (bmfont__set_parser_error p msg)
  oob : ∀ p, P p → P { p with oob := true }
  pages_read : ∀ p n, P p → P { p with pages_read := n }
  chars_read : ∀ p n, P p → P { p with chars_read := n }
  kernings_read : ∀ p n, P p → P { p with kernings_read := n }

/-- A handler of a key keeps every property the primitive steps keep. -/
def HandlerClosed {α : Type} (h : BMFont__Parser → α → BMFont__Parser × α) : Prop :=
  ∀ Q : BMFont__Parser → Prop, OpClosed Q → ∀ q a, Q q → Q (h q a).1

/-- A property of parser states kept by every key/value loop that is run with
the bound `kv_fuel` on a table of such handlers. -/
def LoopClosed (P : BMFont__Parser → Prop) : Prop :=
  ∀ (α : Type) (table : List (List Char × (BMFont__Parser → α → BMFont__Parser × α))),
    (∀ kh ∈ table, HandlerClosed kh.2) →
    ∀ p a, P p → P (kv_loop (dispatch table) (kv_fuel p) p a).1

/-- The error buffer agrees with the ok flag: it holds `Success` while the flag
is set and some other text once the flag is cleared. -/
def error_matches_flag (p : BMFont__Parser) : Prop :=
  (p.ok = true → p.error = "Success".toList) ∧ (p.ok = false → p.error ≠ "Success".toList)

/-- The entry assertion of `bmfont__load_next_token` has been violated only if
the ok flag is cleared. -/
def assert_after_error (p : BMFont__Parser) : Prop :=
  p.assert_failed = true → p.ok = false

/-- A file that ends right after the key `face` of its info line. -/
def document_key_at_end : List Char := "info face".toList

/-- A document that declares two pages and whose two page lines both carry the
id 0. -/
def document_repeated_page_id : List Char :=
  ("info face=a size=1\ncommon lineHeight=1 base=1 scaleW=1 scaleH=1 pages=2\n" ++
    "page id=0 file=\"a\"\npage id=0 file=\"b\"\nchars count=0\n").toList

/-- The values of the info line, the common line and the page lines of a
document with two page lines, written with the ids 1 and 0 in this order. -/
def swapped_pages_preamble : Doc :=
  { face := ['a'], size := 1, lineHeight := 1, base := 1, scaleW := 1, scaleH := 1,
    pages := [{ id := 1, file := ['q'] }, { id := 0, file := ['p'] }], chars := [],
    kernings := none }

/-- The file name a list of page lines leaves in the slot `i` of the page-name
block: the one of the last page line with the id `i`, nothing when no page line
has that id. -/
def slot_file (pgs : List PageLine) (i : Nat) : Option (List Char) :=
  ((pgs.filter (fun pg => decide (pg.id = i))).getLast?).map PageLine.file

/-- The text of a document without kernings section whose chars line declares
`declared` glyphs and whose char lines are given by their pairs. -/
def render_with_count (d : Doc) (declared : Nat)
    (lines : List (List (List Char × List Char))) : List Char :=
  render_upto_pages d d.pages.length
    (render_chars_header declared (render_lines "char".toList lines []))

/-- A document that declares one glyph and has two lines beginning with `char`:
on the first one the unknown key `foo` is followed by `=` and the end of the
line. -/
def document_value_less_key : List Char :=
  ("info face=a size=1\ncommon lineHeight=1 base=1 scaleW=1 scaleH=1 pages=1\n" ++
    "page id=0 file=\"p\"\nchars count=1\nchar foo=\nchar id=7\n").toList

/-- What the parser can still read: the characters left in the stream, plus
one for the end-of-stream flag still to be set, as long as the parser is
ready; nothing once the ok flag is cleared or the EOF flag is set. -/
def remaining (p : BMFont__Parser) : Nat :=
  if bmfont__parser_ready p then p.stream.length + 1 else 0

/-- The state `q` has at most `n` left to read and has the model-only flag
`fuel_out` at `b`. -/
def Within (n : Nat) (b : Bool) (q : BMFont__Parser) : Prop :=
  q.fuel_out = b ∧ remaining q ≤ n

/-- From the state `p` to the state `q` at least one character of the input
was consumed, or `q` has the EOF flag set, or `q` has the ok flag cleared. -/
def iteration_progress (p q : BMFont__Parser) : Prop :=
  q.stream.length < p.stream.length ∨ q.eof = true ∨ q.ok = false

/-- Every iteration of the key/value loop with the given body makes progress:
the loop condition holds at `p` (the parser is ready and the newline is not
matched) and the body is run on the state the condition leaves. -/
def kv_progress {α : Type} (body : BMFont__Parser → α → BMFont__Parser × α) : Prop :=
  ∀ p a, bmfont__parser_ready p = true →
    (bmfont__match_token_and_advance p ['\n']).1 = false →
    iteration_progress p (body (bmfont__match_token_and_advance p ['\n']).2 a).1

/-- The number of times `kv_loop` runs its body. -/
def kv_iterations {α : Type} (body : BMFont__Parser → α → BMFont__Parser × α) :
    Nat → BMFont__Parser → α → Nat
  | 0, _, _ => 0
  | fuel + 1, p, a =>
    if bmfont__parser_ready p then
      let m := bmfont__match_token_and_advance p ['\n']
      if m.1 then 0
      else
        let b := body m.2 a
        1 + kv_iterations body fuel b.1 b.2
    else 0

/-- The number of iterations of the record loop of `bmfont__parse_pages` and of
the key/value loops inside it. -/
def pages_iterations : Nat → Nat → BMFont__Parser → BMFont → Nat
  | 0, _, _, _ => 0
  | n + 1, i, p, font =>
    let m := bmfont__match_token_and_advance p "page".toList
    if !m.1 then 0
    else
      let r := kv_loop parse_page_body (kv_fuel m.2) m.2 (0, none)
      1 + kv_iterations parse_page_body (kv_fuel m.2) m.2 (0, none) +
        match r.2.2 with
        | none => 0
        | some filename =>
          let st := store_page_name r.1 font r.2.1 filename
          pages_iterations n (i + 1) st.1 st.2

/-- The number of iterations of the record loop of `bmfont__parse_chars` and of
the key/value loops inside it. -/
def chars_iterations : Nat → Nat → BMFont__Parser → BMFont → Nat
  | 0, _, _, _ => 0
  | n + 1, i, p, font =>
    let m := bmfont__match_token_and_advance p "char".toList
    if !m.1 then 0
    else
      match font.chars with
      | some cs =>
        if i < cs.length then
          let r := kv_loop parse_char_body (kv_fuel m.2) m.2 (cs.getD i default)
          1 + kv_iterations parse_char_body (kv_fuel m.2) m.2 (cs.getD i default) +
            chars_iterations n (i + 1) r.1 { font with chars := some (cs.set i r.2) }
        else
          let r := kv_loop parse_char_body (kv_fuel m.2) m.2 default
          1 + kv_iterations parse_char_body (kv_fuel m.2) m.2 default +
            chars_iterations n (i + 1) { r.1 with oob := true } font
      | none =>
        let r := kv_loop parse_char_body (kv_fuel m.2) m.2 default
        1 + kv_iterations parse_char_body (kv_fuel m.2) m.2 default +
          chars_iterations n (i + 1) { r.1 with oob := true } font

/-- The number of iterations of the record loop of `bmfont__parse_kernings` and
of the key/value loops inside it. -/
def kernings_iterations : Nat → Nat → BMFont__Parser → BMFont → Nat
  | 0, _, _, _ => 0
  | n + 1, i, p, font =>
    let m := bmfont__match_token_and_advance p "kerning".toList
    if !m.1 then 0
    else
      match font.kernings with
      | some ks =>
        if i < ks.length then
          let r := kv_loop parse_kerning_body (kv_fuel m.2) m.2 (ks.getD i default)
          1 + kv_iterations parse_kerning_body (kv_fuel m.2) m.2 (ks.getD i default) +
            kernings_iterations n (i + 1) r.1 { font with kernings := some (ks.set i r.2) }
        else
          let r := kv_loop parse_kerning_body (kv_fuel m.2) m.2 default
          1 + kv_iterations parse_kerning_body (kv_fuel m.2) m.2 default +
            kernings_iterations n (i + 1) { r.1 with oob := true } font
      | none =>
        let r := kv_loop parse_kerning_body (kv_fuel m.2) m.2 default
        1 + kv_iterations parse_kerning_body (kv_fuel m.2) m.2 default +
          kernings_iterations n (i + 1) { r.1 with oob := true } font

/-- The number of loop iterations of a call of `bmfont__parse_info`. -/
def info_iterations (p : BMFont__Parser) (font : BMFont) : Nat :=
  let e := bmfont__expect_token_and_advance p "info".toList
  if !e.1 then 0 else kv_iterations parse_info_body (kv_fuel e.2) e.2 font

/-- The number of loop iterations of a call of `bmfont__parse_common`. -/
def common_iterations (p : BMFont__Parser) (font : BMFont) : Nat :=
  let e := bmfont__expect_token_and_advance p "common".toList
  if !e.1 then 0 else kv_iterations parse_common_body (kv_fuel e.2) e.2 font

/-- The number of loop iterations of a call of `bmfont__parse_chars`. -/
def chars_section_iterations (p : BMFont__Parser) (font : BMFont) : Nat :=
  let e := bmfont__expect_token_and_advance p "chars".toList
  if !e.1 then 0
  else
    let h := kv_loop parse_chars_count_body (kv_fuel e.2) e.2 font
    kv_iterations parse_chars_count_body (kv_fuel e.2) e.2 font +
      chars_iterations h.2.num_chars 0 h.1 h.2

/-- The number of loop iterations of a call of `bmfont__parse_kernings`. -/
def kernings_section_iterations (p : BMFont__Parser) (font : BMFont) : Nat :=
  if !bmfont__parser_ready p then 0
  else
    let e := bmfont__expect_token_and_advance p "kernings".toList
    let h := kv_loop parse_kernings_count_body (kv_fuel e.2) e.2 font
    kv_iterations parse_kernings_count_body (kv_fuel e.2) e.2 font +
      kernings_iterations h.2.num_kernings 0 h.1 h.2

/-- The number of loop iterations of the chain of section parsers: a section
is counted when the chain reaches it. -/
def sections_iterations (p : BMFont__Parser) (font : BMFont) : Nat :=
  let r1 := bmfont__parse_info p font
  info_iterations p font +
    if !r1.1 then 0
    else
      let r2 := bmfont__parse_common r1.2.1 r1.2.2
      common_iterations r1.2.1 r1.2.2 +
        if !r2.1 then 0
        else
          let r3 := bmfont__parse_pages r2.2.1 r2.2.2
          pages_iterations r2.2.2.num_pages 0 r2.2.1 r2.2.2 +
            if !r3.1 then 0
            else
              let r4 := bmfont__parse_chars r3.2.1 r3.2.2
              chars_section_iterations r3.2.1 r3.2.2 +
                if !r4.1 then 0 else kernings_section_iterations r4.2.1 r4.2.2

/-- The total number of iterations of all key/value loops and record loops in
a call of `bmfont_parse_file`. -/
def parse_iterations (input : List Char) : Nat :=
  sections_iterations (bmfont__load_next_token (parser_at_start input)).2 empty_font

/-- A complete document whose first word is `info`, a NUL character and `x`. -/
def document_nul_in_keyword : List Char :=
  "info".toList ++ [Char.ofNat 0, 'x'] ++
    (" face=a size=1\ncommon lineHeight=1 base=1 scaleW=1 scaleH=1 pages=1\n" ++
      "page id=0 file=\"p\"\nchars count=0\nkernings count=0\n").toList

/-- A complete document on whose info line the unknown key `foo` is followed
by `=` and no value, in front of the pair `face=a`. -/
def document_face_after_empty_value : List Char :=
  ("info foo= face=a size=1\ncommon lineHeight=1 base=1 scaleW=1 scaleH=1 pages=1\n" ++
    "page id=0 file=\"p\"\nchars count=0\nkernings count=0\n").toList

/-- A complete document whose info line holds the pairs `face=a` and `face=b`. -/
def document_two_faces : List Char :=
  ("info face=a face=b size=1\ncommon lineHeight=1 base=1 scaleW=1 scaleH=1 pages=1\n" ++
    "page id=0 file=\"p\"\nchars count=0\nkernings count=0\n").toList

/-- A complete document that declares one glyph and one kerning; the line of
the glyph is `char foo=` and is followed by the line `char width=9`, the line
of the kerning is `kerning foo=` and is followed by `kerning amount=3`. -/
def document_records_read_on : List Char :=
  ("info face=a size=1\ncommon lineHeight=1 base=1 scaleW=1 scaleH=1 pages=1\n" ++
    "page id=0 file=\"p\"\nchars count=1\nchar foo=\nchar width=9\n" ++
    "kernings count=1\nkerning foo=\nkerning amount=3\n").toList

/-- A call of the body of a key/value loop on the parser `p` is idle: it leaves
the data it fills in as they are, leaves the ok flag cleared and moves nothing
of the token state. -/
def body_idle {α : Type} (body : BMFont__Parser → α → BMFont__Parser × α)
    (p : BMFont__Parser) : Prop :=
  ∀ a : α, (body p a).2 = a ∧ (body p a).1.ok = false ∧
    token_state (body p a).1 = token_state p

/-- A file that ends right after the key `size` of its info line. -/
def document_size_at_end : List Char := "info size".toList

/-- The parser in the key/value loop of `bmfont__parse_info` on the file
`info size`, after the test for the key `size`: the keyword `info` has been
matched, the key `face` has been tried in vain, and
`bmfont__match_key_and_advance_to_value(parser, "size")` has reached the end
of the input and cleared the ok flag. -/
def parser_after_failed_key : BMFont__Parser :=
  (bmfont__match_key_and_advance_to_value
    (bmfont__match_key_and_advance_to_value
      (bmfont__expect_token_and_advance
        (bmfont__load_next_token (parser_at_start document_size_at_end)).2
        "info".toList).2
      "face".toList).2
    "size".toList).2

/-- A pair of a char line with a valid value: the key and the value are words
(not empty, shorter than the token buffer, without delimiter or NUL), and when
the key is one of the eight tags the value converts as a whole, by `strtol`
with base 0, to an integer in the range of the reader of the tag. A pair with
another key is valid with any word as its value. -/
def char_pair_valid (kv : List Char × List Char) : Prop :=
  is_word kv.1 = true ∧ is_word kv.2 = true ∧
    ∀ tag, char_tag_of kv.1 = some tag →
      ∃ n : Nat, strtol kv.2 = ((n : Int), []) ∧ n ≤ tag.limit

/-- The parser `p` after the tokenizer, started at column `c` of the current
line in front of the pairs `ps` and the newline, has loaded the next token:
the first key, or the newline when there is no pair. -/
def pairs_state (p : BMFont__Parser) (c : Nat) (ps : List (List Char × List Char))
    (rest : List Char) : BMFont__Parser :=
  match ps with
  | [] => at_newline p c rest
  | kv :: ps1 =>
    { p with stream := '=' :: (kv.2 ++ render_pairs ps1 ('\n' :: rest)),
             next_token := kv.1, start_line := p.curr_line, start_col := c + 1,
             curr_col := c + 1 + kv.1.length }

/-- The glyph after the changes of the pairs of a char line, in their order. -/
def apply_pairs (g : BMFont_Char) (ps : List (List Char × List Char)) : BMFont_Char :=
  ps.foldl (fun acc kv => char_pair_effect kv acc) g

/-- The number of times the guard of the record loop of `bmfont__parse_pages`
matches the keyword `page`, that is, takes one `page` token from the stream
and starts a record. -/
def pages_matched : Nat → Nat → BMFont__Parser → BMFont → Nat
  | 0, _, _, _ => 0
  | n + 1, i, p, font =>
    let m := bmfont__match_token_and_advance p "page".toList
    if !m.1 then 0
    else
      let r := kv_loop parse_page_body (kv_fuel m.2) m.2 (0, none)
      match r.2.2 with
      | none => 1
      | some filename =>
        let st := store_page_name r.1 font r.2.1 filename
        1 + pages_matched n (i + 1) st.1 st.2

/-- The number of times the guard of the record loop of `bmfont__parse_chars`
matches the keyword `char`. -/
def chars_matched : Nat → Nat → BMFont__Parser → BMFont → Nat
  | 0, _, _, _ => 0
  | n + 1, i, p, font =>
    let m := bmfont__match_token_and_advance p "char".toList
    if !m.1 then 0
    else
      match font.chars with
      | some cs =>
        if i < cs.length then
          let r := kv_loop parse_char_body (kv_fuel m.2) m.2 (cs.getD i default)
          1 + chars_matched n (i + 1) r.1 { font with chars := some (cs.set i r.2) }
        else
          let r := kv_loop parse_char_body (kv_fuel m.2) m.2 default
          1 + chars_matched n (i + 1) { r.1 with oob := true } font
      | none =>
        let r := kv_loop parse_char_body (kv_fuel m.2) m.2 default
        1 + chars_matched n (i + 1) { r.1 with oob := true } font

/-- The number of times the guard of the record loop of
`bmfont__parse_kernings` matches the keyword `kerning`. -/
def kernings_matched : Nat → Nat → BMFont__Parser → BMFont → Nat
  | 0, _, _, _ => 0
  | n + 1, i, p, font =>
    let m := bmfont__match_token_and_advance p "kerning".toList
    if !m.1 then 0
    else
      match font.kernings with
      | some ks =>
        if i < ks.length then
          let r := kv_loop parse_kerning_body (kv_fuel m.2) m.2 (ks.getD i default)
          1 + kernings_matched n (i + 1) r.1 { font with kernings := some (ks.set i r.2) }
        else
          let r := kv_loop parse_kerning_body (kv_fuel m.2) m.2 default
          1 + kernings_matched n (i + 1) { r.1 with oob := true } font
      | none =>
        let r := kv_loop parse_kerning_body (kv_fuel m.2) m.2 default
        1 + kernings_matched n (i + 1) { r.1 with oob := true } font

/-- The number of `char` keywords matched by a call of `bmfont__parse_chars`. -/
def chars_section_matched (p : BMFont__Parser) (font : BMFont) : Nat :=
  let e := bmfont__expect_token_and_advance p "chars".toList
  if !e.1 then 0
  else
    let h := kv_loop parse_chars_count_body (kv_fuel e.2) e.2 font
    chars_matched h.2.num_chars 0 h.1 h.2

/-- The number of `kerning` keywords matched by a call of
`bmfont__parse_kernings`. -/
def kernings_section_matched (p : BMFont__Parser) (font : BMFont) : Nat :=
  if !bmfont__parser_ready p then 0
  else
    let e := bmfont__expect_token_and_advance p "kernings".toList
    let h := kv_loop parse_kernings_count_body (kv_fuel e.2) e.2 font
    kernings_matched h.2.num_kernings 0 h.1 h.2

/-- The numbers of `page`, `char` and `kerning` keywords the three record
loops match when the chain of section parsers is run from the parser `p`. -/
def records_matched_from (p : BMFont__Parser) : Nat × Nat × Nat :=
  let r1 := bmfont__parse_info p empty_font
  let r2 := bmfont__parse_common r1.2.1 r1.2.2
  let r3 := bmfont__parse_pages r2.2.1 r2.2.2
  let r4 := bmfont__parse_chars r3.2.1 r3.2.2
  (pages_matched r2.2.2.num_pages 0 r2.2.1 r2.2.2, chars_section_matched r3.2.1 r3.2.2,
    kernings_section_matched r4.2.1 r4.2.2)

/-- The numbers of records the three record loops start in a call of
`bmfont_parse_file`. -/
def records_matched (input : List Char) : Nat × Nat × Nat :=
  records_matched_from (bmfont__load_next_token (parser_at_start input)).2

/-- The texts that follow the newline characters of a text. -/
def after_newlines : List Char → List (List Char)
  | [] => []
  | c :: cs => if c = '\n' then cs :: after_newlines cs else after_newlines cs

/-- The first word of a text is `kw`: after leading spaces and carriage
returns, the run of characters up to the next delimiter. -/
def begins_with_word (kw s : List Char) : Bool :=
  (s.dropWhile is_blank).takeWhile (fun c => !is_delim c) = kw

/-- The number of lines of an input whose first word is `kw`. -/
def keyword_lines (kw input : List Char) : Nat :=
  ((input :: after_newlines input).filter (begins_with_word kw)).length

/-- A complete document that declares one page, one glyph and one kerning and
has two lines for each: `page foo=` in front of the page line, `char foo=` in
front of the char line and `kerning foo=` in front of the kerning line. -/
def document_lines_exceed_counts : List Char :=
  ("info face=a size=1\ncommon lineHeight=1 base=1 scaleW=1 scaleH=1 pages=1\n" ++
    "page foo=\npage id=0 file=\"p\"\nchars count=1\nchar foo=\nchar id=7\n" ++
    "kernings count=1\nkerning foo=\nkerning first=5\n").toList

/-! ## Lemmas -/

theorem toDigitsCore_acc (fuel : Nat) : ∀ (n : Nat) (acc : List Char),
    Nat.toDigitsCore 10 fuel n acc = Nat.toDigitsCore 10 fuel n [] ++ acc := by
  induction fuel with
  | zero => intro n acc; simp [Nat.toDigitsCore]
  | succ f ih =>
    intro n acc
    simp only [Nat.toDigitsCore]
    by_cases h : n / 10 = 0
    · simp [h]
    · simp only [h, if_false]
      rw [ih (n / 10) (_ :: acc), ih (n / 10) [_]]
      simp

theorem toDigitsCore_fuel (f1 : Nat) : ∀ (f2 n : Nat) (acc : List Char), n < f1 → n < f2 →
    Nat.toDigitsCore 10 f1 n acc = Nat.toDigitsCore 10 f2 n acc := by
  induction f1 with
  | zero => intro f2 n acc h; omega
  | succ f ih =>
    intro f2 n acc h1 h2
    cases f2 with
    | zero => omega
    | succ g =>
      simp only [Nat.toDigitsCore]
      by_cases h : n / 10 = 0
      · simp [h]
      · simp only [h, if_false]
        exact ih g (n / 10) _ (by omega) (by omega)

theorem fmt_nat_lt (n : Nat) (h : n < 10) : fmt_nat n = [Nat.digitChar n] := by
  have h1 : n / 10 = 0 := by omega
  have h2 : n % 10 = n := by omega
  simp [fmt_nat, Nat.toDigits, Nat.toDigitsCore, h1, h2]

theorem fmt_nat_ge (n : Nat) (h : 10 ≤ n) :
    fmt_nat n = fmt_nat (n / 10) ++ [Nat.digitChar (n % 10)] := by
  have h1 : n / 10 ≠ 0 := by omega
  have e1 : fmt_nat n = Nat.toDigitsCore 10 n (n / 10) [Nat.digitChar (n % 10)] := by
    show Nat.toDigitsCore 10 (n + 1) n [] = _
    rw [Nat.toDigitsCore]
    simp only [h1, if_false]
  rw [e1, toDigitsCore_acc, toDigitsCore_fuel n (n / 10 + 1) (n / 10) [] (by omega) (by omega)]
  rfl

theorem digitChar_digit (d : Nat) (h : d < 10) :
    digit_value (Nat.digitChar d) = some d := by
  interval_cases d <;> decide

theorem digitChar_ne_zero (d : Nat) (h : d < 10) (h0 : 0 < d) : Nat.digitChar d ≠ '0' := by
  interval_cases d <;> decide

theorem is_digit_of_ten_range (c : Char) (h : is_digit_of 10 c = true) : '0' ≤ c ∧ c ≤ '9' := by
  unfold is_digit_of digit_value at h
  by_cases h1 : '0' ≤ c ∧ c ≤ '9'
  · exact h1
  · exfalso
    simp only [h1, if_false] at h
    split at h
    · rename_i d hd
      split at hd
      · simp only [Option.some.injEq] at hd; subst hd; simp at h
      · split at hd
        · simp only [Option.some.injEq] at hd; subst hd; simp at h
        · simp at hd
    · simp at h

theorem fmt_nat_digits (n : Nat) : ∀ c ∈ fmt_nat n, is_digit_of 10 c = true := by
  induction n using Nat.strong_induction_on with
  | _ n ih =>
    by_cases h : n < 10
    · rw [fmt_nat_lt n h]
      intro c hc
      simp only [List.mem_singleton] at hc
      subst hc
      simp [is_digit_of, digitChar_digit n h, h]
    · rw [fmt_nat_ge n (by omega)]
      intro c hc
      simp only [List.mem_append, List.mem_singleton] at hc
      rcases hc with hc | hc
      · exact ih (n / 10) (by omega) c hc
      · subst hc
        have : n % 10 < 10 := by omega
        simp [is_digit_of, digitChar_digit (n % 10) this, this]

theorem fmt_nat_ne_nil (n : Nat) : fmt_nat n ≠ [] := by
  by_cases h : n < 10
  · rw [fmt_nat_lt n h]; simp
  · rw [fmt_nat_ge n (by omega)]; simp

theorem fmt_nat_head (n : Nat) (h0 : 0 < n) : (fmt_nat n).head? ≠ some '0' := by
  induction n using Nat.strong_induction_on with
  | _ n ih =>
    by_cases h : n < 10
    · rw [fmt_nat_lt n h]
      simpa using digitChar_ne_zero n h h0
    · rw [fmt_nat_ge n (by omega)]
      have := ih (n / 10) (by omega) (by omega)
      cases hx : fmt_nat (n / 10) with
      | nil => exact absurd hx (fmt_nat_ne_nil _)
      | cons a l => rw [hx] at this; simpa using this

theorem digits_value_append (base : Nat) (l : List Char) (c : Char) :
    digits_value base (l ++ [c]) = digits_value base l * base + (digit_value c).getD 0 := by
  simp [digits_value, List.foldl_append]

theorem fmt_nat_value (n : Nat) : digits_value 10 (fmt_nat n) = n := by
  induction n using Nat.strong_induction_on with
  | _ n ih =>
    by_cases h : n < 10
    · rw [fmt_nat_lt n h]
      simp [digits_value, digitChar_digit n h]
    · rw [fmt_nat_ge n (by omega), digits_value_append, ih (n / 10) (by omega),
        digitChar_digit (n % 10) (by omega)]
      simp only [Option.getD_some]
      omega

theorem fmt_nat_length (n : Nat) (k : Nat) (hk : 0 < k) (h : n < 10 ^ k) :
    (fmt_nat n).length ≤ k := by
  induction k generalizing n with
  | zero => omega
  | succ k ih =>
    by_cases h10 : n < 10
    · rw [fmt_nat_lt n h10]; simp
    · rw [fmt_nat_ge n (by omega)]
      simp only [List.length_append, List.length_singleton, Nat.add_le_add_iff_right]
      cases k with
      | zero => simp at h; omega
      | succ k =>
        apply ih (n / 10) (by omega)
        rw [Nat.div_lt_iff_lt_mul (by omega)]
        rw [pow_succ] at h
        exact h

theorem digit_not_space (c : Char) (h : '0' ≤ c ∧ c ≤ '9') :
    isspace c = false ∧ c ≠ '-' ∧ c ≠ '+' := by
  refine ⟨?_, ?_, ?_⟩
  · simp only [isspace, Bool.decide_or, Bool.or_eq_false_iff, decide_eq_false_iff_not]
    refine ⟨?_, ?_, ?_, ?_, ?_, ?_⟩ <;> (intro hc; subst hc; revert h; decide)
  · intro hc; subst hc; revert h; decide
  · intro hc; subst hc; revert h; decide

theorem starts_hex_false (s : List Char) (h : s.head? ≠ some '0') :
    starts_hex s = false := by
  rcases s with _ | ⟨z, _ | ⟨x, _ | ⟨d, t⟩⟩⟩ <;> simp [starts_hex]
  simp only [List.head?_cons, ne_eq, Option.some.injEq] at h
  intro hz; exact absurd hz h

theorem strtol_decimal (ds : List Char) (hne : ds ≠ [])
    (hall : ∀ c ∈ ds, is_digit_of 10 c = true) (hhead : ds.head? ≠ some '0') :
    strtol ds = (min (digits_value 10 ds : Int) LONG_MAX, []) ∧
    strtol ('-' :: ds) = (max (-(digits_value 10 ds : Int)) LONG_MIN, []) := by
  have hhex := starts_hex_false ds hhead
  have hbase : strtol_base ds = 10 := by simp [strtol_base, hhex, hhead]
  have h1 : List.takeWhile (is_digit_of 10) ds = ds := by
    rw [List.takeWhile_eq_self_iff]; exact hall
  have h2 : List.dropWhile (is_digit_of 10) ds = [] := by
    rw [List.dropWhile_eq_nil_iff]; exact hall
  cases ds with
  | nil => exact absurd rfl hne
  | cons c cs =>
    have hc := digit_not_space c (is_digit_of_ten_range c (hall c (by simp)))
    constructor
    · have hd : List.dropWhile isspace (c :: cs) = c :: cs := by
        simp [List.dropWhile, hc.1]
      unfold strtol
      simp only [hd, List.head?_cons, Option.some.injEq, hc.2.1, hc.2.2, or_self, if_false,
        hhex, hbase, h1, h2, Bool.false_eq_true, decide_False]
      simp
    · have hd : List.dropWhile isspace ('-' :: c :: cs) = '-' :: c :: cs := by
        simp [List.dropWhile, isspace]
      unfold strtol
      simp only [hd, List.head?_cons, true_or, if_true, List.tail_cons,
        hhex, hbase, h1, h2, Bool.false_eq_true, if_false, decide_True]
      simp

theorem strtol_fmt_nat (n : Nat) (h : n ≤ 4294967295) : strtol (fmt_nat n) = ((n : Int), []) := by
  by_cases h0 : n = 0
  · subst h0; decide
  · have := (strtol_decimal (fmt_nat n) (fmt_nat_ne_nil n) (fmt_nat_digits n)
      (fmt_nat_head n (by omega))).1
    rw [this, fmt_nat_value]
    simp only [LONG_MAX, Prod.mk.injEq, and_true]
    omega

theorem strtol_fmt_int (v : Int) (h1 : -32768 ≤ v) (h2 : v ≤ 32767) :
    strtol (fmt_int v) = (v, []) := by
  by_cases hneg : v < 0
  · have hn : 0 < v.natAbs := by omega
    have := (strtol_decimal (fmt_nat v.natAbs) (fmt_nat_ne_nil _) (fmt_nat_digits _)
      (fmt_nat_head _ hn)).2
    simp only [fmt_int, hneg, if_true]
    rw [this, fmt_nat_value]
    simp only [LONG_MIN, Prod.mk.injEq, and_true]
    omega
  · have : fmt_int v = fmt_nat v.natAbs := by simp [fmt_int, hneg]
    rw [this, strtol_fmt_nat _ (by omega)]
    simp only [Prod.mk.injEq, and_true]
    omega

theorem skip_blank_nonblank (c : Char) (cs : List Char) (col : Nat) (h1 : c ≠ ' ')
    (h2 : c ≠ '\r') : skip_blank (c :: cs) col = (c :: cs, col) := by
  simp [skip_blank, h1, h2]

theorem word_continues_false (s : List Char) (n : Nat) (h : delim_start s = true) :
    word_continues s n = false := by
  cases s with
  | nil => rfl
  | cons d s =>
    simp only [delim_start, is_delim, decide_eq_true_eq, Bool.decide_or, Bool.or_eq_true] at h
    simp only [word_continues, decide_eq_false_iff_not]
    rcases h with h | h | h | h <;> simp [h]

theorem word_loop_word (s : List Char) (hs : delim_start s = true) :
    ∀ (w : List Char) (len : Nat), w ≠ [] → (∀ c ∈ w, is_delim c = false) →
      len + w.length < BMFONT_MAX_TOKEN_LENGTH → word_loop (w ++ s) len = (w, s) := by
  intro w
  induction w with
  | nil => intro len h; exact absurd rfl h
  | cons c w ih =>
    intro len _ hw hlen
    cases w with
    | nil => simp [word_loop, word_continues_false s (len + 1) hs]
    | cons c2 w2 =>
      have hc2 : is_delim c2 = false := hw c2 (by simp)
      have hcont : word_continues ((c2 :: w2) ++ s) (len + 1) = true := by
        simp only [is_delim, Bool.decide_or, Bool.or_eq_false_iff, decide_eq_false_iff_not] at hc2
        simp only [List.length_cons] at hlen
        simp only [List.cons_append, word_continues, decide_eq_true_eq]
        refine ⟨hc2.1, hc2.2.1, hc2.2.2.1, hc2.2.2.2, by omega⟩
      have ih2 := ih (len + 1) (by simp) (fun c hc => hw c (List.mem_cons_of_mem _ hc))
        (by simp only [List.length_cons] at hlen ⊢; omega)
      rw [List.cons_append, word_loop, hcont, ih2]
      rfl

theorem is_word_ne_nil {w : List Char} (h : is_word w = true) : w ≠ [] := by
  simp only [is_word, Bool.decide_and, Bool.and_eq_true, decide_eq_true_eq] at h
  exact h.1

theorem is_word_length {w : List Char} (h : is_word w = true) :
    w.length < BMFONT_MAX_TOKEN_LENGTH := by
  simp only [is_word, Bool.decide_and, Bool.and_eq_true, decide_eq_true_eq] at h
  exact h.2.1

theorem is_word_not_delim {w : List Char} (h : is_word w = true) :
    ∀ c ∈ w, is_delim c = false := by
  simp only [is_word, Bool.decide_and, Bool.and_eq_true, decide_eq_true_eq, List.all_eq_true,
    Bool.not_eq_true'] at h
  intro c hc
  exact (h.2.2 c hc).1

theorem is_word_cstr {w : List Char} (h : is_word w = true) : cstr w = w := by
  simp only [is_word, Bool.decide_and, Bool.and_eq_true, decide_eq_true_eq, List.all_eq_true,
    Bool.not_eq_true'] at h
  unfold cstr
  rw [List.takeWhile_eq_self_iff]
  intro c hc
  simpa using (h.2.2 c hc).2

theorem next_nl (s : List Char) : Next ('\n' :: s) ['\n'] s false := by
  intro p t0 b h
  have h1 := h.ok; have h2 := h.eof; have h3 := h.str
  refine ⟨?_, ?_⟩
  · simp [bmfont__load_next_token, bmfont__parser_ok, bmfont__parser_ready, h1, h2, h3,
      skip_blank]
  · constructor <;>
    simp [bmfont__load_next_token, bmfont__parser_ok, bmfont__parser_ready, h1, h2, h3,
      skip_blank, h.oob, h.af, h.fo, h.err]

theorem next_eq (s : List Char) : Next ('=' :: s) ['='] s false := by
  intro p t0 b h
  have h1 := h.ok; have h2 := h.eof; have h3 := h.str
  refine ⟨?_, ?_⟩
  · simp [bmfont__load_next_token, bmfont__parser_ok, bmfont__parser_ready, h1, h2, h3,
      skip_blank]
  · constructor <;>
    simp [bmfont__load_next_token, bmfont__parser_ok, bmfont__parser_ready, h1, h2, h3,
      skip_blank, h.oob, h.af, h.fo, h.err]

theorem next_eof (t : List Char) : Next [] t [] true := by
  intro p t0 b h
  have h1 := h.ok; have h2 := h.eof; have h3 := h.str
  refine ⟨?_, ?_⟩
  · simp [bmfont__load_next_token, bmfont__parser_ok, bmfont__parser_ready, h1, h2, h3,
      skip_blank]
  · constructor <;>
    simp [bmfont__load_next_token, bmfont__parser_ok, bmfont__parser_ready, h1, h2, h3,
      skip_blank, h.oob, h.af, h.fo, h.err]

theorem next_word (w s : List Char) (hw : is_word w = true) (hs : delim_start s = true) :
    Next (w ++ s) w s false := by
  intro p t0 b h
  have h1 := h.ok; have h2 := h.eof; have h3 := h.str
  have hne := is_word_ne_nil hw
  have hnd := is_word_not_delim hw
  have hlen := is_word_length hw
  have hloop := word_loop_word s hs w 0 hne hnd (by omega)
  cases w with
  | nil => exact absurd rfl hne
  | cons c w2 =>
    have hc : is_delim c = false := hnd c (by simp)
    simp only [is_delim, Bool.decide_or, Bool.or_eq_false_iff, decide_eq_false_iff_not] at hc
    have hsk : skip_blank (c :: (w2 ++ s)) p.curr_col = (c :: (w2 ++ s), p.curr_col) :=
      skip_blank_nonblank c _ _ hc.2.1 hc.2.2.1
    have hl : w2.length + 1 ≠ BMFONT_MAX_TOKEN_LENGTH := by
      simp only [List.length_cons] at hlen; omega
    rw [List.cons_append] at hloop h3
    refine ⟨?_, ?_⟩
    · simp [bmfont__load_next_token, bmfont__parser_ok, bmfont__parser_ready, h1, h2, h3,
        hsk, hc.1, hc.2.2.2, hloop, hl]
    · constructor <;>
      simp [bmfont__load_next_token, bmfont__parser_ok, bmfont__parser_ready, h1, h2, h3,
        hsk, hc.1, hc.2.2.2, hloop, hl, h.oob, h.af, h.fo, h.err, is_word_cstr hw]

theorem load_skip_space (p : BMFont__Parser) (s : List Char) (h : p.stream = ' ' :: s)
    (h1 : p.ok = true) (h2 : p.eof = false) :
    bmfont__load_next_token p
      = bmfont__load_next_token { p with stream := s, curr_col := p.curr_col + 1 } := by
  simp [bmfont__load_next_token, bmfont__parser_ok, bmfont__parser_ready, h, skip_blank, h1, h2]

theorem next_sp {s t s1 : List Char} {e : Bool} (h : Next s t s1 e) :
    Next (' ' :: s) t s1 e := by
  intro p t0 b hp
  rw [load_skip_space p s hp.str hp.ok hp.eof]
  apply h _ t0 b
  constructor <;> simp [hp.ok, hp.eof, hp.tok, hp.oob, hp.af, hp.fo, hp.err]

theorem next_pair_key (k v rest : List Char) (hk : is_word k = true) :
    Next (pair k v rest) k ('=' :: (v ++ rest)) false :=
  next_sp (next_word k _ hk rfl)

theorem next_value (v rest : List Char) (hv : is_word v = true) (hr : delim_start rest = true) :
    Next (v ++ rest) v rest false :=
  next_word v rest hv hr

theorem expect_more_good {p : BMFont__Parser} {t s : List Char} {b : Bool}
    (h : Good p t s false b) : bmfont__expect_more_tokens p = (true, p) := by
  simp [bmfont__expect_more_tokens, h.eof]

theorem match_other {p : BMFont__Parser} {t s : List Char} {b : Bool} (h : Good p t s false b)
    (tok : List Char) (hne : t ≠ tok) : bmfont__match_token_and_advance p tok = (false, p) := by
  have ht := h.tok rfl
  simp [bmfont__match_token_and_advance, expect_more_good h, bmfont__parser_ok, h.ok, ht, hne]

theorem match_same {p : BMFont__Parser} {t s : List Char} {b : Bool} (h : Good p t s false b) :
    bmfont__match_token_and_advance p t = bmfont__load_next_token p := by
  have ht := h.tok rfl
  simp [bmfont__match_token_and_advance, expect_more_good h, bmfont__parser_ok, h.ok, ht]

theorem match_good {p : BMFont__Parser} {t s t1 s1 : List Char} {e b : Bool}
    (h : Good p t s false b) (n : Next s t1 s1 e) :
    (bmfont__match_token_and_advance p t).1 = true ∧
      Good (bmfont__match_token_and_advance p t).2 t1 s1 e b := by
  rw [match_same h]; exact n p t b h

theorem expect_good {p : BMFont__Parser} {t s t1 s1 : List Char} {e b : Bool}
    (h : Good p t s false b) (n : Next s t1 s1 e) :
    (bmfont__expect_token_and_advance p t).1 = true ∧
      Good (bmfont__expect_token_and_advance p t).2 t1 s1 e b := by
  have hm := match_good h n
  simp only [bmfont__expect_token_and_advance, hm.1, Bool.not_true, Bool.false_eq_true,
    if_false]
  exact ⟨trivial, hm.2⟩

theorem match_key_other (p : BMFont__Parser) (key : List Char) (hne : p.next_token ≠ key) :
    bmfont__match_key_and_advance_to_value p key = (false, p) := by
  simp [bmfont__match_key_and_advance_to_value, hne]

theorem match_key_good {p : BMFont__Parser} {key s s1 v s2 : List Char} {b : Bool}
    (h : Good p key s false b) (n1 : Next s ['='] s1 false) (n2 : Next s1 v s2 false) :
    (bmfont__match_key_and_advance_to_value p key).1 = true ∧
      Good (bmfont__match_key_and_advance_to_value p key).2 v s2 false b := by
  have hl := n1 p key b h
  have hm := match_good hl.2 n2
  simp only [bmfont__match_key_and_advance_to_value, h.tok rfl, if_true, hl.1]
  exact hm

theorem to_int16_u16 (n : Nat) (h : n ≤ 65535) : ((to_int16 (n : Int)) % 65536).toNat = n := by
  unfold to_int16; omega

theorem to_int16_i16 (v : Int) (h1 : -32768 ≤ v) (h2 : v ≤ 32767) : to_int16 v = v := by
  unfold to_int16; omega

theorem narrow32_small (n : Nat) (h : n < 32768) : narrow32 n = n := by
  unfold narrow32 to_int16; omega

theorem narrow32_big (n : Nat) (h1 : 32768 ≤ n) (h2 : n ≤ 65535) :
    narrow32 n = n + 4294901760 := by
  unfold narrow32 to_int16; omega

theorem do_get_good (min max : Int) {p : BMFont__Parser} {tok s t1 s1 : List Char} {e b : Bool}
    {v : Int}
    (h : Good p tok s false b) (hv : strtol tok = (v, [])) (h1 : min ≤ v) (h2 : v ≤ max)
    (n : Next s t1 s1 e) :
    (bmfont__do_get_token_as_int_and_advance p min max).1 = true ∧
    (bmfont__do_get_token_as_int_and_advance p min max).2.2 = some v ∧
    Good (bmfont__do_get_token_as_int_and_advance p min max).2.1 t1 s1 e b := by
  have hl := n p tok b h
  have ht := h.tok rfl
  have c1 : ¬ (v < min ∨ v > max) := by omega
  simp only [bmfont__do_get_token_as_int_and_advance, expect_more_good h, ht, hv,
    Bool.not_true, Bool.false_eq_true, if_false, ne_eq, not_true_eq_false, c1]
  exact ⟨hl.1, trivial, hl.2⟩

theorem get_uint16_good {p : BMFont__Parser} {s t1 s1 : List Char} {e b : Bool} {n : Nat}
    (h : Good p (fmt_nat n) s false b) (hn : n ≤ 65535) (nx : Next s t1 s1 e) :
    (bmfont__get_token_as_uint16_and_advance p).1 = true ∧
    (bmfont__get_token_as_uint16_and_advance p).2.2 = some n ∧
    Good (bmfont__get_token_as_uint16_and_advance p).2.1 t1 s1 e b := by
  have hd := do_get_good 0 65535 h (strtol_fmt_nat n (by omega))
    (by omega) (by omega) nx
  simp only [bmfont__get_token_as_uint16_and_advance, hd.1, hd.2.1, to_int16_u16 n hn]
  exact ⟨trivial, trivial, hd.2.2⟩

theorem get_uint32_good {p : BMFont__Parser} {s t1 s1 : List Char} {e b : Bool} {n : Nat}
    (h : Good p (fmt_nat n) s false b) (hn : n ≤ 4294967295) (nx : Next s t1 s1 e) :
    (bmfont__get_token_as_uint32_and_advance p).1 = true ∧
    (bmfont__get_token_as_uint32_and_advance p).2.2 = some (narrow32 n) ∧
    Good (bmfont__get_token_as_uint32_and_advance p).2.1 t1 s1 e b := by
  have hd := do_get_good 0 4294967295 h (strtol_fmt_nat n hn)
    (by omega) (by omega) nx
  simp only [bmfont__get_token_as_uint32_and_advance, hd.1, hd.2.1]
  exact ⟨trivial, rfl, hd.2.2⟩

theorem get_int16_good {p : BMFont__Parser} {s t1 s1 : List Char} {e b : Bool} {v : Int}
    (h : Good p (fmt_int v) s false b) (h1 : -32768 ≤ v) (h2 : v ≤ 32767) (nx : Next s t1 s1 e) :
    (bmfont__get_token_as_int16_and_advance p).1 = true ∧
    (bmfont__get_token_as_int16_and_advance p).2.2 = some v ∧
    Good (bmfont__get_token_as_int16_and_advance p).2.1 t1 s1 e b := by
  have hd := do_get_good (-32768) 32767 h (strtol_fmt_int v h1 h2) h1 h2 nx
  simp only [bmfont__get_token_as_int16_and_advance, hd.1, hd.2.1, to_int16_i16 v h1 h2]
  exact ⟨trivial, trivial, hd.2.2⟩

theorem copy_token_good {p : BMFont__Parser} {w s t1 s1 : List Char} {e b : Bool}
    (h : Good p w s false b) (nx : Next s t1 s1 e) :
    (bmfont__copy_token_and_advance p).1 = true ∧
    (bmfont__copy_token_and_advance p).2.2 = some w ∧
    Good (bmfont__copy_token_and_advance p).2.1 t1 s1 e b := by
  have hl := nx p w b h
  simp only [bmfont__copy_token_and_advance, expect_more_good h, h.tok rfl, Bool.not_true,
    Bool.false_eq_true, if_false]
  exact ⟨hl.1, trivial, hl.2⟩

theorem quoted_shape (f : List Char) :
    ¬ (('"' :: (f ++ ['"'])).length < 2 ∨ ('"' :: (f ++ ['"'])).head? ≠ some '"' ∨
        ('"' :: (f ++ ['"'])).getLast? ≠ some '"') ∧
    ((('"' :: (f ++ ['"'])).drop 1).take (('"' :: (f ++ ['"'])).length - 2)) = f := by
  have hl : ('"' :: (f ++ ['"'])).getLast? = some '"' := by
    rw [← List.cons_append, List.getLast?_concat]
  constructor
  · rw [hl]; simp
  · simp

theorem copy_quoted_good {p : BMFont__Parser} {f s t1 s1 : List Char} {e b : Bool}
    (h : Good p ('"' :: (f ++ ['"'])) s false b) (nx : Next s t1 s1 e) :
    (bmfont__copy_quoted_token_and_advance p).1 = true ∧
    (bmfont__copy_quoted_token_and_advance p).2.2 = some f ∧
    Good (bmfont__copy_quoted_token_and_advance p).2.1 t1 s1 e b := by
  have hl := nx p _ b h
  have hq := quoted_shape f
  simp only [bmfont__copy_quoted_token_and_advance, expect_more_good h, h.tok rfl, Bool.not_true,
    Bool.false_eq_true, if_false, hq.1, hq.2]
  exact ⟨hl.1, trivial, hl.2⟩

theorem fmt_nat_is_word (n : Nat) (h : n ≤ 4294967295) : is_word (fmt_nat n) = true := by
  have hlen := fmt_nat_length n 10 (by omega) (by omega)
  simp only [is_word, Bool.decide_and, Bool.and_eq_true, decide_eq_true_eq, List.all_eq_true,
    Bool.not_eq_true', BMFONT_MAX_TOKEN_LENGTH]
  refine ⟨fmt_nat_ne_nil n, by omega, ?_⟩
  intro c hc
  have hr := is_digit_of_ten_range c (fmt_nat_digits n c hc)
  constructor
  · simp only [is_delim, Bool.decide_or, Bool.or_eq_false_iff, decide_eq_false_iff_not]
    refine ⟨?_, ?_, ?_, ?_⟩ <;> (intro hc; subst hc; revert hr; decide)
  · simp only [ne_eq, decide_not, Bool.not_eq_true', decide_eq_false_iff_not]
    intro hc; subst hc; revert hr; decide

theorem fmt_int_is_word (v : Int) (h1 : -32768 ≤ v) (h2 : v ≤ 32767) :
    is_word (fmt_int v) = true := by
  have hw := fmt_nat_is_word v.natAbs (by omega)
  by_cases hneg : v < 0
  · simp only [fmt_int, hneg, if_true]
    have hlen := fmt_nat_length v.natAbs 10 (by omega) (by omega)
    simp only [is_word, Bool.decide_and, Bool.and_eq_true, decide_eq_true_eq, List.all_eq_true,
      Bool.not_eq_true', BMFONT_MAX_TOKEN_LENGTH] at hw ⊢
    refine ⟨by simp, by simp only [List.length_cons]; omega, ?_⟩
    intro c hc
    simp only [List.mem_cons] at hc
    rcases hc with hc | hc
    · subst hc; decide
    · exact hw.2.2 c hc
  · simpa [fmt_int, hneg] using hw

theorem quoted_is_word (f : List Char)
    (hf : f.all (fun c => !is_delim c && c ≠ Char.ofNat 0) = true)
    (hlen : f.length + 2 < BMFONT_MAX_TOKEN_LENGTH) : is_word ('"' :: (f ++ ['"'])) = true := by
  simp only [is_word, Bool.decide_and, Bool.and_eq_true, decide_eq_true_eq, List.all_eq_true,
    Bool.not_eq_true'] at hf ⊢
  refine ⟨by simp, by simp only [List.length_cons, List.length_append, List.length_nil]; omega,
    ?_⟩
  intro c hc
  simp only [List.mem_cons, List.mem_append, List.mem_singleton, List.not_mem_nil,
    or_false] at hc
  rcases hc with hc | hc | hc
  · subst hc; decide
  · exact hf c hc
  · subst hc; decide

theorem parse_info_body_eq : parse_info_body = dispatch info_table := rfl
theorem parse_common_body_eq : parse_common_body = dispatch common_table := rfl
theorem parse_page_body_eq : parse_page_body = dispatch page_table := rfl
theorem parse_chars_count_body_eq : parse_chars_count_body = dispatch chars_count_table := rfl
theorem parse_char_body_eq : parse_char_body = dispatch char_table := rfl
theorem parse_kernings_count_body_eq :
    parse_kernings_count_body = dispatch kernings_count_table := rfl
theorem parse_kerning_body_eq : parse_kerning_body = dispatch kerning_table := rfl

theorem good_ready {p : BMFont__Parser} {t s : List Char} {b : Bool} (h : Good p t s false b) :
    bmfont__parser_ready p = true := by
  simp [bmfont__parser_ready, bmfont__parser_ok, h.ok, h.eof]

theorem good_eof_not_ready {p : BMFont__Parser} {t s : List Char} {b : Bool}
    (h : Good p t s true b) : bmfont__parser_ready p = false := by
  simp [bmfont__parser_ready, bmfont__parser_ok, h.ok, h.eof]

theorem kv_loop_step {α : Type} (body : BMFont__Parser → α → BMFont__Parser × α)
    {p : BMFont__Parser} {t s : List Char} {b : Bool} (h : Good p t s false b)
    (hne : t ≠ ['\n']) (fuel : Nat) (a : α) :
    kv_loop body (fuel + 1) p a = kv_loop body fuel (body p a).1 (body p a).2 := by
  rw [kv_loop]
  simp only [good_ready h, if_true, match_other h ['\n'] hne, Bool.false_eq_true, if_false]

theorem kv_loop_done {α : Type} (body : BMFont__Parser → α → BMFont__Parser × α)
    {p : BMFont__Parser} {s t1 s1 : List Char} {e b : Bool} (h : Good p ['\n'] s false b)
    (n : Next s t1 s1 e) :
    ∃ q, Good q t1 s1 e b ∧ ∀ (fuel : Nat) (a : α), kv_loop body (fuel + 1) p a = (q, a) := by
  have hm := match_good h n
  refine ⟨_, hm.2, ?_⟩
  intro fuel a
  rw [kv_loop]
  simp only [good_ready h, if_true, hm.1]

theorem kv_loop_eof {α : Type} (body : BMFont__Parser → α → BMFont__Parser × α)
    {p : BMFont__Parser} {t s : List Char} {b : Bool} (h : Good p t s true b)
    (fuel : Nat) (a : α) : kv_loop body (fuel + 1) p a = (p, a) := by
  rw [kv_loop]
  simp only [good_eof_not_ready h, Bool.false_eq_true, if_false]

theorem dispatch_hit {α : Type}
    (table : List (List Char × (BMFont__Parser → α → BMFont__Parser × α)))
    (key : List Char) (hd : BMFont__Parser → α → BMFont__Parser × α)
    (hf : find_handler table key = some hd)
    {p : BMFont__Parser} {s s1 v s2 : List Char} {b : Bool}
    (h : Good p key s false b) (n1 : Next s ['='] s1 false) (n2 : Next s1 v s2 false) :
    ∃ q, Good q v s2 false b ∧ ∀ a, dispatch table p a = hd q a := by
  induction table with
  | nil => simp [find_handler] at hf
  | cons kh tl ih =>
    obtain ⟨k, h0⟩ := kh
    by_cases hk : k = key
    · subst hk
      simp only [find_handler, if_true, Option.some.injEq] at hf
      subst hf
      have hm := match_key_good h n1 n2
      refine ⟨_, hm.2, ?_⟩
      intro a
      simp only [dispatch, hm.1, if_true]
    · simp only [find_handler, hk, if_false] at hf
      obtain ⟨q, hq, hdq⟩ := ih hf
      refine ⟨q, hq, ?_⟩
      intro a
      have hne : p.next_token ≠ k := by rw [h.tok rfl]; exact fun hh => hk hh.symm
      simp only [dispatch, match_key_other p k hne, Bool.false_eq_true, if_false]
      exact hdq a

/-- One iteration of a key/value loop at a known key: the state in front of
the value and the rest of the loop. -/
theorem kv_pair {α : Type}
    (table : List (List Char × (BMFont__Parser → α → BMFont__Parser × α)))
    (key : List Char) (hd : BMFont__Parser → α → BMFont__Parser × α)
    (hf : find_handler table key = some hd) (hkey : key ≠ ['\n'])
    {p : BMFont__Parser} {v rest : List Char} {b : Bool}
    (h : Good p key ('=' :: (v ++ rest)) false b) (hv : is_word v = true)
    (hr : delim_start rest = true) :
    ∃ q, Good q v rest false b ∧ ∀ (fuel : Nat) (a : α),
      kv_loop (dispatch table) (fuel + 1) p a
        = kv_loop (dispatch table) fuel (hd q a).1 (hd q a).2 := by
  obtain ⟨q, hq, hdq⟩ := dispatch_hit table key hd hf h (next_eq _) (next_value v rest hv hr)
  refine ⟨q, hq, ?_⟩
  intro fuel a
  rw [kv_loop_step _ h hkey, hdq a]

theorem kv_pair_u16 {α : Type}
    (table : List (List Char × (BMFont__Parser → α → BMFont__Parser × α)))
    (key : List Char) (upd : α → Nat → α)
    (hf : find_handler table key = some (on_u16 upd)) (hkey : key ≠ ['\n'])
    {p : BMFont__Parser} {rest t1 s1 : List Char} {e b : Bool} {n : Nat}
    (h : Good p key ('=' :: (fmt_nat n ++ rest)) false b) (hn : n ≤ 65535)
    (hr : delim_start rest = true) (nx : Next rest t1 s1 e) :
    ∃ q, Good q t1 s1 e b ∧ ∀ (fuel : Nat) (a : α),
      kv_loop (dispatch table) (fuel + 1) p a = kv_loop (dispatch table) fuel q (upd a n) := by
  obtain ⟨q, hq, hl⟩ := kv_pair table key _ hf hkey h (fmt_nat_is_word n (by omega)) hr
  have hg := get_uint16_good hq hn nx
  refine ⟨_, hg.2.2, ?_⟩
  intro fuel a
  rw [hl fuel a]
  simp only [on_u16, hg.2.1, store_opt]

theorem kv_pair_u32 {α : Type}
    (table : List (List Char × (BMFont__Parser → α → BMFont__Parser × α)))
    (key : List Char) (upd : α → Nat → α)
    (hf : find_handler table key = some (on_u32 upd)) (hkey : key ≠ ['\n'])
    {p : BMFont__Parser} {rest t1 s1 : List Char} {e b : Bool} {n : Nat}
    (h : Good p key ('=' :: (fmt_nat n ++ rest)) false b) (hn : n ≤ 4294967295)
    (hr : delim_start rest = true) (nx : Next rest t1 s1 e) :
    ∃ q, Good q t1 s1 e b ∧ ∀ (fuel : Nat) (a : α),
      kv_loop (dispatch table) (fuel + 1) p a
        = kv_loop (dispatch table) fuel q (upd a (narrow32 n)) := by
  obtain ⟨q, hq, hl⟩ := kv_pair table key _ hf hkey h (fmt_nat_is_word n hn) hr
  have hg := get_uint32_good hq hn nx
  refine ⟨_, hg.2.2, ?_⟩
  intro fuel a
  rw [hl fuel a]
  simp only [on_u32, hg.2.1, store_opt]

theorem kv_pair_i16 {α : Type}
    (table : List (List Char × (BMFont__Parser → α → BMFont__Parser × α)))
    (key : List Char) (upd : α → Int → α)
    (hf : find_handler table key = some (on_i16 upd)) (hkey : key ≠ ['\n'])
    {p : BMFont__Parser} {rest t1 s1 : List Char} {e b : Bool} {v : Int}
    (h : Good p key ('=' :: (fmt_int v ++ rest)) false b) (h1 : -32768 ≤ v) (h2 : v ≤ 32767)
    (hr : delim_start rest = true) (nx : Next rest t1 s1 e) :
    ∃ q, Good q t1 s1 e b ∧ ∀ (fuel : Nat) (a : α),
      kv_loop (dispatch table) (fuel + 1) p a = kv_loop (dispatch table) fuel q (upd a v) := by
  obtain ⟨q, hq, hl⟩ := kv_pair table key _ hf hkey h (fmt_int_is_word v h1 h2) hr
  have hg := get_int16_good hq h1 h2 nx
  refine ⟨_, hg.2.2, ?_⟩
  intro fuel a
  rw [hl fuel a]
  simp only [on_i16, hg.2.1, store_opt]

theorem kv_pair_copy {α : Type}
    (table : List (List Char × (BMFont__Parser → α → BMFont__Parser × α)))
    (key : List Char) (upd : α → List Char → α)
    (hf : find_handler table key = some (on_copy upd)) (hkey : key ≠ ['\n'])
    {p : BMFont__Parser} {w rest t1 s1 : List Char} {e b : Bool}
    (h : Good p key ('=' :: (w ++ rest)) false b) (hw : is_word w = true)
    (hr : delim_start rest = true) (nx : Next rest t1 s1 e) :
    ∃ q, Good q t1 s1 e b ∧ ∀ (fuel : Nat) (a : α),
      kv_loop (dispatch table) (fuel + 1) p a = kv_loop (dispatch table) fuel q (upd a w) := by
  obtain ⟨q, hq, hl⟩ := kv_pair table key _ hf hkey h hw hr
  have hg := copy_token_good hq nx
  refine ⟨_, hg.2.2, ?_⟩
  intro fuel a
  rw [hl fuel a]
  simp only [on_copy, hg.2.1, store_opt]

theorem kv_pair_quoted {α : Type}
    (table : List (List Char × (BMFont__Parser → α → BMFont__Parser × α)))
    (key : List Char) (upd : α → List Char → α)
    (hf : find_handler table key = some (on_quoted upd)) (hkey : key ≠ ['\n'])
    {p : BMFont__Parser} {f rest t1 s1 : List Char} {e b : Bool}
    (h : Good p key ('=' :: (('"' :: (f ++ ['"'])) ++ rest)) false b)
    (hw : is_word ('"' :: (f ++ ['"'])) = true)
    (hr : delim_start rest = true) (nx : Next rest t1 s1 e) :
    ∃ q, Good q t1 s1 e b ∧ ∀ (fuel : Nat) (a : α),
      kv_loop (dispatch table) (fuel + 1) p a = kv_loop (dispatch table) fuel q (upd a f) := by
  obtain ⟨q, hq, hl⟩ := kv_pair table key _ hf hkey h hw hr
  have hg := copy_quoted_good hq nx
  refine ⟨_, hg.2.2, ?_⟩
  intro fuel a
  rw [hl fuel a]
  simp only [on_quoted, hg.2.1, store_opt]

theorem runs_step {α : Type} {body : BMFont__Parser → α → BMFont__Parser × α}
    {p p1 q : BMFont__Parser} {a a0 a1 : α} {n : Nat}
    (hs : ∀ fuel, kv_loop body (fuel + 1) p a = kv_loop body fuel p1 a0)
    (hr : Runs body p1 a0 n q a1) : Runs body p a (n + 1) q a1 := by
  intro fuel hfuel
  obtain ⟨m, rfl⟩ : ∃ m, fuel = m + 1 := ⟨fuel - 1, by omega⟩
  rw [hs m]
  exact hr m (by omega)

theorem runs_done {α : Type} {body : BMFont__Parser → α → BMFont__Parser × α}
    {p q : BMFont__Parser} {a : α}
    (hs : ∀ fuel, kv_loop body (fuel + 1) p a = (q, a)) : Runs body p a 1 q a := by
  intro fuel hfuel
  obtain ⟨m, rfl⟩ : ∃ m, fuel = m + 1 := ⟨fuel - 1, by omega⟩
  exact hs m

theorem runs_end {α : Type} (body : BMFont__Parser → α → BMFont__Parser × α)
    {p : BMFont__Parser} {s t1 s1 : List Char} {e b : Bool} (h : Good p ['\n'] s false b)
    (n : Next s t1 s1 e) :
    ∃ q, Good q t1 s1 e b ∧ ∀ a : α, Runs body p a 1 q a := by
  obtain ⟨q, hq, hl⟩ := kv_loop_done body h n
  exact ⟨q, hq, fun a => runs_done (fun fuel => hl fuel a)⟩

theorem delim_start_pair (k v rest : List Char) : delim_start (pair k v rest) = true := rfl

theorem delim_start_nl (rest : List Char) : delim_start ('\n' :: rest) = true := rfl

theorem kv_fuel_good {p : BMFont__Parser} {t s : List Char} {e b : Bool} (h : Good p t s e b) :
    kv_fuel p = s.length + 2 := by
  simp [kv_fuel, h.str]

theorem length_pair (k v rest : List Char) :
    (pair k v rest).length = k.length + v.length + rest.length + 2 := by
  simp [pair]; omega

/-- The info line: from the state after the token `info`. -/
theorem info_line {p : BMFont__Parser} {face rest t1 s1 : List Char} {size : Int} {e b : Bool}
    (font : BMFont)
    (h : Good p "info".toList
      (pair "face".toList face (pair "size".toList (fmt_int size) ('\n' :: rest))) false b)
    (hface : is_word face = true) (h1 : -32768 ≤ size) (h2 : size ≤ 32767)
    (nx : Next rest t1 s1 e) :
    ∃ q, Good q t1 s1 e b ∧
      bmfont__parse_info p font
        = (true, q, { font with font_name := some face, font_size := size }) := by
  have he := expect_good h (next_pair_key _ _ _ (by decide))
  obtain ⟨q1, g1, e1⟩ := kv_pair_copy info_table "face".toList _ rfl (by decide) he.2 hface
    (delim_start_pair _ _ _) (next_pair_key _ _ _ (by decide))
  obtain ⟨q2, g2, e2⟩ := kv_pair_i16 info_table "size".toList _ rfl (by decide) g1 h1 h2
    (delim_start_nl _) (next_nl _)
  obtain ⟨q3, g3, e3⟩ := runs_end (dispatch info_table) g2 nx
  refine ⟨q3, g3, ?_⟩
  have hrun := runs_step (fun fuel => e1 fuel font) (runs_step (fun fuel => e2 fuel _) (e3 _))
  have hfuel : 3 ≤ kv_fuel (bmfont__expect_token_and_advance p "info".toList).2 := by
    rw [kv_fuel_good he.2]; simp
  simp only [bmfont__parse_info, he.1, Bool.not_true, Bool.false_eq_true, if_false,
    parse_info_body_eq, hrun _ hfuel, bmfont__parser_ok, g3.ok]

theorem kv_pair_pages {p : BMFont__Parser} {rest t1 s1 : List Char} {e b : Bool} {n : Nat}
    (h : Good p "pages".toList ('=' :: (fmt_nat n ++ rest)) false b) (hn : n ≤ 65535)
    (hr : delim_start rest = true) (nx : Next rest t1 s1 e) :
    ∃ q, Good q t1 s1 e b ∧ ∀ (fuel : Nat) (a : BMFont),
      kv_loop (dispatch common_table) (fuel + 1) p a
        = kv_loop (dispatch common_table) fuel q
            { a with num_pages := n, page_names := some (List.replicate n none) } := by
  obtain ⟨q, hq, hl⟩ := kv_pair common_table "pages".toList on_pages rfl (by decide) h
    (fmt_nat_is_word n (by omega)) hr
  have hg := get_uint16_good hq hn nx
  refine ⟨_, hg.2.2, ?_⟩
  intro fuel a
  rw [hl fuel a]
  simp only [on_pages, hg.2.1, store_opt]

/-- The common line: from the state after the token `common`. -/
theorem common_line {p : BMFont__Parser} {rest t1 s1 : List Char} {a b c d pages : Nat}
    {e o : Bool} (font : BMFont)
    (h : Good p "common".toList
      (pair "lineHeight".toList (fmt_nat a) (pair "base".toList (fmt_nat b)
        (pair "scaleW".toList (fmt_nat c) (pair "scaleH".toList (fmt_nat d)
          (pair "pages".toList (fmt_nat pages) ('\n' :: rest)))))) false o)
    (ha : a ≤ 65535) (hb : b ≤ 65535) (hc : c ≤ 65535) (hd : d ≤ 65535) (hp : pages ≤ 65535)
    (nx : Next rest t1 s1 e) :
    ∃ q, Good q t1 s1 e o ∧
      bmfont__parse_common p font
        = (true, q, { font with line_height := a, base := b, scale_w := c, scale_h := d,
                                num_pages := pages,
                                page_names := some (List.replicate pages none) }) := by
  have he := expect_good h (next_pair_key _ _ _ (by decide))
  obtain ⟨q1, g1, e1⟩ := kv_pair_u16 common_table "lineHeight".toList _ rfl (by decide) he.2 ha
    (delim_start_pair _ _ _) (next_pair_key _ _ _ (by decide))
  obtain ⟨q2, g2, e2⟩ := kv_pair_u16 common_table "base".toList _ rfl (by decide) g1 hb
    (delim_start_pair _ _ _) (next_pair_key _ _ _ (by decide))
  obtain ⟨q3, g3, e3⟩ := kv_pair_u16 common_table "scaleW".toList _ rfl (by decide) g2 hc
    (delim_start_pair _ _ _) (next_pair_key _ _ _ (by decide))
  obtain ⟨q4, g4, e4⟩ := kv_pair_u16 common_table "scaleH".toList _ rfl (by decide) g3 hd
    (delim_start_pair _ _ _) (next_pair_key _ _ _ (by decide))
  obtain ⟨q5, g5, e5⟩ := kv_pair_pages g4 hp (delim_start_nl _) (next_nl _)
  obtain ⟨q6, g6, e6⟩ := runs_end (dispatch common_table) g5 nx
  refine ⟨q6, g6, ?_⟩
  have hrun := runs_step (fun fuel => e1 fuel font) (runs_step (fun fuel => e2 fuel _)
    (runs_step (fun fuel => e3 fuel _) (runs_step (fun fuel => e4 fuel _)
      (runs_step (fun fuel => e5 fuel _) (e6 _)))))
  have hfuel : 6 ≤ kv_fuel (bmfont__expect_token_and_advance p "common".toList).2 := by
    rw [kv_fuel_good he.2]
    simp only [List.length_cons, List.length_append, length_pair]
    omega
  simp only [bmfont__parse_common, he.1, Bool.not_true, Bool.false_eq_true, if_false,
    parse_common_body_eq, hrun _ hfuel, bmfont__parser_ok, g6.ok]

theorem next_pages_ahead {rest t1 s1 : List Char} {e1 : Bool} (nx : Next rest t1 s1 e1)
    (pgs : List PageLine) :
    Next (render_pages pgs rest) (pages_ahead pgs rest t1 s1 e1).1
      (pages_ahead pgs rest t1 s1 e1).2.1 (pages_ahead pgs rest t1 s1 e1).2.2 := by
  cases pgs with
  | nil => exact nx
  | cons pg pgs1 => exact next_word _ _ (by decide) (delim_start_pair _ _ _)

theorem good_set_oob {p : BMFont__Parser} {t s : List Char} {e b : Bool} (h : Good p t s e b) :
    Good { p with oob := true } t s e true := by
  constructor <;> first | exact h.tok | simp [h.ok, h.eof, h.str, h.af, h.fo, h.err]

theorem is_file_name_word {f : List Char} (h : is_file_name f = true) :
    is_word ('"' :: (f ++ ['"'])) = true := by
  simp only [is_file_name, Bool.decide_and, Bool.and_eq_true, decide_eq_true_eq] at h
  exact quoted_is_word f h.2.1 h.2.2

/-- One page record: from the state at its token `page`. -/
theorem page_record {p : BMFont__Parser} {rest t1 s1 : List Char} {e b : Bool} (pg : PageLine)
    (font : BMFont) (names : List (Option (List Char))) (hn : font.page_names = some names)
    (h : Good p "page".toList (page_fields pg rest) false b)
    (hid : pg.id ≤ 4294967295) (hfile : is_file_name pg.file = true)
    (nx : Next rest t1 s1 e) :
    ∃ q, Good q t1 s1 e (b || !decide (narrow32 pg.id < names.length)) ∧ ∀ n i,
      parse_pages_loop (n + 1) i p font
        = parse_pages_loop n (i + 1) q
            { font with page_names := some (page_store names pg) } := by
  have hm := match_good h (next_pair_key _ _ _ (by decide))
  obtain ⟨q1, g1, e1⟩ := kv_pair_u32 page_table "id".toList _ rfl (by decide) hm.2 hid
    (delim_start_pair _ _ _) (next_pair_key _ _ _ (by decide))
  obtain ⟨q2, g2, e2⟩ := kv_pair_quoted page_table "file".toList _ rfl (by decide) g1
    (is_file_name_word hfile) (delim_start_nl _) (next_nl _)
  obtain ⟨q3, g3, e3⟩ := runs_end (dispatch page_table) g2 nx
  have hrun := runs_step (fun fuel => e1 fuel (0, none)) (runs_step (fun fuel => e2 fuel _) (e3 _))
  have hfuel : 3 ≤ kv_fuel (bmfont__match_token_and_advance p "page".toList).2 := by
    rw [kv_fuel_good hm.2]; simp
  by_cases hin : narrow32 pg.id < names.length
  · refine ⟨q3, by simpa [hin] using g3, ?_⟩
    intro n i
    rw [parse_pages_loop]
    simp only [hm.1, Bool.not_true, Bool.false_eq_true, if_false, parse_page_body_eq]
    rw [hrun _ hfuel]
    dsimp only
    have hst : store_page_name q3 font (narrow32 pg.id) pg.file
        = (q3, { font with page_names := some (page_store names pg) }) := by
      unfold store_page_name page_store
      rw [hn]
      simp only [hin, if_true]
    rw [hst]
  · refine ⟨{ q3 with oob := true }, by simpa [hin] using good_set_oob g3, ?_⟩
    intro n i
    rw [parse_pages_loop]
    simp only [hm.1, Bool.not_true, Bool.false_eq_true, if_false, parse_page_body_eq]
    rw [hrun _ hfuel]
    dsimp only
    have hst : store_page_name q3 font (narrow32 pg.id) pg.file
        = ({ q3 with oob := true }, { font with page_names := some (page_store names pg) }) := by
      unfold store_page_name page_store
      rw [hn]
      simp only [hin, if_false]
      cases font
      simp only at hn
      simp only [hn]
    rw [hst]

theorem page_store_length (names : List (Option (List Char))) (pg : PageLine) :
    (page_store names pg).length = names.length := by
  unfold page_store
  split <;> simp

theorem fill_pages_length (pgs : List PageLine) :
    ∀ names : List (Option (List Char)), (fill_pages names pgs).length = names.length := by
  induction pgs with
  | nil => intro names; rfl
  | cons pg pgs ih =>
    intro names
    simp only [fill_pages]
    rw [ih, page_store_length]

/-- A list of page records: from the state at the first token of the list. -/
theorem pages_loop_records {rest t1 s1 : List Char} {e1 : Bool} (nx : Next rest t1 s1 e1) :
    ∀ (pgs : List PageLine), (∀ pg ∈ pgs, pg.id ≤ 4294967295 ∧ is_file_name pg.file = true) →
    ∀ (p : BMFont__Parser) (font : BMFont) (names : List (Option (List Char))) (b : Bool),
      font.page_names = some names →
      Good p (pages_ahead pgs rest t1 s1 e1).1 (pages_ahead pgs rest t1 s1 e1).2.1
        (pages_ahead pgs rest t1 s1 e1).2.2 b →
      ∃ q, Good q t1 s1 e1 (b || pages_oob names.length pgs) ∧ ∀ n i,
        parse_pages_loop (pgs.length + n) i p font
          = parse_pages_loop n (i + pgs.length) q
              { font with page_names := some (fill_pages names pgs) } := by
  intro pgs
  induction pgs with
  | nil =>
    intro _ p font names b hn h
    refine ⟨p, by simpa [pages_oob] using h, ?_⟩
    intro n i
    cases font
    simp only at hn
    simp [fill_pages, hn]
  | cons pg pgs ih =>
    intro hall p font names b hn h
    have hpg := hall pg (by simp)
    obtain ⟨q, gq, eq1⟩ := page_record pg font names hn h hpg.1 hpg.2
      (next_pages_ahead nx pgs)
    obtain ⟨q2, gq2, eq2⟩ := ih (fun x hx => hall x (List.mem_cons_of_mem _ hx)) q
      { font with page_names := some (page_store names pg) } _ _ rfl gq
    refine ⟨q2, ?_, ?_⟩
    · rw [page_store_length] at gq2
      simpa [pages_oob, Bool.or_assoc] using gq2
    · intro n i
      have : (pg :: pgs).length + n = (pgs.length + n) + 1 := by simp; omega
      rw [this, eq1, eq2]
      simp only [fill_pages, List.length_cons]
      congr 1
      omega

/-- The pages section of a document that supplies as many page lines as the
font declares. -/
theorem pages_section {rest t1 s1 : List Char} {e1 : Bool} (nx : Next rest t1 s1 e1)
    (pgs : List PageLine) (hall : ∀ pg ∈ pgs, pg.id ≤ 4294967295 ∧ is_file_name pg.file = true)
    (p : BMFont__Parser) (font : BMFont) (names : List (Option (List Char))) (b : Bool)
    (hn : font.page_names = some names) (hnum : font.num_pages = pgs.length)
    (h : Good p (pages_ahead pgs rest t1 s1 e1).1 (pages_ahead pgs rest t1 s1 e1).2.1
        (pages_ahead pgs rest t1 s1 e1).2.2 b) :
    ∃ q, Good q t1 s1 e1 (b || pages_oob names.length pgs) ∧ q.pages_read = pgs.length ∧
      bmfont__parse_pages p font
        = (true, q, { font with page_names := some (fill_pages names pgs) }) := by
  obtain ⟨q, gq, hl⟩ := pages_loop_records nx pgs hall p font names b hn h
  refine ⟨{ q with pages_read := pgs.length }, ?_, rfl, ?_⟩
  · constructor <;> first | exact gq.tok | simp [gq.ok, gq.eof, gq.str, gq.oob, gq.af, gq.fo, gq.err]
  · have := hl 0 0
    simp only [Nat.add_zero, Nat.zero_add] at this
    simp only [bmfont__parse_pages, hnum, this, parse_pages_loop, Bool.false_eq_true, if_false,
      ne_eq, not_true_eq_false, bmfont__parser_ok, gq.ok]

theorem next_chars_ahead {rest t1 s1 : List Char} {e1 : Bool} (nx : Next rest t1 s1 e1)
    (cs : List CharLine) :
    Next (render_chars cs rest) (chars_ahead cs rest t1 s1 e1).1
      (chars_ahead cs rest t1 s1 e1).2.1 (chars_ahead cs rest t1 s1 e1).2.2 := by
  cases cs with
  | nil => exact nx
  | cons c cs1 => exact next_word _ _ (by decide) (delim_start_pair _ _ _)

theorem next_kernings_ahead {rest t1 s1 : List Char} {e1 : Bool} (nx : Next rest t1 s1 e1)
    (ks : List KerningLine) :
    Next (render_kernings ks rest) (kernings_ahead ks rest t1 s1 e1).1
      (kernings_ahead ks rest t1 s1 e1).2.1 (kernings_ahead ks rest t1 s1 e1).2.2 := by
  cases ks with
  | nil => exact nx
  | cons k ks1 => exact next_word _ _ (by decide) (delim_start_pair _ _ _)

/-- The key/value loop of one char record: from the state after its token `char`. -/
theorem char_record_loop {p : BMFont__Parser} {rest t1 s1 : List Char} {e b : Bool}
    (c : CharLine) (g : BMFont_Char)
    (h : Good p "id".toList ('=' :: (fmt_nat c.id ++ pair "x".toList (fmt_nat c.x)
      (pair "y".toList (fmt_nat c.y) (pair "width".toList (fmt_nat c.width)
        (pair "height".toList (fmt_nat c.height) (pair "xoffset".toList (fmt_nat c.xoffset)
          (pair "yoffset".toList (fmt_nat c.yoffset)
            (pair "xadvance".toList (fmt_nat c.xadvance) ('\n' :: rest))))))))) false b)
    (hc : c.in_range) (nx : Next rest t1 s1 e) :
    ∃ q, Good q t1 s1 e b ∧
      kv_loop parse_char_body (kv_fuel p) p g = (q, apply_char g c) := by
  obtain ⟨h1, h2, h3, h4, h5, h6, h7, h8⟩ := hc
  obtain ⟨q1, g1, e1⟩ := kv_pair_u32 char_table "id".toList _ rfl (by decide) h h1
    (delim_start_pair _ _ _) (next_pair_key _ _ _ (by decide))
  obtain ⟨q2, g2, e2⟩ := kv_pair_u16 char_table "x".toList _ rfl (by decide) g1 h2
    (delim_start_pair _ _ _) (next_pair_key _ _ _ (by decide))
  obtain ⟨q3, g3, e3⟩ := kv_pair_u16 char_table "y".toList _ rfl (by decide) g2 h3
    (delim_start_pair _ _ _) (next_pair_key _ _ _ (by decide))
  obtain ⟨q4, g4, e4⟩ := kv_pair_u16 char_table "width".toList _ rfl (by decide) g3 h4
    (delim_start_pair _ _ _) (next_pair_key _ _ _ (by decide))
  obtain ⟨q5, g5, e5⟩ := kv_pair_u16 char_table "height".toList _ rfl (by decide) g4 h5
    (delim_start_pair _ _ _) (next_pair_key _ _ _ (by decide))
  obtain ⟨q6, g6, e6⟩ := kv_pair_u16 char_table "xoffset".toList _ rfl (by decide) g5 h6
    (delim_start_pair _ _ _) (next_pair_key _ _ _ (by decide))
  obtain ⟨q7, g7, e7⟩ := kv_pair_u16 char_table "yoffset".toList _ rfl (by decide) g6 h7
    (delim_start_pair _ _ _) (next_pair_key _ _ _ (by decide))
  obtain ⟨q8, g8, e8⟩ := kv_pair_u16 char_table "xadvance".toList _ rfl (by decide) g7 h8
    (delim_start_nl _) (next_nl _)
  obtain ⟨q9, g9, e9⟩ := runs_end (dispatch char_table) g8 nx
  refine ⟨q9, g9, ?_⟩
  have hrun := runs_step (fun fuel => e1 fuel g) (runs_step (fun fuel => e2 fuel _)
    (runs_step (fun fuel => e3 fuel _) (runs_step (fun fuel => e4 fuel _)
      (runs_step (fun fuel => e5 fuel _) (runs_step (fun fuel => e6 fuel _)
        (runs_step (fun fuel => e7 fuel _) (runs_step (fun fuel => e8 fuel _) (e9 _))))))))
  have hfuel : 9 ≤ kv_fuel p := by
    rw [kv_fuel_good h]
    simp only [List.length_cons, List.length_append, length_pair]
    omega
  rw [parse_char_body_eq, hrun _ hfuel]
  cases g
  simp only [apply_char]

/-- One char record: from the state at its token `char`. -/
theorem char_record {p : BMFont__Parser} {rest t1 s1 : List Char} {e b : Bool} (c : CharLine)
    (font : BMFont) (gl : List BMFont_Char) (i : Nat) (hg : font.chars = some gl)
    (hi : i < gl.length)
    (h : Good p "char".toList (char_fields c rest) false b)
    (hc : c.in_range) (nx : Next rest t1 s1 e) :
    ∃ q, Good q t1 s1 e b ∧ ∀ n,
      parse_chars_loop (n + 1) i p font
        = parse_chars_loop n (i + 1) q
            { font with chars := some (gl.set i (apply_char (gl.getD i default) c)) } := by
  have hm := match_good h (next_pair_key _ _ _ (by decide))
  obtain ⟨q, gq, hl⟩ := char_record_loop c (gl.getD i default) hm.2 hc nx
  refine ⟨q, gq, ?_⟩
  intro n
  rw [parse_chars_loop]
  simp only [hm.1, Bool.not_true, Bool.false_eq_true, if_false, hg, hi, if_true, hl]

theorem fill_chars_length (cs : List CharLine) :
    ∀ (gl : List BMFont_Char) (i : Nat), (fill_chars gl i cs).length = gl.length := by
  induction cs with
  | nil => intro gl i; rfl
  | cons c cs ih => intro gl i; simp only [fill_chars]; rw [ih]; simp

/-- A list of char records: from the state at the first token of the list. -/
theorem chars_loop_records {rest t1 s1 : List Char} {e1 : Bool} (nx : Next rest t1 s1 e1) :
    ∀ (cs : List CharLine), (∀ c ∈ cs, c.in_range) →
    ∀ (p : BMFont__Parser) (font : BMFont) (gl : List BMFont_Char) (i : Nat) (b : Bool),
      font.chars = some gl → i + cs.length ≤ gl.length →
      Good p (chars_ahead cs rest t1 s1 e1).1 (chars_ahead cs rest t1 s1 e1).2.1
        (chars_ahead cs rest t1 s1 e1).2.2 b →
      ∃ q, Good q t1 s1 e1 b ∧ ∀ n,
        parse_chars_loop (cs.length + n) i p font
          = parse_chars_loop n (i + cs.length) q
              { font with chars := some (fill_chars gl i cs) } := by
  intro cs
  induction cs with
  | nil =>
    intro _ p font gl i b hg _ h
    refine ⟨p, h, ?_⟩
    intro n
    cases font
    simp only at hg
    simp [fill_chars, hg]
  | cons c cs ih =>
    intro hall p font gl i b hg hi h
    simp only [List.length_cons] at hi
    obtain ⟨q, gq, eq1⟩ := char_record c font gl i hg (by omega) h (hall c (by simp))
      (next_chars_ahead nx cs)
    obtain ⟨q2, gq2, eq2⟩ := ih (fun x hx => hall x (List.mem_cons_of_mem _ hx)) q
      { font with chars := some (gl.set i (apply_char (gl.getD i default) c)) } _ (i + 1) b rfl
      (by simp only [List.length_set]; omega) gq
    refine ⟨q2, gq2, ?_⟩
    intro n
    have : (c :: cs).length + n = (cs.length + n) + 1 := by simp; omega
    rw [this, eq1, eq2]
    simp only [fill_chars, List.length_cons]
    congr 1
    omega

/-- The key/value loop of one kerning record: from the state after its token
`kerning`. -/
theorem kerning_record_loop {p : BMFont__Parser} {rest t1 s1 : List Char} {e b : Bool}
    (k : KerningLine) (g : BMFont_Kerning)
    (h : Good p "first".toList ('=' :: (fmt_nat k.first ++ pair "second".toList
      (fmt_nat k.second) (pair "amount".toList (fmt_int k.amount) ('\n' :: rest)))) false b)
    (hk : k.in_range) (nx : Next rest t1 s1 e) :
    ∃ q, Good q t1 s1 e b ∧
      kv_loop parse_kerning_body (kv_fuel p) p g = (q, apply_kerning g k) := by
  obtain ⟨h1, h2, h3, h4⟩ := hk
  obtain ⟨q1, g1, e1⟩ := kv_pair_u32 kerning_table "first".toList _ rfl (by decide) h h1
    (delim_start_pair _ _ _) (next_pair_key _ _ _ (by decide))
  obtain ⟨q2, g2, e2⟩ := kv_pair_u32 kerning_table "second".toList _ rfl (by decide) g1 h2
    (delim_start_pair _ _ _) (next_pair_key _ _ _ (by decide))
  obtain ⟨q3, g3, e3⟩ := kv_pair_i16 kerning_table "amount".toList _ rfl (by decide) g2 h3 h4
    (delim_start_nl _) (next_nl _)
  obtain ⟨q4, g4, e4⟩ := runs_end (dispatch kerning_table) g3 nx
  refine ⟨q4, g4, ?_⟩
  have hrun := runs_step (fun fuel => e1 fuel g) (runs_step (fun fuel => e2 fuel _)
    (runs_step (fun fuel => e3 fuel _) (e4 _)))
  have hfuel : 4 ≤ kv_fuel p := by
    rw [kv_fuel_good h]
    simp only [List.length_cons, List.length_append, length_pair]
    omega
  rw [parse_kerning_body_eq, hrun _ hfuel]
  cases g
  simp only [apply_kerning]

/-- One kerning record: from the state at its token `kerning`. -/
theorem kerning_record {p : BMFont__Parser} {rest t1 s1 : List Char} {e b : Bool}
    (k : KerningLine) (font : BMFont) (gl : List BMFont_Kerning) (i : Nat)
    (hg : font.kernings = some gl) (hi : i < gl.length)
    (h : Good p "kerning".toList (kerning_fields k rest) false b)
    (hk : k.in_range) (nx : Next rest t1 s1 e) :
    ∃ q, Good q t1 s1 e b ∧ ∀ n,
      parse_kernings_loop (n + 1) i p font
        = parse_kernings_loop n (i + 1) q
            { font with kernings := some (gl.set i (apply_kerning (gl.getD i default) k)) } := by
  have hm := match_good h (next_pair_key _ _ _ (by decide))
  obtain ⟨q, gq, hl⟩ := kerning_record_loop k (gl.getD i default) hm.2 hk nx
  refine ⟨q, gq, ?_⟩
  intro n
  rw [parse_kernings_loop]
  simp only [hm.1, Bool.not_true, Bool.false_eq_true, if_false, hg, hi, if_true, hl]

theorem fill_kernings_length (ks : List KerningLine) :
    ∀ (gl : List BMFont_Kerning) (i : Nat), (fill_kernings gl i ks).length = gl.length := by
  induction ks with
  | nil => intro gl i; rfl
  | cons c cs ih => intro gl i; simp only [fill_kernings]; rw [ih]; simp

/-- A list of kerning records: from the state at the first token of the list. -/
theorem kernings_loop_records {rest t1 s1 : List Char} {e1 : Bool} (nx : Next rest t1 s1 e1) :
    ∀ (ks : List KerningLine), (∀ k ∈ ks, k.in_range) →
    ∀ (p : BMFont__Parser) (font : BMFont) (gl : List BMFont_Kerning) (i : Nat) (b : Bool),
      font.kernings = some gl → i + ks.length ≤ gl.length →
      Good p (kernings_ahead ks rest t1 s1 e1).1 (kernings_ahead ks rest t1 s1 e1).2.1
        (kernings_ahead ks rest t1 s1 e1).2.2 b →
      ∃ q, Good q t1 s1 e1 b ∧ ∀ n,
        parse_kernings_loop (ks.length + n) i p font
          = parse_kernings_loop n (i + ks.length) q
              { font with kernings := some (fill_kernings gl i ks) } := by
  intro ks
  induction ks with
  | nil =>
    intro _ p font gl i b hg _ h
    refine ⟨p, h, ?_⟩
    intro n
    cases font
    simp only at hg
    simp [fill_kernings, hg]
  | cons c cs ih =>
    intro hall p font gl i b hg hi h
    simp only [List.length_cons] at hi
    obtain ⟨q, gq, eq1⟩ := kerning_record c font gl i hg (by omega) h (hall c (by simp))
      (next_kernings_ahead nx cs)
    obtain ⟨q2, gq2, eq2⟩ := ih (fun x hx => hall x (List.mem_cons_of_mem _ hx)) q
      { font with kernings := some (gl.set i (apply_kerning (gl.getD i default) c)) } _ (i + 1) b
      rfl (by simp only [List.length_set]; omega) gq
    refine ⟨q2, gq2, ?_⟩
    intro n
    have : (c :: cs).length + n = (cs.length + n) + 1 := by simp; omega
    rw [this, eq1, eq2]
    simp only [fill_kernings, List.length_cons]
    congr 1
    omega

theorem kv_pair_chars_count {p : BMFont__Parser} {rest t1 s1 : List Char} {e b : Bool} {n : Nat}
    (h : Good p "count".toList ('=' :: (fmt_nat n ++ rest)) false b) (hn : n ≤ 65535)
    (hr : delim_start rest = true) (nx : Next rest t1 s1 e) :
    ∃ q, Good q t1 s1 e b ∧ ∀ (fuel : Nat) (a : BMFont),
      kv_loop (dispatch chars_count_table) (fuel + 1) p a
        = kv_loop (dispatch chars_count_table) fuel q
            { a with num_chars := n, chars := some (List.replicate n default) } := by
  obtain ⟨q, hq, hl⟩ := kv_pair chars_count_table "count".toList on_chars_count rfl (by decide) h
    (fmt_nat_is_word n (by omega)) hr
  have hg := get_uint16_good hq hn nx
  refine ⟨_, hg.2.2, ?_⟩
  intro fuel a
  rw [hl fuel a]
  simp only [on_chars_count, hg.1, hg.2.1, store_opt, if_true]

theorem kv_pair_kernings_count {p : BMFont__Parser} {rest t1 s1 : List Char} {e b : Bool}
    {n : Nat}
    (h : Good p "count".toList ('=' :: (fmt_nat n ++ rest)) false b) (hn : n ≤ 65535)
    (hr : delim_start rest = true) (nx : Next rest t1 s1 e) :
    ∃ q, Good q t1 s1 e b ∧ ∀ (fuel : Nat) (a : BMFont),
      kv_loop (dispatch kernings_count_table) (fuel + 1) p a
        = kv_loop (dispatch kernings_count_table) fuel q
            { a with num_kernings := n, kernings := some (List.replicate n default) } := by
  obtain ⟨q, hq, hl⟩ := kv_pair kernings_count_table "count".toList on_kernings_count rfl
    (by decide) h (fmt_nat_is_word n (by omega)) hr
  have hg := get_uint16_good hq hn nx
  refine ⟨_, hg.2.2, ?_⟩
  intro fuel a
  rw [hl fuel a]
  simp only [on_kernings_count, hg.1, hg.2.1, store_opt, if_true]

/-- The chars line and the records that follow it: `bmfont__parse_chars` up to
the point where its record loop has read the given char lines. -/
theorem chars_section_prefix {rest t1 s1 : List Char} {e1 : Bool} (nx : Next rest t1 s1 e1)
    (cs : List CharLine) (hall : ∀ c ∈ cs, c.in_range) (count m : Nat)
    (hcount : count = cs.length + m) (hc : count ≤ 65535)
    (p : BMFont__Parser) (font : BMFont) (b : Bool)
    (h : Good p "chars".toList
      (pair "count".toList (fmt_nat count) ('\n' :: render_chars cs rest)) false b) :
    ∃ q, Good q t1 s1 e1 b ∧
      bmfont__parse_chars p font
        = (let r := parse_chars_loop m cs.length q
              { font with num_chars := count,
                          chars := some (fill_chars (List.replicate count default) 0 cs) }
           let p1 := { r.2.1 with chars_read := r.1 }
           let p2 := if r.1 ≠ r.2.2.num_chars then
               bmfont__set_parser_error p1 (msg_fewer "chars".toList r.2.2.num_chars r.1)
             else p1
           (bmfont__parser_ok p2, p2, r.2.2)) := by
  subst hcount
  have he := expect_good h (next_pair_key _ _ _ (by decide))
  obtain ⟨q1, g1, e1⟩ := kv_pair_chars_count he.2 hc (delim_start_nl _) (next_nl _)
  obtain ⟨q2, g2, e2⟩ := runs_end (dispatch chars_count_table) g1 (next_chars_ahead nx cs)
  have hrun := runs_step (fun fuel => e1 fuel font) (e2 _)
  have hfuel : 2 ≤ kv_fuel (bmfont__expect_token_and_advance p "chars".toList).2 := by
    rw [kv_fuel_good he.2]; simp
  obtain ⟨q3, g3, e3⟩ := chars_loop_records nx cs hall q2
    { font with num_chars := cs.length + m, chars := some (List.replicate (cs.length + m) default) }
    (List.replicate _ default) 0 b rfl (by simp) g2
  refine ⟨q3, g3, ?_⟩
  simp only [bmfont__parse_chars, he.1, Bool.not_true, Bool.false_eq_true, if_false,
    parse_chars_count_body_eq, hrun _ hfuel]
  have h4 := e3 m
  simp only [Nat.zero_add] at h4
  rw [h4]

/-- The kernings line and the records that follow it: `bmfont__parse_kernings`
up to the point where its record loop has read the given kerning lines. -/
theorem kernings_section_prefix {rest t1 s1 : List Char} {e1 : Bool} (nx : Next rest t1 s1 e1)
    (ks : List KerningLine) (hall : ∀ k ∈ ks, k.in_range) (count m : Nat)
    (hcount : count = ks.length + m) (hc : count ≤ 65535)
    (p : BMFont__Parser) (font : BMFont) (b : Bool)
    (h : Good p "kernings".toList
      (pair "count".toList (fmt_nat count) ('\n' :: render_kernings ks rest)) false b) :
    ∃ q, Good q t1 s1 e1 b ∧
      bmfont__parse_kernings p font
        = (let r := parse_kernings_loop m ks.length q
              { font with num_kernings := count,
                          kernings := some (fill_kernings (List.replicate count default) 0 ks) }
           let p1 := { r.2.1 with kernings_read := r.1 }
           let p2 := if r.1 ≠ r.2.2.num_kernings then
               bmfont__set_parser_error p1 (msg_fewer "kernings".toList r.2.2.num_kernings r.1)
             else p1
           (bmfont__parser_ok p2, p2, r.2.2)) := by
  subst hcount
  have he := expect_good h (next_pair_key _ _ _ (by decide))
  obtain ⟨q1, g1, e1⟩ := kv_pair_kernings_count he.2 hc (delim_start_nl _) (next_nl _)
  obtain ⟨q2, g2, e2⟩ := runs_end (dispatch kernings_count_table) g1 (next_kernings_ahead nx ks)
  have hrun := runs_step (fun fuel => e1 fuel font) (e2 _)
  have hfuel : 2 ≤ kv_fuel (bmfont__expect_token_and_advance p "kernings".toList).2 := by
    rw [kv_fuel_good he.2]; simp
  obtain ⟨q3, g3, e3⟩ := kernings_loop_records nx ks hall q2
    { font with num_kernings := ks.length + m,
                kernings := some (List.replicate (ks.length + m) default) }
    (List.replicate _ default) 0 b rfl (by simp) g2
  refine ⟨q3, g3, ?_⟩
  simp only [bmfont__parse_kernings, good_ready h, Bool.not_true, Bool.false_eq_true, if_false,
    parse_kernings_count_body_eq, hrun _ hfuel]
  have h4 := e3 m
  simp only [Nat.zero_add] at h4
  rw [h4]

theorem fill_chars_replicate (cs : List CharLine) :
    ∀ (pre : List BMFont_Char) (k : Nat), cs.length ≤ k →
      fill_chars (pre ++ List.replicate k default) pre.length cs
        = pre ++ cs.map (apply_char default) ++ List.replicate (k - cs.length) default := by
  induction cs with
  | nil => intro pre k _; simp [fill_chars]
  | cons c cs ih =>
    intro pre k hk
    simp only [List.length_cons] at hk
    obtain ⟨k1, rfl⟩ : ∃ k1, k = k1 + 1 := ⟨k - 1, by omega⟩
    have hget : (pre ++ List.replicate (k1 + 1) default).getD pre.length (default : BMFont_Char)
        = default := by
      rw [List.getD_eq_getElem?_getD, List.getElem?_append_right (le_refl _)]
      simp [List.replicate_succ]
    have hset : (pre ++ List.replicate (k1 + 1) default).set pre.length
        (apply_char default c) = (pre ++ [apply_char default c]) ++ List.replicate k1 default := by
      simp [List.replicate_succ, List.set_append_right]
    simp only [fill_chars, hget, hset]
    have := ih (pre ++ [apply_char default c]) k1 (by omega)
    simp only [List.length_append, List.length_singleton] at this
    rw [this]
    simp

theorem fill_chars_exact (cs : List CharLine) :
    fill_chars (List.replicate cs.length default) 0 cs = cs.map (apply_char default) := by
  have := fill_chars_replicate cs [] cs.length (le_refl _)
  simpa using this

theorem fill_kernings_replicate (ks : List KerningLine) :
    ∀ (pre : List BMFont_Kerning) (k : Nat), ks.length ≤ k →
      fill_kernings (pre ++ List.replicate k default) pre.length ks
        = pre ++ ks.map (apply_kerning default) ++ List.replicate (k - ks.length) default := by
  induction ks with
  | nil => intro pre k _; simp [fill_kernings]
  | cons c cs ih =>
    intro pre k hk
    simp only [List.length_cons] at hk
    obtain ⟨k1, rfl⟩ : ∃ k1, k = k1 + 1 := ⟨k - 1, by omega⟩
    have hget : (pre ++ List.replicate (k1 + 1) default).getD pre.length
        (default : BMFont_Kerning) = default := by
      rw [List.getD_eq_getElem?_getD, List.getElem?_append_right (le_refl _)]
      simp [List.replicate_succ]
    have hset : (pre ++ List.replicate (k1 + 1) default).set pre.length
        (apply_kerning default c)
          = (pre ++ [apply_kerning default c]) ++ List.replicate k1 default := by
      simp [List.replicate_succ, List.set_append_right]
    simp only [fill_kernings, hget, hset]
    have := ih (pre ++ [apply_kerning default c]) k1 (by omega)
    simp only [List.length_append, List.length_singleton] at this
    rw [this]
    simp

theorem fill_kernings_exact (ks : List KerningLine) :
    fill_kernings (List.replicate ks.length default) 0 ks = ks.map (apply_kerning default) := by
  have := fill_kernings_replicate ks [] ks.length (le_refl _)
  simpa using this

theorem good_initial (input : List Char) : Good (parser_at_start input) [] input false false := by
  constructor <;> simp [parser_at_start]

theorem good_set_chars_read {p : BMFont__Parser} {t s : List Char} {e b : Bool}
    (h : Good p t s e b) (n : Nat) : Good { p with chars_read := n } t s e b := by
  constructor <;> first | exact h.tok | simp [h.ok, h.eof, h.str, h.oob, h.af, h.fo, h.err]

theorem good_set_kernings_read {p : BMFont__Parser} {t s : List Char} {e b : Bool}
    (h : Good p t s e b) (n : Nat) : Good { p with kernings_read := n } t s e b := by
  constructor <;> first | exact h.tok | simp [h.ok, h.eof, h.str, h.oob, h.af, h.fo, h.err]

/-- The chars section of a document that supplies as many char lines as it
declares. -/
theorem chars_section {rest t1 s1 : List Char} {e1 : Bool} (nx : Next rest t1 s1 e1)
    (cs : List CharLine) (hall : ∀ c ∈ cs, c.in_range) (hc : cs.length ≤ 65535)
    (p : BMFont__Parser) (font : BMFont) (b : Bool)
    (h : Good p "chars".toList
      (pair "count".toList (fmt_nat cs.length) ('\n' :: render_chars cs rest)) false b) :
    ∃ q, Good q t1 s1 e1 b ∧ q.chars_read = cs.length ∧
      bmfont__parse_chars p font
        = (true, q, { font with num_chars := cs.length,
                                chars := some (cs.map (apply_char default)) }) := by
  obtain ⟨q, gq, hl⟩ := chars_section_prefix nx cs hall cs.length 0 rfl hc p font b h
  refine ⟨_, good_set_chars_read gq cs.length, rfl, ?_⟩
  rw [hl]
  simp only [parse_chars_loop, ne_eq, not_true_eq_false, if_false, bmfont__parser_ok, gq.ok,
    fill_chars_exact]

/-- The kernings section of a document that supplies as many kerning lines as
it declares. -/
theorem kernings_section {rest t1 s1 : List Char} {e1 : Bool} (nx : Next rest t1 s1 e1)
    (ks : List KerningLine) (hall : ∀ k ∈ ks, k.in_range) (hc : ks.length ≤ 65535)
    (p : BMFont__Parser) (font : BMFont) (b : Bool)
    (h : Good p "kernings".toList
      (pair "count".toList (fmt_nat ks.length) ('\n' :: render_kernings ks rest)) false b) :
    ∃ q, Good q t1 s1 e1 b ∧ q.kernings_read = ks.length ∧
      bmfont__parse_kernings p font
        = (true, q, { font with num_kernings := ks.length,
                                kernings := some (ks.map (apply_kerning default)) }) := by
  obtain ⟨q, gq, hl⟩ := kernings_section_prefix nx ks hall ks.length 0 rfl hc p font b h
  refine ⟨_, good_set_kernings_read gq ks.length, rfl, ?_⟩
  rw [hl]
  simp only [parse_kernings_loop, ne_eq, not_true_eq_false, if_false, bmfont__parser_ok, gq.ok,
    fill_kernings_exact]

/-- The first four sections of a document whose kernings section, or whatever
else follows the char lines, is the stream `rest`. -/
theorem first_four_sections {rest t1 s1 : List Char} {e1 : Bool} (nx : Next rest t1 s1 e1)
    (d : Doc) (hd : d.well_formed) :
    ∃ p0 q1 q2 q3 q4 f1 f2 f3,
      p0 = (bmfont__load_next_token (parser_at_start
        (render_info d.face d.size
          (render_common d.lineHeight d.base d.scaleW d.scaleH d.pages.length
            (render_pages d.pages
              (render_chars_header d.chars.length (render_chars d.chars rest))))))).2 ∧
      bmfont__parse_info p0 empty_font = (true, q1, f1) ∧
      bmfont__parse_common q1 f1 = (true, q2, f2) ∧
      bmfont__parse_pages q2 f2 = (true, q3, f3) ∧
      bmfont__parse_chars q3 f3 = (true, q4, { parsed_font d with
        kernings := none, num_kernings := 0 }) ∧
      Good q4 t1 s1 e1 (pages_oob d.pages.length d.pages) := by
  have g0 := good_initial (render_info d.face d.size
    (render_common d.lineHeight d.base d.scaleW d.scaleH d.pages.length
      (render_pages d.pages (render_chars_header d.chars.length (render_chars d.chars rest)))))
  have n0 : Next (render_info d.face d.size
    (render_common d.lineHeight d.base d.scaleW d.scaleH d.pages.length
      (render_pages d.pages (render_chars_header d.chars.length (render_chars d.chars rest)))))
      "info".toList _ false := next_word "info".toList _ (by decide) (delim_start_pair _ _ _)
  have h0 := (n0 _ _ _ g0).2
  have n1 : Next (render_common d.lineHeight d.base d.scaleW d.scaleH d.pages.length
      (render_pages d.pages (render_chars_header d.chars.length (render_chars d.chars rest))))
      "common".toList _ false := next_word "common".toList _ (by decide) (delim_start_pair _ _ _)
  obtain ⟨q1, g1, e1⟩ := info_line empty_font h0 hd.face hd.size_lo hd.size_hi n1
  have n3 : Next (render_chars_header d.chars.length (render_chars d.chars rest))
      "chars".toList _ false := next_word "chars".toList _ (by decide) (delim_start_pair _ _ _)
  obtain ⟨q2, g2, e2⟩ := common_line _ g1 hd.lineHeight hd.base hd.scaleW hd.scaleH
    hd.pages_count (next_pages_ahead n3 d.pages)
  have hids : ∀ pg ∈ d.pages, pg.id ≤ 4294967295 ∧ is_file_name pg.file = true := by
    intro pg hpg
    have h1 := hd.page_ids pg hpg
    have h2 := hd.pages_count
    exact ⟨by omega, hd.page_files pg hpg⟩
  obtain ⟨q3, g3, _, e3⟩ := pages_section n3 d.pages hids q2
    { ({ empty_font with font_name := some d.face, font_size := d.size } : BMFont) with
      line_height := d.lineHeight, base := d.base, scale_w := d.scaleW, scale_h := d.scaleH,
      num_pages := d.pages.length, page_names := some (List.replicate d.pages.length none) }
    (List.replicate d.pages.length none) false rfl rfl g2
  obtain ⟨q4, g4, _, e4⟩ := chars_section nx d.chars hd.chars hd.chars_count q3 _ _ g3
  refine ⟨_, q1, q2, q3, q4, _, _, _, rfl, e1, e2, e3, ?_, ?_⟩
  · rw [e4]; rfl
  · simpa using g4

theorem parse_sections_eq {p0 q1 q2 q3 q4 q5 : BMFont__Parser} {f0 f1 f2 f3 f4 f5 : BMFont}
    {flag : Bool}
    (e1 : bmfont__parse_info p0 f0 = (true, q1, f1))
    (e2 : bmfont__parse_common q1 f1 = (true, q2, f2))
    (e3 : bmfont__parse_pages q2 f2 = (true, q3, f3))
    (e4 : bmfont__parse_chars q3 f3 = (true, q4, f4))
    (e5 : bmfont__parse_kernings q4 f4 = (flag, q5, f5)) :
    parse_sections p0 f0 = (flag, q5, f5) := by
  simp only [parse_sections, e1, e2, e3, e4, e5, Bool.not_true, Bool.false_eq_true, if_false]

theorem parse_file_eq (input : List Char) {flag : Bool} {q : BMFont__Parser} {f : BMFont}
    (hs : parse_sections (bmfont__load_next_token (parser_at_start input)).2 empty_font
      = (flag, q, f)) (hok : q.ok = true) (heof : q.eof = true) :
    bmfont_parse_file input = { returned := some f, parser := q, built := f } := by
  simp only [bmfont_parse_file, hs, bmfont__parser_ok, hok, heof, Bool.not_true,
    Bool.false_eq_true, if_false]

/-- The run of `bmfont_parse_file` on a well-formed document. -/
theorem parse_well_formed (d : Doc) (hd : d.well_formed) :
    ∃ q, bmfont_parse_file (render d)
        = { returned := some (parsed_font d), parser := q, built := parsed_font d } ∧
      Good q [] [] true (pages_oob d.pages.length d.pages) := by
  cases hk : d.kernings with
  | none =>
    obtain ⟨p0, q1, q2, q3, q4, f1, f2, f3, hp0, e1, e2, e3, e4, g4⟩ :=
      first_four_sections (next_eof []) d hd
    refine ⟨q4, ?_, g4⟩
    have hr : render d = render_info d.face d.size
        (render_common d.lineHeight d.base d.scaleW d.scaleH d.pages.length
          (render_pages d.pages (render_chars_header d.chars.length (render_chars d.chars [])))) := by
      simp only [render, hk, render_kernings_section]
    have hf : ({ ({ parsed_font d with kernings := none, num_kernings := 0 } : BMFont) with
        kernings := some [] } : BMFont) = parsed_font d := by
      simp [parsed_font, hk]
    have e5 : bmfont__parse_kernings q4
        { parsed_font d with kernings := none, num_kernings := 0 }
        = (false, q4, parsed_font d) := by
      simp only [bmfont__parse_kernings, good_eof_not_ready g4, Bool.not_false, if_true, hf]
    subst hp0
    rw [hr]
    exact parse_file_eq _ (parse_sections_eq e1 e2 e3 e4 e5) g4.ok g4.eof
  | some ks =>
    have nk : Next (render_kernings_header ks.length (render_kernings ks []))
        "kernings".toList _ false :=
      next_word "kernings".toList _ (by decide) (delim_start_pair _ _ _)
    obtain ⟨p0, q1, q2, q3, q4, f1, f2, f3, hp0, e1, e2, e3, e4, g4⟩ :=
      first_four_sections nk d hd
    obtain ⟨q5, g5, _, e5⟩ := kernings_section (next_eof []) ks (hd.kernings ks hk)
      (hd.kernings_count ks hk) q4 { parsed_font d with kernings := none, num_kernings := 0 } _ g4
    refine ⟨q5, ?_, g5⟩
    have hr : render d = render_info d.face d.size
        (render_common d.lineHeight d.base d.scaleW d.scaleH d.pages.length
          (render_pages d.pages (render_chars_header d.chars.length (render_chars d.chars
            (render_kernings_header ks.length (render_kernings ks [])))))) := by
      simp only [render, hk, render_kernings_section]
    have hf : ({ ({ parsed_font d with kernings := none, num_kernings := 0 } : BMFont) with
        num_kernings := ks.length, kernings := some (ks.map (apply_kerning default)) } : BMFont)
        = parsed_font d := by
      simp [parsed_font, hk]
    rw [hf] at e5
    subst hp0
    rw [hr]
    exact parse_file_eq _ (parse_sections_eq e1 e2 e3 e4 e5) g5.ok g5.eof

theorem narrow32_eq_iff (n : Nat) (h : n ≤ 4294967295) :
    narrow32 n = n ↔ n < 32768 ∨ 4294934528 ≤ n := by
  unfold narrow32 to_int16; omega

theorem narrow32_lt_iff (n len : Nat) (h1 : n < len) (h2 : len ≤ 65535) :
    narrow32 n < len ↔ n < 32768 := by
  unfold narrow32 to_int16; omega

theorem pages_oob_iff (len : Nat) (hlen : len ≤ 65535) (pgs : List PageLine)
    (hids : ∀ pg ∈ pgs, pg.id < len) :
    pages_oob len pgs = false ↔ ∀ pg ∈ pgs, pg.id < 32768 := by
  unfold pages_oob
  rw [List.any_eq_false]
  constructor
  · intro h pg hpg
    have := h pg hpg
    simp only [Bool.not_eq_true', decide_eq_false_iff_not, not_not, Bool.not_eq_true,
      Bool.not_eq_false'] at this
    have hd : narrow32 pg.id < len := by simpa using this
    exact (narrow32_lt_iff pg.id len (hids pg hpg) hlen).1 hd
  · intro h pg hpg
    have hd := (narrow32_lt_iff pg.id len (hids pg hpg) hlen).2 (h pg hpg)
    simp [hd]

theorem clean_of_good {q : BMFont__Parser} {t s : List Char} {e b : Bool} (h : Good q t s e b)
    (f : Option BMFont) (g : BMFont) :
    ParseRun.clean { returned := f, parser := q, built := g } = !b := by
  simp [ParseRun.clean, h.oob, h.af, h.fo]

theorem fill_pages_get_other (j : Nat) :
    ∀ (pgs : List PageLine) (names : List (Option (List Char))), names.length ≤ 65535 →
      (∀ pg ∈ pgs, pg.id ≤ 65535) → (∀ pg ∈ pgs, pg.id < 32768 → pg.id ≠ j) →
      (fill_pages names pgs)[j]? = names[j]? := by
  intro pgs
  induction pgs with
  | nil => intro names _ _ _; rfl
  | cons pg pgs ih =>
    intro names hlen hid hne
    simp only [fill_pages]
    rw [ih _ (by rw [page_store_length]; exact hlen)
      (fun x hx => hid x (List.mem_cons_of_mem _ hx))
      (fun x hx => hne x (List.mem_cons_of_mem _ hx))]
    unfold page_store
    split
    · rename_i hin
      have h1 := hid pg (by simp)
      have hsmall : pg.id < 32768 := by
        by_contra hc
        have := narrow32_big pg.id (by omega) h1
        omega
      have h2 := hne pg (by simp) hsmall
      rw [narrow32_small pg.id hsmall]
      exact List.getElem?_set_ne h2
    · rfl

theorem fill_pages_get_stored :
    ∀ (pgs : List PageLine) (names : List (Option (List Char))), names.length ≤ 65535 →
      (∀ pg ∈ pgs, pg.id < names.length) → (pgs.map (fun pg => pg.id)).Nodup →
      ∀ pg ∈ pgs, pg.id < 32768 → (fill_pages names pgs)[pg.id]? = some (some pg.file) := by
  intro pgs
  induction pgs with
  | nil => intro names _ _ _ pg hpg; simp at hpg
  | cons hd tl ih =>
    intro names hlen hid hnd pg hpg hsmall
    simp only [List.map_cons, List.nodup_cons, List.mem_map, not_exists, not_and] at hnd
    simp only [fill_pages]
    rcases List.mem_cons.1 hpg with heq | hmem
    · subst heq
      rw [fill_pages_get_other pg.id tl _ (by rw [page_store_length]; exact hlen)
        (fun x hx => by have := hid x (List.mem_cons_of_mem _ hx); omega)
        (fun x hx _ => hnd.1 x hx)]
      have hin := hid pg (by simp)
      unfold page_store
      rw [narrow32_small pg.id hsmall]
      simp only [hin, if_true]
      simp [hin]
    · exact ih _ (by rw [page_store_length]; exact hlen)
        (fun x hx => by rw [page_store_length]; exact hid x (List.mem_cons_of_mem _ hx))
        hnd.2 pg hmem hsmall

theorem many_pages_well_formed (n : Nat) (hn : n ≤ 65535) (ks : Option (List KerningLine))
    (hks : ks = none ∨ ks = some []) :
    (doc_with_pages n ks).well_formed := by
  constructor
  · show is_word ['a'] = true; decide
  · show (-32768 : Int) ≤ 1; decide
  · show (1 : Int) ≤ 32767; decide
  · show 1 ≤ 65535; omega
  · show 1 ≤ 65535; omega
  · show 1 ≤ 65535; omega
  · show 1 ≤ 65535; omega
  · show (many_pages n).length ≤ 65535
    simpa [many_pages] using hn
  · intro pg hpg
    change pg ∈ many_pages n at hpg
    show pg.id < (many_pages n).length
    simp only [many_pages, List.mem_map, List.mem_range] at hpg
    obtain ⟨i, hi, rfl⟩ := hpg
    simpa [many_pages] using hi
  · have : (many_pages n).map (fun pg => pg.id) = List.range n := by
      simp [many_pages, Function.comp_def]
    show ((many_pages n).map (fun pg => pg.id)).Nodup
    rw [this]
    exact List.nodup_range n
  · intro pg hpg
    change pg ∈ many_pages n at hpg
    simp only [many_pages, List.mem_map, List.mem_range] at hpg
    obtain ⟨i, _, rfl⟩ := hpg
    show is_file_name ['p'] = true
    decide
  · show ([] : List CharLine).length ≤ 65535
    simp
  · intro c hc
    change c ∈ ([] : List CharLine) at hc
    simp at hc
  · intro l hl
    change ks = some l at hl
    rcases hks with h | h <;> simp [h] at hl
    subst hl; simp
  · intro l hl k hk
    change ks = some l at hl
    rcases hks with h | h <;> simp [h] at hl
    subst hl; simp at hk

theorem many_pages_has_wide_id (n : Nat) (hn : 32768 < n) (ks : Option (List KerningLine)) :
    ∃ pg ∈ (doc_with_pages n ks).pages, ¬ pg.id < 32768 := by
  refine ⟨{ id := 32768, file := ['p'] }, ?_, by simp⟩
  show _ ∈ many_pages n
  simp only [many_pages, List.mem_map, List.mem_range]
  exact ⟨32768, hn, rfl⟩

theorem many_pages_mem (n i : Nat) (hi : i < n) (ks : Option (List KerningLine)) :
    ({ id := i, file := ['p'] } : PageLine) ∈ (doc_with_pages n ks).pages := by
  show _ ∈ many_pages n
  simp only [many_pages, List.mem_map, List.mem_range]
  exact ⟨i, hi, rfl⟩

theorem doc_wide_glyph_id_well_formed : doc_wide_glyph_id.well_formed := by
  constructor
  · decide
  · decide
  · decide
  · decide
  · decide
  · decide
  · decide
  · decide
  · decide
  · decide
  · decide
  · decide
  · decide
  · intro ks hk
    have : ks = [] := by simpa [doc_wide_glyph_id] using hk.symm
    subst this; decide
  · intro ks hk k hmem
    have : ks = [] := by simpa [doc_wide_glyph_id] using hk.symm
    subst this; simp at hmem

theorem doc_wide_kerning_id_well_formed : doc_wide_kerning_id.well_formed := by
  constructor
  · decide
  · decide
  · decide
  · decide
  · decide
  · decide
  · decide
  · decide
  · decide
  · decide
  · decide
  · decide
  · decide
  · intro ks hk
    have : ks = [{ first := 40000, second := 34, amount := -4 }] := by
      simpa [doc_wide_kerning_id] using hk.symm
    subst this; decide
  · intro ks hk k hmem
    have : ks = [{ first := 40000, second := 34, amount := -4 }] := by
      simpa [doc_wide_kerning_id] using hk.symm
    subst this
    simp only [List.mem_singleton] at hmem
    subst hmem
    decide

/-- The info line and the common line of a document. -/
theorem info_common_sections {rest t1 s1 : List Char} {e1 : Bool} (nx : Next rest t1 s1 e1)
    (d : Doc) (hd : d.preamble_ok) (declared : Nat) (hdec : declared ≤ 65535) :
    ∃ q1 q2 f1,
      bmfont__parse_info (bmfont__load_next_token (parser_at_start
        (render_info d.face d.size (render_common d.lineHeight d.base d.scaleW d.scaleH
          declared rest)))).2 empty_font = (true, q1, f1) ∧
      bmfont__parse_common q1 f1 = (true, q2, font_after_common d declared) ∧
      Good q2 t1 s1 e1 false := by
  have g0 := good_initial (render_info d.face d.size
    (render_common d.lineHeight d.base d.scaleW d.scaleH declared rest))
  have n0 : Next (render_info d.face d.size
    (render_common d.lineHeight d.base d.scaleW d.scaleH declared rest))
      "info".toList _ false := next_word "info".toList _ (by decide) (delim_start_pair _ _ _)
  have h0 := (n0 _ _ _ g0).2
  have n1 : Next (render_common d.lineHeight d.base d.scaleW d.scaleH declared rest)
      "common".toList _ false := next_word "common".toList _ (by decide) (delim_start_pair _ _ _)
  obtain ⟨q1, g1, e1⟩ := info_line empty_font h0 hd.face hd.size_lo hd.size_hi n1
  obtain ⟨q2, g2, e2⟩ := common_line _ g1 hd.lineHeight hd.base hd.scaleW hd.scaleH hdec nx
  exact ⟨q1, q2, _, e1, e2, g2⟩

theorem flags_of_good {q : BMFont__Parser} {t s : List Char} {e b : Bool} (h : Good q t s e b) :
    Flags q b := ⟨h.oob, h.af, h.fo⟩

/-- A failed match on a good state: the flag is `false` and the model-only
flags are kept. -/
theorem match_stop {q : BMFont__Parser} {t s : List Char} {e b : Bool} (h : Good q t s e b)
    (tok : List Char) (hne : e = false → t ≠ tok) :
    (bmfont__match_token_and_advance q tok).1 = false ∧
      Flags (bmfont__match_token_and_advance q tok).2 b := by
  cases e with
  | false =>
    rw [match_other h tok (hne rfl)]
    exact ⟨rfl, flags_of_good h⟩
  | true =>
    simp only [bmfont__match_token_and_advance, bmfont__expect_more_tokens, h.eof, if_true,
      Bool.not_false, Bool.true_or]
    exact ⟨trivial, h.oob, h.af, h.fo⟩

theorem msg_fewer_length (what : List Char) (hw : what.length ≤ 8) (n k : Nat)
    (hn : n ≤ 65535) (hk : k ≤ 65535) :
    (msg_fewer what n k).take (bmfont__error_size - 1) = msg_fewer what n k := by
  apply List.take_of_length_le
  have h1 := fmt_nat_length n 5 (by omega) (by omega)
  have h2 := fmt_nat_length k 5 (by omega) (by omega)
  simp only [msg_fewer, List.length_append, bmfont__error_size, BMFONT_MAX_TOKEN_LENGTH]
  have e1 : "Fewer ".toList.length = 6 := rfl
  have e2 : " than specified in file. Expected: ".toList.length = 35 := rfl
  have e3 : ", actual: ".toList.length = 10 := rfl
  omega

theorem next_of_ends_or_continues (kw : List Char) (hkw : is_word kw = true)
    {rest : List Char} (h : ends_or_continues kw rest) :
    ∃ t1 s1 e1, Next rest t1 s1 e1 ∧ (e1 = false → t1 = kw) := by
  rcases h with h | ⟨tail, h⟩
  · subst h
    exact ⟨[], [], true, next_eof [], by simp⟩
  · subst h
    exact ⟨kw, ' ' :: tail, false, next_word kw _ hkw rfl, fun _ => rfl⟩

theorem parse_file_fail (input : List Char) {flag : Bool} {q : BMFont__Parser} {f : BMFont}
    (hs : parse_sections (bmfont__load_next_token (parser_at_start input)).2 empty_font
      = (flag, q, f)) (hok : q.ok = false) :
    bmfont_parse_file input = { returned := none, parser := q, built := f } := by
  simp only [bmfont_parse_file, hs, bmfont__parser_ok, hok, Bool.not_false, if_true]

theorem parse_sections_stop3 {p0 q1 q2 q3 : BMFont__Parser} {f0 f1 f2 f3 : BMFont}
    (e1 : bmfont__parse_info p0 f0 = (true, q1, f1))
    (e2 : bmfont__parse_common q1 f1 = (true, q2, f2))
    (e3 : bmfont__parse_pages q2 f2 = (false, q3, f3)) :
    parse_sections p0 f0 = (false, q3, f3) := by
  simp only [parse_sections, e1, e2, e3, Bool.not_true, Bool.not_false, Bool.false_eq_true,
    if_false, if_true]

theorem parse_sections_stop4 {p0 q1 q2 q3 q4 : BMFont__Parser} {f0 f1 f2 f3 f4 : BMFont}
    (e1 : bmfont__parse_info p0 f0 = (true, q1, f1))
    (e2 : bmfont__parse_common q1 f1 = (true, q2, f2))
    (e3 : bmfont__parse_pages q2 f2 = (true, q3, f3))
    (e4 : bmfont__parse_chars q3 f3 = (false, q4, f4)) :
    parse_sections p0 f0 = (false, q4, f4) := by
  simp only [parse_sections, e1, e2, e3, e4, Bool.not_true, Bool.not_false, Bool.false_eq_true,
    if_false, if_true]

/-- The pages section of a document that supplies fewer page lines than the
font declares. -/
theorem pages_short {rest t1 s1 : List Char} {e1 : Bool} (nx : Next rest t1 s1 e1)
    (hne : e1 = false → t1 ≠ "page".toList)
    (pgs : List PageLine) (hall : ∀ pg ∈ pgs, pg.id ≤ 4294967295 ∧ is_file_name pg.file = true)
    (p : BMFont__Parser) (font : BMFont) (names : List (Option (List Char))) (b : Bool)
    (hn : font.page_names = some names) (hlt : pgs.length < font.num_pages)
    (h : Good p (pages_ahead pgs rest t1 s1 e1).1 (pages_ahead pgs rest t1 s1 e1).2.1
        (pages_ahead pgs rest t1 s1 e1).2.2 b) :
    ∃ q, Flags q (b || pages_oob names.length pgs) ∧
      bmfont__parse_pages p font
        = (false, bmfont__set_parser_error q
            (msg_fewer "pages".toList font.num_pages pgs.length),
           { font with page_names := some (fill_pages names pgs) }) := by
  obtain ⟨q, gq, hl⟩ := pages_loop_records nx pgs hall p font names b hn h
  obtain ⟨m, hm⟩ : ∃ m, font.num_pages = pgs.length + (m + 1) :=
    ⟨font.num_pages - pgs.length - 1, by omega⟩
  have hs := match_stop gq "page".toList hne
  refine ⟨{ (bmfont__match_token_and_advance q "page".toList).2 with pages_read := pgs.length },
    hs.2, ?_⟩
  have h1 := hl (m + 1) 0
  simp only [Nat.zero_add] at h1
  have h2 : parse_pages_loop (m + 1) pgs.length q
      { font with page_names := some (fill_pages names pgs) }
      = (pgs.length, false, (bmfont__match_token_and_advance q "page".toList).2,
          { font with page_names := some (fill_pages names pgs) }) := by
    rw [parse_pages_loop]
    simp only [hs.1, Bool.not_false, if_true]
  have h3 : ¬ pgs.length = font.num_pages := by omega
  simp only [bmfont__parse_pages]
  rw [hm, h1, h2]
  simp only [Bool.false_eq_true, if_false, ← hm, ne_eq, h3, not_false_eq_true, if_true,
    bmfont__parser_ok, bmfont__set_parser_error]

/-- The chars section of a document that supplies fewer char lines than it
declares. -/
theorem chars_short {rest t1 s1 : List Char} {e1 : Bool} (nx : Next rest t1 s1 e1)
    (hne : e1 = false → t1 ≠ "char".toList)
    (cs : List CharLine) (hall : ∀ c ∈ cs, c.in_range) (count : Nat)
    (hlt : cs.length < count) (hc : count ≤ 65535)
    (p : BMFont__Parser) (font : BMFont) (b : Bool)
    (h : Good p "chars".toList
      (pair "count".toList (fmt_nat count) ('\n' :: render_chars cs rest)) false b) :
    ∃ q f, Flags q b ∧
      bmfont__parse_chars p font
        = (false, bmfont__set_parser_error q (msg_fewer "chars".toList count cs.length), f) := by
  obtain ⟨m, hm⟩ : ∃ m, count = cs.length + (m + 1) := ⟨count - cs.length - 1, by omega⟩
  obtain ⟨q, gq, hl⟩ := chars_section_prefix nx cs hall count (m + 1) hm hc p font b h
  have hs := match_stop gq "char".toList hne
  refine ⟨{ (bmfont__match_token_and_advance q "char".toList).2 with chars_read := cs.length },
    { font with num_chars := count,
                chars := some (fill_chars (List.replicate count default) 0 cs) }, hs.2, ?_⟩
  have h3 : ¬ cs.length = count := by omega
  rw [hl, parse_chars_loop]
  simp only [hs.1, Bool.not_false, if_true, ne_eq, h3, not_false_eq_true, bmfont__parser_ok,
    bmfont__set_parser_error]

/-- The kernings section of a document that supplies fewer kerning lines than
it declares. -/
theorem kernings_short {rest t1 s1 : List Char} {e1 : Bool} (nx : Next rest t1 s1 e1)
    (hne : e1 = false → t1 ≠ "kerning".toList)
    (ks : List KerningLine) (hall : ∀ k ∈ ks, k.in_range) (count : Nat)
    (hlt : ks.length < count) (hc : count ≤ 65535)
    (p : BMFont__Parser) (font : BMFont) (b : Bool)
    (h : Good p "kernings".toList
      (pair "count".toList (fmt_nat count) ('\n' :: render_kernings ks rest)) false b) :
    ∃ q f, Flags q b ∧
      bmfont__parse_kernings p font
        = (false, bmfont__set_parser_error q (msg_fewer "kernings".toList count ks.length),
            f) := by
  obtain ⟨m, hm⟩ : ∃ m, count = ks.length + (m + 1) := ⟨count - ks.length - 1, by omega⟩
  obtain ⟨q, gq, hl⟩ := kernings_section_prefix nx ks hall count (m + 1) hm hc p font b h
  have hs := match_stop gq "kerning".toList hne
  refine ⟨{ (bmfont__match_token_and_advance q "kerning".toList).2 with
            kernings_read := ks.length },
    { font with num_kernings := count,
                kernings := some (fill_kernings (List.replicate count default) 0 ks) },
    hs.2, ?_⟩
  have h3 : ¬ ks.length = count := by omega
  rw [hl, parse_kernings_loop]
  simp only [hs.1, Bool.not_false, if_true, ne_eq, h3, not_false_eq_true, bmfont__parser_ok,
    bmfont__set_parser_error]

/-- What a run that ends in a count-mismatch error leaves behind. -/
theorem fewer_run (input : List Char) (what : List Char) (hw : what.length ≤ 8) (n k : Nat)
    (hn : n ≤ 65535) (hk : k ≤ 65535) {q : BMFont__Parser} {f : BMFont} {b : Bool}
    (hq : Flags q b)
    (hs : parse_sections (bmfont__load_next_token (parser_at_start input)).2 empty_font
      = (false, bmfont__set_parser_error q (msg_fewer what n k), f)) :
    (bmfont_parse_file input).returned = none ∧
      bmfont_get_error_string (bmfont_parse_file input) = msg_fewer what n k ∧
      (bmfont_parse_file input).clean = !b := by
  rw [parse_file_fail input hs rfl]
  refine ⟨rfl, ?_, ?_⟩
  · simp only [bmfont_get_error_string, bmfont__set_parser_error]
    exact msg_fewer_length what hw n k hn hk
  · simp [ParseRun.clean, bmfont__set_parser_error, hq.1, hq.2.1, hq.2.2]

theorem pages_ok_bound {d : Doc} {declared : Nat} (h : d.pages_ok declared)
    (hdec : declared ≤ 65535) :
    ∀ pg ∈ d.pages, pg.id ≤ 4294967295 ∧ is_file_name pg.file = true := by
  intro pg hpg
  have := h pg hpg
  exact ⟨by omega, this.2⟩

/-- Too few page lines. -/
theorem too_few_pages (d : Doc) (declared : Nat) (rest : List Char) (hd : d.preamble_ok)
    (hp : d.pages_ok declared) (hlt : d.pages.length < declared) (hdec : declared ≤ 65535)
    (hr : ends_or_continues "chars".toList rest) :
    (bmfont_parse_file (render_upto_pages d declared rest)).returned = none ∧
      bmfont_get_error_string (bmfont_parse_file (render_upto_pages d declared rest))
        = msg_fewer "pages".toList declared d.pages.length ∧
      ((bmfont_parse_file (render_upto_pages d declared rest)).clean = true
        ↔ ∀ pg ∈ d.pages, pg.id < 32768) := by
  obtain ⟨t1, s1, e1, nx, ht⟩ := next_of_ends_or_continues "chars".toList (by decide) hr
  obtain ⟨q1, q2, f1, h1, h2, g2⟩ :=
    info_common_sections (next_pages_ahead nx d.pages) d hd declared hdec
  obtain ⟨q3, fl3, h3⟩ := pages_short nx (fun he => by rw [ht he]; decide) d.pages
    (pages_ok_bound hp hdec) q2 (font_after_common d declared) (List.replicate declared none)
    false rfl hlt g2
  have hrun := fewer_run (render_upto_pages d declared rest) "pages".toList (by decide)
    declared d.pages.length hdec (by omega) fl3 (parse_sections_stop3 h1 h2 h3)
  refine ⟨hrun.1, hrun.2.1, ?_⟩
  rw [hrun.2.2]
  have := pages_oob_iff declared hdec d.pages (fun pg hpg => (hp pg hpg).1)
  simp only [List.length_replicate, Bool.false_or] at *
  rw [← this]
  simp

/-- The font after the page lines of a document. -/
theorem too_few_chars (d : Doc) (declared : Nat) (rest : List Char) (hd : d.preamble_ok)
    (hp : d.pages_ok d.pages.length) (hpc : d.pages.length ≤ 65535)
    (hc : ∀ c ∈ d.chars, c.in_range)
    (hlt : d.chars.length < declared) (hdec : declared ≤ 65535)
    (hr : ends_or_continues "kernings".toList rest) :
    (bmfont_parse_file (render_upto_chars d declared rest)).returned = none ∧
      bmfont_get_error_string (bmfont_parse_file (render_upto_chars d declared rest))
        = msg_fewer "chars".toList declared d.chars.length ∧
      ((bmfont_parse_file (render_upto_chars d declared rest)).clean = true
        ↔ ∀ pg ∈ d.pages, pg.id < 32768) := by
  obtain ⟨t1, s1, e1, nx, ht⟩ := next_of_ends_or_continues "kernings".toList (by decide) hr
  have n3 : Next (render_chars_header declared (render_chars d.chars rest))
      "chars".toList _ false := next_word "chars".toList _ (by decide) (delim_start_pair _ _ _)
  obtain ⟨q1, q2, f1, h1, h2, g2⟩ :=
    info_common_sections (next_pages_ahead n3 d.pages) d hd d.pages.length hpc
  obtain ⟨q3, g3, _, h3⟩ := pages_section n3 d.pages (pages_ok_bound hp hpc) q2
    (font_after_common d d.pages.length) (List.replicate d.pages.length none) false rfl rfl g2
  obtain ⟨q4, f4, fl4, h4⟩ := chars_short nx (fun he => by rw [ht he]; decide) d.chars hc
    declared hlt hdec q3 _ _ g3
  have hrun := fewer_run (render_upto_chars d declared rest) "chars".toList (by decide)
    declared d.chars.length hdec (by omega) fl4 (parse_sections_stop4 h1 h2 h3 h4)
  refine ⟨hrun.1, hrun.2.1, ?_⟩
  rw [hrun.2.2]
  have := pages_oob_iff d.pages.length hpc d.pages (fun pg hpg => (hp pg hpg).1)
  simp only [List.length_replicate, Bool.false_or] at *
  rw [← this]
  simp

theorem too_few_kernings (d : Doc) (ks : List KerningLine) (declared : Nat)
    (hd : d.preamble_ok) (hp : d.pages_ok d.pages.length) (hpc : d.pages.length ≤ 65535)
    (hc : ∀ c ∈ d.chars, c.in_range) (hcc : d.chars.length ≤ 65535)
    (hk : ∀ k ∈ ks, k.in_range)
    (hlt : ks.length < declared) (hdec : declared ≤ 65535) :
    (bmfont_parse_file (render_upto_kernings d ks declared [])).returned = none ∧
      bmfont_get_error_string (bmfont_parse_file (render_upto_kernings d ks declared []))
        = msg_fewer "kernings".toList declared ks.length ∧
      ((bmfont_parse_file (render_upto_kernings d ks declared [])).clean = true
        ↔ ∀ pg ∈ d.pages, pg.id < 32768) := by
  have nk : Next (render_kernings_header declared (render_kernings ks []))
      "kernings".toList _ false :=
    next_word "kernings".toList _ (by decide) (delim_start_pair _ _ _)
  have n3 : Next (render_chars_header d.chars.length (render_chars d.chars
      (render_kernings_header declared (render_kernings ks []))))
      "chars".toList _ false := next_word "chars".toList _ (by decide) (delim_start_pair _ _ _)
  obtain ⟨q1, q2, f1, h1, h2, g2⟩ :=
    info_common_sections (next_pages_ahead n3 d.pages) d hd d.pages.length hpc
  obtain ⟨q3, g3, _, h3⟩ := pages_section n3 d.pages (pages_ok_bound hp hpc) q2
    (font_after_common d d.pages.length) (List.replicate d.pages.length none) false rfl rfl g2
  obtain ⟨q4, g4, _, h4⟩ := chars_section nk d.chars hc hcc q3 _ _ g3
  obtain ⟨q5, f5, fl5, h5⟩ := kernings_short (next_eof []) (fun he => by simp at he) ks hk
    declared hlt hdec q4 _ _ g4
  have hrun := fewer_run (render_upto_kernings d ks declared []) "kernings".toList (by decide)
    declared ks.length hdec (by omega) fl5 (parse_sections_eq h1 h2 h3 h4 h5)
  refine ⟨hrun.1, hrun.2.1, ?_⟩
  rw [hrun.2.2]
  have := pages_oob_iff d.pages.length hpc d.pages (fun pg hpg => (hp pg hpg).1)
  simp only [List.length_replicate, Bool.false_or] at *
  rw [← this]
  simp

theorem expect_stop {q : BMFont__Parser} {t s : List Char} {b : Bool} (h : Good q t s false b)
    (tok : List Char) (hne : t ≠ tok) :
    bmfont__expect_token_and_advance q tok
      = (false, bmfont__set_parser_error q
          (msg_unexpected_token q.start_line q.start_col q.next_token tok)) := by
  simp only [bmfont__expect_token_and_advance, match_other h tok hne, Bool.not_false, if_true,
    h.eof]

theorem kv_loop_not_ready {α : Type} (body : BMFont__Parser → α → BMFont__Parser × α)
    (p : BMFont__Parser) (hp : bmfont__parser_ready p = false) (a : α) :
    kv_loop body (kv_fuel p) p a = (p, a) := by
  show kv_loop body (p.stream.length + 1 + 1) p a = (p, a)
  rw [kv_loop]
  simp only [hp, Bool.false_eq_true, if_false]

theorem parse_file_trailing (input : List Char) {flag : Bool} {q : BMFont__Parser} {f : BMFont}
    (hs : parse_sections (bmfont__load_next_token (parser_at_start input)).2 empty_font
      = (flag, q, f)) (hok : q.ok = true) (heof : q.eof = false) :
    bmfont_parse_file input
      = { returned := none,
          parser := bmfont__set_parser_error q
            (msg_expected_eof q.start_line q.start_col q.next_token),
          built := f } := by
  simp only [bmfont_parse_file, hs, bmfont__parser_ok, hok, heof, Bool.not_true,
    Bool.not_false, Bool.false_eq_true, if_false, if_true]

theorem clean_set_error (q : BMFont__Parser) (msg : List Char) (f : Option BMFont) (g : BMFont)
    {b : Bool} (h : Flags q b) :
    ParseRun.clean { returned := f, parser := bmfont__set_parser_error q msg, built := g }
      = !b := by
  simp [ParseRun.clean, bmfont__set_parser_error, h.1, h.2.1, h.2.2]

theorem chars_reject {q : BMFont__Parser} {t s : List Char} {b : Bool}
    (h : Good q t s false b) (hne : t ≠ "chars".toList) (font : BMFont) :
    bmfont__parse_chars q font
      = (false, bmfont__set_parser_error q
          (msg_unexpected_token q.start_line q.start_col q.next_token "chars".toList),
          font) := by
  simp only [bmfont__parse_chars, expect_stop h "chars".toList hne, Bool.not_false, if_true]

/-- Too many page lines. -/
theorem too_many_pages (d : Doc) (tail : List Char) (hd : d.preamble_ok)
    (hp : d.pages_ok d.pages.length) (hpc : d.pages.length ≤ 65535) :
    (bmfont_parse_file (render_upto_pages d d.pages.length
        ("page".toList ++ ' ' :: tail))).returned = none ∧
      (bmfont_parse_file (render_upto_pages d d.pages.length
        ("page".toList ++ ' ' :: tail))).parser.pages_read = d.pages.length ∧
      ((bmfont_parse_file (render_upto_pages d d.pages.length
        ("page".toList ++ ' ' :: tail))).clean = true ↔ ∀ pg ∈ d.pages, pg.id < 32768) := by
  have nx : Next ("page".toList ++ ' ' :: tail) "page".toList (' ' :: tail) false :=
    next_word "page".toList _ (by decide) rfl
  obtain ⟨q1, q2, f1, h1, h2, g2⟩ :=
    info_common_sections (next_pages_ahead nx d.pages) d hd d.pages.length hpc
  obtain ⟨q3, g3, hc3, h3⟩ := pages_section nx d.pages (pages_ok_bound hp hpc) q2
    (font_after_common d d.pages.length) (List.replicate d.pages.length none) false rfl rfl g2
  have h4 := chars_reject g3 (by decide)
    { font_after_common d d.pages.length with
      page_names := some (fill_pages (List.replicate d.pages.length none) d.pages) }
  have hrun : bmfont_parse_file (render_upto_pages d d.pages.length
      ("page".toList ++ ' ' :: tail)) = _ :=
    parse_file_fail _ (parse_sections_stop4 h1 h2 h3 h4) rfl
  rw [hrun]
  refine ⟨rfl, hc3, ?_⟩
  rw [clean_set_error _ _ _ _ (flags_of_good g3)]
  have := pages_oob_iff d.pages.length hpc d.pages (fun pg hpg => (hp pg hpg).1)
  simp only [List.length_replicate, Bool.false_or] at *
  rw [← this]
  simp

theorem kernings_reject {q : BMFont__Parser} {t s : List Char} {b : Bool}
    (h : Good q t s false b) (hne : t ≠ "kernings".toList) (font : BMFont)
    (hz : font.num_kernings = 0) :
    bmfont__parse_kernings q font
      = (false, { bmfont__set_parser_error q
          (msg_unexpected_token q.start_line q.start_col q.next_token "kernings".toList) with
          kernings_read := 0 }, font) := by
  have hnr : bmfont__parser_ready (bmfont__set_parser_error q
      (msg_unexpected_token q.start_line q.start_col q.next_token "kernings".toList))
      = false := by
    simp [bmfont__parser_ready, bmfont__parser_ok, bmfont__set_parser_error]
  simp only [bmfont__parse_kernings, good_ready h, Bool.not_true, Bool.false_eq_true, if_false,
    expect_stop h "kernings".toList hne, kv_loop_not_ready _ _ hnr, hz, parse_kernings_loop,
    ne_eq, not_true_eq_false, bmfont__parser_ok]
  rfl

theorem clean_of_flags {q : BMFont__Parser} {b : Bool} (h : Flags q b) (f : Option BMFont)
    (g : BMFont) : ParseRun.clean { returned := f, parser := q, built := g } = !b := by
  simp [ParseRun.clean, h.1, h.2.1, h.2.2]

theorem flags_set_error {q : BMFont__Parser} {b : Bool} (h : Flags q b) (msg : List Char) :
    Flags (bmfont__set_parser_error q msg) b := h

theorem flags_set_kernings_read {q : BMFont__Parser} {b : Bool} (h : Flags q b) (n : Nat) :
    Flags { q with kernings_read := n } b := h

/-- Too many char lines. -/
theorem too_many_chars (d : Doc) (tail : List Char) (hd : d.preamble_ok)
    (hp : d.pages_ok d.pages.length) (hpc : d.pages.length ≤ 65535)
    (hc : ∀ c ∈ d.chars, c.in_range) (hcc : d.chars.length ≤ 65535) :
    (bmfont_parse_file (render_upto_chars d d.chars.length
        ("char".toList ++ ' ' :: tail))).returned = none ∧
      (bmfont_parse_file (render_upto_chars d d.chars.length
        ("char".toList ++ ' ' :: tail))).parser.chars_read = d.chars.length ∧
      ((bmfont_parse_file (render_upto_chars d d.chars.length
        ("char".toList ++ ' ' :: tail))).clean = true ↔ ∀ pg ∈ d.pages, pg.id < 32768) := by
  have nx : Next ("char".toList ++ ' ' :: tail) "char".toList (' ' :: tail) false :=
    next_word "char".toList _ (by decide) rfl
  have n3 : Next (render_chars_header d.chars.length (render_chars d.chars
      ("char".toList ++ ' ' :: tail)))
      "chars".toList _ false := next_word "chars".toList _ (by decide) (delim_start_pair _ _ _)
  obtain ⟨q1, q2, f1, h1, h2, g2⟩ :=
    info_common_sections (next_pages_ahead n3 d.pages) d hd d.pages.length hpc
  obtain ⟨q3, g3, _, h3⟩ := pages_section n3 d.pages (pages_ok_bound hp hpc) q2
    (font_after_common d d.pages.length) (List.replicate d.pages.length none) false rfl rfl g2
  obtain ⟨q4, g4, hc4, h4⟩ := chars_section nx d.chars hc hcc q3 (font_after_pages d) _ g3
  obtain ⟨f4, hz, h4⟩ : ∃ f4 : BMFont, f4.num_kernings = 0 ∧
      bmfont__parse_chars q3 (font_after_pages d) = (true, q4, f4) := ⟨_, rfl, h4⟩
  have h5 := kernings_reject g4 (by decide) f4 hz
  have hrun : bmfont_parse_file (render_upto_chars d d.chars.length
      ("char".toList ++ ' ' :: tail)) = _ :=
    parse_file_fail _ (parse_sections_eq h1 h2 h3 h4 h5) rfl
  rw [hrun]
  refine ⟨rfl, hc4, ?_⟩
  rw [clean_of_flags (flags_set_kernings_read (flags_set_error (flags_of_good g4) _) 0)]
  have := pages_oob_iff d.pages.length hpc d.pages (fun pg hpg => (hp pg hpg).1)
  simp only [List.length_replicate, Bool.false_or] at *
  rw [← this]
  simp

/-- Too many kerning lines. -/
theorem too_many_kernings (d : Doc) (ks : List KerningLine) (tail : List Char)
    (hd : d.preamble_ok) (hp : d.pages_ok d.pages.length) (hpc : d.pages.length ≤ 65535)
    (hc : ∀ c ∈ d.chars, c.in_range) (hcc : d.chars.length ≤ 65535)
    (hk : ∀ k ∈ ks, k.in_range) (hkc : ks.length ≤ 65535) :
    (bmfont_parse_file (render_upto_kernings d ks ks.length
        ("kerning".toList ++ ' ' :: tail))).returned = none ∧
      (bmfont_parse_file (render_upto_kernings d ks ks.length
        ("kerning".toList ++ ' ' :: tail))).parser.kernings_read = ks.length ∧
      ((bmfont_parse_file (render_upto_kernings d ks ks.length
        ("kerning".toList ++ ' ' :: tail))).clean = true ↔ ∀ pg ∈ d.pages, pg.id < 32768) := by
  have nx : Next ("kerning".toList ++ ' ' :: tail) "kerning".toList (' ' :: tail) false :=
    next_word "kerning".toList _ (by decide) rfl
  have nk : Next (render_kernings_header ks.length (render_kernings ks
      ("kerning".toList ++ ' ' :: tail)))
      "kernings".toList _ false :=
    next_word "kernings".toList _ (by decide) (delim_start_pair _ _ _)
  have n3 : Next (render_chars_header d.chars.length (render_chars d.chars
      (render_kernings_header ks.length (render_kernings ks
        ("kerning".toList ++ ' ' :: tail)))))
      "chars".toList _ false := next_word "chars".toList _ (by decide) (delim_start_pair _ _ _)
  obtain ⟨q1, q2, f1, h1, h2, g2⟩ :=
    info_common_sections (next_pages_ahead n3 d.pages) d hd d.pages.length hpc
  obtain ⟨q3, g3, _, h3⟩ := pages_section n3 d.pages (pages_ok_bound hp hpc) q2
    (font_after_common d d.pages.length) (List.replicate d.pages.length none) false rfl rfl g2
  obtain ⟨q4, g4, _, h4⟩ := chars_section nk d.chars hc hcc q3 _ _ g3
  obtain ⟨q5, g5, hc5, h5⟩ := kernings_section nx ks hk hkc q4 _ _ g4
  have hrun : bmfont_parse_file (render_upto_kernings d ks ks.length
      ("kerning".toList ++ ' ' :: tail)) = _ :=
    parse_file_trailing _ (parse_sections_eq h1 h2 h3 h4 h5) g5.ok g5.eof
  rw [hrun]
  refine ⟨rfl, hc5, ?_⟩
  rw [clean_set_error _ _ _ _ (flags_of_good g5)]
  have := pages_oob_iff d.pages.length hpc d.pages (fun pg hpg => (hp pg hpg).1)
  simp only [List.length_replicate, Bool.false_or] at *
  rw [← this]
  simp

@[simp] theorem counters_set_error (p : BMFont__Parser) (msg : List Char) :
    counters (bmfont__set_parser_error p msg) = counters p := rfl

@[simp] theorem counters_load (p : BMFont__Parser) :
    counters (bmfont__load_next_token p).2 = counters p := by
  unfold bmfont__load_next_token
  simp only
  split
  · split
    · rfl
    · split
      · rfl
      · split
        · rfl
        · split <;> rfl
  · rfl

@[simp] theorem counters_expect_more (p : BMFont__Parser) :
    counters (bmfont__expect_more_tokens p).2 = counters p := by
  unfold bmfont__expect_more_tokens
  split <;> rfl

@[simp] theorem counters_match (p : BMFont__Parser) (tok : List Char) :
    counters (bmfont__match_token_and_advance p tok).2 = counters p := by
  unfold bmfont__match_token_and_advance
  simp only
  split <;> simp

@[simp] theorem counters_expect (p : BMFont__Parser) (tok : List Char) :
    counters (bmfont__expect_token_and_advance p tok).2 = counters p := by
  unfold bmfont__expect_token_and_advance
  simp only
  split
  · split <;> simp
  · simp

@[simp] theorem counters_match_key (p : BMFont__Parser) (tok : List Char) :
    counters (bmfont__match_key_and_advance_to_value p tok).2 = counters p := by
  unfold bmfont__match_key_and_advance_to_value
  split
  · simp only
    split <;> simp
  · rfl

@[simp] theorem counters_do_get (p : BMFont__Parser) (min max : Int) :
    counters (bmfont__do_get_token_as_int_and_advance p min max).2.1 = counters p := by
  unfold bmfont__do_get_token_as_int_and_advance
  simp only
  split
  · simp
  · split
    · simp
    · split <;> simp

@[simp] theorem counters_get_int16 (p : BMFont__Parser) :
    counters (bmfont__get_token_as_int16_and_advance p).2.1 = counters p := by
  unfold bmfont__get_token_as_int16_and_advance
  simp only
  split <;> simp

@[simp] theorem counters_get_uint16 (p : BMFont__Parser) :
    counters (bmfont__get_token_as_uint16_and_advance p).2.1 = counters p := by
  unfold bmfont__get_token_as_uint16_and_advance
  simp only
  split <;> simp

@[simp] theorem counters_get_uint32 (p : BMFont__Parser) :
    counters (bmfont__get_token_as_uint32_and_advance p).2.1 = counters p := by
  unfold bmfont__get_token_as_uint32_and_advance
  simp only
  split <;> simp

@[simp] theorem counters_copy (p : BMFont__Parser) :
    counters (bmfont__copy_token_and_advance p).2.1 = counters p := by
  unfold bmfont__copy_token_and_advance
  simp only
  split <;> simp

@[simp] theorem counters_copy_quoted (p : BMFont__Parser) :
    counters (bmfont__copy_quoted_token_and_advance p).2.1 = counters p := by
  unfold bmfont__copy_quoted_token_and_advance
  simp only
  split
  · simp
  · split <;> simp

@[simp] theorem counters_skip_unknown (p : BMFont__Parser) :
    counters (skip_unknown_pair p) = counters p := by
  simp [skip_unknown_pair]

theorem kv_loop_counters {α : Type} (body : BMFont__Parser → α → BMFont__Parser × α)
    (hb : ∀ p a, counters (body p a).1 = counters p) :
    ∀ (fuel : Nat) (p : BMFont__Parser) (a : α),
      counters (kv_loop body fuel p a).1 = counters p := by
  intro fuel
  induction fuel with
  | zero => intro p a; rfl
  | succ n ih =>
    intro p a
    rw [kv_loop]
    split
    · simp only
      split
      · simp
      · rw [ih, hb]; simp
    · rfl

theorem kv_loop_inv {α : Type} (body : BMFont__Parser → α → BMFont__Parser × α)
    (P : α → Prop) (hb : ∀ p a, P a → P (body p a).2) :
    ∀ (fuel : Nat) (p : BMFont__Parser) (a : α), P a → P (kv_loop body fuel p a).2 := by
  intro fuel
  induction fuel with
  | zero => intro p a h; exact h
  | succ n ih =>
    intro p a h
    rw [kv_loop]
    split
    · simp only
      split
      · exact h
      · exact ih _ _ (hb _ _ h)
    · exact h

theorem dispatch_counters {α : Type}
    (table : List (List Char × (BMFont__Parser → α → BMFont__Parser × α)))
    (ht : ∀ kh ∈ table, ∀ q a, counters (kh.2 q a).1 = counters q) :
    ∀ p a, counters (dispatch table p a).1 = counters p := by
  induction table with
  | nil => intro p a; simp [dispatch]
  | cons kh tl ih =>
    intro p a
    obtain ⟨k, h⟩ := kh
    simp only [dispatch]
    split
    · rw [ht (k, h) (by simp)]; simp
    · rw [ih (fun x hx => ht x (List.mem_cons_of_mem _ hx))]; simp

theorem dispatch_inv {α : Type}
    (table : List (List Char × (BMFont__Parser → α → BMFont__Parser × α)))
    (P : α → Prop) (ht : ∀ kh ∈ table, ∀ q a, P a → P (kh.2 q a).2) :
    ∀ p a, P a → P (dispatch table p a).2 := by
  induction table with
  | nil => intro p a h; exact h
  | cons kh tl ih =>
    intro p a h
    obtain ⟨k, hd⟩ := kh
    simp only [dispatch]
    split
    · exact ht (k, hd) (by simp) _ _ h
    · exact ih (fun x hx => ht x (List.mem_cons_of_mem _ hx)) _ _ h

theorem store_opt_inv {α β : Type} (P : α → Prop) (upd : α → β → α)
    (hu : ∀ a x, P a → P (upd a x)) (a : α) (v : Option β) (h : P a) :
    P (store_opt a v upd) := by
  cases v with
  | none => exact h
  | some x => exact hu a x h

@[simp] theorem counters_on_u16 {α : Type} (upd : α → Nat → α) (q : BMFont__Parser) (a : α) :
    counters (on_u16 upd q a).1 = counters q := by simp [on_u16]

@[simp] theorem counters_on_u32 {α : Type} (upd : α → Nat → α) (q : BMFont__Parser) (a : α) :
    counters (on_u32 upd q a).1 = counters q := by simp [on_u32]

@[simp] theorem counters_on_i16 {α : Type} (upd : α → Int → α) (q : BMFont__Parser) (a : α) :
    counters (on_i16 upd q a).1 = counters q := by simp [on_i16]

@[simp] theorem counters_on_copy {α : Type} (upd : α → List Char → α) (q : BMFont__Parser)
    (a : α) : counters (on_copy upd q a).1 = counters q := by simp [on_copy]

@[simp] theorem counters_on_quoted {α : Type} (upd : α → List Char → α) (q : BMFont__Parser)
    (a : α) : counters (on_quoted upd q a).1 = counters q := by simp [on_quoted]

@[simp] theorem counters_on_pages (q : BMFont__Parser) (a : BMFont) :
    counters (on_pages q a).1 = counters q := by simp [on_pages]

@[simp] theorem counters_on_chars_count (q : BMFont__Parser) (a : BMFont) :
    counters (on_chars_count q a).1 = counters q := by
  unfold on_chars_count; split <;> simp

@[simp] theorem counters_on_kernings_count (q : BMFont__Parser) (a : BMFont) :
    counters (on_kernings_count q a).1 = counters q := by
  unfold on_kernings_count; split <;> simp

theorem counters_info_body (p : BMFont__Parser) (a : BMFont) :
    counters (parse_info_body p a).1 = counters p := by
  rw [parse_info_body_eq]
  apply dispatch_counters
  intro kh hkh
  simp only [info_table, List.mem_cons, List.mem_singleton, List.not_mem_nil, or_false] at hkh
  rcases hkh with rfl | rfl <;> intro q a <;> simp

theorem counters_common_body (p : BMFont__Parser) (a : BMFont) :
    counters (parse_common_body p a).1 = counters p := by
  rw [parse_common_body_eq]
  apply dispatch_counters
  intro kh hkh
  simp only [common_table, List.mem_cons, List.mem_singleton, List.not_mem_nil, or_false] at hkh
  rcases hkh with rfl | rfl | rfl | rfl | rfl <;> intro q a <;> simp

theorem counters_page_body (p : BMFont__Parser) (a : Nat × Option (List Char)) :
    counters (parse_page_body p a).1 = counters p := by
  rw [parse_page_body_eq]
  apply dispatch_counters
  intro kh hkh
  simp only [page_table, List.mem_cons, List.mem_singleton, List.not_mem_nil, or_false] at hkh
  rcases hkh with rfl | rfl <;> intro q a <;> simp

theorem counters_chars_count_body (p : BMFont__Parser) (a : BMFont) :
    counters (parse_chars_count_body p a).1 = counters p := by
  rw [parse_chars_count_body_eq]
  apply dispatch_counters
  intro kh hkh
  simp only [chars_count_table, List.mem_singleton] at hkh
  subst hkh; intro q a; simp

theorem counters_char_body (p : BMFont__Parser) (a : BMFont_Char) :
    counters (parse_char_body p a).1 = counters p := by
  rw [parse_char_body_eq]
  apply dispatch_counters
  intro kh hkh
  simp only [char_table, List.mem_cons, List.mem_singleton, List.not_mem_nil, or_false] at hkh
  rcases hkh with rfl | rfl | rfl | rfl | rfl | rfl | rfl | rfl <;> intro q a <;> simp

theorem counters_kernings_count_body (p : BMFont__Parser) (a : BMFont) :
    counters (parse_kernings_count_body p a).1 = counters p := by
  rw [parse_kernings_count_body_eq]
  apply dispatch_counters
  intro kh hkh
  simp only [kernings_count_table, List.mem_singleton] at hkh
  subst hkh; intro q a; simp

theorem counters_kerning_body (p : BMFont__Parser) (a : BMFont_Kerning) :
    counters (parse_kerning_body p a).1 = counters p := by
  rw [parse_kerning_body_eq]
  apply dispatch_counters
  intro kh hkh
  simp only [kerning_table, List.mem_cons, List.mem_singleton, List.not_mem_nil, or_false] at hkh
  rcases hkh with rfl | rfl | rfl <;> intro q a <;> simp

theorem load_fst_ok (p : BMFont__Parser) :
    (bmfont__load_next_token p).1 = (bmfont__load_next_token p).2.ok := by
  unfold bmfont__load_next_token
  simp only
  by_cases hr : bmfont__parser_ready
      { p with assert_failed := p.assert_failed || !bmfont__parser_ok p } = true
  · have hok : p.ok = true := by
      simp only [bmfont__parser_ready, bmfont__parser_ok, Bool.and_eq_true] at hr
      exact hr.1
    simp only [hr, if_true]
    split
    · simp [hok]
    · split
      · simp [hok]
      · split
        · simp [hok]
        · split
          · simp [bmfont__set_parser_error]
          · simp [hok]
  · simp only [hr, if_false]
    simp [bmfont__parser_ok]

theorem load_false_ok (p : BMFont__Parser) (h : (bmfont__load_next_token p).1 = false) :
    (bmfont__load_next_token p).2.ok = false := by
  rw [← load_fst_ok]; exact h

theorem match_false_cases (p : BMFont__Parser) (tok : List Char)
    (h : (bmfont__match_token_and_advance p tok).1 = false) :
    (bmfont__match_token_and_advance p tok).2.ok = false ∨
      (bmfont__match_token_and_advance p tok).2.eof = false := by
  unfold bmfont__match_token_and_advance at h ⊢
  simp only at h ⊢
  split
  · rename_i hc
    unfold bmfont__expect_more_tokens at hc ⊢
    by_cases he : p.eof = true
    · left
      simp [he, bmfont__set_parser_error]
    · right
      simp [he]
  · rename_i hc
    simp only [hc, if_false] at h
    exact Or.inl (load_false_ok _ h)

theorem expect_false_ok (p : BMFont__Parser) (tok : List Char)
    (h : (bmfont__expect_token_and_advance p tok).1 = false) :
    (bmfont__expect_token_and_advance p tok).2.ok = false := by
  unfold bmfont__expect_token_and_advance at h ⊢
  simp only at h ⊢
  split
  · rename_i hm
    simp only [Bool.not_eq_true'] at hm
    split
    · rfl
    · rename_i heof
      rcases match_false_cases p tok hm with hok | hne
      · exact hok
      · simp [hne] at heof
  · rename_i hm
    simp only [hm] at h
    simp at h

theorem on_u16_inv {α : Type} (P : α → Prop) (upd : α → Nat → α)
    (hu : ∀ a x, P a → P (upd a x)) (q : BMFont__Parser) (a : α) (h : P a) :
    P (on_u16 upd q a).2 := store_opt_inv P upd hu a _ h

theorem on_u32_inv {α : Type} (P : α → Prop) (upd : α → Nat → α)
    (hu : ∀ a x, P a → P (upd a x)) (q : BMFont__Parser) (a : α) (h : P a) :
    P (on_u32 upd q a).2 := store_opt_inv P upd hu a _ h

theorem on_i16_inv {α : Type} (P : α → Prop) (upd : α → Int → α)
    (hu : ∀ a x, P a → P (upd a x)) (q : BMFont__Parser) (a : α) (h : P a) :
    P (on_i16 upd q a).2 := store_opt_inv P upd hu a _ h

theorem on_copy_inv {α : Type} (P : α → Prop) (upd : α → List Char → α)
    (hu : ∀ a x, P a → P (upd a x)) (q : BMFont__Parser) (a : α) (h : P a) :
    P (on_copy upd q a).2 := store_opt_inv P upd hu a _ h

theorem on_quoted_inv {α : Type} (P : α → Prop) (upd : α → List Char → α)
    (hu : ∀ a x, P a → P (upd a x)) (q : BMFont__Parser) (a : α) (h : P a) :
    P (on_quoted upd q a).2 := store_opt_inv P upd hu a _ h

theorem blocks_info_body (p : BMFont__Parser) (f : BMFont) :
    blocks (parse_info_body p f).2 = blocks f := by
  rw [parse_info_body_eq]
  refine dispatch_inv info_table (fun a => blocks a = blocks f) ?_ p f rfl
  intro kh hkh
  simp only [info_table, List.mem_cons, List.mem_singleton, List.not_mem_nil, or_false] at hkh
  rcases hkh with rfl | rfl <;> intro q a ha
  · exact on_copy_inv (fun a => blocks a = blocks f) _ (fun a x h => by exact h) q a ha
  · exact on_i16_inv (fun a => blocks a = blocks f) _ (fun a x h => by exact h) q a ha

theorem sized_on_pages (q : BMFont__Parser) (a : BMFont) :
    sized_pages (on_pages q a).2 ∧ char_part (on_pages q a).2 = char_part a ∧
      kern_part (on_pages q a).2 = kern_part a := by
  unfold on_pages
  cases (bmfont__get_token_as_uint16_and_advance q).2.2 <;>
    simp [sized_pages, slots, store_opt, char_part, kern_part]

theorem common_body_inv (p : BMFont__Parser) (f : BMFont) (h : sized_pages f) :
    sized_pages (parse_common_body p f).2 ∧
      char_part (parse_common_body p f).2 = char_part f ∧
      kern_part (parse_common_body p f).2 = kern_part f := by
  rw [parse_common_body_eq]
  refine dispatch_inv common_table
    (fun a => sized_pages a ∧ char_part a = char_part f ∧ kern_part a = kern_part f) ?_ p f
    ⟨h, rfl, rfl⟩
  intro kh hkh
  simp only [common_table, List.mem_cons, List.mem_singleton, List.not_mem_nil, or_false] at hkh
  rcases hkh with rfl | rfl | rfl | rfl | rfl <;> intro q a ha
  · exact on_u16_inv
      (fun a => sized_pages a ∧ char_part a = char_part f ∧ kern_part a = kern_part f) _
      (fun a x h => by exact h) q a ha
  · exact on_u16_inv
      (fun a => sized_pages a ∧ char_part a = char_part f ∧ kern_part a = kern_part f) _
      (fun a x h => by exact h) q a ha
  · exact on_u16_inv
      (fun a => sized_pages a ∧ char_part a = char_part f ∧ kern_part a = kern_part f) _
      (fun a x h => by exact h) q a ha
  · exact on_u16_inv
      (fun a => sized_pages a ∧ char_part a = char_part f ∧ kern_part a = kern_part f) _
      (fun a x h => by exact h) q a ha
  · have hp := sized_on_pages q a
    exact ⟨hp.1, hp.2.1.trans ha.2.1, hp.2.2.trans ha.2.2⟩

theorem chars_count_body_inv (p : BMFont__Parser) (f : BMFont) (h : sized_chars f) :
    sized_chars (parse_chars_count_body p f).2 ∧
      page_part (parse_chars_count_body p f).2 = page_part f ∧
      kern_part (parse_chars_count_body p f).2 = kern_part f := by
  rw [parse_chars_count_body_eq]
  refine dispatch_inv chars_count_table
    (fun a => sized_chars a ∧ page_part a = page_part f ∧ kern_part a = kern_part f) ?_ p f
    ⟨h, rfl, rfl⟩
  intro kh hkh
  simp only [chars_count_table, List.mem_singleton] at hkh
  subst hkh
  intro q a ha
  simp only [on_chars_count]
  split
  · have h1 := ha.2.1
    have h2 := ha.2.2
    simp only [page_part, kern_part] at h1 h2 ⊢
    cases (bmfont__get_token_as_uint16_and_advance q).2.2 <;>
      simp [sized_chars, slots, store_opt, h1, h2]
  · exact ha

theorem kernings_count_body_inv (p : BMFont__Parser) (f : BMFont) (h : sized_kernings f) :
    sized_kernings (parse_kernings_count_body p f).2 ∧
      page_part (parse_kernings_count_body p f).2 = page_part f ∧
      char_part (parse_kernings_count_body p f).2 = char_part f := by
  rw [parse_kernings_count_body_eq]
  refine dispatch_inv kernings_count_table
    (fun a => sized_kernings a ∧ page_part a = page_part f ∧ char_part a = char_part f) ?_ p f
    ⟨h, rfl, rfl⟩
  intro kh hkh
  simp only [kernings_count_table, List.mem_singleton] at hkh
  subst hkh
  intro q a ha
  simp only [on_kernings_count]
  split
  · have h1 := ha.2.1
    have h2 := ha.2.2
    simp only [page_part, char_part] at h1 h2 ⊢
    cases (bmfont__get_token_as_uint16_and_advance q).2.2 <;>
      simp [sized_kernings, slots, store_opt, h1, h2]
  · exact ha

theorem info_spec (p : BMFont__Parser) (f : BMFont) :
    (bmfont__parse_info p f).1 = (bmfont__parse_info p f).2.1.ok ∧
      counters (bmfont__parse_info p f).2.1 = counters p ∧
      blocks (bmfont__parse_info p f).2.2 = blocks f := by
  unfold bmfont__parse_info
  simp only
  split
  · rename_i he
    simp only [Bool.not_eq_true'] at he
    exact ⟨(expect_false_ok p _ he).symm, counters_expect p _, rfl⟩
  · refine ⟨rfl, ?_, ?_⟩
    · exact (kv_loop_counters _ counters_info_body _ _ _).trans (counters_expect p _)
    · exact kv_loop_inv parse_info_body (fun a => blocks a = blocks f)
        (fun q a h => (blocks_info_body q a).trans h) _ _ _ rfl

theorem common_spec (p : BMFont__Parser) (f : BMFont) (hs : sized_pages f) :
    (bmfont__parse_common p f).1 = (bmfont__parse_common p f).2.1.ok ∧
      counters (bmfont__parse_common p f).2.1 = counters p ∧
      sized_pages (bmfont__parse_common p f).2.2 ∧
      char_part (bmfont__parse_common p f).2.2 = char_part f ∧
      kern_part (bmfont__parse_common p f).2.2 = kern_part f := by
  unfold bmfont__parse_common
  simp only
  split
  · rename_i he
    simp only [Bool.not_eq_true'] at he
    exact ⟨(expect_false_ok p _ he).symm, counters_expect p _, hs, rfl, rfl⟩
  · refine ⟨rfl, ?_, ?_⟩
    · exact (kv_loop_counters _ counters_common_body _ _ _).trans (counters_expect p _)
    · exact kv_loop_inv parse_common_body
        (fun a => sized_pages a ∧ char_part a = char_part f ∧ kern_part a = kern_part f)
        (fun q a h => by
          have hb := common_body_inv q a h.1
          exact ⟨hb.1, hb.2.1.trans h.2.1, hb.2.2.trans h.2.2⟩) _ _ _ ⟨hs, rfl, rfl⟩

theorem store_page_name_spec (p : BMFont__Parser) (f : BMFont) (id : Nat) (s : List Char) :
    counters (store_page_name p f id s).1 = counters p ∧
      (store_page_name p f id s).1.ok = p.ok ∧
      char_part (store_page_name p f id s).2 = char_part f ∧
      kern_part (store_page_name p f id s).2 = kern_part f ∧
      (store_page_name p f id s).2.num_pages = f.num_pages ∧
      (sized_pages f → sized_pages (store_page_name p f id s).2) := by
  unfold store_page_name
  split
  · rename_i names hn
    split
    · refine ⟨rfl, rfl, rfl, rfl, rfl, ?_⟩
      intro h
      simpa [sized_pages, slots, hn] using h
    · exact ⟨rfl, rfl, rfl, rfl, rfl, fun h => h⟩
  · exact ⟨rfl, rfl, rfl, rfl, rfl, fun h => h⟩

theorem pages_loop_spec : ∀ (n i : Nat) (p : BMFont__Parser) (f : BMFont),
    counters (parse_pages_loop n i p f).2.2.1 = counters p ∧
      char_part (parse_pages_loop n i p f).2.2.2 = char_part f ∧
      kern_part (parse_pages_loop n i p f).2.2.2 = kern_part f ∧
      (parse_pages_loop n i p f).2.2.2.num_pages = f.num_pages ∧
      (sized_pages f → sized_pages (parse_pages_loop n i p f).2.2.2) ∧
      ((parse_pages_loop n i p f).2.1 = true → (parse_pages_loop n i p f).2.2.1.ok = false) := by
  intro n
  induction n with
  | zero =>
    intro i p f
    simp [parse_pages_loop]
  | succ n ih =>
    intro i p f
    rw [parse_pages_loop]
    simp only
    split
    · exact ⟨counters_match p _, rfl, rfl, rfl, fun h => h, by simp⟩
    · have hc : counters (kv_loop parse_page_body
          (kv_fuel (bmfont__match_token_and_advance p "page".toList).2)
          (bmfont__match_token_and_advance p "page".toList).2 (0, none)).1 = counters p :=
        (kv_loop_counters _ counters_page_body _ _ _).trans (counters_match p _)
      generalize kv_loop parse_page_body
        (kv_fuel (bmfont__match_token_and_advance p "page".toList).2)
        (bmfont__match_token_and_advance p "page".toList).2 (0, none) = r at hc ⊢
      split
      · refine ⟨?_, rfl, rfl, rfl, fun h => h, fun _ => rfl⟩
        rw [counters_set_error]; exact hc
      · rename_i filename hfn
        have hs := store_page_name_spec r.1 f r.2.1 filename
        have hi := ih (i + 1) (store_page_name r.1 f r.2.1 filename).1
          (store_page_name r.1 f r.2.1 filename).2
        exact ⟨hi.1.trans (hs.1.trans hc), hi.2.1.trans hs.2.2.1, hi.2.2.1.trans hs.2.2.2.1,
          hi.2.2.2.1.trans hs.2.2.2.2.1, fun h => hi.2.2.2.2.1 (hs.2.2.2.2.2 h), hi.2.2.2.2.2⟩

theorem pages_spec (p : BMFont__Parser) (f : BMFont) (hs : sized_pages f) :
    (bmfont__parse_pages p f).1 = (bmfont__parse_pages p f).2.1.ok ∧
      (bmfont__parse_pages p f).2.1.chars_read = p.chars_read ∧
      (bmfont__parse_pages p f).2.1.kernings_read = p.kernings_read ∧
      char_part (bmfont__parse_pages p f).2.2 = char_part f ∧
      kern_part (bmfont__parse_pages p f).2.2 = kern_part f ∧
      sized_pages (bmfont__parse_pages p f).2.2 ∧
      ((bmfont__parse_pages p f).2.1.ok = true →
        (bmfont__parse_pages p f).2.1.pages_read = (bmfont__parse_pages p f).2.2.num_pages) := by
  unfold bmfont__parse_pages
  have hl := pages_loop_spec f.num_pages 0 p f
  generalize parse_pages_loop f.num_pages 0 p f = r at hl ⊢
  have hc1 : r.2.2.1.chars_read = p.chars_read := congrArg (fun c => c.2.1) hl.1
  have hc2 : r.2.2.1.kernings_read = p.kernings_read := congrArg (fun c => c.2.2) hl.1
  simp only
  split
  · rename_i hin
    have hok := hl.2.2.2.2.2 hin
    refine ⟨hok.symm, hc1, hc2, hl.2.1, hl.2.2.1, hl.2.2.2.2.1 hs, ?_⟩
    intro h
    rw [hok] at h
    exact absurd h (by decide)
  · refine ⟨rfl, ?_, ?_, hl.2.1, hl.2.2.1, hl.2.2.2.2.1 hs, ?_⟩
    · split <;> simpa [bmfont__set_parser_error] using hc1
    · split <;> simpa [bmfont__set_parser_error] using hc2
    · split
      · intro h
        simp [bmfont__set_parser_error] at h
      · rename_i hne
        intro _
        simpa using hne

theorem chars_loop_spec : ∀ (n i : Nat) (p : BMFont__Parser) (f : BMFont),
    counters (parse_chars_loop n i p f).2.1 = counters p ∧
      page_part (parse_chars_loop n i p f).2.2 = page_part f ∧
      kern_part (parse_chars_loop n i p f).2.2 = kern_part f ∧
      (parse_chars_loop n i p f).2.2.num_chars = f.num_chars ∧
      (sized_chars f → sized_chars (parse_chars_loop n i p f).2.2) := by
  intro n
  induction n with
  | zero =>
    intro i p f
    simp [parse_chars_loop]
  | succ n ih =>
    intro i p f
    rw [parse_chars_loop]
    simp only
    split
    · exact ⟨counters_match p _, rfl, rfl, rfl, fun h => h⟩
    · have hc : ∀ c, counters (kv_loop parse_char_body
          (kv_fuel (bmfont__match_token_and_advance p "char".toList).2)
          (bmfont__match_token_and_advance p "char".toList).2 c).1 = counters p := fun c =>
        (kv_loop_counters _ counters_char_body _ _ _).trans (counters_match p _)
      split
      · rename_i cs hcs
        split
        · have hh := hc (cs.getD i default)
          generalize kv_loop parse_char_body
            (kv_fuel (bmfont__match_token_and_advance p "char".toList).2)
            (bmfont__match_token_and_advance p "char".toList).2 (cs.getD i default) = r
            at hh ⊢
          have hi := ih (i + 1) r.1 { f with chars := some (cs.set i r.2) }
          refine ⟨hi.1.trans hh, hi.2.1, hi.2.2.1, hi.2.2.2.1, fun h => hi.2.2.2.2 ?_⟩
          simpa [sized_chars, slots, hcs] using h
        · have hh := hc default
          generalize kv_loop parse_char_body
            (kv_fuel (bmfont__match_token_and_advance p "char".toList).2)
            (bmfont__match_token_and_advance p "char".toList).2 default = r at hh ⊢
          have hi := ih (i + 1) { r.1 with oob := true } f
          exact ⟨hi.1.trans hh, hi.2.1, hi.2.2.1, hi.2.2.2.1, hi.2.2.2.2⟩
      · have hh := hc default
        generalize kv_loop parse_char_body
          (kv_fuel (bmfont__match_token_and_advance p "char".toList).2)
          (bmfont__match_token_and_advance p "char".toList).2 default = r at hh ⊢
        have hi := ih (i + 1) { r.1 with oob := true } f
        exact ⟨hi.1.trans hh, hi.2.1, hi.2.2.1, hi.2.2.2.1, hi.2.2.2.2⟩

theorem kernings_loop_spec : ∀ (n i : Nat) (p : BMFont__Parser) (f : BMFont),
    counters (parse_kernings_loop n i p f).2.1 = counters p ∧
      page_part (parse_kernings_loop n i p f).2.2 = page_part f ∧
      char_part (parse_kernings_loop n i p f).2.2 = char_part f ∧
      (parse_kernings_loop n i p f).2.2.num_kernings = f.num_kernings ∧
      (sized_kernings f → sized_kernings (parse_kernings_loop n i p f).2.2) := by
  intro n
  induction n with
  | zero =>
    intro i p f
    simp [parse_kernings_loop]
  | succ n ih =>
    intro i p f
    rw [parse_kernings_loop]
    simp only
    split
    · exact ⟨counters_match p _, rfl, rfl, rfl, fun h => h⟩
    · have hc : ∀ c, counters (kv_loop parse_kerning_body
          (kv_fuel (bmfont__match_token_and_advance p "kerning".toList).2)
          (bmfont__match_token_and_advance p "kerning".toList).2 c).1 = counters p := fun c =>
        (kv_loop_counters _ counters_kerning_body _ _ _).trans (counters_match p _)
      split
      · rename_i ks hks
        split
        · have hh := hc (ks.getD i default)
          generalize kv_loop parse_kerning_body
            (kv_fuel (bmfont__match_token_and_advance p "kerning".toList).2)
            (bmfont__match_token_and_advance p "kerning".toList).2 (ks.getD i default) = r
            at hh ⊢
          have hi := ih (i + 1) r.1 { f with kernings := some (ks.set i r.2) }
          refine ⟨hi.1.trans hh, hi.2.1, hi.2.2.1, hi.2.2.2.1, fun h => hi.2.2.2.2 ?_⟩
          simpa [sized_kernings, slots, hks] using h
        · have hh := hc default
          generalize kv_loop parse_kerning_body
            (kv_fuel (bmfont__match_token_and_advance p "kerning".toList).2)
            (bmfont__match_token_and_advance p "kerning".toList).2 default = r at hh ⊢
          have hi := ih (i + 1) { r.1 with oob := true } f
          exact ⟨hi.1.trans hh, hi.2.1, hi.2.2.1, hi.2.2.2.1, hi.2.2.2.2⟩
      · have hh := hc default
        generalize kv_loop parse_kerning_body
          (kv_fuel (bmfont__match_token_and_advance p "kerning".toList).2)
          (bmfont__match_token_and_advance p "kerning".toList).2 default = r at hh ⊢
        have hi := ih (i + 1) { r.1 with oob := true } f
        exact ⟨hi.1.trans hh, hi.2.1, hi.2.2.1, hi.2.2.2.1, hi.2.2.2.2⟩

theorem chars_spec (p : BMFont__Parser) (f : BMFont) (hs : sized_chars f) :
    (bmfont__parse_chars p f).1 = (bmfont__parse_chars p f).2.1.ok ∧
      (bmfont__parse_chars p f).2.1.pages_read = p.pages_read ∧
      (bmfont__parse_chars p f).2.1.kernings_read = p.kernings_read ∧
      page_part (bmfont__parse_chars p f).2.2 = page_part f ∧
      kern_part (bmfont__parse_chars p f).2.2 = kern_part f ∧
      sized_chars (bmfont__parse_chars p f).2.2 ∧
      ((bmfont__parse_chars p f).2.1.ok = true →
        (bmfont__parse_chars p f).2.1.chars_read = (bmfont__parse_chars p f).2.2.num_chars) := by
  unfold bmfont__parse_chars
  simp only
  have he := counters_expect p "chars".toList
  split
  · rename_i hf
    simp only [Bool.not_eq_true'] at hf
    have hok := expect_false_ok p _ hf
    refine ⟨hok.symm, congrArg (fun c => c.1) he, congrArg (fun c => c.2.2) he, rfl, rfl, hs, ?_⟩
    intro h
    rw [hok] at h
    exact absurd h (by decide)
  · have hh : counters (kv_loop parse_chars_count_body
        (kv_fuel (bmfont__expect_token_and_advance p "chars".toList).2)
        (bmfont__expect_token_and_advance p "chars".toList).2 f).1 = counters p :=
      (kv_loop_counters _ counters_chars_count_body _ _ _).trans he
    have hf := kv_loop_inv parse_chars_count_body
      (fun a => sized_chars a ∧ page_part a = page_part f ∧ kern_part a = kern_part f)
      (fun q a h => by
        have hb := chars_count_body_inv q a h.1
        exact ⟨hb.1, hb.2.1.trans h.2.1, hb.2.2.trans h.2.2⟩)
      (kv_fuel (bmfont__expect_token_and_advance p "chars".toList).2)
      (bmfont__expect_token_and_advance p "chars".toList).2 f ⟨hs, rfl, rfl⟩
    generalize kv_loop parse_chars_count_body
      (kv_fuel (bmfont__expect_token_and_advance p "chars".toList).2)
      (bmfont__expect_token_and_advance p "chars".toList).2 f = h at hh hf ⊢
    have hl := chars_loop_spec h.2.num_chars 0 h.1 h.2
    generalize parse_chars_loop h.2.num_chars 0 h.1 h.2 = r at hl ⊢
    have hc := hl.1.trans hh
    have hc1 : r.2.1.pages_read = p.pages_read := congrArg (fun c => c.1) hc
    have hc2 : r.2.1.kernings_read = p.kernings_read := congrArg (fun c => c.2.2) hc
    refine ⟨rfl, ?_, ?_, hl.2.1.trans hf.2.1, hl.2.2.1.trans hf.2.2, hl.2.2.2.2 hf.1, ?_⟩
    · split <;> simpa [bmfont__set_parser_error] using hc1
    · split <;> simpa [bmfont__set_parser_error] using hc2
    · split
      · intro h
        simp [bmfont__set_parser_error] at h
      · rename_i hne
        intro _
        simpa using hne

theorem kernings_absent (p : BMFont__Parser) (f : BMFont)
    (hr : bmfont__parser_ready p = false) :
    bmfont__parse_kernings p f = (false, p, { f with kernings := some [] }) := by
  unfold bmfont__parse_kernings
  simp [hr]

theorem kernings_spec (p : BMFont__Parser) (f : BMFont) (hs : sized_kernings f)
    (hr : bmfont__parser_ready p = true) :
    (bmfont__parse_kernings p f).2.1.pages_read = p.pages_read ∧
      (bmfont__parse_kernings p f).2.1.chars_read = p.chars_read ∧
      page_part (bmfont__parse_kernings p f).2.2 = page_part f ∧
      char_part (bmfont__parse_kernings p f).2.2 = char_part f ∧
      sized_kernings (bmfont__parse_kernings p f).2.2 ∧
      ((bmfont__parse_kernings p f).2.1.ok = true →
        (bmfont__parse_kernings p f).2.1.kernings_read =
          (bmfont__parse_kernings p f).2.2.num_kernings) := by
  unfold bmfont__parse_kernings
  simp only [hr, Bool.not_true, Bool.false_eq_true, if_false]
  have he := counters_expect p "kernings".toList
  have hh : counters (kv_loop parse_kernings_count_body
      (kv_fuel (bmfont__expect_token_and_advance p "kernings".toList).2)
      (bmfont__expect_token_and_advance p "kernings".toList).2 f).1 = counters p :=
    (kv_loop_counters _ counters_kernings_count_body _ _ _).trans he
  have hf := kv_loop_inv parse_kernings_count_body
    (fun a => sized_kernings a ∧ page_part a = page_part f ∧ char_part a = char_part f)
    (fun q a h => by
      have hb := kernings_count_body_inv q a h.1
      exact ⟨hb.1, hb.2.1.trans h.2.1, hb.2.2.trans h.2.2⟩)
    (kv_fuel (bmfont__expect_token_and_advance p "kernings".toList).2)
    (bmfont__expect_token_and_advance p "kernings".toList).2 f ⟨hs, rfl, rfl⟩
  generalize kv_loop parse_kernings_count_body
    (kv_fuel (bmfont__expect_token_and_advance p "kernings".toList).2)
    (bmfont__expect_token_and_advance p "kernings".toList).2 f = h at hh hf ⊢
  have hl := kernings_loop_spec h.2.num_kernings 0 h.1 h.2
  generalize parse_kernings_loop h.2.num_kernings 0 h.1 h.2 = r at hl ⊢
  have hc := hl.1.trans hh
  have hc1 : r.2.1.pages_read = p.pages_read := congrArg (fun c => c.1) hc
  have hc2 : r.2.1.chars_read = p.chars_read := congrArg (fun c => c.2.1) hc
  refine ⟨?_, ?_, hl.2.1.trans hf.2.1, hl.2.2.1.trans hf.2.2, hl.2.2.2.2 hf.1, ?_⟩
  · split <;> simpa [bmfont__set_parser_error] using hc1
  · split <;> simpa [bmfont__set_parser_error] using hc2
  · split
    · intro h
      simp [bmfont__set_parser_error] at h
    · rename_i hne
      intro _
      simpa using hne

theorem sized_pages_of_part {f g : BMFont} (h : page_part g = page_part f)
    (hs : sized_pages f) : sized_pages g := by
  simp only [page_part, Prod.mk.injEq] at h
  simpa [sized_pages, h.1, h.2] using hs

theorem sized_chars_of_part {f g : BMFont} (h : char_part g = char_part f)
    (hs : sized_chars f) : sized_chars g := by
  simp only [char_part, Prod.mk.injEq] at h
  simpa [sized_chars, h.1, h.2] using hs

theorem sized_kernings_of_part {f g : BMFont} (h : kern_part g = kern_part f)
    (hs : sized_kernings f) : sized_kernings g := by
  simp only [kern_part, Prod.mk.injEq] at h
  simpa [sized_kernings, h.1, h.2] using hs

theorem parse_sections_split (p : BMFont__Parser) (f : BMFont) :
    parse_sections p f =
      if !(parse_leading_sections p f).1 then parse_leading_sections p f
      else bmfont__parse_kernings (parse_leading_sections p f).2.1
        (parse_leading_sections p f).2.2 := by
  unfold parse_sections parse_leading_sections
  simp only
  split
  · rename_i h1; simp [h1]
  · split
    · rename_i h1 h2; simp [h1, h2]
    · split
      · rename_i h1 h2 h3; simp [h1, h2, h3]
      · rename_i h1 h2 h3; simp [h1, h2, h3]

theorem leading_spec (p : BMFont__Parser) (f : BMFont) (hp : sized_pages f)
    (hc : sized_chars f) :
    (parse_leading_sections p f).1 = (parse_leading_sections p f).2.1.ok ∧
      (parse_leading_sections p f).2.1.kernings_read = p.kernings_read ∧
      kern_part (parse_leading_sections p f).2.2 = kern_part f ∧
      sized_pages (parse_leading_sections p f).2.2 ∧
      sized_chars (parse_leading_sections p f).2.2 ∧
      ((parse_leading_sections p f).2.1.ok = true →
        (parse_leading_sections p f).2.1.pages_read =
            (parse_leading_sections p f).2.2.num_pages ∧
          (parse_leading_sections p f).2.1.chars_read =
            (parse_leading_sections p f).2.2.num_chars) := by
  unfold parse_leading_sections
  simp only
  have h1 := info_spec p f
  generalize bmfont__parse_info p f = r1 at h1 ⊢
  have b1 : page_part r1.2.2 = page_part f := congrArg (fun c => c.1) h1.2.2
  have b2 : char_part r1.2.2 = char_part f := congrArg (fun c => c.2.1) h1.2.2
  have b3 : kern_part r1.2.2 = kern_part f := congrArg (fun c => c.2.2) h1.2.2
  have k1 : r1.2.1.kernings_read = p.kernings_read := congrArg (fun c => c.2.2) h1.2.1
  have hp1 := sized_pages_of_part b1 hp
  have hc1 := sized_chars_of_part b2 hc
  split
  · rename_i hf
    simp only [Bool.not_eq_true'] at hf
    refine ⟨h1.1, k1, b3, hp1, hc1, ?_⟩
    intro h
    rw [← h1.1, hf] at h
    exact absurd h (by decide)
  · have h2 := common_spec r1.2.1 r1.2.2 hp1
    generalize bmfont__parse_common r1.2.1 r1.2.2 = r2 at h2 ⊢
    have k2 : r2.2.1.kernings_read = p.kernings_read :=
      (congrArg (fun c => c.2.2) h2.2.1).trans k1
    have hc2 := sized_chars_of_part h2.2.2.2.1 hc1
    have b32 := h2.2.2.2.2.trans b3
    split
    · rename_i hf
      simp only [Bool.not_eq_true'] at hf
      refine ⟨h2.1, k2, b32, h2.2.2.1, hc2, ?_⟩
      intro h
      rw [← h2.1, hf] at h
      exact absurd h (by decide)
    · have h3 := pages_spec r2.2.1 r2.2.2 h2.2.2.1
      generalize bmfont__parse_pages r2.2.1 r2.2.2 = r3 at h3 ⊢
      have k3 : r3.2.1.kernings_read = p.kernings_read := h3.2.2.1.trans k2
      have hc3 := sized_chars_of_part h3.2.2.2.1 hc2
      have b33 := h3.2.2.2.2.1.trans b32
      split
      · rename_i hf
        simp only [Bool.not_eq_true'] at hf
        refine ⟨h3.1, k3, b33, h3.2.2.2.2.2.1, hc3, ?_⟩
        intro h
        rw [← h3.1, hf] at h
        exact absurd h (by decide)
      · rename_i hf
        simp only [Bool.not_eq_true', Bool.not_eq_false] at hf
        have hpr := h3.2.2.2.2.2.2 (h3.1 ▸ hf)
        have h4 := chars_spec r3.2.1 r3.2.2 hc3
        generalize bmfont__parse_chars r3.2.1 r3.2.2 = r4 at h4 ⊢
        have hnp : r4.2.2.num_pages = r3.2.2.num_pages := congrArg (fun c => c.2) h4.2.2.2.1
        refine ⟨h4.1, h4.2.2.1.trans k3, h4.2.2.2.2.1.trans b33,
          sized_pages_of_part h4.2.2.2.1 h3.2.2.2.2.2.1, h4.2.2.2.2.2.1, ?_⟩
        intro h
        exact ⟨(h4.2.1.trans hpr).trans hnp.symm, h4.2.2.2.2.2.2 h⟩

theorem sections_spec (p : BMFont__Parser) (hk : p.kernings_read = 0)
    (hok : (parse_sections p empty_font).2.1.ok = true) :
    sized_pages (parse_sections p empty_font).2.2 ∧
      (parse_sections p empty_font).2.1.pages_read =
        (parse_sections p empty_font).2.2.num_pages ∧
      sized_chars (parse_sections p empty_font).2.2 ∧
      (parse_sections p empty_font).2.1.chars_read =
        (parse_sections p empty_font).2.2.num_chars ∧
      sized_kernings (parse_sections p empty_font).2.2 ∧
      (parse_sections p empty_font).2.1.kernings_read =
        (parse_sections p empty_font).2.2.num_kernings ∧
      ((parse_leading_sections p empty_font).2.1.eof = true →
        (parse_sections p empty_font).2.2.num_kernings = 0 ∧
          (parse_sections p empty_font).2.2.kernings = some []) := by
  rw [parse_sections_split] at hok ⊢
  have hl := leading_spec p empty_font rfl rfl
  generalize parse_leading_sections p empty_font = r at hl hok ⊢
  obtain ⟨hfst, hkr, hkp, hsp, hsc, hcnt⟩ := hl
  have hkn : r.2.2.kernings = none := congrArg (fun c => c.1) hkp
  have hnk : r.2.2.num_kernings = 0 := congrArg (fun c => c.2) hkp
  cases h1 : r.1 with
  | false =>
    simp only [h1, Bool.not_false, if_true] at hok
    rw [← hfst, h1] at hok
    exact absurd hok (by decide)
  | true =>
    simp only [h1, Bool.not_true, Bool.false_eq_true, if_false] at hok ⊢
    have hrok : r.2.1.ok = true := by rw [← hfst]; exact h1
    obtain ⟨hpr, hcr⟩ := hcnt hrok
    cases hr : bmfont__parser_ready r.2.1 with
    | false =>
      rw [kernings_absent _ _ hr]
      refine ⟨hsp, hpr, hsc, hcr, ?_, ?_, fun _ => ⟨hnk, rfl⟩⟩
      · simp [sized_kernings, slots, hnk]
      · show r.2.1.kernings_read = r.2.2.num_kernings
        rw [hkr, hk, hnk]
    | true =>
      have hs := kernings_spec r.2.1 r.2.2 (by simp [sized_kernings, slots, hkn, hnk]) hr
      have hnp : (bmfont__parse_kernings r.2.1 r.2.2).2.2.num_pages = r.2.2.num_pages :=
        congrArg (fun c => c.2) hs.2.2.1
      have hnc : (bmfont__parse_kernings r.2.1 r.2.2).2.2.num_chars = r.2.2.num_chars :=
        congrArg (fun c => c.2) hs.2.2.2.1
      refine ⟨sized_pages_of_part hs.2.2.1 hsp, (hs.1.trans hpr).trans hnp.symm,
        sized_chars_of_part hs.2.2.2.1 hsc, (hs.2.1.trans hcr).trans hnc.symm,
        hs.2.2.2.2.1, hs.2.2.2.2.2 hok, ?_⟩
      intro heof
      simp [bmfont__parser_ready, bmfont__parser_ok, heof] at hr

theorem parse_file_returned (input : List Char) (f : BMFont)
    (h : (bmfont_parse_file input).returned = some f) :
    (parse_sections (bmfont__load_next_token (parser_at_start input)).2 empty_font).2.1.ok
        = true ∧
      (bmfont_parse_file input).parser =
        (parse_sections (bmfont__load_next_token (parser_at_start input)).2 empty_font).2.1 ∧
      f = (parse_sections (bmfont__load_next_token (parser_at_start input)).2 empty_font).2.2 := by
  unfold bmfont_parse_file at h ⊢
  simp only at h ⊢
  split at h
  · simp at h
  · rename_i hok
    simp only [hok, if_false]
    split at h
    · simp at h
    · rename_i heof
      simp only [heof, if_false]
      simp only [Option.some.injEq] at h
      refine ⟨?_, rfl, h.symm⟩
      simpa [bmfont__parser_ok] using hok

theorem leading_sections_eq {p0 q1 q2 q3 q4 : BMFont__Parser} {f0 f1 f2 f3 f4 : BMFont}
    (e1 : bmfont__parse_info p0 f0 = (true, q1, f1))
    (e2 : bmfont__parse_common q1 f1 = (true, q2, f2))
    (e3 : bmfont__parse_pages q2 f2 = (true, q3, f3))
    (e4 : bmfont__parse_chars q3 f3 = (true, q4, f4)) :
    parse_leading_sections p0 f0 = (true, q4, f4) := by
  simp only [parse_leading_sections, e1, e2, e3, e4, Bool.not_true, Bool.false_eq_true, if_false]

/-- On a well-formed document the parser is at the end of the stream when
`bmfont__parse_kernings` is entered exactly when the document has no kernings
section. -/
theorem absent_iff_no_kernings (d : Doc) (hd : d.well_formed) :
    kernings_section_absent (render d) ↔ d.kernings = none := by
  unfold kernings_section_absent
  cases hk : d.kernings with
  | none =>
    obtain ⟨p0, q1, q2, q3, q4, f1, f2, f3, hp0, e1, e2, e3, e4, g4⟩ :=
      first_four_sections (next_eof []) d hd
    have hr : render d = render_info d.face d.size
        (render_common d.lineHeight d.base d.scaleW d.scaleH d.pages.length
          (render_pages d.pages (render_chars_header d.chars.length (render_chars d.chars [])))) := by
      simp only [render, hk, render_kernings_section]
    subst hp0
    rw [hr, leading_sections_eq e1 e2 e3 e4]
    simp [g4.eof]
  | some ks =>
    have nk : Next (render_kernings_header ks.length (render_kernings ks []))
        "kernings".toList _ false :=
      next_word "kernings".toList _ (by decide) (delim_start_pair _ _ _)
    obtain ⟨p0, q1, q2, q3, q4, f1, f2, f3, hp0, e1, e2, e3, e4, g4⟩ :=
      first_four_sections nk d hd
    have hr : render d = render_info d.face d.size
        (render_common d.lineHeight d.base d.scaleW d.scaleH d.pages.length
          (render_pages d.pages (render_chars_header d.chars.length (render_chars d.chars
            (render_kernings_header ks.length (render_kernings ks [])))))) := by
      simp only [render, hk, render_kernings_section]
    subst hp0
    rw [hr, leading_sections_eq e1 e2 e3 e4]
    simp [g4.eof]

theorem all_take_drop (P : Char → Bool) (s : List Char) (h : s.all P = true) :
    s.takeWhile P = s ∧ s.dropWhile P = [] := by
  rw [List.all_eq_true] at h
  exact ⟨List.takeWhile_eq_self_iff.2 h, List.dropWhile_eq_nil_iff.2 h⟩

theorem not_all_drop (P : Char → Bool) (s : List Char) (h : s.all P = false) :
    s.dropWhile P ≠ [] := by
  intro hd
  rw [List.dropWhile_eq_nil_iff] at hd
  have : s.all P = true := List.all_eq_true.2 hd
  rw [h] at this
  exact absurd this (by decide)

theorem starts_hex_shape {s : List Char} (h : starts_hex s = true) :
    ∃ x d r, s = '0' :: x :: d :: r ∧ (x = 'x' ∨ x = 'X') ∧ is_digit_of 16 d = true := by
  match s, h with
  | z :: x :: d :: r, h =>
    simp only [starts_hex, Bool.decide_and, Bool.decide_or, Bool.decide_eq_true,
      Bool.and_eq_true, Bool.or_eq_true, decide_eq_true_eq] at h
    exact ⟨x, d, r, by rw [h.1], h.2.1, h.2.2⟩

theorem x_not_octal (x : Char) (h : x = 'x' ∨ x = 'X') : is_digit_of 8 x = false := by
  rcases h with rfl | rfl <;> decide

theorem magnitude_hex (s : List Char) (h : starts_hex s = true) :
    (∀ m, literal_magnitude s = some m →
      (s.drop 2).takeWhile (is_digit_of 16) ≠ [] ∧ (s.drop 2).dropWhile (is_digit_of 16) = [] ∧
        digits_value 16 ((s.drop 2).takeWhile (is_digit_of 16)) = m) ∧
    (literal_magnitude s = none → (s.drop 2).dropWhile (is_digit_of 16) ≠ []) := by
  obtain ⟨x, d, r, rfl, hx, hd⟩ := starts_hex_shape h
  have hoct : is_octal_literal ('0' :: x :: d :: r) = false := by
    simp [is_octal_literal, x_not_octal x hx]
  have hdec : is_decimal_literal ('0' :: x :: d :: r) = false := by
    simp [is_decimal_literal]
  have hhex : is_hex_literal ('0' :: x :: d :: r) = (d :: r).all (is_digit_of 16) := by
    rw [Bool.eq_iff_iff]
    rcases hx with rfl | rfl <;> simp [is_hex_literal]
  simp only [literal_magnitude, hoct, hdec, hhex, List.drop_succ_cons, List.drop_zero,
    Bool.false_eq_true, if_false]
  cases hall : (d :: r).all (is_digit_of 16) with
  | true =>
    obtain ⟨ht, hdr⟩ := all_take_drop _ _ hall
    simp only [if_true, Option.some.injEq, ht, hdr]
    refine ⟨?_, by simp⟩
    intro m hm
    exact ⟨by simp, trivial, hm⟩
  | false =>
    simp only [Bool.false_eq_true, if_false]
    exact ⟨by simp, fun _ => not_all_drop _ _ hall⟩

theorem hex_literal_starts_hex (s : List Char) (h : is_hex_literal s = true) :
    starts_hex s = true := by
  match s with
  | [] => simp [is_hex_literal] at h
  | [_] => simp [is_hex_literal] at h
  | [_, _] => simp [is_hex_literal] at h
  | z :: x :: d :: r =>
    simp only [is_hex_literal, List.head?_cons, Option.some.injEq, List.tail_cons,
      List.drop_succ_cons, List.drop_zero, ne_eq, reduceCtorEq, not_false_eq_true,
      List.all_cons, Bool.decide_and, Bool.decide_or, Bool.decide_eq_true, Bool.and_eq_true,
      Bool.or_eq_true, decide_eq_true_eq, decide_True, Bool.true_and] at h
    simp only [starts_hex, Bool.decide_and, Bool.decide_or, Bool.decide_eq_true,
      Bool.and_eq_true, Bool.or_eq_true, decide_eq_true_eq]
    exact ⟨h.1, h.2.1, h.2.2.1⟩

theorem magnitude_plain (s : List Char) (h : starts_hex s = false) (base : Nat)
    (hb : base = if s.head? = some '0' then 8 else 10) :
    (∀ m, literal_magnitude s = some m →
      s.takeWhile (is_digit_of base) ≠ [] ∧ s.dropWhile (is_digit_of base) = [] ∧
        digits_value base (s.takeWhile (is_digit_of base)) = m) ∧
    (literal_magnitude s = none →
      s.takeWhile (is_digit_of base) = [] ∨ s.dropWhile (is_digit_of base) ≠ []) := by
  have hhex : is_hex_literal s = false := by
    cases hh : is_hex_literal s with
    | false => rfl
    | true => rw [hex_literal_starts_hex s hh] at h; exact absurd h (by decide)
  by_cases h0 : s.head? = some '0'
  · rw [if_pos h0] at hb
    subst hb
    have hne : s ≠ [] := by
      intro hs; rw [hs] at h0; simp at h0
    have hdec : is_decimal_literal s = false := by simp [is_decimal_literal, h0]
    have hoct : is_octal_literal s = s.all (is_digit_of 8) := by
      rw [Bool.eq_iff_iff]; simp [is_octal_literal, h0]
    simp only [literal_magnitude, hhex, hdec, hoct, Bool.false_eq_true, if_false]
    cases hall : s.all (is_digit_of 8) with
    | true =>
      obtain ⟨ht, hdr⟩ := all_take_drop _ _ hall
      simp only [if_true, Option.some.injEq, ht, hdr]
      exact ⟨fun m hm => ⟨hne, trivial, hm⟩, by simp⟩
    | false =>
      simp only [Bool.false_eq_true, if_false]
      exact ⟨by simp, fun _ => Or.inr (not_all_drop _ _ hall)⟩
  · rw [if_neg h0] at hb
    subst hb
    have hoct : is_octal_literal s = false := by simp [is_octal_literal, h0]
    by_cases hne : s = []
    · subst hne
      simp [literal_magnitude, is_hex_literal, is_octal_literal, is_decimal_literal]
    · have hdec : is_decimal_literal s = s.all (is_digit_of 10) := by
        rw [Bool.eq_iff_iff]; simp [is_decimal_literal, h0, hne]
      simp only [literal_magnitude, hhex, hdec, hoct, Bool.false_eq_true, if_false]
      cases hall : s.all (is_digit_of 10) with
      | true =>
        obtain ⟨ht, hdr⟩ := all_take_drop _ _ hall
        simp only [if_true, Option.some.injEq, ht, hdr]
        exact ⟨fun m hm => ⟨hne, trivial, hm⟩, by simp⟩
      | false =>
        simp only [Bool.false_eq_true, if_false]
        exact ⟨by simp, fun _ => Or.inr (not_all_drop _ _ hall)⟩

theorem magnitude_spec (s : List Char) :
    (∀ m, literal_magnitude s = some m →
      (if starts_hex s then s.drop 2 else s).takeWhile (is_digit_of (strtol_base s)) ≠ [] ∧
      (if starts_hex s then s.drop 2 else s).dropWhile (is_digit_of (strtol_base s)) = [] ∧
        digits_value (strtol_base s)
          ((if starts_hex s then s.drop 2 else s).takeWhile (is_digit_of (strtol_base s))) = m) ∧
    (literal_magnitude s = none →
      (if starts_hex s then s.drop 2 else s).takeWhile (is_digit_of (strtol_base s)) = [] ∨
      (if starts_hex s then s.drop 2 else s).dropWhile (is_digit_of (strtol_base s)) ≠ []) := by
  cases h : starts_hex s with
  | true =>
    have hb : strtol_base s = 16 := by simp [strtol_base, h]
    simp only [hb, if_true]
    exact ⟨(magnitude_hex s h).1, fun hn => Or.inr ((magnitude_hex s h).2 hn)⟩
  | false =>
    have hb : strtol_base s = if s.head? = some '0' then 8 else 10 := by simp [strtol_base, h]
    simp only [Bool.false_eq_true, if_false]
    exact magnitude_plain s h _ hb

/-- The model of `strtol` against the literal syntax: a token that, after its
leading white space, is a literal is converted whole, to the value of the
literal clamped to the range of `long`; any other non-empty token is not
converted whole; the empty token is converted whole, to 0. -/
theorem strtol_spec (tok : List Char) :
    (∀ v, c_int_literal (tok.dropWhile isspace) = some v →
      (strtol tok).2 = [] ∧
        (strtol tok).1 = if (tok.dropWhile isspace).head? = some '-' then max v LONG_MIN
          else min v LONG_MAX) ∧
    (c_int_literal (tok.dropWhile isspace) = none → tok ≠ [] → (strtol tok).2 ≠ []) ∧
    (tok = [] → strtol tok = (0, [])) := by
  refine ⟨?_, ?_, ?_⟩
  · intro v hv
    unfold c_int_literal at hv
    unfold strtol
    simp only
    generalize tok.dropWhile isspace = s1 at hv ⊢
    generalize (if s1.head? = some '-' ∨ s1.head? = some '+' then s1.tail else s1) = s2 at hv ⊢
    cases hm : literal_magnitude s2 with
    | none => rw [hm] at hv; simp at hv
    | some m =>
      rw [hm] at hv
      replace hv : (if s1.head? = some '-' then -(m : Int) else (m : Int)) = v :=
        Option.some.inj hv
      obtain ⟨h1, h2, h3⟩ := (magnitude_spec s2).1 m hm
      simp only [h1, if_false, h2, h3, true_and]
      by_cases hneg : s1.head? = some '-'
      · rw [if_pos hneg] at hv
        simp [hneg, ← hv]
      · rw [if_neg hneg] at hv
        simp [hneg, ← hv]
  · intro hn hne
    unfold c_int_literal at hn
    unfold strtol
    simp only
    generalize tok.dropWhile isspace = s1 at hn ⊢
    generalize (if s1.head? = some '-' ∨ s1.head? = some '+' then s1.tail else s1) = s2 at hn ⊢
    have hm : literal_magnitude s2 = none := by
      cases hm : literal_magnitude s2 with
      | none => rfl
      | some m => rw [hm] at hn; simp at hn
    have hs := (magnitude_spec s2).2 hm
    generalize (if starts_hex s2 then s2.drop 2 else s2) = s3 at hs ⊢
    by_cases hds : s3.takeWhile (is_digit_of (strtol_base s2)) = []
    · simp only [hds, if_true]
      exact hne
    · simp only [hds, if_false]
      rcases hs with h | h
      · exact absurd h hds
      · exact h
  · intro h
    subst h
    rfl

theorem accepted_spec (tok : List Char) (lo hi : Int) (hlo : LONG_MIN < lo)
    (hhi : hi < LONG_MAX) :
    (∀ v, accepted_value tok = some v →
      (strtol tok).2 = [] ∧ (lo ≤ v → v ≤ hi → (strtol tok).1 = v) ∧
        (v < lo → (strtol tok).1 < lo) ∧ (hi < v → hi < (strtol tok).1)) ∧
    (accepted_value tok = none → (strtol tok).2 ≠ []) := by
  obtain ⟨h1, h2, h3⟩ := strtol_spec tok
  unfold accepted_value
  by_cases ht : tok = []
  · simp only [ht, if_true, Option.some.injEq, reduceCtorEq, false_implies, and_true]
    intro v hv
    subst hv
    rw [ht] at h3
    rw [h3 rfl]
    exact ⟨rfl, fun _ _ => rfl, fun h => h, fun h => h⟩
  · simp only [ht, if_false]
    refine ⟨?_, fun hn => h2 hn ht⟩
    intro v hv
    obtain ⟨he, hval⟩ := h1 v hv
    refine ⟨he, ?_, ?_, ?_⟩ <;> rw [hval] <;> split <;> intros <;> omega

theorem do_get_ready (p : BMFont__Parser) (lo hi : Int)
    (hr : bmfont__parser_ready p = true) :
    bmfont__do_get_token_as_int_and_advance p lo hi =
      if (strtol p.next_token).2 ≠ [] then
        (false, bmfont__set_parser_error p
          (msg_expected_integer p.start_line p.start_col p.next_token), none)
      else if (strtol p.next_token).1 < lo ∨ (strtol p.next_token).1 > hi then
        (false, bmfont__set_parser_error p
          (msg_out_of_range p.start_line p.start_col (strtol p.next_token).1), none)
      else ((bmfont__load_next_token p).1, (bmfont__load_next_token p).2,
        some (strtol p.next_token).1) := by
  have heof : p.eof = false := by
    simp only [bmfont__parser_ready, Bool.and_eq_true, Bool.not_eq_true'] at hr
    exact hr.2
  simp [bmfont__do_get_token_as_int_and_advance, bmfont__expect_more_tokens, heof]

theorem do_get_accept (p : BMFont__Parser) (lo hi : Int)
    (hr : bmfont__parser_ready p = true) (v : Int) (hs : strtol p.next_token = (v, []))
    (h1 : lo ≤ v) (h2 : v ≤ hi) :
    bmfont__do_get_token_as_int_and_advance p lo hi
      = ((bmfont__load_next_token p).1, (bmfont__load_next_token p).2, some v) := by
  rw [do_get_ready p lo hi hr, hs]
  have hn : ¬ (v < lo ∨ v > hi) := by omega
  simp only [ne_eq, not_true_eq_false, if_false, hn]

theorem word_loop_long : ∀ (n len : Nat), len + n + 1 ≤ BMFONT_MAX_TOKEN_LENGTH →
    word_loop (List.replicate (n + 1) 'a') len = (List.replicate (n + 1) 'a', []) := by
  intro n
  induction n with
  | zero =>
    intro len _
    simp [word_loop, word_continues]
  | succ n ih =>
    intro len h
    have hc : word_continues (List.replicate (n + 1) 'a') (len + 1) = true := by
      simp only [List.replicate_succ, word_continues, ne_eq, Bool.decide_and,
        Bool.and_eq_true, decide_eq_true_eq]
      refine ⟨by decide, by decide, by decide, by decide, ?_⟩
      omega
    rw [List.replicate_succ, word_loop, hc]
    simp only [if_true]
    rw [ih (len + 1) (by omega)]

theorem long_word_eq : long_word = 'a' :: List.replicate 1023 'a' :=
  List.replicate_succ 'a' 1023

theorem load_long_aux (p : BMFont__Parser) (hr : bmfont__parser_ready p = true) (n : Nat)
    (hn : n + 1 = BMFONT_MAX_TOKEN_LENGTH) (hs : p.stream = 'a' :: List.replicate n 'a') :
    bmfont__load_next_token p =
      (false, bmfont__set_parser_error
        { p with assert_failed := p.assert_failed || !bmfont__parser_ok p, stream := [],
                 start_col := p.curr_col, start_line := p.curr_line,
                 curr_col := p.curr_col + (n + 1), next_token := 'a' :: List.replicate n 'a' }
        (msg_token_too_long p.curr_line p.curr_col)) := by
  have hw : word_loop ('a' :: List.replicate n 'a') 0 = ('a' :: List.replicate n 'a', []) :=
    word_loop_long n 0 (by omega)
  have hl : ('a' :: List.replicate n 'a').length = BMFONT_MAX_TOKEN_LENGTH := by
    rw [← hn]; simp
  have hc : cstr ('a' :: List.replicate n 'a') = 'a' :: List.replicate n 'a' := by
    unfold cstr
    rw [List.takeWhile_eq_self_iff]
    intro c hc
    have : c = 'a' := by
      rcases List.mem_cons.1 hc with h | h
      · exact h
      · exact List.eq_of_mem_replicate h
    subst this
    decide
  have hok : p.ok = true := by
    simp only [bmfont__parser_ready, bmfont__parser_ok, Bool.and_eq_true] at hr
    exact hr.1
  have heof : p.eof = false := by
    simp only [bmfont__parser_ready, Bool.and_eq_true, Bool.not_eq_true'] at hr
    exact hr.2
  have hsk : skip_blank ('a' :: List.replicate n 'a') p.curr_col
      = ('a' :: List.replicate n 'a', p.curr_col) := by
    simp [skip_blank]
  unfold bmfont__load_next_token
  simp only [bmfont__parser_ready, bmfont__parser_ok, hok, heof, Bool.not_false, Bool.and_self,
    if_true, hs, hsk]
  have h1 : ('a' = '\n') = False := by decide
  have h2 : ('a' = '=') = False := by decide
  simp only [h1, h2, if_false, hw, hl, hc, if_true]
  rw [← hl]
  simp

/-- Loading a token fails on a word that fills the token buffer. -/
theorem load_long_word (p : BMFont__Parser) (hr : bmfont__parser_ready p = true)
    (hs : p.stream = long_word) : (bmfont__load_next_token p).1 = false ∧
      (bmfont__load_next_token p).2.error
        = (msg_token_too_long p.curr_line p.curr_col).take (bmfont__error_size - 1) := by
  rw [long_word_eq] at hs
  rw [load_long_aux p hr 1023 rfl hs]
  exact ⟨rfl, rfl⟩

theorem copy_quoted_ready (p : BMFont__Parser) (hr : bmfont__parser_ready p = true) :
    bmfont__copy_quoted_token_and_advance p =
      if quotes_missing p.next_token then
        (false, bmfont__set_parser_error p
          (msg_expected_quoted p.start_line p.start_col p.next_token), none)
      else ((bmfont__load_next_token p).1, (bmfont__load_next_token p).2,
        some ((p.next_token.drop 1).take (p.next_token.length - 2))) := by
  have heof : p.eof = false := by
    simp only [bmfont__parser_ready, Bool.and_eq_true, Bool.not_eq_true'] at hr
    exact hr.2
  simp only [bmfont__copy_quoted_token_and_advance, bmfont__expect_more_tokens, heof,
    Bool.false_eq_true, if_false, Bool.not_true, quotes_missing]

/-- A token that passes the check is a double quote, a body and a double
quote, and the text copied is the body. -/
theorem quoted_body (tok : List Char) (h : ¬ quotes_missing tok) :
    ∃ body, tok = '"' :: (body ++ ['"']) ∧ (tok.drop 1).take (tok.length - 2) = body := by
  simp only [quotes_missing, not_or, not_lt, ne_eq, not_not] at h
  obtain ⟨hlen, hhead, hlast⟩ := h
  match tok, hlen, hhead, hlast with
  | [_], hlen, _, _ => simp at hlen
  | c :: d :: r, _, hhead, hlast =>
    simp only [List.head?_cons, Option.some.injEq] at hhead
    subst hhead
    rw [List.getLast?_cons_cons] at hlast
    obtain ⟨body, hb⟩ : ∃ body, d :: r = body ++ ['"'] := by
      refine ⟨(d :: r).dropLast, ?_⟩
      have := List.dropLast_append_getLast? '"' (by rw [hlast]; rfl)
      exact this.symm
    rw [hb]
    exact ⟨body, rfl, by simp⟩

theorem runs_stop {α : Type} (body : BMFont__Parser → α → BMFont__Parser × α)
    (p : BMFont__Parser) (hp : bmfont__parser_ready p = false) (a : α) :
    Runs body p a 1 p a := by
  apply runs_done
  intro fuel
  rw [kv_loop]
  simp only [hp, Bool.false_eq_true, if_false]

/-- A pair whose value does not pass the quote check, in a loop whose handler
for the key copies a quoted string: the loop ends with the quoted-string error
set and the data unchanged. -/
theorem kv_pair_bad_quote {α : Type}
    (table : List (List Char × (BMFont__Parser → α → BMFont__Parser × α)))
    (key : List Char) (upd : α → List Char → α)
    (hf : find_handler table key = some (on_quoted upd)) (hkey : key ≠ ['\n'])
    {p : BMFont__Parser} {v rest : List Char} {b : Bool}
    (h : Good p key ('=' :: (v ++ rest)) false b) (hv : is_word v = true)
    (hr : delim_start rest = true) (hbad : quotes_missing v) :
    ∃ q, Flags q b ∧ ∀ a : α, Runs (dispatch table) p a 2
      (bmfont__set_parser_error q (msg_expected_quoted q.start_line q.start_col v)) a := by
  obtain ⟨q, hq, hl⟩ := kv_pair table key _ hf hkey h hv hr
  have hready : bmfont__parser_ready q = true := good_ready hq
  have hc := copy_quoted_ready q hready
  rw [hq.tok rfl, if_pos hbad] at hc
  refine ⟨q, flags_of_good hq, ?_⟩
  intro a
  refine runs_step (fun fuel => hl fuel a) ?_
  simp only [on_quoted, hc, store_opt]
  exact runs_stop _ (bmfont__set_parser_error q _) rfl a

/-- The page section of a document whose page lines are followed by a page
line with a file value that does not pass the quote check. -/
theorem pages_bad_quote (pgs : List PageLine)
    (hall : ∀ pg ∈ pgs, pg.id ≤ 4294967295 ∧ is_file_name pg.file = true)
    (id : Nat) (hid : id ≤ 4294967295) (tok rest : List Char) (hw : is_word tok = true)
    (hbad : quotes_missing tok)
    (p : BMFont__Parser) (font : BMFont) (names : List (Option (List Char))) (b : Bool)
    (hn : font.page_names = some names) (hlt : pgs.length < font.num_pages)
    (h : Good p
      (pages_ahead pgs (render_page_raw id tok rest) "page".toList
        (pair "id".toList (fmt_nat id) (pair "file".toList tok ('\n' :: rest))) false).1
      (pages_ahead pgs (render_page_raw id tok rest) "page".toList
        (pair "id".toList (fmt_nat id) (pair "file".toList tok ('\n' :: rest))) false).2.1
      (pages_ahead pgs (render_page_raw id tok rest) "page".toList
        (pair "id".toList (fmt_nat id) (pair "file".toList tok ('\n' :: rest))) false).2.2 b) :
    ∃ q f, Flags q (b || pages_oob names.length pgs) ∧ q.ok = false ∧
      bmfont__parse_pages p font = (false, q, f) := by
  have nx : Next (render_page_raw id tok rest) "page".toList
      (pair "id".toList (fmt_nat id) (pair "file".toList tok ('\n' :: rest))) false :=
    next_word "page".toList _ (by decide) (delim_start_pair _ _ _)
  obtain ⟨q, gq, hl⟩ := pages_loop_records nx pgs hall p font names b hn h
  obtain ⟨m, hm⟩ : ∃ m, font.num_pages = pgs.length + (m + 1) :=
    ⟨font.num_pages - pgs.length - 1, by omega⟩
  have hmt := match_good gq (next_pair_key _ _ _ (by decide))
  obtain ⟨q1, g1, e1⟩ := kv_pair_u32 page_table "id".toList _ rfl (by decide) hmt.2 hid
    (delim_start_pair _ _ _) (next_pair_key _ _ _ (by decide))
  obtain ⟨q2, fl2, e2⟩ := kv_pair_bad_quote page_table "file".toList _ rfl (by decide) g1 hw
    (delim_start_nl _) hbad
  have hrun := runs_step (fun fuel => e1 fuel (0, none)) (e2 _)
  have hfuel : 3 ≤ kv_fuel (bmfont__match_token_and_advance q "page".toList).2 := by
    rw [kv_fuel_good hmt.2]; simp
  have h1 := hl (m + 1) 0
  simp only [Nat.zero_add] at h1
  refine ⟨{ bmfont__set_parser_error
      (bmfont__set_parser_error q2 (msg_expected_quoted q2.start_line q2.start_col tok))
      (msg_page_missing_filename q2.start_line) with pages_read := pgs.length },
    { font with page_names := some (fill_pages names pgs) }, ?_, ?_, ?_⟩
  rotate_left 2
  · simp only [bmfont__parse_pages]
    rw [hm, h1, parse_pages_loop]
    simp only [hmt.1, Bool.not_true, Bool.false_eq_true, if_false, parse_page_body_eq]
    rw [hrun _ hfuel]
    simp only [if_true, bmfont__set_parser_error, ← hm]
  · exact fl2
  · rfl

/-- A document whose page lines are followed, before the declared number of
pages is reached, by a page line with a file value that does not pass the quote
check. -/
theorem bad_quote_fails (d : Doc) (declared id : Nat) (tok rest : List Char)
    (hd : d.preamble_ok) (hp : d.pages_ok declared) (hlt : d.pages.length < declared)
    (hdec : declared ≤ 65535) (hid : id ≤ 4294967295) (hw : is_word tok = true)
    (hbad : quotes_missing tok) :
    (bmfont_parse_file (render_upto_pages d declared (render_page_raw id tok rest))).returned
        = none ∧
      ((bmfont_parse_file (render_upto_pages d declared (render_page_raw id tok rest))).clean
        = true ↔ ∀ pg ∈ d.pages, pg.id < 32768) := by
  have nx : Next (render_page_raw id tok rest) "page".toList
      (pair "id".toList (fmt_nat id) (pair "file".toList tok ('\n' :: rest))) false :=
    next_word "page".toList _ (by decide) (delim_start_pair _ _ _)
  obtain ⟨q1, q2, f1, h1, h2, g2⟩ :=
    info_common_sections (next_pages_ahead nx d.pages) d hd declared hdec
  obtain ⟨q3, f3, fl3, hok, h3⟩ := pages_bad_quote d.pages (pages_ok_bound hp hdec) id hid tok
    rest hw hbad q2 (font_after_common d declared) (List.replicate declared none) false rfl hlt g2
  have hrun : bmfont_parse_file (render_upto_pages d declared (render_page_raw id tok rest))
      = { returned := none, parser := q3, built := f3 } :=
    parse_file_fail _ (parse_sections_stop3 h1 h2 h3) hok
  rw [hrun]
  refine ⟨rfl, ?_⟩
  rw [clean_of_flags fl3]
  have := pages_oob_iff declared hdec d.pages (fun pg hpg => (hp pg hpg).1)
  simp only [List.length_replicate, Bool.false_or] at *
  rw [← this]
  simp

/-- When the chain of the five section parsers evaluates to true the ok flag
is set afterwards. -/
theorem sections_fst_ok (p : BMFont__Parser)
    (h : (parse_sections p empty_font).1 = true) :
    (parse_sections p empty_font).2.1.ok = true := by
  rw [parse_sections_split] at h ⊢
  have hl := (leading_spec p empty_font rfl rfl).1
  generalize parse_leading_sections p empty_font = r at hl h ⊢
  cases h1 : r.1 with
  | false =>
    simp only [h1, Bool.not_false, if_true] at h
    exact absurd h (by decide)
  | true =>
    simp only [h1, Bool.not_true, Bool.false_eq_true, if_false] at h ⊢
    cases hr : bmfont__parser_ready r.2.1 with
    | false =>
      rw [kernings_absent _ _ hr] at h
      exact absurd h (by simp)
    | true =>
      unfold bmfont__parse_kernings at h ⊢
      simp only [hr, Bool.not_true, Bool.false_eq_true, if_false] at h ⊢
      exact h

theorem skip_blank_spaces : ∀ (n col : Nat) (s : List Char),
    skip_blank (List.replicate n ' ' ++ s) col = skip_blank s (col + n) := by
  intro n
  induction n with
  | zero => intro col s; rfl
  | succ n ih =>
    intro col s
    rw [List.replicate_succ, List.cons_append, skip_blank]
    simp only [true_or, if_true]
    rw [ih]
    congr 1
    omega

/-- A failed `bmfont__expect_token_and_advance` for `info` at the start makes
`bmfont_parse_file` return no font. -/
theorem parse_file_no_info (input : List Char)
    (h : (bmfont__expect_token_and_advance (bmfont__load_next_token (parser_at_start input)).2
      "info".toList).1 = false) :
    (bmfont_parse_file input).returned = none := by
  have hok := expect_false_ok _ _ h
  have hs : parse_sections (bmfont__load_next_token (parser_at_start input)).2 empty_font
      = (false, (bmfont__expect_token_and_advance
          (bmfont__load_next_token (parser_at_start input)).2 "info".toList).2, empty_font) := by
    simp only [parse_sections, bmfont__parse_info, h, Bool.not_false, if_true]
  rw [parse_file_fail input hs hok]

theorem expect_fails_of (p : BMFont__Parser) (tok : List Char)
    (h : p.eof = true ∨ p.ok = false ∨ p.next_token ≠ tok) :
    (bmfont__expect_token_and_advance p tok).1 = false := by
  have hm : (bmfont__match_token_and_advance p tok).1 = false := by
    unfold bmfont__match_token_and_advance bmfont__expect_more_tokens
    by_cases he : p.eof = true
    · simp [he]
    · simp only [he, Bool.false_eq_true, if_false]
      rcases h with h | h | h
      · exact absurd h he
      · simp [bmfont__parser_ok, h]
      · simp [h]
  unfold bmfont__expect_token_and_advance
  simp only [hm, Bool.not_false, if_true]
  split <;> rfl

theorem load_spaces_eof (n : Nat) :
    (bmfont__load_next_token (parser_at_start (List.replicate n ' '))).2.eof = true := by
  have hs := skip_blank_spaces n 1 []
  rw [List.append_nil] at hs
  unfold bmfont__load_next_token
  simp [bmfont__parser_ready, bmfont__parser_ok, parser_at_start, hs, skip_blank]

/-- A font is returned only after the first four section parsers have each
returned true, one after the other on the same state, and the kernings parser
has returned true or was entered at the end of the stream. -/
theorem sections_each_true (p : BMFont__Parser)
    (hok : (parse_sections p empty_font).2.1.ok = true) :
    ∃ r1 r2 r3 r4 : Bool × BMFont__Parser × BMFont,
      r1 = bmfont__parse_info p empty_font ∧ r1.1 = true ∧
      r2 = bmfont__parse_common r1.2.1 r1.2.2 ∧ r2.1 = true ∧
      r3 = bmfont__parse_pages r2.2.1 r2.2.2 ∧ r3.1 = true ∧
      r4 = bmfont__parse_chars r3.2.1 r3.2.2 ∧ r4.1 = true ∧
      (r1.2.1.ok = true ∧ r2.2.1.ok = true ∧ r3.2.1.ok = true ∧ r4.2.1.ok = true) ∧
      parse_sections p empty_font = bmfont__parse_kernings r4.2.1 r4.2.2 ∧
      ((bmfont__parse_kernings r4.2.1 r4.2.2).1 = true ∨
        (r4.2.1.eof = true ∧ (bmfont__parse_kernings r4.2.1 r4.2.2).1 = false)) := by
  obtain ⟨r1, e1⟩ : ∃ r1, r1 = bmfont__parse_info p empty_font := ⟨_, rfl⟩
  obtain ⟨r2, e2⟩ : ∃ r2, r2 = bmfont__parse_common r1.2.1 r1.2.2 := ⟨_, rfl⟩
  obtain ⟨r3, e3⟩ : ∃ r3, r3 = bmfont__parse_pages r2.2.1 r2.2.2 := ⟨_, rfl⟩
  obtain ⟨r4, e4⟩ : ∃ r4, r4 = bmfont__parse_chars r3.2.1 r3.2.2 := ⟨_, rfl⟩
  have hps : parse_sections p empty_font =
      if !r1.1 then r1 else if !r2.1 then r2 else if !r3.1 then r3 else if !r4.1 then r4
        else bmfont__parse_kernings r4.2.1 r4.2.2 := by
    rw [e4, e3, e2, e1]; rfl
  have h1 := info_spec p empty_font
  rw [← e1] at h1
  have hp1 : sized_pages r1.2.2 :=
    @sized_pages_of_part empty_font r1.2.2 (congrArg (fun c => c.1) h1.2.2) rfl
  have hc1 : sized_chars r1.2.2 :=
    @sized_chars_of_part empty_font r1.2.2 (congrArg (fun c => c.2.1) h1.2.2) rfl
  have h2 := common_spec r1.2.1 r1.2.2 hp1
  rw [← e2] at h2
  have hc2 := sized_chars_of_part h2.2.2.2.1 hc1
  have h3 := pages_spec r2.2.1 r2.2.2 h2.2.2.1
  rw [← e3] at h3
  have hc3 := sized_chars_of_part h3.2.2.2.1 hc2
  have h4 := chars_spec r3.2.1 r3.2.2 hc3
  rw [← e4] at h4
  rw [hps] at hok
  have t1 : r1.1 = true := by
    cases h : r1.1 with
    | true => rfl
    | false =>
      simp only [h, Bool.not_false, if_true] at hok
      rw [← h1.1, h] at hok
      exact absurd hok (by decide)
  simp only [t1, Bool.not_true, Bool.false_eq_true, if_false] at hok hps
  have t2 : r2.1 = true := by
    cases h : r2.1 with
    | true => rfl
    | false =>
      simp only [h, Bool.not_false, if_true] at hok
      rw [← h2.1, h] at hok
      exact absurd hok (by decide)
  simp only [t2, Bool.not_true, Bool.false_eq_true, if_false] at hok hps
  have t3 : r3.1 = true := by
    cases h : r3.1 with
    | true => rfl
    | false =>
      simp only [h, Bool.not_false, if_true] at hok
      rw [← h3.1, h] at hok
      exact absurd hok (by decide)
  simp only [t3, Bool.not_true, Bool.false_eq_true, if_false] at hok hps
  have t4 : r4.1 = true := by
    cases h : r4.1 with
    | true => rfl
    | false =>
      simp only [h, Bool.not_false, if_true] at hok
      rw [← h4.1, h] at hok
      exact absurd hok (by decide)
  simp only [t4, Bool.not_true, Bool.false_eq_true, if_false] at hok hps
  refine ⟨r1, r2, r3, r4, e1, t1, e2, t2, e3, t3, e4, t4,
    ⟨h1.1 ▸ t1, h2.1 ▸ t2, h3.1 ▸ t3, h4.1 ▸ t4⟩, hps, ?_⟩
  cases hr : bmfont__parser_ready r4.2.1 with
  | false =>
    right
    have hok4 : r4.2.1.ok = true := by rw [← h4.1]; exact t4
    constructor
    · simpa [bmfont__parser_ready, bmfont__parser_ok, hok4] using hr
    · rw [kernings_absent _ _ hr]
  | true =>
    left
    unfold bmfont__parse_kernings at hok ⊢
    simp only [hr, Bool.not_true, Bool.false_eq_true, if_false] at hok ⊢
    exact hok

/-- The word loop on a run of word characters in front of a delimiter or the
end of the stream: it stores the run, or its first characters up to the bound. -/
theorem word_loop_take (s : List Char) (hs : delim_start s = true) :
    ∀ (w : List Char) (len : Nat), w ≠ [] → (∀ c ∈ w, is_delim c = false) →
      len < BMFONT_MAX_TOKEN_LENGTH →
      word_loop (w ++ s) len
        = (w.take (BMFONT_MAX_TOKEN_LENGTH - len), w.drop (BMFONT_MAX_TOKEN_LENGTH - len) ++ s) := by
  intro w
  induction w with
  | nil => intro len h; exact absurd rfl h
  | cons c w ih =>
    intro len _ hw hlen
    obtain ⟨m, hm⟩ : ∃ m, BMFONT_MAX_TOKEN_LENGTH - len = m + 1 :=
      ⟨BMFONT_MAX_TOKEN_LENGTH - len - 1, by omega⟩
    cases w with
    | nil =>
      rw [hm]
      simp [word_loop, word_continues_false s (len + 1) hs]
    | cons c2 w2 =>
      have hc2 : is_delim c2 = false := hw c2 (by simp)
      simp only [is_delim, Bool.decide_or, Bool.or_eq_false_iff, decide_eq_false_iff_not] at hc2
      by_cases hlt : len + 1 < BMFONT_MAX_TOKEN_LENGTH
      · have hcont : word_continues ((c2 :: w2) ++ s) (len + 1) = true := by
          simp only [List.cons_append, word_continues, decide_eq_true_eq]
          exact ⟨hc2.1, hc2.2.1, hc2.2.2.1, hc2.2.2.2, hlt⟩
        have ih2 := ih (len + 1) (by simp) (fun c hc => hw c (List.mem_cons_of_mem _ hc)) hlt
        have hm2 : BMFONT_MAX_TOKEN_LENGTH - (len + 1) = m := by omega
        rw [hm2] at ih2
        rw [List.cons_append, word_loop, hcont, ih2, hm]
        rfl
      · have hcont : word_continues ((c2 :: w2) ++ s) (len + 1) = false := by
          simp only [List.cons_append, word_continues, decide_eq_false_iff_not]
          intro h
          exact hlt h.2.2.2.2
        have hm0 : m = 0 := by omega
        rw [List.cons_append, word_loop, hcont, hm, hm0]
        simp

/-- `bmfont__load_next_token` on a ready parser whose stream, after the
blanks, is a run `w` of word characters in front of a delimiter or the end of
the stream. -/
theorem load_word_run (p : BMFont__Parser) (hr : bmfont__parser_ready p = true)
    (w rest : List Char) (c : Nat) (hsk : skip_blank p.stream p.curr_col = (w ++ rest, c))
    (hne : w ≠ []) (hw : ∀ ch ∈ w, is_delim ch = false) (hrest : delim_start rest = true) :
    bmfont__load_next_token p =
      if (w.take BMFONT_MAX_TOKEN_LENGTH).length = BMFONT_MAX_TOKEN_LENGTH then
        (false, bmfont__set_parser_error
          { p with assert_failed := p.assert_failed || !bmfont__parser_ok p,
                   stream := w.drop BMFONT_MAX_TOKEN_LENGTH ++ rest,
                   start_col := c, start_line := p.curr_line,
                   curr_col := c + (w.take BMFONT_MAX_TOKEN_LENGTH).length,
                   next_token := cstr (w.take BMFONT_MAX_TOKEN_LENGTH) }
          (msg_token_too_long p.curr_line c))
      else
        (true,
          { p with assert_failed := p.assert_failed || !bmfont__parser_ok p,
                   stream := w.drop BMFONT_MAX_TOKEN_LENGTH ++ rest,
                   start_col := c, start_line := p.curr_line,
                   curr_col := c + (w.take BMFONT_MAX_TOKEN_LENGTH).length,
                   next_token := cstr (w.take BMFONT_MAX_TOKEN_LENGTH) }) := by
  have hok : p.ok = true := by
    simp only [bmfont__parser_ready, bmfont__parser_ok, Bool.and_eq_true] at hr
    exact hr.1
  have heof : p.eof = false := by
    simp only [bmfont__parser_ready, Bool.and_eq_true, Bool.not_eq_true'] at hr
    exact hr.2
  obtain ⟨c0, w0, rfl⟩ : ∃ c0 w0, w = c0 :: w0 := by
    cases w with
    | nil => exact absurd rfl hne
    | cons c0 w0 => exact ⟨c0, w0, rfl⟩
  have hc0 : is_delim c0 = false := hw c0 (by simp)
  simp only [is_delim, Bool.decide_or, Bool.or_eq_false_iff, decide_eq_false_iff_not] at hc0
  have hwl := word_loop_take rest hrest (c0 :: w0) 0 hne hw (by decide)
  simp only [Nat.sub_zero] at hwl
  unfold bmfont__load_next_token
  simp only [bmfont__parser_ready, bmfont__parser_ok, hok, heof, Bool.not_false, Bool.and_self,
    if_true, hsk, List.cons_append]
  rw [← List.cons_append, hwl]
  simp only [hc0.1, hc0.2.2.2, if_false]

/-- The page-name block of the font a run builds has `num_pages` slots,
whether the run succeeds or not. -/
theorem built_sized_pages (input : List Char) : sized_pages (bmfont_parse_file input).built := by
  have hb : (bmfont_parse_file input).built
      = (parse_sections (bmfont__load_next_token (parser_at_start input)).2 empty_font).2.2 := by
    unfold bmfont_parse_file
    simp only
    split
    · rfl
    · split <;> rfl
  rw [hb, parse_sections_split]
  have hl := leading_spec (bmfont__load_next_token (parser_at_start input)).2 empty_font rfl rfl
  generalize parse_leading_sections (bmfont__load_next_token (parser_at_start input)).2
    empty_font = r at hl ⊢
  obtain ⟨_, _, hkp, hsp, _, _⟩ := hl
  split
  · exact hsp
  · cases hr : bmfont__parser_ready r.2.1 with
    | false =>
      rw [kernings_absent _ _ hr]
      exact hsp
    | true =>
      have hk : sized_kernings r.2.2 := @sized_kernings_of_part empty_font _ hkp rfl
      exact sized_pages_of_part (kernings_spec r.2.1 r.2.2 hk hr).2.2.1 hsp

theorem closed_load {P : BMFont__Parser → Prop} (hP : ErrClosed P) (p : BMFont__Parser)
    (h : P p) : P (bmfont__load_next_token p).2 := by
  unfold bmfont__load_next_token
  simp only
  split
  · split
    · exact hP.1 p _ rfl h
    · split
      · exact hP.1 p _ rfl h
      · split
        · exact hP.1 p _ rfl h
        · split
          · exact hP.2 _ _ (hP.1 p _ rfl h)
          · exact hP.1 p _ rfl h
  · exact hP.1 p _ rfl h

theorem closed_expect_more {P : BMFont__Parser → Prop} (hP : ErrClosed P)
    (p : BMFont__Parser) (h : P p) : P (bmfont__expect_more_tokens p).2 := by
  unfold bmfont__expect_more_tokens
  split
  · exact hP.2 _ _ h
  · exact h

theorem closed_match {P : BMFont__Parser → Prop} (hP : ErrClosed P) (p : BMFont__Parser)
    (tok : List Char) (h : P p) : P (bmfont__match_token_and_advance p tok).2 := by
  unfold bmfont__match_token_and_advance
  simp only
  split
  · exact closed_expect_more hP p h
  · exact closed_load hP _ (closed_expect_more hP p h)

theorem closed_expect {P : BMFont__Parser → Prop} (hP : ErrClosed P) (p : BMFont__Parser)
    (tok : List Char) (h : P p) : P (bmfont__expect_token_and_advance p tok).2 := by
  unfold bmfont__expect_token_and_advance
  simp only
  split
  · split
    · exact hP.2 _ _ (closed_match hP p tok h)
    · exact closed_match hP p tok h
  · exact closed_match hP p tok h

theorem closed_match_key {P : BMFont__Parser → Prop} (hP : ErrClosed P) (p : BMFont__Parser)
    (tok : List Char) (h : P p) : P (bmfont__match_key_and_advance_to_value p tok).2 := by
  unfold bmfont__match_key_and_advance_to_value
  split
  · simp only
    split
    · exact closed_match hP _ _ (closed_load hP p h)
    · exact closed_load hP p h
  · exact h

theorem closed_do_get {P : BMFont__Parser → Prop} (hP : ErrClosed P) (p : BMFont__Parser)
    (lo hi : Int) (h : P p) : P (bmfont__do_get_token_as_int_and_advance p lo hi).2.1 := by
  unfold bmfont__do_get_token_as_int_and_advance
  simp only
  split
  · exact closed_expect_more hP p h
  · split
    · exact hP.2 _ _ (closed_expect_more hP p h)
    · split
      · exact hP.2 _ _ (closed_expect_more hP p h)
      · exact closed_load hP _ (closed_expect_more hP p h)

theorem closed_get_int16 {P : BMFont__Parser → Prop} (hP : ErrClosed P) (p : BMFont__Parser)
    (h : P p) : P (bmfont__get_token_as_int16_and_advance p).2.1 := by
  unfold bmfont__get_token_as_int16_and_advance
  simp only
  split <;> exact closed_do_get hP p _ _ h

theorem closed_get_uint16 {P : BMFont__Parser → Prop} (hP : ErrClosed P) (p : BMFont__Parser)
    (h : P p) : P (bmfont__get_token_as_uint16_and_advance p).2.1 := by
  unfold bmfont__get_token_as_uint16_and_advance
  simp only
  split <;> exact closed_do_get hP p _ _ h

theorem closed_get_uint32 {P : BMFont__Parser → Prop} (hP : ErrClosed P) (p : BMFont__Parser)
    (h : P p) : P (bmfont__get_token_as_uint32_and_advance p).2.1 := by
  unfold bmfont__get_token_as_uint32_and_advance
  simp only
  split <;> exact closed_do_get hP p _ _ h

theorem closed_copy {P : BMFont__Parser → Prop} (hP : ErrClosed P) (p : BMFont__Parser)
    (h : P p) : P (bmfont__copy_token_and_advance p).2.1 := by
  unfold bmfont__copy_token_and_advance
  simp only
  split
  · exact closed_expect_more hP p h
  · exact closed_load hP _ (closed_expect_more hP p h)

theorem closed_copy_quoted {P : BMFont__Parser → Prop} (hP : ErrClosed P)
    (p : BMFont__Parser) (h : P p) : P (bmfont__copy_quoted_token_and_advance p).2.1 := by
  unfold bmfont__copy_quoted_token_and_advance
  simp only
  split
  · exact closed_expect_more hP p h
  · split
    · exact hP.2 _ _ (closed_expect_more hP p h)
    · exact closed_load hP _ (closed_expect_more hP p h)

theorem closed_skip_unknown {P : BMFont__Parser → Prop} (hP : ErrClosed P)
    (p : BMFont__Parser) (h : P p) : P (skip_unknown_pair p) :=
  closed_load hP _ (closed_match hP p _ h)

theorem closed_kv_loop {P : BMFont__Parser → Prop} (hP : ErrClosed P) {α : Type}
    (body : BMFont__Parser → α → BMFont__Parser × α)
    (hb : ∀ p a, P p → P (body p a).1) :
    ∀ (fuel : Nat) (p : BMFont__Parser) (a : α), P p → P (kv_loop body fuel p a).1 := by
  intro fuel
  induction fuel with
  | zero => intro p a h; exact hP.1 p _ rfl h
  | succ n ih =>
    intro p a h
    rw [kv_loop]
    split
    · simp only
      split
      · exact closed_match hP p _ h
      · exact ih _ _ (hb _ _ (closed_match hP p _ h))
    · exact h

theorem closed_dispatch {P : BMFont__Parser → Prop} (hP : ErrClosed P) {α : Type}
    (table : List (List Char × (BMFont__Parser → α → BMFont__Parser × α)))
    (ht : ∀ kh ∈ table, ∀ q a, P q → P (kh.2 q a).1) :
    ∀ p a, P p → P (dispatch table p a).1 := by
  induction table with
  | nil => intro p a h; exact closed_skip_unknown hP p h
  | cons kh tl ih =>
    intro p a h
    obtain ⟨k, hd⟩ := kh
    simp only [dispatch]
    split
    · exact ht (k, hd) (by simp) _ _ (closed_match_key hP p k h)
    · exact ih (fun kh hkh => ht kh (List.mem_cons_of_mem _ hkh)) _ _ (closed_match_key hP p k h)

theorem closed_info_body {P : BMFont__Parser → Prop} (hP : ErrClosed P) (p : BMFont__Parser)
    (a : BMFont) (h : P p) : P (parse_info_body p a).1 := by
  rw [parse_info_body_eq]
  refine closed_dispatch hP info_table ?_ p a h
  intro kh hkh
  simp only [info_table, List.mem_cons, List.mem_singleton, List.not_mem_nil, or_false] at hkh
  rcases hkh with rfl | rfl <;> intro q a hq
  · exact closed_copy hP q hq
  · exact closed_get_int16 hP q hq

theorem closed_common_body {P : BMFont__Parser → Prop} (hP : ErrClosed P) (p : BMFont__Parser)
    (a : BMFont) (h : P p) : P (parse_common_body p a).1 := by
  rw [parse_common_body_eq]
  refine closed_dispatch hP common_table ?_ p a h
  intro kh hkh
  simp only [common_table, List.mem_cons, List.mem_singleton, List.not_mem_nil, or_false] at hkh
  rcases hkh with rfl | rfl | rfl | rfl | rfl <;> intro q a hq <;>
    exact closed_get_uint16 hP q hq

theorem closed_page_body {P : BMFont__Parser → Prop} (hP : ErrClosed P) (p : BMFont__Parser)
    (a : Nat × Option (List Char)) (h : P p) : P (parse_page_body p a).1 := by
  rw [parse_page_body_eq]
  refine closed_dispatch hP page_table ?_ p a h
  intro kh hkh
  simp only [page_table, List.mem_cons, List.mem_singleton, List.not_mem_nil, or_false] at hkh
  rcases hkh with rfl | rfl <;> intro q a hq
  · exact closed_get_uint32 hP q hq
  · exact closed_copy_quoted hP q hq

theorem closed_chars_count_body {P : BMFont__Parser → Prop} (hP : ErrClosed P)
    (p : BMFont__Parser) (a : BMFont) (h : P p) : P (parse_chars_count_body p a).1 := by
  rw [parse_chars_count_body_eq]
  refine closed_dispatch hP chars_count_table ?_ p a h
  intro kh hkh
  simp only [chars_count_table, List.mem_singleton] at hkh
  subst hkh
  intro q a hq
  simp only [on_chars_count]
  split <;> exact closed_get_uint16 hP q hq

theorem closed_char_body {P : BMFont__Parser → Prop} (hP : ErrClosed P) (p : BMFont__Parser)
    (a : BMFont_Char) (h : P p) : P (parse_char_body p a).1 := by
  rw [parse_char_body_eq]
  refine closed_dispatch hP char_table ?_ p a h
  intro kh hkh
  simp only [char_table, List.mem_cons, List.mem_singleton, List.not_mem_nil, or_false] at hkh
  rcases hkh with rfl | rfl | rfl | rfl | rfl | rfl | rfl | rfl <;> intro q a hq
  · exact closed_get_uint32 hP q hq
  all_goals exact closed_get_uint16 hP q hq

theorem closed_kernings_count_body {P : BMFont__Parser → Prop} (hP : ErrClosed P)
    (p : BMFont__Parser) (a : BMFont) (h : P p) : P (parse_kernings_count_body p a).1 := by
  rw [parse_kernings_count_body_eq]
  refine closed_dispatch hP kernings_count_table ?_ p a h
  intro kh hkh
  simp only [kernings_count_table, List.mem_singleton] at hkh
  subst hkh
  intro q a hq
  simp only [on_kernings_count]
  split <;> exact closed_get_uint16 hP q hq

theorem closed_kerning_body {P : BMFont__Parser → Prop} (hP : ErrClosed P)
    (p : BMFont__Parser) (a : BMFont_Kerning) (h : P p) : P (parse_kerning_body p a).1 := by
  rw [parse_kerning_body_eq]
  refine closed_dispatch hP kerning_table ?_ p a h
  intro kh hkh
  simp only [kerning_table, List.mem_cons, List.mem_singleton, List.not_mem_nil, or_false] at hkh
  rcases hkh with rfl | rfl | rfl <;> intro q a hq
  · exact closed_get_uint32 hP q hq
  · exact closed_get_uint32 hP q hq
  · exact closed_get_int16 hP q hq

theorem closed_info {P : BMFont__Parser → Prop} (hP : ErrClosed P) (p : BMFont__Parser)
    (f : BMFont) (h : P p) : P (bmfont__parse_info p f).2.1 := by
  unfold bmfont__parse_info
  simp only
  split
  · exact closed_expect hP p _ h
  · exact closed_kv_loop hP _ (closed_info_body hP) _ _ _ (closed_expect hP p _ h)

theorem closed_common {P : BMFont__Parser → Prop} (hP : ErrClosed P) (p : BMFont__Parser)
    (f : BMFont) (h : P p) : P (bmfont__parse_common p f).2.1 := by
  unfold bmfont__parse_common
  simp only
  split
  · exact closed_expect hP p _ h
  · exact closed_kv_loop hP _ (closed_common_body hP) _ _ _ (closed_expect hP p _ h)

theorem closed_store_page_name {P : BMFont__Parser → Prop} (hP : ErrClosed P)
    (p : BMFont__Parser) (f : BMFont) (id : Nat) (s : List Char) (h : P p) :
    P (store_page_name p f id s).1 := by
  unfold store_page_name
  split
  · split
    · exact h
    · exact hP.1 p _ rfl h
  · exact hP.1 p _ rfl h

theorem closed_pages_loop {P : BMFont__Parser → Prop} (hP : ErrClosed P) :
    ∀ (n i : Nat) (p : BMFont__Parser) (f : BMFont), P p →
      P (parse_pages_loop n i p f).2.2.1 := by
  intro n
  induction n with
  | zero => intro i p f h; exact h
  | succ n ih =>
    intro i p f h
    rw [parse_pages_loop]
    simp only
    split
    · exact closed_match hP p _ h
    · have hk := closed_kv_loop hP parse_page_body (closed_page_body hP)
        (kv_fuel (bmfont__match_token_and_advance p "page".toList).2)
        (bmfont__match_token_and_advance p "page".toList).2 (0, none) (closed_match hP p _ h)
      generalize kv_loop parse_page_body
        (kv_fuel (bmfont__match_token_and_advance p "page".toList).2)
        (bmfont__match_token_and_advance p "page".toList).2 (0, none) = r at hk ⊢
      split
      · exact hP.2 _ _ hk
      · exact ih _ _ _ (closed_store_page_name hP _ _ _ _ hk)

theorem closed_pages {P : BMFont__Parser → Prop} (hP : ErrClosed P) (p : BMFont__Parser)
    (f : BMFont) (h : P p) : P (bmfont__parse_pages p f).2.1 := by
  unfold bmfont__parse_pages
  have hl := closed_pages_loop hP f.num_pages 0 p f h
  generalize parse_pages_loop f.num_pages 0 p f = r at hl ⊢
  have h1 : P { r.2.2.1 with pages_read := r.1 } := hP.1 r.2.2.1 _ rfl hl
  simp only
  split
  · exact h1
  · simp only
    split
    · exact hP.2 _ _ h1
    · exact h1

theorem closed_oob {P : BMFont__Parser → Prop} (hP : ErrClosed P) (p : BMFont__Parser)
    (h : P p) : P { p with oob := true } := hP.1 p _ rfl h

theorem closed_chars_loop {P : BMFont__Parser → Prop} (hP : ErrClosed P) :
    ∀ (n i : Nat) (p : BMFont__Parser) (f : BMFont), P p →
      P (parse_chars_loop n i p f).2.1 := by
  intro n
  induction n with
  | zero => intro i p f h; exact h
  | succ n ih =>
    intro i p f h
    rw [parse_chars_loop]
    simp only
    have hk : ∀ c, P (kv_loop parse_char_body
        (kv_fuel (bmfont__match_token_and_advance p "char".toList).2)
        (bmfont__match_token_and_advance p "char".toList).2 c).1 := fun c =>
      closed_kv_loop hP parse_char_body (closed_char_body hP) _ _ c (closed_match hP p _ h)
    split
    · exact closed_match hP p _ h
    · split
      · split
        · exact ih _ _ _ (hk _)
        · exact ih _ _ _ (closed_oob hP _ (hk default))
      · exact ih _ _ _ (closed_oob hP _ (hk default))

theorem closed_kernings_loop {P : BMFont__Parser → Prop} (hP : ErrClosed P) :
    ∀ (n i : Nat) (p : BMFont__Parser) (f : BMFont), P p →
      P (parse_kernings_loop n i p f).2.1 := by
  intro n
  induction n with
  | zero => intro i p f h; exact h
  | succ n ih =>
    intro i p f h
    rw [parse_kernings_loop]
    simp only
    have hk : ∀ c, P (kv_loop parse_kerning_body
        (kv_fuel (bmfont__match_token_and_advance p "kerning".toList).2)
        (bmfont__match_token_and_advance p "kerning".toList).2 c).1 := fun c =>
      closed_kv_loop hP parse_kerning_body (closed_kerning_body hP) _ _ c
        (closed_match hP p _ h)
    split
    · exact closed_match hP p _ h
    · split
      · split
        · exact ih _ _ _ (hk _)
        · exact ih _ _ _ (closed_oob hP _ (hk default))
      · exact ih _ _ _ (closed_oob hP _ (hk default))

theorem closed_chars {P : BMFont__Parser → Prop} (hP : ErrClosed P) (p : BMFont__Parser)
    (f : BMFont) (h : P p) : P (bmfont__parse_chars p f).2.1 := by
  unfold bmfont__parse_chars
  simp only
  split
  · exact closed_expect hP p _ h
  · have hh := closed_kv_loop hP parse_chars_count_body (closed_chars_count_body hP)
      (kv_fuel (bmfont__expect_token_and_advance p "chars".toList).2)
      (bmfont__expect_token_and_advance p "chars".toList).2 f (closed_expect hP p _ h)
    generalize kv_loop parse_chars_count_body
      (kv_fuel (bmfont__expect_token_and_advance p "chars".toList).2)
      (bmfont__expect_token_and_advance p "chars".toList).2 f = hd at hh ⊢
    have hl := closed_chars_loop hP hd.2.num_chars 0 hd.1 hd.2 hh
    generalize parse_chars_loop hd.2.num_chars 0 hd.1 hd.2 = r at hl ⊢
    have h1 : P { r.2.1 with chars_read := r.1 } := hP.1 r.2.1 _ rfl hl
    split
    · exact hP.2 _ _ h1
    · exact h1

theorem closed_kernings {P : BMFont__Parser → Prop} (hP : ErrClosed P) (p : BMFont__Parser)
    (f : BMFont) (h : P p) : P (bmfont__parse_kernings p f).2.1 := by
  unfold bmfont__parse_kernings
  split
  · exact h
  · simp only
    have hh := closed_kv_loop hP parse_kernings_count_body (closed_kernings_count_body hP)
      (kv_fuel (bmfont__expect_token_and_advance p "kernings".toList).2)
      (bmfont__expect_token_and_advance p "kernings".toList).2 f (closed_expect hP p _ h)
    generalize kv_loop parse_kernings_count_body
      (kv_fuel (bmfont__expect_token_and_advance p "kernings".toList).2)
      (bmfont__expect_token_and_advance p "kernings".toList).2 f = hd at hh ⊢
    have hl := closed_kernings_loop hP hd.2.num_kernings 0 hd.1 hd.2 hh
    generalize parse_kernings_loop hd.2.num_kernings 0 hd.1 hd.2 = r at hl ⊢
    have h1 : P { r.2.1 with kernings_read := r.1 } := hP.1 r.2.1 _ rfl hl
    split
    · exact hP.2 _ _ h1
    · exact h1

theorem closed_sections {P : BMFont__Parser → Prop} (hP : ErrClosed P) (p : BMFont__Parser)
    (f : BMFont) (h : P p) : P (parse_sections p f).2.1 := by
  unfold parse_sections
  simp only
  have h1 := closed_info hP p f h
  split
  · exact h1
  · have h2 := closed_common hP _ (bmfont__parse_info p f).2.2 h1
    split
    · exact h2
    · have h3 := closed_pages hP _ (bmfont__parse_common (bmfont__parse_info p f).2.1
        (bmfont__parse_info p f).2.2).2.2 h2
      split
      · exact h3
      · have h4 := closed_chars hP _ (bmfont__parse_pages
          (bmfont__parse_common (bmfont__parse_info p f).2.1 (bmfont__parse_info p f).2.2).2.1
          (bmfont__parse_common (bmfont__parse_info p f).2.1
            (bmfont__parse_info p f).2.2).2.2).2.2 h3
        split
        · exact h4
        · exact closed_kernings hP _ _ h4

/-- Every property of the ok flag, the error buffer and the messages raised
that holds at the start and that `bmfont__set_parser_error` keeps holds when
`bmfont_parse_file` returns. -/
theorem closed_parse_file {P : BMFont__Parser → Prop} (hP : ErrClosed P) (input : List Char)
    (h : P (parser_at_start input)) : P (bmfont_parse_file input).parser := by
  have hs := closed_sections hP _ empty_font (closed_load hP _ h)
  unfold bmfont_parse_file
  simp only
  split
  · exact hs
  · split
    · exact hP.2 _ _ hs
    · exact hs

theorem last_error_kept_closed : ErrClosed last_error_kept := by
  constructor
  · intro p q he hp
    simp only [errs, Prod.mk.injEq] at he
    simpa [last_error_kept, he.1, he.2.1, he.2.2] using hp
  · intro p msg _
    simp [last_error_kept, bmfont__set_parser_error]

/-- The page section of a document whose page lines are followed by a page
line without file pair. -/
theorem pages_no_file (pgs : List PageLine)
    (hall : ∀ pg ∈ pgs, pg.id ≤ 4294967295 ∧ is_file_name pg.file = true)
    (id : Nat) (hid : id ≤ 4294967295) {rest t1 s1 : List Char} {e1 : Bool}
    (nxr : Next rest t1 s1 e1)
    (p : BMFont__Parser) (font : BMFont) (names : List (Option (List Char))) (b : Bool)
    (hn : font.page_names = some names) (hlt : pgs.length < font.num_pages)
    (h : Good p
      (pages_ahead pgs (render_page_no_file id rest) "page".toList
        (pair "id".toList (fmt_nat id) ('\n' :: rest)) false).1
      (pages_ahead pgs (render_page_no_file id rest) "page".toList
        (pair "id".toList (fmt_nat id) ('\n' :: rest)) false).2.1
      (pages_ahead pgs (render_page_no_file id rest) "page".toList
        (pair "id".toList (fmt_nat id) ('\n' :: rest)) false).2.2 b) :
    ∃ q line, Flags q (b || pages_oob names.length pgs) ∧ q.ok = false ∧
      q.error = (msg_page_missing_filename line).take (bmfont__error_size - 1) ∧
      bmfont__parse_pages p font
        = (false, q, { font with page_names := some (fill_pages names pgs) }) := by
  have nx : Next (render_page_no_file id rest) "page".toList
      (pair "id".toList (fmt_nat id) ('\n' :: rest)) false :=
    next_word "page".toList _ (by decide) (delim_start_pair _ _ _)
  obtain ⟨q, gq, hl⟩ := pages_loop_records nx pgs hall p font names b hn h
  obtain ⟨m, hm⟩ : ∃ m, font.num_pages = pgs.length + (m + 1) :=
    ⟨font.num_pages - pgs.length - 1, by omega⟩
  have hmt := match_good gq (next_pair_key _ _ _ (by decide))
  obtain ⟨q1, g1, e1⟩ := kv_pair_u32 page_table "id".toList _ rfl (by decide) hmt.2 hid
    (delim_start_nl _) (next_nl rest)
  obtain ⟨q2, g2, e2⟩ := runs_end (dispatch page_table) g1 nxr
  have hrun := runs_step (fun fuel => e1 fuel (0, none)) (e2 _)
  have hfuel : 2 ≤ kv_fuel (bmfont__match_token_and_advance q "page".toList).2 := by
    rw [kv_fuel_good hmt.2]; simp
  have h1 := hl (m + 1) 0
  simp only [Nat.zero_add] at h1
  refine ⟨{ bmfont__set_parser_error q2 (msg_page_missing_filename q2.start_line) with
      pages_read := pgs.length }, q2.start_line, ?_, ?_, ?_, ?_⟩
  rotate_left 3
  · simp only [bmfont__parse_pages]
    rw [hm, h1, parse_pages_loop]
    simp only [hmt.1, Bool.not_true, Bool.false_eq_true, if_false, parse_page_body_eq]
    rw [hrun _ hfuel]
    simp only [if_true, bmfont__set_parser_error, ← hm]
  · exact (flags_of_good g2 : Flags q2 _)
  · rfl
  · rfl

/-- A document whose page lines are followed, before the declared number of
pages is reached, by a page line without file pair. -/
theorem no_file_fails (d : Doc) (declared id : Nat) (rest : List Char)
    (hd : d.preamble_ok) (hp : d.pages_ok declared) (hlt : d.pages.length < declared)
    (hdec : declared ≤ 65535) (hid : id ≤ 4294967295)
    (hrest : ends_or_continues "page".toList rest ∨ ends_or_continues "chars".toList rest) :
    (bmfont_parse_file (render_upto_pages d declared (render_page_no_file id rest))).returned
        = none ∧
      (∃ line,
        bmfont_get_error_string
            (bmfont_parse_file (render_upto_pages d declared (render_page_no_file id rest)))
          = (msg_page_missing_filename line).take (bmfont__error_size - 1)) ∧
      (bmfont_parse_file
          (render_upto_pages d declared (render_page_no_file id rest))).built.page_names = some (fill_pages (List.replicate declared none) d.pages) ∧
      ((bmfont_parse_file (render_upto_pages d declared (render_page_no_file id rest))).clean
        = true ↔ ∀ pg ∈ d.pages, pg.id < 32768) := by
  obtain ⟨t1, s1, e1, nxr, _⟩ : ∃ t1 s1 e1, Next rest t1 s1 e1 ∧ True := by
    rcases hrest with h | h
    · obtain ⟨t1, s1, e1, n, _⟩ := next_of_ends_or_continues "page".toList (by decide) h
      exact ⟨t1, s1, e1, n, trivial⟩
    · obtain ⟨t1, s1, e1, n, _⟩ := next_of_ends_or_continues "chars".toList (by decide) h
      exact ⟨t1, s1, e1, n, trivial⟩
  have nx : Next (render_page_no_file id rest) "page".toList
      (pair "id".toList (fmt_nat id) ('\n' :: rest)) false :=
    next_word "page".toList _ (by decide) (delim_start_pair _ _ _)
  obtain ⟨q1, q2, f1, h1, h2, g2⟩ :=
    info_common_sections (next_pages_ahead nx d.pages) d hd declared hdec
  obtain ⟨q3, line, fl3, hok, herr, h3⟩ := pages_no_file d.pages (pages_ok_bound hp hdec) id hid
    nxr q2 (font_after_common d declared) (List.replicate declared none) false rfl hlt g2
  have hrun : bmfont_parse_file (render_upto_pages d declared (render_page_no_file id rest))
      = { returned := none, parser := q3,
          built := { font_after_common d declared with
            page_names := some (fill_pages (List.replicate declared none) d.pages) } } :=
    parse_file_fail _ (parse_sections_stop3 h1 h2 h3) hok
  rw [hrun]
  refine ⟨rfl, ⟨line, herr⟩, rfl, ?_⟩
  rw [clean_of_flags fl3]
  have := pages_oob_iff declared hdec d.pages (fun pg hpg => (hp pg hpg).1)
  simp only [List.length_replicate, Bool.false_or] at *
  rw [← this]
  simp

/-- A page line without id pair: the file name is stored at index 0. -/
theorem page_record_no_id {p : BMFont__Parser} {rest t1 s1 : List Char} {e b : Bool}
    (file : List Char) (font : BMFont) (names : List (Option (List Char)))
    (hn : font.page_names = some names) (hlen : 0 < names.length)
    (h : Good p "page".toList (pair "file".toList ('"' :: (file ++ ['"'])) ('\n' :: rest))
      false b)
    (hfile : is_file_name file = true) (nx : Next rest t1 s1 e) :
    ∃ q, Good q t1 s1 e b ∧ ∀ n i,
      parse_pages_loop (n + 1) i p font
        = parse_pages_loop n (i + 1) q
            { font with page_names := some (page_store names { id := 0, file := file }) } := by
  have hm := match_good h (next_pair_key _ _ _ (by decide))
  obtain ⟨q2, g2, e2⟩ := kv_pair_quoted page_table "file".toList _ rfl (by decide) hm.2
    (is_file_name_word hfile) (delim_start_nl _) (next_nl _)
  obtain ⟨q3, g3, e3⟩ := runs_end (dispatch page_table) g2 nx
  have hrun := runs_step (fun fuel => e2 fuel (0, none)) (e3 _)
  have hfuel : 2 ≤ kv_fuel (bmfont__match_token_and_advance p "page".toList).2 := by
    rw [kv_fuel_good hm.2]; simp
  have hz : narrow32 0 = 0 := by decide
  refine ⟨q3, g3, ?_⟩
  intro n i
  rw [parse_pages_loop]
  simp only [hm.1, Bool.not_true, Bool.false_eq_true, if_false, parse_page_body_eq]
  rw [hrun _ hfuel]
  dsimp only
  have hst : store_page_name q3 font 0 file
      = (q3, { font with page_names := some (page_store names { id := 0, file := file }) }) := by
    unfold store_page_name page_store
    rw [hn]
    simp only [hz, hlen, if_true]
  rw [hst]

theorem zero_id_length : ∀ (i : Nat) (pgs : List PageLine), (zero_id i pgs).length = pgs.length
  | _, [] => by cases ‹Nat› <;> rfl
  | 0, _ :: _ => rfl
  | i + 1, pg :: pgs => by simp [zero_id, zero_id_length i pgs]

theorem without_id_starts (rest : List Char) : ∀ (i : Nat) (pgs : List PageLine),
    i < pgs.length →
    render_pages_without_id i pgs rest
        = "page".toList ++ (render_pages_without_id i pgs rest).drop 4 ∧
      delim_start ((render_pages_without_id i pgs rest).drop 4) = true
  | _, [], h => by simp at h
  | 0, _ :: _, _ => ⟨rfl, rfl⟩
  | _ + 1, _ :: _, _ => ⟨rfl, rfl⟩

/-- The record loop over page lines of which the one at index `i` has no id
pair. -/
theorem pages_loop_without_id {rest t1 s1 : List Char} {e1 : Bool} (nx : Next rest t1 s1 e1) :
    ∀ (pgs : List PageLine) (i : Nat), i < pgs.length →
    (∀ pg ∈ pgs, pg.id ≤ 4294967295 ∧ is_file_name pg.file = true) →
    ∀ (p : BMFont__Parser) (font : BMFont) (names : List (Option (List Char))) (b : Bool),
      font.page_names = some names → 0 < names.length →
      Good p "page".toList ((render_pages_without_id i pgs rest).drop 4) false b →
      ∃ q, Good q t1 s1 e1 (b || pages_oob names.length (zero_id i pgs)) ∧ ∀ n k,
        parse_pages_loop (pgs.length + n) k p font
          = parse_pages_loop n (k + pgs.length) q
              { font with page_names := some (fill_pages names (zero_id i pgs)) } := by
  intro pgs
  induction pgs with
  | nil =>
    intro i hi
    simp at hi
  | cons pg pgs ih =>
    intro i hi hall p font names b hn hlen h
    have hpg := hall pg (by simp)
    have hrest : ∀ x ∈ pgs, x.id ≤ 4294967295 ∧ is_file_name x.file = true :=
      fun x hx => hall x (List.mem_cons_of_mem _ hx)
    cases i with
    | zero =>
      obtain ⟨q, gq, eq1⟩ := page_record_no_id pg.file font names hn hlen h hpg.2
        (next_pages_ahead nx pgs)
      obtain ⟨q2, gq2, eq2⟩ := pages_loop_records nx pgs hrest q
        { font with page_names := some (page_store names { id := 0, file := pg.file }) } _ _
        rfl gq
      refine ⟨q2, ?_, ?_⟩
      · rw [page_store_length] at gq2
        have hz : narrow32 0 = 0 := by decide
        simpa [pages_oob, zero_id, hz, hlen] using gq2
      · intro n k
        have : (pg :: pgs).length + n = (pgs.length + n) + 1 := by simp; omega
        rw [this, eq1, eq2]
        simp only [fill_pages, zero_id, List.length_cons]
        congr 1
        omega
    | succ j =>
      have hj : j < pgs.length := by simpa using hi
      have hs := without_id_starts rest j pgs hj
      have nxj : Next (render_pages_without_id j pgs rest) "page".toList
          ((render_pages_without_id j pgs rest).drop 4) false := by
        have := next_word "page".toList ((render_pages_without_id j pgs rest).drop 4)
          (by decide) hs.2
        rw [← hs.1] at this
        exact this
      obtain ⟨q, gq, eq1⟩ := page_record pg font names hn h hpg.1 hpg.2 nxj
      have hlen2 : 0 < (page_store names pg).length := by
        rw [page_store_length]; exact hlen
      obtain ⟨q2, gq2, eq2⟩ := ih j hj hrest q
        { font with page_names := some (page_store names pg) } _ _ rfl hlen2 gq
      refine ⟨q2, ?_, ?_⟩
      · rw [page_store_length] at gq2
        simpa [pages_oob, zero_id, Bool.or_assoc] using gq2
      · intro n k
        have : (pg :: pgs).length + n = (pgs.length + n) + 1 := by simp; omega
        rw [this, eq1, eq2]
        simp only [fill_pages, zero_id, List.length_cons]
        congr 1
        omega

theorem zero_id_same : ∀ (i : Nat) (pgs : List PageLine) (hi : i < pgs.length),
    (pgs.get ⟨i, hi⟩).id = 0 → zero_id i pgs = pgs
  | _, [], hi, _ => by simp at hi
  | 0, pg :: pgs, _, h => by
    cases pg
    simp only [List.get] at h
    simp only [zero_id]
    subst h
    rfl
  | i + 1, pg :: pgs, hi, h => by
    simp only [zero_id]
    rw [zero_id_same i pgs (by simpa using hi) (by simpa using h)]

theorem zero_id_mem : ∀ (i : Nat) (pgs : List PageLine) (x : PageLine), x ∈ zero_id i pgs →
    ∃ y ∈ pgs, x.id ≤ y.id ∧ x.file = y.file
  | _, [], x, h => by cases ‹Nat› <;> simp [zero_id] at h
  | 0, pg :: pgs, x, h => by
    simp only [zero_id, List.mem_cons] at h
    rcases h with h | h
    · subst h
      exact ⟨pg, by simp, Nat.zero_le _, rfl⟩
    · exact ⟨x, by simp [h], Nat.le_refl _, rfl⟩
  | i + 1, pg :: pgs, x, h => by
    simp only [zero_id, List.mem_cons] at h
    rcases h with h | h
    · subst h
      exact ⟨x, by simp, Nat.le_refl _, rfl⟩
    · obtain ⟨y, hy, h1, h2⟩ := zero_id_mem i pgs x h
      exact ⟨y, by simp [hy], h1, h2⟩

/-- The run of `bmfont_parse_file` on a well-formed document whose page line at
index `i` is written without its id pair. -/
theorem parse_without_id (d : Doc) (hd : d.well_formed) (i : Nat) (hi : i < d.pages.length) :
    ∃ q, bmfont_parse_file (render_without_id d i)
        = { returned := some { parsed_font d with
              page_names := some (fill_pages (List.replicate d.pages.length none)
                (zero_id i d.pages)) },
            parser := q,
            built := { parsed_font d with
              page_names := some (fill_pages (List.replicate d.pages.length none)
                (zero_id i d.pages)) } } ∧
      Good q [] [] true (pages_oob d.pages.length (zero_id i d.pages)) := by
  have hpre : d.preamble_ok :=
    ⟨hd.face, hd.size_lo, hd.size_hi, hd.lineHeight, hd.base, hd.scaleW, hd.scaleH⟩
  have hids : ∀ pg ∈ d.pages, pg.id ≤ 4294967295 ∧ is_file_name pg.file = true := by
    intro pg hpg
    have h1 := hd.page_ids pg hpg
    have h2 := hd.pages_count
    exact ⟨by omega, hd.page_files pg hpg⟩
  have hs := without_id_starts (render_chars_header d.chars.length
    (render_chars d.chars (render_kernings_section d.kernings))) i d.pages hi
  have nxp : Next (render_pages_without_id i d.pages (render_chars_header d.chars.length
      (render_chars d.chars (render_kernings_section d.kernings)))) "page".toList
      ((render_pages_without_id i d.pages (render_chars_header d.chars.length
        (render_chars d.chars (render_kernings_section d.kernings)))).drop 4) false := by
    have := next_word "page".toList ((render_pages_without_id i d.pages
      (render_chars_header d.chars.length
        (render_chars d.chars (render_kernings_section d.kernings)))).drop 4) (by decide) hs.2
    rw [← hs.1] at this
    exact this
  obtain ⟨q1, q2, f1, e1, e2, g2⟩ := info_common_sections nxp d hpre d.pages.length hd.pages_count
  have n3 : Next (render_chars_header d.chars.length
      (render_chars d.chars (render_kernings_section d.kernings)))
      "chars".toList _ false := next_word "chars".toList _ (by decide) (delim_start_pair _ _ _)
  obtain ⟨q3, g3, hl⟩ := pages_loop_without_id n3 d.pages i hi hids q2
    (font_after_common d d.pages.length) (List.replicate d.pages.length none) false rfl
    (by rw [List.length_replicate]; omega) g2
  have e3 : bmfont__parse_pages q2 (font_after_common d d.pages.length)
      = (true, { q3 with pages_read := d.pages.length },
          { font_after_common d d.pages.length with
            page_names := some (fill_pages (List.replicate d.pages.length none)
              (zero_id i d.pages)) }) := by
    have := hl 0 0
    simp only [Nat.add_zero, Nat.zero_add] at this
    have hnum : (font_after_common d d.pages.length).num_pages = d.pages.length := rfl
    simp only [bmfont__parse_pages, hnum, this, parse_pages_loop, Bool.false_eq_true, if_false,
      ne_eq, not_true_eq_false, bmfont__parser_ok, g3.ok]
  have g3r : Good { q3 with pages_read := d.pages.length } "chars".toList
      (pair "count".toList (fmt_nat d.chars.length)
        ('\n' :: render_chars d.chars (render_kernings_section d.kernings))) false
      (pages_oob d.pages.length (zero_id i d.pages)) := by
    have g3s : Good q3 "chars".toList
        (pair "count".toList (fmt_nat d.chars.length)
          ('\n' :: render_chars d.chars (render_kernings_section d.kernings))) false
        (pages_oob d.pages.length (zero_id i d.pages)) := by
      simpa using g3
    constructor <;>
      first
      | exact g3s.tok
      | simp [g3s.ok, g3s.eof, g3s.str, g3s.oob, g3s.af, g3s.fo, g3s.err]
  cases hk : d.kernings with
  | none =>
    have nk : Next (render_kernings_section d.kernings) [] [] true := by
      rw [hk]; exact next_eof []
    obtain ⟨q4, g4, _, e4⟩ := chars_section nk d.chars hd.chars hd.chars_count _
      { font_after_common d d.pages.length with
        page_names := some (fill_pages (List.replicate d.pages.length none)
          (zero_id i d.pages)) } _ g3r
    refine ⟨q4, ?_, g4⟩
    have e5 : bmfont__parse_kernings q4
        { ({ font_after_common d d.pages.length with
          page_names := some (fill_pages (List.replicate d.pages.length none)
            (zero_id i d.pages)) } : BMFont) with
          num_chars := d.chars.length, chars := some (d.chars.map (apply_char default)) }
        = (false, q4, { parsed_font d with
              page_names := some (fill_pages (List.replicate d.pages.length none)
                (zero_id i d.pages)) }) := by
      simp only [bmfont__parse_kernings, good_eof_not_ready g4, Bool.not_false, if_true]
      simp [parsed_font, font_after_common, empty_font, hk]
    exact parse_file_eq _ (parse_sections_eq e1 e2 e3 e4 e5) g4.ok g4.eof
  | some ks =>
    have nk : Next (render_kernings_section d.kernings) "kernings".toList
        (pair "count".toList (fmt_nat ks.length) ('\n' :: render_kernings ks [])) false := by
      rw [hk]
      exact next_word "kernings".toList _ (by decide) (delim_start_pair _ _ _)
    obtain ⟨q4, g4, _, e4⟩ := chars_section nk d.chars hd.chars hd.chars_count _
      { font_after_common d d.pages.length with
        page_names := some (fill_pages (List.replicate d.pages.length none)
          (zero_id i d.pages)) } _ g3r
    obtain ⟨q5, g5, _, e5⟩ := kernings_section (next_eof []) ks (hd.kernings ks hk)
      (hd.kernings_count ks hk) q4 _ _ g4
    refine ⟨q5, ?_, g5⟩
    have hf : ({ ({ ({ font_after_common d d.pages.length with
          page_names := some (fill_pages (List.replicate d.pages.length none)
            (zero_id i d.pages)) } : BMFont) with
          num_chars := d.chars.length, chars := some (d.chars.map (apply_char default)) }
            : BMFont) with
        num_kernings := ks.length, kernings := some (ks.map (apply_kerning default)) } : BMFont)
        = { parsed_font d with
              page_names := some (fill_pages (List.replicate d.pages.length none)
                (zero_id i d.pages)) } := by
      simp [parsed_font, font_after_common, empty_font, hk]
    rw [hf] at e5
    exact parse_file_eq _ (parse_sections_eq e1 e2 e3 e4 e5) g5.ok g5.eof

/-- `bmfont__load_next_token` at a word: the exact state afterwards. -/
theorem load_word_exact (p : BMFont__Parser) (hok : p.ok = true) (heof : p.eof = false)
    (w s : List Char) (hw : is_word w = true) (hs : delim_start s = true)
    (hstr : p.stream = w ++ s) :
    bmfont__load_next_token p
      = (true, { p with stream := s, next_token := w, start_line := p.curr_line,
                        start_col := p.curr_col, curr_col := p.curr_col + w.length }) := by
  have hne := is_word_ne_nil hw
  have hnd := is_word_not_delim hw
  have hlen := is_word_length hw
  have hloop := word_loop_word s hs w 0 hne hnd (by omega)
  cases w with
  | nil => exact absurd rfl hne
  | cons c w2 =>
    have hc : is_delim c = false := hnd c (by simp)
    simp only [is_delim, Bool.decide_or, Bool.or_eq_false_iff, decide_eq_false_iff_not] at hc
    have hsk : skip_blank (c :: (w2 ++ s)) p.curr_col = (c :: (w2 ++ s), p.curr_col) :=
      skip_blank_nonblank c _ _ hc.2.1 hc.2.2.1
    have hl : w2.length + 1 ≠ BMFONT_MAX_TOKEN_LENGTH := by
      simp only [List.length_cons] at hlen; omega
    rw [List.cons_append] at hloop hstr
    simp [bmfont__load_next_token, bmfont__parser_ok, bmfont__parser_ready, hok, heof, hstr,
      hsk, hc.1, hc.2.2.2, hloop, hl, is_word_cstr hw]

/-- `bmfont__load_next_token` at a blank and a word. -/
theorem load_key_exact (p : BMFont__Parser) (hok : p.ok = true) (heof : p.eof = false)
    (w s : List Char) (hw : is_word w = true) (hs : delim_start s = true)
    (hstr : p.stream = ' ' :: (w ++ s)) :
    bmfont__load_next_token p
      = (true, { p with stream := s, next_token := w, start_line := p.curr_line,
                        start_col := p.curr_col + 1,
                        curr_col := p.curr_col + 1 + w.length }) := by
  have h := load_word_exact { p with stream := w ++ s, curr_col := p.curr_col + 1 } hok heof
    w s hw hs rfl
  rw [load_skip_space p _ hstr hok heof, h]

/-- `bmfont__load_next_token` at an equals sign. -/
theorem load_eq_exact (p : BMFont__Parser) (hok : p.ok = true) (heof : p.eof = false)
    (s : List Char) (hstr : p.stream = '=' :: s) :
    bmfont__load_next_token p
      = (true, { p with stream := s, next_token := ['='], start_line := p.curr_line,
                        start_col := p.curr_col, curr_col := p.curr_col + 1 }) := by
  simp [bmfont__load_next_token, bmfont__parser_ok, bmfont__parser_ready, hok, heof, hstr,
    skip_blank]

/-- `bmfont__load_next_token` at a newline. -/
theorem load_nl_exact (p : BMFont__Parser) (hok : p.ok = true) (heof : p.eof = false)
    (s : List Char) (hstr : p.stream = '\n' :: s) :
    bmfont__load_next_token p
      = (true, { p with stream := s, next_token := ['\n'], start_line := p.curr_line,
                        start_col := p.curr_col, curr_line := p.curr_line + 1,
                        curr_col := 1 }) := by
  simp [bmfont__load_next_token, bmfont__parser_ok, bmfont__parser_ready, hok, heof, hstr,
    skip_blank]

theorem match_same_exact (q : BMFont__Parser) (hok : q.ok = true) (heof : q.eof = false)
    (t : List Char) (ht : q.next_token = t) :
    bmfont__match_token_and_advance q t = bmfont__load_next_token q := by
  simp [bmfont__match_token_and_advance, bmfont__expect_more_tokens, heof, bmfont__parser_ok,
    hok, ht]

/-- `bmfont__match_key_and_advance_to_value` at the key, an equals sign and a
word: the exact state afterwards. -/
theorem match_key_exact (p : BMFont__Parser) (hok : p.ok = true) (heof : p.eof = false)
    (key v s : List Char) (hv : is_word v = true) (hs : delim_start s = true)
    (htok : p.next_token = key) (hstr : p.stream = '=' :: (v ++ s)) :
    bmfont__match_key_and_advance_to_value p key
      = (true, { p with stream := s, next_token := v, start_line := p.curr_line,
                        start_col := p.curr_col + 1,
                        curr_col := p.curr_col + 1 + v.length }) := by
  have h1 := load_eq_exact p hok heof _ hstr
  have h2 := load_word_exact
    { p with stream := v ++ s, next_token := ['='], start_line := p.curr_line,
             start_col := p.curr_col, curr_col := p.curr_col + 1 } hok heof v s hv hs rfl
  have h3 := match_same_exact
    { p with stream := v ++ s, next_token := ['='], start_line := p.curr_line,
             start_col := p.curr_col, curr_col := p.curr_col + 1 } hok heof ['='] rfl
  unfold bmfont__match_key_and_advance_to_value
  rw [if_pos htok]
  simp only [h1, if_true]
  rw [h3, h2]

theorem dispatch_find {α : Type}
    (table : List (List Char × (BMFont__Parser → α → BMFont__Parser × α)))
    (key : List Char) (hd : BMFont__Parser → α → BMFont__Parser × α)
    (hf : find_handler table key = some hd) (p q : BMFont__Parser) (htok : p.next_token = key)
    (hm : bmfont__match_key_and_advance_to_value p key = (true, q)) (a : α) :
    dispatch table p a = hd q a := by
  induction table with
  | nil => simp [find_handler] at hf
  | cons kh tl ih =>
    obtain ⟨k, h0⟩ := kh
    by_cases hk : k = key
    · subst hk
      simp only [find_handler, if_true, Option.some.injEq] at hf
      subst hf
      simp only [dispatch, hm, if_true]
    · simp only [find_handler, hk, if_false] at hf
      have hne : p.next_token ≠ k := by rw [htok]; exact fun hh => hk hh.symm
      simp only [dispatch, match_key_other p k hne, Bool.false_eq_true, if_false]
      exact ih hf

theorem render_tags_cons (kv : CharTag × Nat) (ps : List (CharTag × Nat)) (rest : List Char) :
    render_tags (kv :: ps) rest = pair kv.1.key (fmt_nat kv.2) (render_tags ps rest) := rfl

theorem delim_start_tags (ps : List (CharTag × Nat)) (rest : List Char) :
    delim_start (render_tags ps ('\n' :: rest)) = true := by
  cases ps <;> rfl

theorem char_tag_key_word (tag : CharTag) : is_word tag.key = true := by
  cases tag <;> decide

theorem char_tag_key_ne_nl (tag : CharTag) : tag.key ≠ ['\n'] := by
  cases tag <;> decide

theorem render_tags_length (ps : List (CharTag × Nat)) (rest : List Char) :
    (render_tags ps rest).length = (render_tags ps []).length + rest.length := by
  induction ps with
  | nil => simp [render_tags]
  | cons kv ps ih =>
    simp only [render_tags_cons, pair, List.length_cons, List.length_append, ih]
    have := ih
    omega

theorem render_tags_width_perm {ps ps' : List (CharTag × Nat)} (h : ps.Perm ps') :
    (render_tags ps []).length = (render_tags ps' []).length := by
  induction h with
  | nil => rfl
  | cons x _ ih =>
    simp only [render_tags_cons, pair, List.length_cons, List.length_append, ih]
  | swap x y l =>
    simp only [render_tags_cons, pair, List.length_cons, List.length_append]
    omega
  | trans _ _ ih1 ih2 => exact ih1.trans ih2

/-- The tokenizer at the pairs of a char line. -/
theorem load_line (p : BMFont__Parser) (hok : p.ok = true) (heof : p.eof = false) (c : Nat)
    (ps : List (CharTag × Nat)) (rest t : List Char) (a b : Nat) :
    bmfont__load_next_token
        { p with stream := render_tags ps ('\n' :: rest), curr_col := c, next_token := t,
                 start_line := a, start_col := b }
      = (true, line_state p c ps rest) := by
  cases ps with
  | nil =>
    exact load_nl_exact
      { p with stream := '\n' :: rest, curr_col := c, next_token := t, start_line := a,
               start_col := b } hok heof rest rfl
  | cons kv ps1 =>
    exact load_key_exact
      { p with stream := render_tags (kv :: ps1) ('\n' :: rest), curr_col := c, next_token := t,
               start_line := a, start_col := b } hok heof kv.1.key
      ('=' :: (fmt_nat kv.2 ++ render_tags ps1 ('\n' :: rest))) (char_tag_key_word kv.1) rfl rfl

theorem get_uint16_exact (q : BMFont__Parser) (hok : q.ok = true) (heof : q.eof = false)
    (n : Nat) (hn : n ≤ 65535) (htok : q.next_token = fmt_nat n)
    (hl : (bmfont__load_next_token q).1 = true) :
    bmfont__get_token_as_uint16_and_advance q = (true, (bmfont__load_next_token q).2, some n) := by
  have hr : bmfont__parser_ready q = true := by
    simp [bmfont__parser_ready, bmfont__parser_ok, hok, heof]
  have hd := do_get_accept q 0 65535 hr n (by rw [htok]; exact strtol_fmt_nat n (by omega))
    (by omega) (by omega)
  simp only [bmfont__get_token_as_uint16_and_advance, hd, hl, to_int16_u16 n hn]

theorem get_uint32_exact (q : BMFont__Parser) (hok : q.ok = true) (heof : q.eof = false)
    (n : Nat) (hn : n ≤ 4294967295) (htok : q.next_token = fmt_nat n)
    (hl : (bmfont__load_next_token q).1 = true) :
    bmfont__get_token_as_uint32_and_advance q
      = (true, (bmfont__load_next_token q).2, some (narrow32 n)) := by
  have hr : bmfont__parser_ready q = true := by
    simp [bmfont__parser_ready, bmfont__parser_ok, hok, heof]
  have hd := do_get_accept q 0 4294967295 hr n (by rw [htok]; exact strtol_fmt_nat n hn)
    (by omega) (by omega)
  simp only [bmfont__get_token_as_uint32_and_advance, hd, hl]
  rfl

/-- The handler of a tag on a value it accepts, when the next token can be
loaded. -/
theorem char_tag_handler (tag : CharTag) :
    ∃ hd, find_handler char_table tag.key = some hd ∧
      ∀ (q : BMFont__Parser), q.ok = true → q.eof = false → ∀ (n : Nat), n ≤ tag.limit →
        q.next_token = fmt_nat n → (bmfont__load_next_token q).1 = true →
        ∀ g, hd q g = ((bmfont__load_next_token q).2, tag.store n g) := by
  cases tag
  case id =>
    refine ⟨_, rfl, ?_⟩
    intro q hok heof n hn htok hl g
    simp only [on_u32, get_uint32_exact q hok heof n hn htok hl, store_opt, CharTag.store]
  all_goals
    refine ⟨_, rfl, ?_⟩
    intro q hok heof n hn htok hl g
    simp only [on_u16, get_uint16_exact q hok heof n hn htok hl, store_opt, CharTag.store]

/-- One pair of a char line: the body of the key/value loop stores the value
and leaves the tokenizer at the next pair. -/
theorem char_pair_exact (p : BMFont__Parser) (hok : p.ok = true) (heof : p.eof = false)
    (c : Nat) (kv : CharTag × Nat) (ps : List (CharTag × Nat)) (rest : List Char)
    (hn : kv.2 ≤ kv.1.limit) (g : BMFont_Char) :
    parse_char_body (line_state p c (kv :: ps) rest) g
      = (line_state p (c + (2 + kv.1.key.length + (fmt_nat kv.2).length)) ps rest,
          kv.1.store kv.2 g) := by
  obtain ⟨hd, hf, hh⟩ := char_tag_handler kv.1
  have hw : is_word (fmt_nat kv.2) = true := by
    apply fmt_nat_is_word
    have : kv.1.limit ≤ 4294967295 := by cases kv.1 <;> decide
    omega
  have hm := match_key_exact (line_state p c (kv :: ps) rest) hok heof kv.1.key (fmt_nat kv.2)
    (render_tags ps ('\n' :: rest)) hw (delim_start_tags ps rest) rfl rfl
  have hl := load_line p hok heof (c + 1 + kv.1.key.length + 1 + (fmt_nat kv.2).length) ps rest
    (fmt_nat kv.2) p.curr_line (c + 1 + kv.1.key.length + 1)
  have hq := hh
    { p with stream := render_tags ps ('\n' :: rest),
             curr_col := c + 1 + kv.1.key.length + 1 + (fmt_nat kv.2).length,
             next_token := fmt_nat kv.2, start_line := p.curr_line,
             start_col := c + 1 + kv.1.key.length + 1 } hok heof kv.2 hn rfl (by rw [hl]) g
  rw [hl] at hq
  have hc : c + 1 + kv.1.key.length + 1 + (fmt_nat kv.2).length
      = c + (2 + kv.1.key.length + (fmt_nat kv.2).length) := by omega
  rw [parse_char_body_eq, ← hc]
  exact (dispatch_find char_table kv.1.key hd hf _ _ rfl hm g).trans hq

theorem match_other_exact (q : BMFont__Parser) (heof : q.eof = false) (t : List Char)
    (ht : q.next_token ≠ t) : bmfont__match_token_and_advance q t = (false, q) := by
  simp [bmfont__match_token_and_advance, bmfont__expect_more_tokens, heof, ht]

/-- The key/value loop over the pairs of a char line, up to the newline. -/
theorem char_pairs_exact (p : BMFont__Parser) (hok : p.ok = true) (heof : p.eof = false)
    (rest : List Char) :
    ∀ (ps : List (CharTag × Nat)) (c : Nat) (g : BMFont_Char) (fuel : Nat),
      (∀ kv ∈ ps, kv.2 ≤ kv.1.limit) →
      kv_loop parse_char_body (fuel + ps.length) (line_state p c ps rest) g
        = kv_loop parse_char_body fuel (at_newline p (c + (render_tags ps []).length) rest)
            (apply_tags g ps) := by
  intro ps
  induction ps with
  | nil =>
    intro c g fuel _
    rfl
  | cons kv ps ih =>
    intro c g fuel hv
    have hstep := char_pair_exact p hok heof c kv ps rest (hv kv (by simp)) g
    have hr : bmfont__parser_ready (line_state p c (kv :: ps) rest) = true := by
      simp [bmfont__parser_ready, bmfont__parser_ok, line_state, hok, heof]
    have hm := match_other_exact (line_state p c (kv :: ps) rest) heof ['\n']
      (char_tag_key_ne_nl kv.1)
    have hlen : fuel + (kv :: ps).length = (fuel + ps.length) + 1 := by
      simp only [List.length_cons]; omega
    rw [hlen, kv_loop]
    simp only [hr, if_true, hm, Bool.false_eq_true, if_false, hstep]
    rw [ih _ _ _ (fun x hx => hv x (List.mem_cons_of_mem _ hx))]
    have hw : c + (2 + kv.1.key.length + (fmt_nat kv.2).length) + (render_tags ps []).length
        = c + (render_tags (kv :: ps) []).length := by
      simp only [render_tags_cons, pair, List.length_cons, List.length_append]
      omega
    rw [hw]
    rfl

theorem load_failed (p : BMFont__Parser) (hok : p.ok = false) :
    (bmfont__load_next_token p).1 = false ∧ (bmfont__load_next_token p).2.ok = false := by
  simp [bmfont__load_next_token, bmfont__parser_ready, bmfont__parser_ok, hok]

theorem match_key_failed (p : BMFont__Parser) (hok : p.ok = false) (k : List Char) :
    (bmfont__match_key_and_advance_to_value p k).1 = false ∧
      (bmfont__match_key_and_advance_to_value p k).2.ok = false := by
  have hl := load_failed p hok
  unfold bmfont__match_key_and_advance_to_value
  split
  · simp only [hl.1, Bool.false_eq_true, if_false]
    exact ⟨trivial, hl.2⟩
  · exact ⟨rfl, hok⟩

/-- The body of a key/value loop entered with the ok flag cleared tries every
key in vain and leaves the data as they were. -/
theorem dispatch_failed {α : Type}
    (table : List (List Char × (BMFont__Parser → α → BMFont__Parser × α))) :
    ∀ (p : BMFont__Parser), p.ok = false → ∀ a : α, (dispatch table p a).2 = a := by
  induction table with
  | nil => intro p _ a; rfl
  | cons kh tl ih =>
    intro p hok a
    obtain ⟨k, h0⟩ := kh
    have hm := match_key_failed p hok k
    simp only [dispatch, hm.1, Bool.false_eq_true, if_false]
    exact ih _ hm.2 a

/-- The key/value loop of a char record at the newline that ends the line:
the result does not depend on the fuel, from 2 on, and the glyph is left as it
is. -/
theorem char_loop_at_newline (q : BMFont__Parser) (hok : q.ok = true) (heof : q.eof = false)
    (htok : q.next_token = ['\n']) (g : BMFont_Char) (fuel : Nat) :
    kv_loop parse_char_body (fuel + 2) q g = kv_loop parse_char_body 2 q g ∧
      (kv_loop parse_char_body 2 q g).2 = g := by
  have hr : bmfont__parser_ready q = true := by
    simp [bmfont__parser_ready, bmfont__parser_ok, hok, heof]
  have hm := match_same_exact q hok heof ['\n'] htok
  have hclosed : ErrClosed (fun p : BMFont__Parser => p.ok = false) := by
    constructor
    · intro p r he hp
      simp only [errs, Prod.mk.injEq] at he
      rw [he.1]; exact hp
    · intro p msg _
      rfl
  cases hl : (bmfont__load_next_token q).1 with
  | true =>
    have e1 : ∀ n, kv_loop parse_char_body (n + 1) q g = ((bmfont__load_next_token q).2, g) := by
      intro n
      rw [kv_loop]
      simp only [hr, if_true, hm, hl]
    exact ⟨(e1 (fuel + 1)).trans (e1 1).symm, by rw [e1 1]⟩
  | false =>
    have hbad : (bmfont__load_next_token q).2.ok = false := load_false_ok q hl
    have hb := closed_char_body hclosed (bmfont__load_next_token q).2 g hbad
    have hnr : bmfont__parser_ready (parse_char_body (bmfont__load_next_token q).2 g).1
        = false := by
      simp [bmfont__parser_ready, bmfont__parser_ok, hb]
    have hd : (parse_char_body (bmfont__load_next_token q).2 g).2 = g := by
      rw [parse_char_body_eq]
      exact dispatch_failed char_table _ hbad g
    have e1 : ∀ n, kv_loop parse_char_body (n + 2) q g
        = ((parse_char_body (bmfont__load_next_token q).2 g).1, g) := by
      intro n
      rw [kv_loop]
      simp only [hr, if_true, hm, hl, Bool.false_eq_true, if_false]
      rw [kv_loop]
      simp only [hnr, Bool.false_eq_true, if_false, hd]
    exact ⟨(e1 fuel).trans (e1 0).symm, by rw [e1 0]⟩

theorem render_tags_width_ge : ∀ ps : List (CharTag × Nat),
    ps.length ≤ (render_tags ps []).length
  | [] => Nat.zero_le _
  | kv :: ps => by
    have ih := render_tags_width_ge ps
    simp only [render_tags_cons, pair, List.length_cons, List.length_append]
    omega

theorem line_state_fuel (p : BMFont__Parser) (c : Nat) (rest : List Char) :
    ∀ ps : List (CharTag × Nat), ps.length ≤ (line_state p c ps rest).stream.length
  | [] => Nat.zero_le _
  | kv :: ps => by
    have h := render_tags_length ps ('\n' :: rest)
    have h2 := render_tags_width_ge ps
    simp only [line_state, List.length_cons, List.length_append, h]
    omega

theorem char_tag_store_comm (t1 t2 : CharTag) (h : t1 ≠ t2) (n1 n2 : Nat) (g : BMFont_Char) :
    t2.store n2 (t1.store n1 g) = t1.store n1 (t2.store n2 g) := by
  cases t1 <;> cases t2 <;> first | exact (h rfl).elim | simp only [CharTag.store]

theorem char_tag_store_idem (t : CharTag) (n : Nat) (g : BMFont_Char) :
    t.store n (t.store n g) = t.store n g := by
  cases t <;> simp only [CharTag.store]

theorem apply_tags_perm {ps ps' : List (CharTag × Nat)} (hperm : ps.Perm ps')
    (hkeys : (ps.map Prod.fst).Nodup) (g : BMFont_Char) :
    apply_tags g ps = apply_tags g ps' := by
  unfold apply_tags
  apply List.Perm.foldl_eq' hperm
  intro x hx y hy z
  by_cases hxy : x.1 = y.1
  · have : x = y := List.inj_on_of_nodup_map hkeys hx hy hxy
    rw [this]
  · exact char_tag_store_comm x.1 y.1 hxy x.2 y.2 z

/-- A char record read from the pairs `ps`: the glyph holds the stores of the
pairs, and the parser is the one that continues from the newline reached at
the column after the pairs. -/
theorem read_char_record_pairs (p : BMFont__Parser) (hok : p.ok = true) (heof : p.eof = false)
    (htok : p.next_token = "char".toList) (ps : List (CharTag × Nat))
    (hv : ∀ kv ∈ ps, kv.2 ≤ kv.1.limit) (rest : List Char) (g : BMFont_Char) :
    read_char_record { p with stream := render_tags ps ('\n' :: rest) } g
      = ((kv_loop parse_char_body 2
            (at_newline p (p.curr_col + (render_tags ps []).length) rest) (apply_tags g ps)).1,
          apply_tags g ps) := by
  have hm := match_same_exact { p with stream := render_tags ps ('\n' :: rest) } hok heof
    "char".toList htok
  have hl := load_line p hok heof p.curr_col ps rest p.next_token p.start_line p.start_col
  have hml : bmfont__match_token_and_advance { p with stream := render_tags ps ('\n' :: rest) }
      "char".toList = (true, line_state p p.curr_col ps rest) := hm.trans hl
  obtain ⟨fuel, hfuel⟩ : ∃ fuel, kv_fuel (line_state p p.curr_col ps rest)
      = (fuel + 2) + ps.length :=
    ⟨(line_state p p.curr_col ps rest).stream.length - ps.length, by
      have := line_state_fuel p p.curr_col rest ps
      simp only [kv_fuel]
      omega⟩
  have hn := char_loop_at_newline
    (at_newline p (p.curr_col + (render_tags ps []).length) rest) hok heof rfl
    (apply_tags g ps) fuel
  unfold read_char_record
  rw [hml]
  simp only
  rw [hfuel, char_pairs_exact p hok heof rest ps p.curr_col g (fuel + 2) hv, hn.1]
  exact Prod.ext rfl hn.2

theorem render_pairs_cons (kv : List Char × List Char) (ps : List (List Char × List Char))
    (rest : List Char) :
    render_pairs (kv :: ps) rest = pair kv.1 kv.2 (render_pairs ps rest) := rfl

theorem delim_start_pairs (ps : List (List Char × List Char)) (rest : List Char) :
    delim_start (render_pairs ps ('\n' :: rest)) = true := by
  cases ps <;> rfl

/-- The tokenizer in front of a list of pairs and a newline. -/
theorem next_pairs_ahead (ps : List (List Char × List Char)) (rest : List Char)
    (hk : ∀ kv ∈ ps, is_word kv.1 = true) :
    Next (render_pairs ps ('\n' :: rest)) (pairs_ahead ps rest).1 (pairs_ahead ps rest).2
      false := by
  cases ps with
  | nil => exact next_nl rest
  | cons kv ps1 => exact next_pair_key _ _ _ (hk kv (by simp))

theorem pairs_ahead_length (ps : List (List Char × List Char)) (rest : List Char) :
    2 * ps.length ≤ (pairs_ahead ps rest).2.length + 1 := by
  have hlen : ∀ qs : List (List Char × List Char),
      2 * qs.length ≤ (render_pairs qs ('\n' :: rest)).length := by
    intro qs
    induction qs with
    | nil => simp [render_pairs]
    | cons kv qs ih =>
      simp only [render_pairs_cons, length_pair, List.length_cons]
      omega
  cases ps with
  | nil => simp
  | cons kv ps1 =>
    have := hlen ps1
    simp only [pairs_ahead, List.length_cons, List.length_append]
    omega

theorem dispatch_miss {α : Type}
    (table : List (List Char × (BMFont__Parser → α → BMFont__Parser × α)))
    (p : BMFont__Parser) (hf : find_handler table p.next_token = none) (a : α) :
    dispatch table p a = (skip_unknown_pair p, a) := by
  induction table with
  | nil => rfl
  | cons kh tl ih =>
    obtain ⟨k, h0⟩ := kh
    by_cases hk : k = p.next_token
    · simp [find_handler, hk] at hf
    · simp only [find_handler, hk, if_false] at hf
      have hne : p.next_token ≠ k := fun hh => hk hh.symm
      simp only [dispatch, match_key_other p k hne, Bool.false_eq_true, if_false]
      exact ih hf

theorem is_word_ne_nl {w : List Char} (h : is_word w = true) : w ≠ ['\n'] := by
  intro hw
  subst hw
  revert h
  decide

theorem is_word_ne_eq {w : List Char} (h : is_word w = true) : w ≠ ['='] := by
  intro hw
  subst hw
  revert h
  decide

/-- A pair with a key that is not in the table, at the head of a key/value
loop: two iterations consume the key, the equals sign and the value, and the
data stay as they are. -/
theorem kv_pair_unknown {α : Type}
    (table : List (List Char × (BMFont__Parser → α → BMFont__Parser × α)))
    (hneq : find_handler table ['='] = none)
    {p : BMFont__Parser} {k v rest t1 s1 : List Char} {e b : Bool}
    (h : Good p k ('=' :: (v ++ rest)) false b) (hk : is_word k = true)
    (hf : find_handler table k = none) (hv : is_word v = true)
    (hr : delim_start rest = true) (nx : Next rest t1 s1 e) :
    ∃ q, Good q t1 s1 e b ∧ ∀ (fuel : Nat) (a : α),
      kv_loop (dispatch table) (fuel + 2) p a = kv_loop (dispatch table) fuel q a := by
  have hl1 := next_eq (v ++ rest) p k b h
  have g1 := hl1.2
  have hm2 := match_good g1 (next_value v rest hv hr)
  have hl3 := nx _ _ _ hm2.2
  refine ⟨_, hl3.2, ?_⟩
  intro fuel a
  have hd1 : dispatch table p a = ((bmfont__load_next_token p).2, a) := by
    rw [dispatch_miss table p (by rw [h.tok rfl]; exact hf) a]
    simp only [skip_unknown_pair, match_other h ['='] (is_word_ne_eq hk)]
  have hd2 : dispatch table (bmfont__load_next_token p).2 a
      = ((bmfont__load_next_token
          (bmfont__match_token_and_advance (bmfont__load_next_token p).2 ['=']).2).2, a) := by
    rw [dispatch_miss table _ (by rw [g1.tok rfl]; exact hneq) a]
    rfl
  rw [kv_loop_step _ h (is_word_ne_nl hk), hd1, kv_loop_step _ g1 (by decide), hd2]

theorem runs_mono {α : Type} {body : BMFont__Parser → α → BMFont__Parser × α}
    {p q : BMFont__Parser} {a a1 : α} {n m : Nat} (h : Runs body p a n q a1) (hnm : n ≤ m) :
    Runs body p a m q a1 :=
  fun fuel hfuel => h fuel (Nat.le_trans hnm hfuel)

theorem runs_step2 {α : Type} {body : BMFont__Parser → α → BMFont__Parser × α}
    {p p1 q : BMFont__Parser} {a a0 a1 : α} {n : Nat}
    (hs : ∀ fuel, kv_loop body (fuel + 2) p a = kv_loop body fuel p1 a0)
    (hr : Runs body p1 a0 n q a1) : Runs body p a (n + 2) q a1 := by
  intro fuel hfuel
  obtain ⟨m, rfl⟩ : ∃ m, fuel = m + 2 := ⟨fuel - 2, by omega⟩
  rw [hs m]
  exact hr m (by omega)

/-- The key/value loop over a list of pairs, each processed as a whole, up to
and with the newline. -/
theorem kv_pairs_run {α : Type}
    (table : List (List Char × (BMFont__Parser → α → BMFont__Parser × α)))
    (hneq : find_handler table ['='] = none) (u : List Char → α → α)
    {rest t1 s1 : List Char} {e1 : Bool} (nx : Next rest t1 s1 e1) :
    ∀ (ps : List (List Char × List Char)), (∀ kv ∈ ps, Handles table u kv) →
    ∀ (p : BMFont__Parser) (b : Bool),
      Good p (pairs_ahead ps rest).1 (pairs_ahead ps rest).2 false b →
      ∃ q, Good q t1 s1 e1 b ∧ ∀ a : α,
        Runs (dispatch table) p a (2 * ps.length + 1) q (ps.foldl (fun x kv => u kv.1 x) a) := by
  intro ps
  induction ps with
  | nil =>
    intro _ p b h
    obtain ⟨q, gq, hl⟩ := runs_end (dispatch table) h nx
    exact ⟨q, gq, fun a => hl a⟩
  | cons kv ps ih =>
    intro hall p b h
    obtain ⟨hk, hv, hcase⟩ := hall kv (by simp)
    have hall1 : ∀ x ∈ ps, Handles table u x := fun x hx => hall x (List.mem_cons_of_mem _ hx)
    have nxt := next_pairs_ahead ps rest (fun x hx => (hall1 x hx).1)
    have hlen : 2 * (kv :: ps).length + 1 = (2 * ps.length + 1) + 2 := by
      simp only [List.length_cons]; omega
    rcases hcase with ⟨hf, hu⟩ | ⟨hd, hf, hh⟩
    · obtain ⟨q, gq, hl⟩ := kv_pair_unknown table hneq h hk hf hv (delim_start_pairs ps rest) nxt
      obtain ⟨q2, gq2, hr⟩ := ih hall1 q b gq
      refine ⟨q2, gq2, ?_⟩
      intro a
      rw [hlen]
      have := runs_step2 (fun fuel => hl fuel a) (hr a)
      simpa [List.foldl_cons, hu] using this
    · obtain ⟨q, gq, hl⟩ := kv_pair table kv.1 hd hf (is_word_ne_nl hk) h hv
        (delim_start_pairs ps rest)
      obtain ⟨q1, gq1, he⟩ := hh q _ _ _ _ _ gq nxt
      obtain ⟨q2, gq2, hr⟩ := ih hall1 q1 b gq1
      refine ⟨q2, gq2, ?_⟩
      intro a
      rw [hlen]
      have hs : ∀ fuel, kv_loop (dispatch table) (fuel + 1) p a
          = kv_loop (dispatch table) fuel q1 (u kv.1 a) := by
        intro fuel
        rw [hl fuel a, he a]
      exact runs_mono (runs_step hs (hr (u kv.1 a))) (by omega)

theorem find_handler_none {α : Type}
    (table : List (List Char × (BMFont__Parser → α → BMFont__Parser × α))) (k : List Char)
    (h : k ∉ table.map Prod.fst) : find_handler table k = none := by
  induction table with
  | nil => rfl
  | cons kh tl ih =>
    obtain ⟨k0, h0⟩ := kh
    simp only [List.map_cons, List.mem_cons, not_or] at h
    have hne : ¬ k0 = k := fun hh => h.1 hh.symm
    simp only [find_handler, hne, if_false]
    exact ih h.2

theorem effect_of_none {α : Type} (eff : List (List Char × (α → α))) (k : List Char)
    (h : k ∉ eff.map Prod.fst) (a : α) : effect_of eff k a = a := by
  induction eff with
  | nil => rfl
  | cons kf tl ih =>
    obtain ⟨k0, f⟩ := kf
    simp only [List.map_cons, List.mem_cons, not_or] at h
    have hne : ¬ k0 = k := fun hh => h.1 hh.symm
    simp only [effect_of, hne, if_false]
    exact ih h.2

theorem handles_unknown {α : Type}
    (table : List (List Char × (BMFont__Parser → α → BMFont__Parser × α)))
    (eff : List (List Char × (α → α))) (hkeys : eff.map Prod.fst = table.map Prod.fst)
    (kv : List Char × List Char) (h : unknown_pair (table.map Prod.fst) kv) :
    Handles table (effect_of eff) kv :=
  ⟨h.1, h.2.1, Or.inl ⟨find_handler_none table kv.1 h.2.2,
    fun a => effect_of_none eff kv.1 (by rw [hkeys]; exact h.2.2) a⟩⟩

theorem handles_u16 {α : Type}
    (table : List (List Char × (BMFont__Parser → α → BMFont__Parser × α)))
    (u : List Char → α → α) (k : List Char) (n : Nat) (upd : α → Nat → α)
    (hf : find_handler table k = some (on_u16 upd)) (hk : is_word k = true) (hn : n ≤ 65535)
    (hu : ∀ a, u k a = upd a n) : Handles table u (k, fmt_nat n) := by
  refine ⟨hk, fmt_nat_is_word n (by omega), Or.inr ⟨_, hf, ?_⟩⟩
  intro q rest t1 s1 e b hq nx
  have hg := get_uint16_good hq hn nx
  refine ⟨_, hg.2.2, ?_⟩
  intro a
  simp only [on_u16, hg.2.1, store_opt, hu]

theorem handles_u32 {α : Type}
    (table : List (List Char × (BMFont__Parser → α → BMFont__Parser × α)))
    (u : List Char → α → α) (k : List Char) (n : Nat) (upd : α → Nat → α)
    (hf : find_handler table k = some (on_u32 upd)) (hk : is_word k = true)
    (hn : n ≤ 4294967295) (hu : ∀ a, u k a = upd a (narrow32 n)) :
    Handles table u (k, fmt_nat n) := by
  refine ⟨hk, fmt_nat_is_word n hn, Or.inr ⟨_, hf, ?_⟩⟩
  intro q rest t1 s1 e b hq nx
  have hg := get_uint32_good hq hn nx
  refine ⟨_, hg.2.2, ?_⟩
  intro a
  simp only [on_u32, hg.2.1, store_opt, hu]

theorem handles_i16 {α : Type}
    (table : List (List Char × (BMFont__Parser → α → BMFont__Parser × α)))
    (u : List Char → α → α) (k : List Char) (v : Int) (upd : α → Int → α)
    (hf : find_handler table k = some (on_i16 upd)) (hk : is_word k = true)
    (h1 : -32768 ≤ v) (h2 : v ≤ 32767) (hu : ∀ a, u k a = upd a v) :
    Handles table u (k, fmt_int v) := by
  refine ⟨hk, fmt_int_is_word v h1 h2, Or.inr ⟨_, hf, ?_⟩⟩
  intro q rest t1 s1 e b hq nx
  have hg := get_int16_good hq h1 h2 nx
  refine ⟨_, hg.2.2, ?_⟩
  intro a
  simp only [on_i16, hg.2.1, store_opt, hu]

theorem handles_copy {α : Type}
    (table : List (List Char × (BMFont__Parser → α → BMFont__Parser × α)))
    (u : List Char → α → α) (k w : List Char) (upd : α → List Char → α)
    (hf : find_handler table k = some (on_copy upd)) (hk : is_word k = true)
    (hw : is_word w = true) (hu : ∀ a, u k a = upd a w) : Handles table u (k, w) := by
  refine ⟨hk, hw, Or.inr ⟨_, hf, ?_⟩⟩
  intro q rest t1 s1 e b hq nx
  have hg := copy_token_good hq nx
  refine ⟨_, hg.2.2, ?_⟩
  intro a
  simp only [on_copy, hg.2.1, store_opt, hu]

theorem handles_chars_count (u : List Char → BMFont → BMFont) (n : Nat) (hn : n ≤ 65535)
    (hu : ∀ a, u "count".toList a
      = { a with num_chars := n, chars := some (List.replicate n default) }) :
    Handles chars_count_table u ("count".toList, fmt_nat n) := by
  refine ⟨(by decide : is_word "count".toList = true), fmt_nat_is_word n (by omega),
    Or.inr ⟨on_chars_count, rfl, ?_⟩⟩
  intro q rest t1 s1 e b hq nx
  have hg := get_uint16_good hq hn nx
  refine ⟨_, hg.2.2, ?_⟩
  intro a
  simp only [on_chars_count, hg.1, hg.2.1, store_opt, if_true, hu]

theorem handles_kernings_count (u : List Char → BMFont → BMFont) (n : Nat) (hn : n ≤ 65535)
    (hu : ∀ a, u "count".toList a
      = { a with num_kernings := n, kernings := some (List.replicate n default) }) :
    Handles kernings_count_table u ("count".toList, fmt_nat n) := by
  refine ⟨(by decide : is_word "count".toList = true), fmt_nat_is_word n (by omega),
    Or.inr ⟨on_kernings_count, rfl, ?_⟩⟩
  intro q rest t1 s1 e b hq nx
  have hg := get_uint16_good hq hn nx
  refine ⟨_, hg.2.2, ?_⟩
  intro a
  simp only [on_kernings_count, hg.1, hg.2.1, store_opt, if_true, hu]

/-- A line: the keyword is matched and the key/value loop runs over the pairs
to the end of the line. -/
theorem line_run {α : Type}
    (table : List (List Char × (BMFont__Parser → α → BMFont__Parser × α)))
    (hneq : find_handler table ['='] = none) (u : List Char → α → α)
    {rest t1 s1 : List Char} {e1 : Bool} (nx : Next rest t1 s1 e1)
    (ps : List (List Char × List Char)) (hall : ∀ kv ∈ ps, Handles table u kv)
    {p : BMFont__Parser} {kw : List Char} {b : Bool}
    (h : Good p kw (render_pairs ps ('\n' :: rest)) false b) :
    ∃ m q, bmfont__match_token_and_advance p kw = (true, m) ∧
      bmfont__expect_token_and_advance p kw = (true, m) ∧ Good q t1 s1 e1 b ∧
      ∀ a : α, kv_loop (dispatch table) (kv_fuel m) m a
        = (q, ps.foldl (fun x kv => u kv.1 x) a) := by
  have nxa := next_pairs_ahead ps rest (fun x hx => (hall x hx).1)
  have hm := match_good h nxa
  obtain ⟨q, gq, hr⟩ := kv_pairs_run table hneq u nx ps hall _ b hm.2
  have hme : bmfont__match_token_and_advance p kw
      = (true, (bmfont__match_token_and_advance p kw).2) := Prod.ext hm.1 rfl
  refine ⟨(bmfont__match_token_and_advance p kw).2, q, hme, ?_, gq, ?_⟩
  · simp only [bmfont__expect_token_and_advance, hm.1, Bool.not_true, Bool.false_eq_true,
      if_false]
  · intro a
    apply hr a
    rw [kv_fuel_good hm.2]
    have := pairs_ahead_length ps rest
    omega

theorem common_flag (p : BMFont__Parser) (f : BMFont) :
    (bmfont__parse_common p f).1 = (bmfont__parse_common p f).2.1.ok := by
  unfold bmfont__parse_common
  simp only
  split
  · rename_i he
    simp only [Bool.not_eq_true'] at he
    exact (expect_false_ok p _ he).symm
  · rfl

theorem pages_flag (p : BMFont__Parser) (f : BMFont) :
    (bmfont__parse_pages p f).1 = (bmfont__parse_pages p f).2.1.ok := by
  unfold bmfont__parse_pages
  have hl := (pages_loop_spec f.num_pages 0 p f).2.2.2.2.2
  generalize parse_pages_loop f.num_pages 0 p f = r at hl ⊢
  simp only
  split
  · rename_i h
    exact (hl h).symm
  · rfl

theorem chars_flag (p : BMFont__Parser) (f : BMFont) :
    (bmfont__parse_chars p f).1 = (bmfont__parse_chars p f).2.1.ok := by
  unfold bmfont__parse_chars
  simp only
  split
  · rename_i he
    simp only [Bool.not_eq_true'] at he
    exact (expect_false_ok p _ he).symm
  · rfl

theorem kernings_flag (p : BMFont__Parser) (f : BMFont)
    (hr : bmfont__parser_ready p = true) :
    (bmfont__parse_kernings p f).1 = (bmfont__parse_kernings p f).2.1.ok := by
  unfold bmfont__parse_kernings
  simp only [hr, Bool.not_true, Bool.false_eq_true, if_false]
  rfl

theorem ok_cleared_closed : ErrClosed (fun p => p.ok = false) := by
  refine ⟨fun p q he h => ?_, fun p msg _ => rfl⟩
  have : q.ok = p.ok := congrArg (fun e => e.1) he
  show q.ok = false
  rw [this]; exact h

theorem load_in_place (p : BMFont__Parser) (hok : p.ok = false) :
    bmfont__load_next_token p = (false, { p with assert_failed := true }) := by
  simp [bmfont__load_next_token, bmfont__parser_ready, bmfont__parser_ok, hok]

theorem failed_load (p q : BMFont__Parser) (hq : failed_in_place p (false, q)) :
    failed_in_place p (bmfont__load_next_token q) := by
  rw [load_in_place q hq.2.2]
  exact ⟨rfl, hq.2.1, hq.2.2⟩

theorem failed_set_error (p q : BMFont__Parser) (msg : List Char)
    (hq : token_state q = token_state p) :
    failed_in_place p (false, bmfont__set_parser_error q msg) :=
  ⟨rfl, hq, rfl⟩

theorem failed_match (p q : BMFont__Parser) (tok : List Char)
    (hq : failed_in_place p (false, q)) :
    failed_in_place p (bmfont__match_token_and_advance q tok) := by
  unfold bmfont__match_token_and_advance bmfont__expect_more_tokens
  by_cases he : q.eof = true
  · simp only [he, if_true, Bool.not_false, Bool.true_or, if_true]
    exact failed_set_error p q _ hq.2.1
  · have hok : q.ok = false := hq.2.2
    simp only [he, Bool.false_eq_true, if_false, bmfont__parser_ok, hok, Bool.not_true,
      Bool.not_false, Bool.false_or, Bool.true_or, if_true]
    exact hq

theorem failed_expect (p q : BMFont__Parser) (tok : List Char)
    (hq : failed_in_place p (false, q)) :
    failed_in_place p (bmfont__expect_token_and_advance q tok) := by
  have hm := failed_match p q tok hq
  unfold bmfont__expect_token_and_advance
  simp only [hm.1, Bool.not_false, if_true]
  split
  · exact failed_set_error p _ _ hm.2.1
  · exact ⟨rfl, hm.2.1, hm.2.2⟩

theorem failed_match_key (p q : BMFont__Parser) (tok : List Char)
    (hq : failed_in_place p (false, q)) :
    failed_in_place p (bmfont__match_key_and_advance_to_value q tok) := by
  have hl := failed_load p q hq
  unfold bmfont__match_key_and_advance_to_value
  split
  · simp only [hl.1, Bool.false_eq_true, if_false]
    exact ⟨rfl, hl.2.1, hl.2.2⟩
  · exact hq

theorem failed_do_get (p q : BMFont__Parser) (lo hi : Int)
    (hq : failed_in_place p (false, q)) :
    failed_in_place p ((bmfont__do_get_token_as_int_and_advance q lo hi).1,
      (bmfont__do_get_token_as_int_and_advance q lo hi).2.1) := by
  have hl := failed_load p q hq
  unfold bmfont__do_get_token_as_int_and_advance bmfont__expect_more_tokens
  by_cases he : q.eof = true
  · simp only [he, if_true, Bool.not_false]
    exact failed_set_error p q _ hq.2.1
  · simp only [he, Bool.false_eq_true, if_false, Bool.not_true]
    split
    · exact failed_set_error p q _ hq.2.1
    · split
      · exact failed_set_error p q _ hq.2.1
      · exact ⟨hl.1, hl.2.1, hl.2.2⟩

theorem failed_get_int16 (p : BMFont__Parser) (hok : p.ok = false) :
    bmfont__get_token_as_int16_and_advance p
      = (false, (bmfont__do_get_token_as_int_and_advance p (-32768) 32767).2.1, none) := by
  have h := (failed_do_get p p (-32768) 32767 ⟨rfl, rfl, hok⟩).1
  unfold bmfont__get_token_as_int16_and_advance
  generalize bmfont__do_get_token_as_int_and_advance p (-32768) 32767 = r at h ⊢
  obtain ⟨a, b, c⟩ := r
  simp only at h
  subst h
  rfl

theorem failed_get_uint16 (p : BMFont__Parser) (hok : p.ok = false) :
    bmfont__get_token_as_uint16_and_advance p
      = (false, (bmfont__do_get_token_as_int_and_advance p 0 65535).2.1, none) := by
  have h := (failed_do_get p p 0 65535 ⟨rfl, rfl, hok⟩).1
  unfold bmfont__get_token_as_uint16_and_advance
  generalize bmfont__do_get_token_as_int_and_advance p 0 65535 = r at h ⊢
  obtain ⟨a, b, c⟩ := r
  simp only at h
  subst h
  rfl

theorem failed_get_uint32 (p : BMFont__Parser) (hok : p.ok = false) :
    bmfont__get_token_as_uint32_and_advance p
      = (false, (bmfont__do_get_token_as_int_and_advance p 0 4294967295).2.1, none) := by
  have h := (failed_do_get p p 0 4294967295 ⟨rfl, rfl, hok⟩).1
  unfold bmfont__get_token_as_uint32_and_advance
  generalize bmfont__do_get_token_as_int_and_advance p 0 4294967295 = r at h ⊢
  obtain ⟨a, b, c⟩ := r
  simp only at h
  subst h
  rfl

theorem failed_copy (p : BMFont__Parser) (hok : p.ok = false) :
    failed_in_place p ((bmfont__copy_token_and_advance p).1,
        (bmfont__copy_token_and_advance p).2.1) ∧
      (bmfont__copy_token_and_advance p).2.2 = if p.eof then none else some p.next_token := by
  have hl := failed_load p p ⟨rfl, rfl, hok⟩
  unfold bmfont__copy_token_and_advance bmfont__expect_more_tokens
  by_cases he : p.eof = true
  · simp only [he, if_true, Bool.not_false]
    exact ⟨failed_set_error p p _ rfl, trivial⟩
  · simp only [he, Bool.false_eq_true, if_false, Bool.not_true]
    exact ⟨⟨hl.1, hl.2.1, hl.2.2⟩, trivial⟩

theorem failed_copy_quoted (p : BMFont__Parser) (hok : p.ok = false) :
    failed_in_place p ((bmfont__copy_quoted_token_and_advance p).1,
        (bmfont__copy_quoted_token_and_advance p).2.1) ∧
      (bmfont__copy_quoted_token_and_advance p).2.2 =
        if p.eof = true ∨ is_quoted p.next_token = false then none
        else some ((p.next_token.drop 1).take (p.next_token.length - 2)) := by
  have hl := failed_load p p ⟨rfl, rfl, hok⟩
  unfold bmfont__copy_quoted_token_and_advance bmfont__expect_more_tokens
  by_cases he : p.eof = true
  · simp only [he, if_true, Bool.not_false, true_or]
    exact ⟨failed_set_error p p _ rfl, trivial⟩
  · simp only [he, Bool.false_eq_true, if_false, Bool.not_true, false_or]
    by_cases hq : p.next_token.length < 2 ∨ p.next_token.head? ≠ some '"' ∨
        p.next_token.getLast? ≠ some '"'
    · have hq2 : is_quoted p.next_token = false := by
        simp only [is_quoted, decide_eq_false_iff_not, not_not]
        exact hq
      rw [if_pos hq, if_pos hq2]
      exact ⟨failed_set_error p p _ rfl, rfl⟩
    · have hq2 : ¬ is_quoted p.next_token = false := by
        simp only [is_quoted, decide_eq_false_iff_not, not_not]
        exact hq
      rw [if_neg hq, if_neg hq2]
      exact ⟨⟨hl.1, hl.2.1, hl.2.2⟩, rfl⟩

theorem channels_info_body (p : BMFont__Parser) (f : BMFont) (h : channels_unassigned f) :
    channels_unassigned (parse_info_body p f).2 := by
  rw [parse_info_body_eq]
  refine dispatch_inv info_table channels_unassigned ?_ p f h
  intro kh hkh
  simp only [info_table, List.mem_cons, List.mem_singleton, List.not_mem_nil, or_false] at hkh
  rcases hkh with rfl | rfl <;> intro q a ha
  · exact on_copy_inv channels_unassigned _ (fun a x h => by exact h) q a ha
  · exact on_i16_inv channels_unassigned _ (fun a x h => by exact h) q a ha

theorem channels_on_pages (q : BMFont__Parser) (a : BMFont) (h : channels_unassigned a) :
    channels_unassigned (on_pages q a).2 := by
  unfold on_pages
  cases (bmfont__get_token_as_uint16_and_advance q).2.2 <;> exact h

theorem channels_common_body (p : BMFont__Parser) (f : BMFont) (h : channels_unassigned f) :
    channels_unassigned (parse_common_body p f).2 := by
  rw [parse_common_body_eq]
  refine dispatch_inv common_table channels_unassigned ?_ p f h
  intro kh hkh
  simp only [common_table, List.mem_cons, List.mem_singleton, List.not_mem_nil, or_false] at hkh
  rcases hkh with rfl | rfl | rfl | rfl | rfl <;> intro q a ha
  · exact on_u16_inv channels_unassigned _ (fun a x h => by exact h) q a ha
  · exact on_u16_inv channels_unassigned _ (fun a x h => by exact h) q a ha
  · exact on_u16_inv channels_unassigned _ (fun a x h => by exact h) q a ha
  · exact on_u16_inv channels_unassigned _ (fun a x h => by exact h) q a ha
  · exact channels_on_pages q a ha

theorem channels_replicate (a : BMFont) (n m : Nat) (h : channels_unassigned a) :
    channels_unassigned { a with num_chars := m, chars := some (List.replicate n default) } := by
  refine ⟨h.1, h.2.1, h.2.2.1, h.2.2.2.1, ?_⟩
  intro cs hcs c hc
  simp only [Option.some.injEq] at hcs
  subst hcs
  rw [List.eq_of_mem_replicate hc]
  exact ⟨rfl, rfl⟩

theorem channels_chars_count_body (p : BMFont__Parser) (f : BMFont)
    (h : channels_unassigned f) : channels_unassigned (parse_chars_count_body p f).2 := by
  rw [parse_chars_count_body_eq]
  refine dispatch_inv chars_count_table channels_unassigned ?_ p f h
  intro kh hkh
  simp only [chars_count_table, List.mem_singleton] at hkh
  subst hkh
  intro q a ha
  simp only [on_chars_count]
  split
  · cases (bmfont__get_token_as_uint16_and_advance q).2.2 with
    | none => exact channels_replicate a _ a.num_chars ha
    | some n => exact channels_replicate a _ n ha
  · exact ha

theorem channels_kernings_count_body (p : BMFont__Parser) (f : BMFont)
    (h : channels_unassigned f) : channels_unassigned (parse_kernings_count_body p f).2 := by
  rw [parse_kernings_count_body_eq]
  refine dispatch_inv kernings_count_table channels_unassigned ?_ p f h
  intro kh hkh
  simp only [kernings_count_table, List.mem_singleton] at hkh
  subst hkh
  intro q a ha
  simp only [on_kernings_count]
  split
  · cases (bmfont__get_token_as_uint16_and_advance q).2.2 <;> exact ha
  · exact ha

theorem glyph_char_body (p : BMFont__Parser) (c : BMFont_Char) (h : glyph_unassigned c) :
    glyph_unassigned (parse_char_body p c).2 := by
  rw [parse_char_body_eq]
  refine dispatch_inv char_table glyph_unassigned ?_ p c h
  intro kh hkh
  simp only [char_table, List.mem_cons, List.mem_singleton, List.not_mem_nil, or_false] at hkh
  rcases hkh with rfl | rfl | rfl | rfl | rfl | rfl | rfl | rfl <;> intro q a ha
  · exact on_u32_inv glyph_unassigned _ (fun a x h => by exact h) q a ha
  · exact on_u16_inv glyph_unassigned _ (fun a x h => by exact h) q a ha
  · exact on_u16_inv glyph_unassigned _ (fun a x h => by exact h) q a ha
  · exact on_u16_inv glyph_unassigned _ (fun a x h => by exact h) q a ha
  · exact on_u16_inv glyph_unassigned _ (fun a x h => by exact h) q a ha
  · exact on_u16_inv glyph_unassigned _ (fun a x h => by exact h) q a ha
  · exact on_u16_inv glyph_unassigned _ (fun a x h => by exact h) q a ha
  · exact on_u16_inv glyph_unassigned _ (fun a x h => by exact h) q a ha

theorem channels_info (p : BMFont__Parser) (f : BMFont) (h : channels_unassigned f) :
    channels_unassigned (bmfont__parse_info p f).2.2 := by
  unfold bmfont__parse_info
  simp only
  split
  · exact h
  · exact kv_loop_inv parse_info_body channels_unassigned channels_info_body _ _ _ h

theorem channels_common (p : BMFont__Parser) (f : BMFont) (h : channels_unassigned f) :
    channels_unassigned (bmfont__parse_common p f).2.2 := by
  unfold bmfont__parse_common
  simp only
  split
  · exact h
  · exact kv_loop_inv parse_common_body channels_unassigned channels_common_body _ _ _ h

theorem channels_store_page (p : BMFont__Parser) (f : BMFont) (id : Nat) (s : List Char)
    (h : channels_unassigned f) : channels_unassigned (store_page_name p f id s).2 := by
  unfold store_page_name
  split
  · split
    · exact h
    · exact h
  · exact h

theorem channels_pages_loop : ∀ (n i : Nat) (p : BMFont__Parser) (f : BMFont),
    channels_unassigned f → channels_unassigned (parse_pages_loop n i p f).2.2.2 := by
  intro n
  induction n with
  | zero => intro i p f h; exact h
  | succ n ih =>
    intro i p f h
    rw [parse_pages_loop]
    simp only
    split
    · exact h
    · split
      · exact h
      · exact ih _ _ _ (channels_store_page _ _ _ _ h)

theorem channels_pages (p : BMFont__Parser) (f : BMFont) (h : channels_unassigned f) :
    channels_unassigned (bmfont__parse_pages p f).2.2 := by
  unfold bmfont__parse_pages
  have hl := channels_pages_loop f.num_pages 0 p f h
  generalize parse_pages_loop f.num_pages 0 p f = r at hl ⊢
  simp only
  split
  · exact hl
  · exact hl

theorem channels_chars_loop : ∀ (n i : Nat) (p : BMFont__Parser) (f : BMFont),
    channels_unassigned f → channels_unassigned (parse_chars_loop n i p f).2.2 := by
  intro n
  induction n with
  | zero => intro i p f h; exact h
  | succ n ih =>
    intro i p f h
    rw [parse_chars_loop]
    simp only
    split
    · exact h
    · split
      · rename_i cs hcs
        split
        · rename_i hi
          refine ih _ _ _ ⟨h.1, h.2.1, h.2.2.1, h.2.2.2.1, ?_⟩
          intro cs2 hcs2 c hc
          simp only [Option.some.injEq] at hcs2
          subst hcs2
          have hall := h.2.2.2.2 cs hcs
          rcases List.mem_or_eq_of_mem_set hc with hm | he
          · exact hall c hm
          · rw [he]
            refine kv_loop_inv parse_char_body glyph_unassigned glyph_char_body _ _ _ ?_
            rw [List.getD_eq_getElem _ _ hi]
            exact hall _ (List.getElem_mem _)
        · exact ih _ _ _ h
      · exact ih _ _ _ h

theorem channels_chars (p : BMFont__Parser) (f : BMFont) (h : channels_unassigned f) :
    channels_unassigned (bmfont__parse_chars p f).2.2 := by
  unfold bmfont__parse_chars
  simp only
  split
  · exact h
  · exact channels_chars_loop _ _ _ _
      (kv_loop_inv parse_chars_count_body channels_unassigned channels_chars_count_body _ _ _ h)

theorem channels_kernings_loop : ∀ (n i : Nat) (p : BMFont__Parser) (f : BMFont),
    channels_unassigned f → channels_unassigned (parse_kernings_loop n i p f).2.2 := by
  intro n
  induction n with
  | zero => intro i p f h; exact h
  | succ n ih =>
    intro i p f h
    rw [parse_kernings_loop]
    simp only
    split
    · exact h
    · split
      · split
        · exact ih _ _ _ h
        · exact ih _ _ _ h
      · exact ih _ _ _ h

theorem channels_kernings (p : BMFont__Parser) (f : BMFont) (h : channels_unassigned f) :
    channels_unassigned (bmfont__parse_kernings p f).2.2 := by
  unfold bmfont__parse_kernings
  split
  · exact h
  · exact channels_kernings_loop _ _ _ _
      (kv_loop_inv parse_kernings_count_body channels_unassigned channels_kernings_count_body
        _ _ _ h)

theorem channels_sections (p : BMFont__Parser) (f : BMFont) (h : channels_unassigned f) :
    channels_unassigned (parse_sections p f).2.2 := by
  unfold parse_sections
  simp only
  have h1 := channels_info p f h
  split
  · exact h1
  · have h2 := channels_common (bmfont__parse_info p f).2.1 _ h1
    split
    · exact h2
    · have h3 := channels_pages
        (bmfont__parse_common (bmfont__parse_info p f).2.1 (bmfont__parse_info p f).2.2).2.1 _ h2
      split
      · exact h3
      · have h4 := channels_chars (bmfont__parse_pages
          (bmfont__parse_common (bmfont__parse_info p f).2.1 (bmfont__parse_info p f).2.2).2.1
          (bmfont__parse_common (bmfont__parse_info p f).2.1
            (bmfont__parse_info p f).2.2).2.2).2.1 _ h3
        split
        · exact h4
        · exact channels_kernings _ _ h4

theorem channels_empty_font : channels_unassigned empty_font :=
  ⟨rfl, rfl, rfl, rfl, fun cs h => by simp [empty_font] at h⟩

theorem face_size_step (t : List Char) (v : Int) (kv : List Char × List Char)
    (h : info_line_pair t v kv) (a : BMFont) :
    (kv = ("face".toList, t) →
      (effect_of (face_size_effects t v) kv.1 a).font_name = some t) ∧
    (kv ≠ ("face".toList, t) →
      (effect_of (face_size_effects t v) kv.1 a).font_name = a.font_name) := by
  rcases h with rfl | rfl | h
  · exact ⟨fun _ => rfl, fun hne => absurd rfl hne⟩
  · have hne : "size".toList ≠ "face".toList := by decide
    exact ⟨fun he => absurd (congrArg Prod.fst he) hne, fun _ => rfl⟩
  · have hk : kv.1 ∉ (face_size_effects t v).map Prod.fst := h.2.2
    rw [effect_of_none _ _ hk]
    refine ⟨fun he => ?_, fun _ => rfl⟩
    rw [he] at hk
    exact absurd hk (by simp [face_size_effects])

theorem face_kept (t : List Char) (v : Int) : ∀ (ps : List (List Char × List Char)) (a : BMFont),
    (∀ kv ∈ ps, info_line_pair t v kv) → a.font_name = some t →
    (ps.foldl (fun x kv => effect_of (face_size_effects t v) kv.1 x) a).font_name = some t := by
  intro ps
  induction ps with
  | nil => intro a _ h; exact h
  | cons kv ps ih =>
    intro a hall h
    rw [List.foldl_cons]
    apply ih _ (fun x hx => hall x (List.mem_cons_of_mem _ hx))
    have hs := face_size_step t v kv (hall kv (by simp)) a
    by_cases he : kv = ("face".toList, t)
    · exact hs.1 he
    · rw [hs.2 he]; exact h

theorem face_stored (t : List Char) (v : Int) :
    ∀ (ps : List (List Char × List Char)) (a : BMFont),
    (∀ kv ∈ ps, info_line_pair t v kv) → ("face".toList, t) ∈ ps →
    (ps.foldl (fun x kv => effect_of (face_size_effects t v) kv.1 x) a).font_name = some t := by
  intro ps
  induction ps with
  | nil => intro a _ h; simp at h
  | cons kv ps ih =>
    intro a hall hmem
    rw [List.foldl_cons]
    have hall1 : ∀ x ∈ ps, info_line_pair t v x := fun x hx => hall x (List.mem_cons_of_mem _ hx)
    have hs := face_size_step t v kv (hall kv (by simp)) a
    by_cases he : kv = ("face".toList, t)
    · exact face_kept t v ps _ hall1 (hs.1 he)
    · apply ih _ hall1
      rcases List.mem_cons.1 hmem with h | h
      · exact absurd h.symm he
      · exact h

theorem handles_info_line (t : List Char) (v : Int) (ht : is_word t = true)
    (h1 : -32768 ≤ v) (h2 : v ≤ 32767) (kv : List Char × List Char)
    (h : info_line_pair t v kv) :
    Handles info_table (effect_of (face_size_effects t v)) kv := by
  rcases h with rfl | rfl | h
  · exact handles_copy info_table _ "face".toList t _ rfl (by decide) ht (fun a => rfl)
  · exact handles_i16 info_table _ "size".toList v _ rfl (by decide) h1 h2 (fun a => rfl)
  · exact handles_unknown info_table (face_size_effects t v) rfl kv h

/-- The info line at the start of a file: the pairs are read one after the
other, each with its effect. -/
theorem info_line_parsed (t : List Char) (v : Int) (ht : is_word t = true)
    (h1 : -32768 ≤ v) (h2 : v ≤ 32767) (ps : List (List Char × List Char))
    (hps : ∀ kv ∈ ps, info_line_pair t v kv) {rest t1 s1 : List Char} {e : Bool}
    (nx : Next rest t1 s1 e) (font : BMFont) :
    ∃ q, Good q t1 s1 e false ∧
      bmfont__parse_info
        (bmfont__load_next_token
          (parser_at_start ("info".toList ++ render_pairs ps ('\n' :: rest)))).2 font
        = (true, q, ps.foldl (fun x kv => effect_of (face_size_effects t v) kv.1 x) font) := by
  have g0 := (next_word "info".toList (render_pairs ps ('\n' :: rest)) (by decide)
    (delim_start_pairs ps rest)) _ [] false (good_initial _)
  obtain ⟨m, q, _, he, gq, hk⟩ := line_run info_table rfl (effect_of (face_size_effects t v)) nx
    ps (fun kv hkv => handles_info_line t v ht h1 h2 kv (hps kv hkv)) g0.2
  refine ⟨q, gq, ?_⟩
  simp only [bmfont__parse_info, he, Bool.not_true, Bool.false_eq_true, if_false,
    parse_info_body_eq, hk, bmfont__parser_ok, gq.ok]

theorem reads_of_handles {α : Type}
    {table : List (List Char × (BMFont__Parser → α → BMFont__Parser × α))}
    {u : List Char → α → α} {kv : List Char × List Char} (h : Handles table u kv)
    (u2 : List Char × List Char → α → α) (hu : ∀ a, u2 kv a = u kv.1 a) :
    Reads table u2 kv := by
  obtain ⟨hk, hv, hcase⟩ := h
  refine ⟨hk, hv, ?_⟩
  rcases hcase with ⟨hf, hid⟩ | ⟨hd, hf, hh⟩
  · exact Or.inl ⟨hf, fun a => (hu a).trans (hid a)⟩
  · refine Or.inr ⟨hd, hf, ?_⟩
    intro q rest t1 s1 e b hq nx
    obtain ⟨q1, g1, he⟩ := hh q rest t1 s1 e b hq nx
    exact ⟨q1, g1, fun a => by rw [he a, hu a]⟩

/-- The key/value loop over a list of pairs, each read as a whole, up to and
with the newline. -/
theorem reads_pairs_run {α : Type}
    (table : List (List Char × (BMFont__Parser → α → BMFont__Parser × α)))
    (hneq : find_handler table ['='] = none) (u : List Char × List Char → α → α)
    {rest t1 s1 : List Char} {e1 : Bool} (nx : Next rest t1 s1 e1) :
    ∀ (ps : List (List Char × List Char)), (∀ kv ∈ ps, Reads table u kv) →
    ∀ (p : BMFont__Parser) (b : Bool),
      Good p (pairs_ahead ps rest).1 (pairs_ahead ps rest).2 false b →
      ∃ q, Good q t1 s1 e1 b ∧ ∀ a : α,
        Runs (dispatch table) p a (2 * ps.length + 1) q (ps.foldl (fun x kv => u kv x) a) := by
  intro ps
  induction ps with
  | nil =>
    intro _ p b h
    obtain ⟨q, gq, hl⟩ := runs_end (dispatch table) h nx
    exact ⟨q, gq, fun a => hl a⟩
  | cons kv ps ih =>
    intro hall p b h
    obtain ⟨hk, hv, hcase⟩ := hall kv (by simp)
    have hall1 : ∀ x ∈ ps, Reads table u x := fun x hx => hall x (List.mem_cons_of_mem _ hx)
    have nxt := next_pairs_ahead ps rest (fun x hx => (hall1 x hx).1)
    have hlen : 2 * (kv :: ps).length + 1 = (2 * ps.length + 1) + 2 := by
      simp only [List.length_cons]; omega
    rcases hcase with ⟨hf, hu⟩ | ⟨hd, hf, hh⟩
    · obtain ⟨q, gq, hl⟩ := kv_pair_unknown table hneq h hk hf hv (delim_start_pairs ps rest) nxt
      obtain ⟨q2, gq2, hr⟩ := ih hall1 q b gq
      refine ⟨q2, gq2, ?_⟩
      intro a
      rw [hlen]
      have := runs_step2 (fun fuel => hl fuel a) (hr a)
      simpa [List.foldl_cons, hu] using this
    · obtain ⟨q, gq, hl⟩ := kv_pair table kv.1 hd hf (is_word_ne_nl hk) h hv
        (delim_start_pairs ps rest)
      obtain ⟨q1, gq1, he⟩ := hh q _ _ _ _ _ gq nxt
      obtain ⟨q2, gq2, hr⟩ := ih hall1 q1 b gq1
      refine ⟨q2, gq2, ?_⟩
      intro a
      rw [hlen]
      have hs : ∀ fuel, kv_loop (dispatch table) (fuel + 1) p a
          = kv_loop (dispatch table) fuel q1 (u kv a) := by
        intro fuel
        rw [hl fuel a, he a]
      exact runs_mono (runs_step hs (hr (u kv a))) (by omega)

/-- A line of pairs, each read as a whole: from the keyword to the token after
the newline. -/
theorem reads_line_run {α : Type}
    (table : List (List Char × (BMFont__Parser → α → BMFont__Parser × α)))
    (hneq : find_handler table ['='] = none) (u : List Char × List Char → α → α)
    {rest t1 s1 : List Char} {e1 : Bool} (nx : Next rest t1 s1 e1)
    (ps : List (List Char × List Char)) (hall : ∀ kv ∈ ps, Reads table u kv)
    {p : BMFont__Parser} {kw : List Char} {b : Bool}
    (h : Good p kw (render_pairs ps ('\n' :: rest)) false b) :
    ∃ m q, bmfont__match_token_and_advance p kw = (true, m) ∧ Good q t1 s1 e1 b ∧
      ∀ a : α, kv_loop (dispatch table) (kv_fuel m) m a
        = (q, ps.foldl (fun x kv => u kv x) a) := by
  have nxa := next_pairs_ahead ps rest (fun x hx => (hall x hx).1)
  have hm := match_good h nxa
  obtain ⟨q, gq, hr⟩ := reads_pairs_run table hneq u nx ps hall _ b hm.2
  have hme : bmfont__match_token_and_advance p kw
      = (true, (bmfont__match_token_and_advance p kw).2) := Prod.ext hm.1 rfl
  refine ⟨(bmfont__match_token_and_advance p kw).2, q, hme, gq, ?_⟩
  intro a
  apply hr a
  rw [kv_fuel_good hm.2]
  have := pairs_ahead_length ps rest
  omega

theorem char_tag_of_key (tag : CharTag) : char_tag_of tag.key = some tag := by
  cases tag <;> decide

theorem char_tag_of_unknown (k : List Char) (h : k ∉ char_keys) : char_tag_of k = none := by
  simp only [char_keys, List.mem_cons, List.mem_singleton, List.not_mem_nil, or_false,
    not_or] at h
  obtain ⟨h1, h2, h3, h4, h5, h6, h7, h8⟩ := h
  simp only [char_tag_of, List.find?, CharTag.key, decide_eq_true_eq]
  rw [decide_eq_false (fun e => h1 e.symm), decide_eq_false (fun e => h2 e.symm),
    decide_eq_false (fun e => h3 e.symm), decide_eq_false (fun e => h4 e.symm),
    decide_eq_false (fun e => h5 e.symm), decide_eq_false (fun e => h6 e.symm),
    decide_eq_false (fun e => h7 e.symm), decide_eq_false (fun e => h8 e.symm)]

theorem char_tag_of_some (k : List Char) (tag : CharTag) (h : char_tag_of k = some tag) :
    tag.key = k := by
  have := List.find?_some h
  simpa using this

theorem char_pair_effect_tag (tag : CharTag) (n : Nat) (hn : n ≤ tag.limit) (g : BMFont_Char) :
    char_pair_effect (tag.key, fmt_nat n) g = tag.store n g := by
  have hl : n ≤ 4294967295 := by
    cases tag <;> simp only [CharTag.limit] at hn <;> omega
  simp only [char_pair_effect, char_tag_of_key, strtol_fmt_nat n hl, Int.toNat_ofNat]

theorem char_tag_key_mem (tag : CharTag) : tag.key ∈ char_keys := by
  cases tag <;> decide

theorem reads_char_pair (kv : List Char × List Char) (h : char_line_pair kv) :
    Reads char_table char_pair_effect kv := by
  rcases h with ⟨tag, n, hn, rfl⟩ | h
  · have hu := fun a => char_pair_effect_tag tag n hn a
    cases tag
    case id =>
      exact reads_of_handles (handles_u32 char_table (fun _ a => CharTag.store .id n a)
        "id".toList n _ rfl (by decide) hn (fun a => rfl)) _ hu
    case x =>
      exact reads_of_handles (handles_u16 char_table (fun _ a => CharTag.store .x n a)
        "x".toList n (fun c m => { c with x := m }) rfl (by decide) hn
        (fun a => rfl)) _ hu
    case y =>
      exact reads_of_handles (handles_u16 char_table (fun _ a => CharTag.store .y n a)
        "y".toList n (fun c m => { c with y := m }) rfl (by decide) hn
        (fun a => rfl)) _ hu
    case width =>
      exact reads_of_handles (handles_u16 char_table (fun _ a => CharTag.store .width n a)
        "width".toList n (fun c m => { c with width := m }) rfl (by decide) hn
        (fun a => rfl)) _ hu
    case height =>
      exact reads_of_handles (handles_u16 char_table (fun _ a => CharTag.store .height n a)
        "height".toList n (fun c m => { c with height := m }) rfl (by decide) hn
        (fun a => rfl)) _ hu
    case xoffset =>
      exact reads_of_handles (handles_u16 char_table (fun _ a => CharTag.store .xoffset n a)
        "xoffset".toList n (fun c m => { c with x_offset := m }) rfl (by decide) hn
        (fun a => rfl)) _ hu
    case yoffset =>
      exact reads_of_handles (handles_u16 char_table (fun _ a => CharTag.store .yoffset n a)
        "yoffset".toList n (fun c m => { c with y_offset := m }) rfl (by decide) hn
        (fun a => rfl)) _ hu
    case xadvance =>
      exact reads_of_handles (handles_u16 char_table (fun _ a => CharTag.store .xadvance n a)
        "xadvance".toList n (fun c m => { c with x_advance := m }) rfl (by decide) hn
        (fun a => rfl)) _ hu
  · refine ⟨h.1, h.2.1, Or.inl ⟨find_handler_none char_table kv.1 h.2.2, fun a => ?_⟩⟩
    simp only [char_pair_effect, char_tag_of_unknown kv.1 h.2.2]

theorem kerning_effect_unknown (kv : List Char × List Char) (h : kv.1 ∉ kerning_keys)
    (k : BMFont_Kerning) : kerning_pair_effect kv k = k := by
  simp only [kerning_keys, List.mem_cons, List.mem_singleton, List.not_mem_nil, or_false,
    not_or] at h
  simp only [kerning_pair_effect, h.1, h.2.1, h.2.2, if_false]

theorem reads_kerning_pair (kv : List Char × List Char) (h : kerning_line_pair kv) :
    Reads kerning_table kerning_pair_effect kv := by
  rcases h with ⟨n, hn, rfl⟩ | ⟨n, hn, rfl⟩ | ⟨v, h1, h2, rfl⟩ | h
  · refine reads_of_handles (handles_u32 kerning_table
      (fun _ (a : BMFont_Kerning) => { a with first := narrow32 n })
      "first".toList n _ rfl (by decide) hn (fun a => rfl)) _ (fun a => ?_)
    simp only [kerning_pair_effect, if_true, strtol_fmt_nat n hn, Int.toNat_ofNat]
  · have hne : ¬ "second".toList = "first".toList := by decide
    refine reads_of_handles (handles_u32 kerning_table
      (fun _ (a : BMFont_Kerning) => { a with second := narrow32 n })
      "second".toList n _ rfl (by decide) hn (fun a => rfl)) _ (fun a => ?_)
    simp only [kerning_pair_effect, hne, if_false, if_true, strtol_fmt_nat n hn,
      Int.toNat_ofNat]
  · have hne1 : ¬ "amount".toList = "first".toList := by decide
    have hne2 : ¬ "amount".toList = "second".toList := by decide
    refine reads_of_handles (handles_i16 kerning_table
      (fun _ (a : BMFont_Kerning) => { a with amount := v })
      "amount".toList v _ rfl (by decide) h1 h2 (fun a => rfl)) _ (fun a => ?_)
    simp only [kerning_pair_effect, hne1, hne2, if_false, if_true, strtol_fmt_int v h1 h2]
  · refine ⟨h.1, h.2.1, Or.inl ⟨find_handler_none kerning_table kv.1 h.2.2, fun a => ?_⟩⟩
    exact kerning_effect_unknown kv h.2.2 a

theorem next_lines_ahead (kw : List Char) (hkw : is_word kw = true)
    (ls : List (List (List Char × List Char))) {rest t1 s1 : List Char} {e1 : Bool}
    (nx : Next rest t1 s1 e1) :
    Next (render_lines kw ls rest) (lines_ahead kw ls rest t1 s1 e1).1
      (lines_ahead kw ls rest t1 s1 e1).2.1 (lines_ahead kw ls rest t1 s1 e1).2.2 := by
  cases ls with
  | nil => exact nx
  | cons ps ls1 => exact next_word kw _ hkw (delim_start_pairs _ _)

theorem set_after_append {α : Type} (x y : α) (tl : List α) :
    ∀ pre : List α, (pre ++ y :: tl).set pre.length x = pre ++ x :: tl
  | [] => rfl
  | a :: pre => by
    simp only [List.cons_append, List.length_cons, List.set_cons_succ,
      set_after_append x y tl pre]

theorem getD_after_append {α : Type} (y d : α) (tl : List α) :
    ∀ pre : List α, (pre ++ y :: tl).getD pre.length d = y
  | [] => rfl
  | a :: pre => by
    simp only [List.cons_append, List.length_cons, List.getD_cons_succ,
      getD_after_append y d tl pre]

/-- One char record given by its pairs: from the state at its token `char`. -/
theorem char_record_lines {p : BMFont__Parser} {rest t1 s1 : List Char} {e b : Bool}
    (ps : List (List Char × List Char)) (hps : ∀ kv ∈ ps, char_line_pair kv)
    (font : BMFont) (gl : List BMFont_Char) (i : Nat) (hg : font.chars = some gl)
    (hi : i < gl.length)
    (h : Good p "char".toList (render_pairs ps ('\n' :: rest)) false b)
    (nx : Next rest t1 s1 e) :
    ∃ q, Good q t1 s1 e b ∧ ∀ n,
      parse_chars_loop (n + 1) i p font
        = parse_chars_loop n (i + 1) q
            { font with chars := some (gl.set i
                (ps.foldl (fun g kv => char_pair_effect kv g) (gl.getD i default))) } := by
  obtain ⟨m, q, hm, gq, hk⟩ := reads_line_run char_table rfl char_pair_effect nx ps
    (fun kv hkv => reads_char_pair kv (hps kv hkv)) h
  have hk2 : kv_loop parse_char_body (kv_fuel m) m (gl.getD i default)
      = (q, ps.foldl (fun g kv => char_pair_effect kv g) (gl.getD i default)) := by
    rw [parse_char_body_eq, hk]
  refine ⟨q, gq, ?_⟩
  intro n
  rw [parse_chars_loop]
  simp only [hm, Bool.not_true, Bool.false_eq_true, if_false, hg, hi, if_true, hk2]

/-- A list of char records given by their pairs, read into zero-valued slots. -/
theorem chars_loop_lines {rest t1 s1 : List Char} {e1 : Bool} (nx : Next rest t1 s1 e1) :
    ∀ (ls : List (List (List Char × List Char))),
    (∀ ps ∈ ls, ∀ kv ∈ ps, char_line_pair kv) →
    ∀ (p : BMFont__Parser) (font : BMFont) (pre : List BMFont_Char) (extra : Nat) (b : Bool),
      font.chars = some (pre ++ List.replicate (ls.length + extra) default) →
      Good p (lines_ahead "char".toList ls rest t1 s1 e1).1
        (lines_ahead "char".toList ls rest t1 s1 e1).2.1
        (lines_ahead "char".toList ls rest t1 s1 e1).2.2 b →
      ∃ q, Good q t1 s1 e1 b ∧ ∀ n,
        parse_chars_loop (ls.length + n) pre.length p font
          = parse_chars_loop n (pre.length + ls.length) q
              { font with chars := some (pre ++ ls.map build_char ++
                  List.replicate extra default) } := by
  intro ls
  induction ls with
  | nil =>
    intro _ p font pre extra b hg h
    refine ⟨p, h, ?_⟩
    intro n
    cases font
    simp only at hg
    simp [hg]
  | cons ps ls ih =>
    intro hall p font pre extra b hg h
    have hg1 : font.chars
        = some (pre ++ default :: List.replicate (ls.length + extra) default) := by
      rw [hg]
      congr 2
      simp only [List.length_cons]
      rw [show ls.length + 1 + extra = (ls.length + extra) + 1 by omega, List.replicate_succ]
    obtain ⟨q, gq, eq1⟩ := char_record_lines ps (hall ps (by simp)) font _ pre.length hg1
      (by simp) h (next_lines_ahead "char".toList (by decide) ls nx)
    rw [set_after_append, getD_after_append] at eq1
    obtain ⟨q2, gq2, eq2⟩ := ih (fun x hx => hall x (List.mem_cons_of_mem _ hx)) q
      { font with chars := some (pre ++ build_char ps ::
          List.replicate (ls.length + extra) default) }
      (pre ++ [build_char ps]) extra b (by simp) gq
    refine ⟨q2, gq2, ?_⟩
    intro n
    have hlen : (ps :: ls).length + n = (ls.length + n) + 1 := by simp; omega
    have hpl : (pre ++ [build_char ps]).length = pre.length + 1 := by simp
    rw [hlen, eq1]
    rw [hpl] at eq2
    have := eq2 n
    simp only [build_char] at this ⊢
    rw [this]
    simp only [List.length_cons, List.map_cons, List.append_assoc, List.singleton_append]
    congr 1
    omega

/-- The chars section with char lines given by their pairs. -/
theorem chars_section_lines {rest t1 s1 : List Char} {e1 : Bool} (nx : Next rest t1 s1 e1)
    (ls : List (List (List Char × List Char)))
    (hall : ∀ ps ∈ ls, ∀ kv ∈ ps, char_line_pair kv) (hc : ls.length ≤ 65535)
    (p : BMFont__Parser) (font : BMFont) (b : Bool)
    (h : Good p "chars".toList
      (pair "count".toList (fmt_nat ls.length) ('\n' :: render_lines "char".toList ls rest))
      false b) :
    ∃ q, Good q t1 s1 e1 b ∧
      bmfont__parse_chars p font
        = (true, q, { font with num_chars := ls.length,
                                chars := some (ls.map build_char) }) := by
  have hps : ∀ kv ∈ count_pairs ls.length,
      Handles chars_count_table (effect_of (chars_count_effects ls.length)) kv := by
    intro kv hkv
    simp only [count_pairs, List.mem_singleton] at hkv
    subst hkv
    exact handles_chars_count _ ls.length hc (fun a => rfl)
  obtain ⟨m, q2, _, he, g2, hk⟩ := line_run chars_count_table rfl
    (effect_of (chars_count_effects ls.length))
    (next_lines_ahead "char".toList (by decide) ls nx) (count_pairs ls.length) hps h
  obtain ⟨q3, g3, e3⟩ := chars_loop_lines nx ls hall q2
    { font with num_chars := ls.length, chars := some (List.replicate ls.length default) }
    [] 0 b (by simp) g2
  refine ⟨_, good_set_chars_read g3 ls.length, ?_⟩
  have hfold : (count_pairs ls.length).foldl
      (fun x kv => effect_of (chars_count_effects ls.length) kv.1 x) font
      = { font with num_chars := ls.length,
                    chars := some (List.replicate ls.length default) } := rfl
  have h4 := e3 0
  simp only [Nat.zero_add, Nat.add_zero, List.length_nil, List.nil_append, List.replicate_zero,
    List.append_nil] at h4
  simp only [bmfont__parse_chars, he, Bool.not_true, Bool.false_eq_true, if_false,
    parse_chars_count_body_eq, hk, hfold, h4, parse_chars_loop, ne_eq, not_true_eq_false,
    bmfont__parser_ok, g3.ok]

/-- One kerning record given by its pairs: from the state at its token
`kerning`. -/
theorem kerning_record_lines {p : BMFont__Parser} {rest t1 s1 : List Char} {e b : Bool}
    (ps : List (List Char × List Char)) (hps : ∀ kv ∈ ps, kerning_line_pair kv)
    (font : BMFont) (gl : List BMFont_Kerning) (i : Nat) (hg : font.kernings = some gl)
    (hi : i < gl.length)
    (h : Good p "kerning".toList (render_pairs ps ('\n' :: rest)) false b)
    (nx : Next rest t1 s1 e) :
    ∃ q, Good q t1 s1 e b ∧ ∀ n,
      parse_kernings_loop (n + 1) i p font
        = parse_kernings_loop n (i + 1) q
            { font with kernings := some (gl.set i
                (ps.foldl (fun g kv => kerning_pair_effect kv g) (gl.getD i default))) } := by
  obtain ⟨m, q, hm, gq, hk⟩ := reads_line_run kerning_table rfl kerning_pair_effect nx ps
    (fun kv hkv => reads_kerning_pair kv (hps kv hkv)) h
  have hk2 : kv_loop parse_kerning_body (kv_fuel m) m (gl.getD i default)
      = (q, ps.foldl (fun g kv => kerning_pair_effect kv g) (gl.getD i default)) := by
    rw [parse_kerning_body_eq, hk]
  refine ⟨q, gq, ?_⟩
  intro n
  rw [parse_kernings_loop]
  simp only [hm, Bool.not_true, Bool.false_eq_true, if_false, hg, hi, if_true, hk2]

/-- A list of kerning records given by their pairs, read into zero-valued
slots. -/
theorem kernings_loop_lines {rest t1 s1 : List Char} {e1 : Bool} (nx : Next rest t1 s1 e1) :
    ∀ (ls : List (List (List Char × List Char))),
    (∀ ps ∈ ls, ∀ kv ∈ ps, kerning_line_pair kv) →
    ∀ (p : BMFont__Parser) (font : BMFont) (pre : List BMFont_Kerning) (extra : Nat) (b : Bool),
      font.kernings = some (pre ++ List.replicate (ls.length + extra) default) →
      Good p (lines_ahead "kerning".toList ls rest t1 s1 e1).1
        (lines_ahead "kerning".toList ls rest t1 s1 e1).2.1
        (lines_ahead "kerning".toList ls rest t1 s1 e1).2.2 b →
      ∃ q, Good q t1 s1 e1 b ∧ ∀ n,
        parse_kernings_loop (ls.length + n) pre.length p font
          = parse_kernings_loop n (pre.length + ls.length) q
              { font with kernings := some (pre ++ ls.map build_kerning ++
                  List.replicate extra default) } := by
  intro ls
  induction ls with
  | nil =>
    intro _ p font pre extra b hg h
    refine ⟨p, h, ?_⟩
    intro n
    cases font
    simp only at hg
    simp [hg]
  | cons ps ls ih =>
    intro hall p font pre extra b hg h
    have hg1 : font.kernings
        = some (pre ++ default :: List.replicate (ls.length + extra) default) := by
      rw [hg]
      congr 2
      simp only [List.length_cons]
      rw [show ls.length + 1 + extra = (ls.length + extra) + 1 by omega, List.replicate_succ]
    obtain ⟨q, gq, eq1⟩ := kerning_record_lines ps (hall ps (by simp)) font _ pre.length hg1
      (by simp) h (next_lines_ahead "kerning".toList (by decide) ls nx)
    rw [set_after_append, getD_after_append] at eq1
    obtain ⟨q2, gq2, eq2⟩ := ih (fun x hx => hall x (List.mem_cons_of_mem _ hx)) q
      { font with kernings := some (pre ++ build_kerning ps ::
          List.replicate (ls.length + extra) default) }
      (pre ++ [build_kerning ps]) extra b (by simp) gq
    refine ⟨q2, gq2, ?_⟩
    intro n
    have hlen : (ps :: ls).length + n = (ls.length + n) + 1 := by simp; omega
    have hpl : (pre ++ [build_kerning ps]).length = pre.length + 1 := by simp
    rw [hlen, eq1]
    rw [hpl] at eq2
    have := eq2 n
    simp only [build_kerning] at this ⊢
    rw [this]
    simp only [List.length_cons, List.map_cons, List.append_assoc, List.singleton_append]
    congr 1
    omega

/-- The kernings section with kerning lines given by their pairs. -/
theorem kernings_section_lines {rest t1 s1 : List Char} {e1 : Bool} (nx : Next rest t1 s1 e1)
    (ls : List (List (List Char × List Char)))
    (hall : ∀ ps ∈ ls, ∀ kv ∈ ps, kerning_line_pair kv) (hc : ls.length ≤ 65535)
    (p : BMFont__Parser) (font : BMFont) (b : Bool)
    (h : Good p "kernings".toList
      (pair "count".toList (fmt_nat ls.length)
        ('\n' :: render_lines "kerning".toList ls rest)) false b) :
    ∃ q, Good q t1 s1 e1 b ∧
      bmfont__parse_kernings p font
        = (true, q, { font with num_kernings := ls.length,
                                kernings := some (ls.map build_kerning) }) := by
  have hps : ∀ kv ∈ count_pairs ls.length,
      Handles kernings_count_table (effect_of (kernings_count_effects ls.length)) kv := by
    intro kv hkv
    simp only [count_pairs, List.mem_singleton] at hkv
    subst hkv
    exact handles_kernings_count _ ls.length hc (fun a => rfl)
  obtain ⟨m, q2, _, he, g2, hk⟩ := line_run kernings_count_table rfl
    (effect_of (kernings_count_effects ls.length))
    (next_lines_ahead "kerning".toList (by decide) ls nx) (count_pairs ls.length) hps h
  obtain ⟨q3, g3, e3⟩ := kernings_loop_lines nx ls hall q2
    { font with num_kernings := ls.length,
                kernings := some (List.replicate ls.length default) }
    [] 0 b (by simp) g2
  refine ⟨_, good_set_kernings_read g3 ls.length, ?_⟩
  have hfold : (count_pairs ls.length).foldl
      (fun x kv => effect_of (kernings_count_effects ls.length) kv.1 x) font
      = { font with num_kernings := ls.length,
                    kernings := some (List.replicate ls.length default) } := rfl
  have h4 := e3 0
  simp only [Nat.zero_add, Nat.add_zero, List.length_nil, List.nil_append, List.replicate_zero,
    List.append_nil] at h4
  simp only [bmfont__parse_kernings, good_ready h, he, Bool.not_true, Bool.false_eq_true,
    if_false, parse_kernings_count_body_eq, hk, hfold, h4, parse_kernings_loop, ne_eq,
    not_true_eq_false, bmfont__parser_ok, g3.ok]

theorem char_store_other (t1 t2 : CharTag) (h : t1 ≠ t2) (n : Nat) (g : BMFont_Char) :
    t2.field (t1.store n g) = t2.field g := by
  cases t1 <;> cases t2 <;> first | exact (h rfl).elim | simp only [CharTag.store, CharTag.field]

theorem char_effect_other (tag : CharTag) (kv : List Char × List Char) (h : tag.key ≠ kv.1)
    (g : BMFont_Char) : tag.field (char_pair_effect kv g) = tag.field g := by
  unfold char_pair_effect
  cases ht : char_tag_of kv.1 with
  | none => rfl
  | some t =>
    have hk := char_tag_of_some kv.1 t ht
    exact char_store_other t tag (fun e => h (by rw [← e]; exact hk)) _ g

theorem char_field_absent (tag : CharTag) :
    ∀ (ps : List (List Char × List Char)) (g : BMFont_Char),
      tag.key ∉ ps.map Prod.fst →
      tag.field (ps.foldl (fun g kv => char_pair_effect kv g) g) = tag.field g := by
  intro ps
  induction ps with
  | nil => intro g _; rfl
  | cons kv ps ih =>
    intro g h
    simp only [List.map_cons, List.mem_cons, not_or] at h
    rw [List.foldl_cons, ih _ h.2, char_effect_other tag kv h.1]

theorem kerning_effect_other (tag : KerningTag) (kv : List Char × List Char)
    (h : tag.key ≠ kv.1) (k : BMFont_Kerning) :
    tag.field (kerning_pair_effect kv k) = tag.field k := by
  unfold kerning_pair_effect
  by_cases h1 : kv.1 = "first".toList
  · rw [if_pos h1]
    cases tag
    · exact absurd h1.symm h
    · simp only [KerningTag.field]
    · simp only [KerningTag.field]
  · rw [if_neg h1]
    by_cases h2 : kv.1 = "second".toList
    · rw [if_pos h2]
      cases tag
      · simp only [KerningTag.field]
      · exact absurd h2.symm h
      · simp only [KerningTag.field]
    · rw [if_neg h2]
      by_cases h3 : kv.1 = "amount".toList
      · rw [if_pos h3]
        cases tag
        · simp only [KerningTag.field]
        · simp only [KerningTag.field]
        · exact absurd h3.symm h
      · rw [if_neg h3]

theorem kerning_field_absent (tag : KerningTag) :
    ∀ (ps : List (List Char × List Char)) (k : BMFont_Kerning),
      tag.key ∉ ps.map Prod.fst →
      tag.field (ps.foldl (fun g kv => kerning_pair_effect kv g) k) = tag.field k := by
  intro ps
  induction ps with
  | nil => intro g _; rfl
  | cons kv ps ih =>
    intro g h
    simp only [List.map_cons, List.mem_cons, not_or] at h
    rw [List.foldl_cons, ih _ h.2, kerning_effect_other tag kv h.1]

theorem char_field_default (tag : CharTag) : tag.field default = 0 := by
  cases tag <;> rfl

theorem kerning_field_default (tag : KerningTag) : tag.field default = 0 := by
  cases tag <;> rfl

/-- The run of `bmfont_parse_file` on a document whose char lines and kerning
lines are given by their pairs. -/
theorem parse_with_lines (d : Doc) (lines klines : List (List (List Char × List Char)))
    (hd : d.preamble_ok) (hp : d.pages_ok d.pages.length) (hpc : d.pages.length ≤ 65535)
    (hl : ∀ ps ∈ lines, ∀ kv ∈ ps, char_line_pair kv) (hlc : lines.length ≤ 65535)
    (hk : ∀ ps ∈ klines, ∀ kv ∈ ps, kerning_line_pair kv) (hkc : klines.length ≤ 65535) :
    (bmfont_parse_file (render_with_lines d lines klines)).returned
      = some (font_with_records d (lines.map build_char) (klines.map build_kerning)) := by
  have nk : Next (render_kernings_header klines.length
      (render_lines "kerning".toList klines [])) "kernings".toList _ false :=
    next_word "kernings".toList _ (by decide) (delim_start_pair _ _ _)
  have n3 : Next (render_chars_header lines.length (render_lines "char".toList lines
      (render_kernings_header klines.length (render_lines "kerning".toList klines []))))
      "chars".toList _ false := next_word "chars".toList _ (by decide) (delim_start_pair _ _ _)
  obtain ⟨q1, q2, f1, h1, h2, g2⟩ :=
    info_common_sections (next_pages_ahead n3 d.pages) d hd d.pages.length hpc
  obtain ⟨q3, g3, _, h3⟩ := pages_section n3 d.pages (pages_ok_bound hp hpc) q2
    (font_after_common d d.pages.length) (List.replicate d.pages.length none) false rfl rfl g2
  obtain ⟨q4, g4, h4⟩ := chars_section_lines nk lines hl hlc q3 (font_after_pages d) _ g3
  obtain ⟨q5, g5, h5⟩ := kernings_section_lines (next_eof []) klines hk hkc q4 _ _ g4
  have hrun : bmfont_parse_file (render_with_lines d lines klines) = _ :=
    parse_file_eq _ (parse_sections_eq h1 h2 h3 h4 h5) g5.ok g5.eof
  rw [hrun]
  simp only [font_with_records, List.length_map]

theorem getD_map_build {α : Type} (build : List (List Char × List Char) → α) (dflt : α)
    (hb : build [] = dflt) (ls : List (List (List Char × List Char))) (j : Nat) :
    (ls.map build).getD j dflt = build (ls.getD j []) := by
  induction ls generalizing j with
  | nil => simp [hb]
  | cons ps ls ih =>
    cases j with
    | zero => rfl
    | succ j => simpa using ih j

theorem sparse_preamble_ok : sparse_preamble.preamble_ok :=
  ⟨by decide, by decide, by decide, by decide, by decide, by decide, by decide⟩

theorem sparse_pages_ok : sparse_preamble.pages_ok sparse_preamble.pages.length := by
  intro pg hpg
  simp only [sparse_preamble, List.mem_singleton] at hpg
  subst hpg
  exact ⟨by decide, by decide⟩

theorem line_of_snoc (pre : List Char) (c : Char) :
    line_of (pre ++ [c]) = if c = '\n' then line_of pre + 1 else line_of pre := by
  unfold line_of
  rw [List.count_append]
  by_cases h : c = '\n'
  · subst h; simp; omega
  · have : List.count '\n' [c] = 0 := by
      rw [List.count_eq_zero]; simpa using fun e => h e.symm
    rw [this, if_neg h]; rfl

theorem col_of_snoc (pre : List Char) (c : Char) :
    col_of (pre ++ [c])
      = if c = '\n' then 1 else if c = '\r' then col_of pre else col_of pre + 1 := by
  unfold col_of
  rw [List.reverse_append, List.reverse_singleton, List.singleton_append, List.takeWhile_cons]
  by_cases h : c = '\n'
  · subst h; simp
  · simp only [ne_eq, h, not_false_eq_true, decide_True, if_true, if_false]
    by_cases h2 : c = '\r'
    · subst h2; simp
    · simp only [h2, if_false]
      rw [List.filter_cons]
      simp only [ne_eq, h2, not_false_eq_true, decide_True, if_true, List.length_cons]
      omega

theorem position_append (w : List Char) (hw : ∀ c ∈ w, c ≠ '\n') :
    ∀ pre : List Char, line_of (pre ++ w) = line_of pre ∧
      col_of (pre ++ w) = col_of pre + (w.filter (fun c => c ≠ '\r')).length := by
  induction w with
  | nil => intro pre; simp
  | cons c w ih =>
    intro pre
    have hc : c ≠ '\n' := hw c (by simp)
    have h := ih (fun x hx => hw x (List.mem_cons_of_mem _ hx)) (pre ++ [c])
    rw [List.append_assoc, List.singleton_append] at h
    rw [h.1, h.2, line_of_snoc, col_of_snoc, if_neg hc, if_neg hc, List.filter_cons]
    refine ⟨rfl, ?_⟩
    by_cases h2 : c = '\r'
    · subst h2; simp
    · simp only [h2, if_false, ne_eq, not_false_eq_true, decide_True, if_true, List.length_cons]
      omega

theorem skip_blank_eq : ∀ (s : List Char) (col : Nat),
    skip_blank s col = (s.dropWhile is_blank,
      col + ((s.takeWhile is_blank).filter (fun c => c ≠ '\r')).length) := by
  intro s
  induction s with
  | nil => intro col; rfl
  | cons c s ih =>
    intro col
    rw [skip_blank]
    by_cases h : c = ' ' ∨ c = '\r'
    · have hb : is_blank c = true := by simpa [is_blank] using h
      rw [if_pos h, ih, List.dropWhile_cons, List.takeWhile_cons, if_pos hb, if_pos hb,
        List.filter_cons]
      rcases h with h | h
      · subst h
        simp only [if_true, ne_eq, Char.reduceEq, not_false_eq_true, decide_True,
          List.length_cons]
        congr 1
        omega
      · subst h
        simp
    · have hb : ¬ is_blank c = true := by simpa [is_blank] using h
      rw [if_neg h, List.dropWhile_cons, List.takeWhile_cons, if_neg hb, if_neg hb]
      rfl

theorem blank_not_newline (s : List Char) : ∀ c ∈ s.takeWhile is_blank, c ≠ '\n' := by
  intro c hc
  have := List.mem_takeWhile_imp hc
  intro e
  subst e
  exact absurd this (by decide)

theorem stream_split (s : List Char) :
    s = s.takeWhile is_blank ++ s.dropWhile is_blank :=
  (List.takeWhile_append_dropWhile is_blank s).symm

theorem load_at_end (p : BMFont__Parser) (hr : bmfont__parser_ready p = true)
    (hs : p.stream.dropWhile is_blank = []) :
    bmfont__load_next_token p
      = (true, { p with assert_failed := p.assert_failed || !bmfont__parser_ok p,
                        stream := [], eof := true, start_line := p.curr_line,
                        start_col := (skip_blank p.stream p.curr_col).2,
                        curr_col := (skip_blank p.stream p.curr_col).2 }) := by
  have hsk : (skip_blank p.stream p.curr_col).1 = [] := by rw [skip_blank_eq, hs]
  unfold bmfont__load_next_token
  simp only [bmfont__parser_ready, bmfont__parser_ok] at hr ⊢
  simp only [hr, if_true]
  split
  · simp only [hsk]
  · rename_i c cs h
    rw [hsk] at h
    exact absurd h (by simp)

theorem load_at_mark (p : BMFont__Parser) (hr : bmfont__parser_ready p = true)
    (c : Char) (cs : List Char) (hc : c = '\n' ∨ c = '=')
    (hs : p.stream.dropWhile is_blank = c :: cs) :
    bmfont__load_next_token p
      = (true, { p with assert_failed := p.assert_failed || !bmfont__parser_ok p,
                        stream := cs, next_token := [c], start_line := p.curr_line,
                        start_col := (skip_blank p.stream p.curr_col).2,
                        curr_line := if c = '\n' then p.curr_line + 1 else p.curr_line,
                        curr_col := if c = '\n' then 1
                          else (skip_blank p.stream p.curr_col).2 + 1 }) := by
  have hsk : (skip_blank p.stream p.curr_col).1 = c :: cs := by rw [skip_blank_eq, hs]
  unfold bmfont__load_next_token
  simp only [bmfont__parser_ready, bmfont__parser_ok] at hr ⊢
  simp only [hr, if_true]
  split
  · rename_i h
    rw [hsk] at h
    exact absurd h (by simp)
  · rename_i c2 cs2 h
    rw [hsk] at h
    simp only [List.cons.injEq] at h
    obtain ⟨h1, h2⟩ := h
    subst h1 h2
    rcases hc with hc | hc
    · subst hc
      simp
    · subst hc
      simp

theorem word_chars (s : List Char) :
    (∀ c ∈ s.takeWhile (fun d => !is_delim d), is_delim c = false) ∧
      delim_start (s.dropWhile (fun d => !is_delim d)) = true := by
  constructor
  · intro c hc
    have := List.mem_takeWhile_imp hc
    simpa using this
  · cases h : s.dropWhile (fun d => !is_delim d) with
    | nil => rfl
    | cons d tl =>
      have hne : s.dropWhile (fun d => !is_delim d) ≠ [] := by rw [h]; simp
      have := List.head_dropWhile_not (fun d => !is_delim d) s hne
      simp only [h, List.head_cons, Bool.not_eq_false', ] at this
      simpa [delim_start] using this

/-- The tokenizer in front of a character that starts a word: the result of
`bmfont__load_next_token` in terms of the maximal run that starts there. -/
theorem load_at_word (p : BMFont__Parser) (hr : bmfont__parser_ready p = true)
    (c : Char) (cs : List Char) (hc : is_delim c = false)
    (hs : p.stream.dropWhile is_blank = c :: cs) :
    (bmfont__load_next_token p).1
        = decide (((c :: cs).takeWhile (fun d => !is_delim d)).length
            < BMFONT_MAX_TOKEN_LENGTH) ∧
      token_state (bmfont__load_next_token p).2
        = (cstr (((c :: cs).takeWhile (fun d => !is_delim d)).take BMFONT_MAX_TOKEN_LENGTH),
            p.curr_line, (skip_blank p.stream p.curr_col).2, p.curr_line,
            (skip_blank p.stream p.curr_col).2
              + (((c :: cs).takeWhile (fun d => !is_delim d)).take
                  BMFONT_MAX_TOKEN_LENGTH).length,
            false,
            ((c :: cs).takeWhile (fun d => !is_delim d)).drop BMFONT_MAX_TOKEN_LENGTH
              ++ (c :: cs).dropWhile (fun d => !is_delim d)) ∧
      (bmfont__load_next_token p).2.ok = (bmfont__load_next_token p).1 := by
  have heof : p.eof = false := by
    simp only [bmfont__parser_ready, Bool.and_eq_true, Bool.not_eq_true'] at hr
    exact hr.2
  have hok : p.ok = true := by
    simp only [bmfont__parser_ready, bmfont__parser_ok, Bool.and_eq_true] at hr
    exact hr.1
  have hw := word_chars (c :: cs)
  have hne : (c :: cs).takeWhile (fun d => !is_delim d) ≠ [] := by
    rw [List.takeWhile_cons]
    simp [hc]
  have hsk : skip_blank p.stream p.curr_col
      = ((c :: cs).takeWhile (fun d => !is_delim d) ++ (c :: cs).dropWhile (fun d => !is_delim d),
          (skip_blank p.stream p.curr_col).2) := by
    rw [List.takeWhile_append_dropWhile]
    apply Prod.ext
    · rw [skip_blank_eq, hs]
    · rfl
  have hl := load_word_run p hr _ _ _ hsk hne hw.1 hw.2
  rw [hl]
  by_cases hlen : ((c :: cs).takeWhile (fun d => !is_delim d)).length < BMFONT_MAX_TOKEN_LENGTH
  · have ht : ¬ (((c :: cs).takeWhile (fun d => !is_delim d)).take
        BMFONT_MAX_TOKEN_LENGTH).length = BMFONT_MAX_TOKEN_LENGTH := by
      rw [List.length_take]; omega
    rw [if_neg ht]
    simp only [hlen, decide_True, token_state, heof, hok]
    exact ⟨trivial, trivial, trivial⟩
  · have ht : (((c :: cs).takeWhile (fun d => !is_delim d)).take
        BMFONT_MAX_TOKEN_LENGTH).length = BMFONT_MAX_TOKEN_LENGTH := by
      rw [List.length_take]; omega
    rw [if_pos ht]
    simp only [hlen, decide_False, token_state, heof, bmfont__set_parser_error]
    exact ⟨trivial, trivial, trivial⟩

theorem head_not_blank (s : List Char) (c : Char) (cs : List Char)
    (hs : s.dropWhile is_blank = c :: cs) : is_blank c = false := by
  have hne : s.dropWhile is_blank ≠ [] := by rw [hs]; simp
  have := List.head_dropWhile_not is_blank s hne
  simpa [hs] using this

theorem not_delim_of (c : Char) (hb : is_blank c = false) (hm : ¬ (c = '\n' ∨ c = '=')) :
    is_delim c = false := by
  simp only [is_blank, Bool.decide_or, Bool.or_eq_false_iff, decide_eq_false_iff_not] at hb
  simp only [not_or] at hm
  simp [is_delim, hb.1, hb.2, hm.1, hm.2]

theorem not_delim_chars (c : Char) (h : is_delim c = false) :
    c ≠ '\n' ∧ c ≠ '\r' ∧ c ≠ ' ' ∧ c ≠ '=' := by
  simp only [is_delim, Bool.decide_or, Bool.or_eq_false_iff, decide_eq_false_iff_not] at h
  exact ⟨h.2.2.2, h.2.2.1, h.2.1, h.1⟩

/-- One call of `bmfont__load_next_token` from a ready parser whose current
position is the position after the consumed text `pre`. -/
theorem load_located (input pre : List Char) (p : BMFont__Parser)
    (hr : bmfont__parser_ready p = true) (hin : input = pre ++ p.stream)
    (hl : p.curr_line = line_of pre) (hc : p.curr_col = col_of pre) :
    token_located input (bmfont__load_next_token p).2 := by
  have hpos := position_append (p.stream.takeWhile is_blank) (blank_not_newline _) pre
  have hskc : (skip_blank p.stream p.curr_col).2 = col_of (pre ++ p.stream.takeWhile is_blank) := by
    rw [skip_blank_eq, hc, hpos.2]
  have hsplit := stream_split p.stream
  cases hs : p.stream.dropWhile is_blank with
  | nil =>
    rw [load_at_end p hr hs]
    refine ⟨pre ++ p.stream.takeWhile is_blank, [], ?_, ?_, hskc, ?_, ?_, fun _ => ⟨rfl, rfl⟩,
      fun h => absurd h (by simp)⟩
    · rw [hs, List.append_nil] at hsplit
      simp only [List.append_nil]
      rw [← hsplit]; exact hin
    · simp only [hpos.1]; exact hl
    · simp only [List.append_nil, hpos.1]; exact hl
    · simp only [List.append_nil]; exact hskc
  | cons c cs =>
    rw [hs] at hsplit
    have hinput : input = pre ++ p.stream.takeWhile is_blank ++ (c :: cs) := by
      rw [List.append_assoc, ← hsplit]; exact hin
    by_cases hm : c = '\n' ∨ c = '='
    · rw [load_at_mark p hr c cs hm hs]
      refine ⟨pre ++ p.stream.takeWhile is_blank, [c], ?_, ?_, hskc, ?_, ?_,
        fun h => absurd h (by simp [bmfont__parser_ready] at hr; simp [hr.2]), fun _ => ⟨by simp, ?_, ?_⟩⟩
      · simpa using hinput
      · simp only [hpos.1]; exact hl
      · simp only [line_of_snoc, hpos.1, hl]
      · simp only [col_of_snoc, hskc]
        rcases hm with hm | hm
        · subst hm; simp
        · subst hm; simp
      · rcases hm with hm | hm
        · subst hm; exact (by decide : ['\n'] = cstr ['\n'])
        · subst hm; exact (by decide : ['='] = cstr ['='])
      · rcases hm with hm | hm
        · exact Or.inl (by rw [hm])
        · exact Or.inr (Or.inl (by rw [hm]))
    · have hd : is_delim c = false := not_delim_of c (head_not_blank _ c cs hs) hm
      obtain ⟨_, hts, _⟩ := load_at_word p hr c cs hd hs
      simp only [token_state, Prod.mk.injEq] at hts
      obtain ⟨h1, h2, h3, h4, h5, h6, h7⟩ := hts
      have hw := word_chars (c :: cs)
      have hne : (c :: cs).takeWhile (fun d => !is_delim d) ≠ [] := by
        rw [List.takeWhile_cons]
        simp [hd]
      have hmem : ∀ x ∈ ((c :: cs).takeWhile (fun d => !is_delim d)).take
          BMFONT_MAX_TOKEN_LENGTH, is_delim x = false :=
        fun x hx => hw.1 x (List.mem_of_mem_take hx)
      have hp2 := position_append _ (fun x hx => (not_delim_chars x (hmem x hx)).1)
        (pre ++ p.stream.takeWhile is_blank)
      have hfil : (((c :: cs).takeWhile (fun d => !is_delim d)).take
          BMFONT_MAX_TOKEN_LENGTH).filter (fun c => c ≠ '\r')
          = ((c :: cs).takeWhile (fun d => !is_delim d)).take BMFONT_MAX_TOKEN_LENGTH := by
        rw [List.filter_eq_self]
        intro x hx
        simpa using (not_delim_chars x (hmem x hx)).2.1
      refine ⟨pre ++ p.stream.takeWhile is_blank,
        ((c :: cs).takeWhile (fun d => !is_delim d)).take BMFONT_MAX_TOKEN_LENGTH,
        ?_, ?_, ?_, ?_, ?_, fun h => absurd h (by rw [h6]; simp), fun _ => ⟨?_, h1, ?_⟩⟩
      · rw [h7, hinput]
        simp only [List.append_assoc]
        congr 2
        rw [← List.append_assoc, List.take_append_drop, List.takeWhile_append_dropWhile]
      · rw [h2, hpos.1]; exact hl
      · rw [h3]; exact hskc
      · rw [h4, hp2.1, hpos.1]; exact hl
      · rw [h5, hp2.2, hfil, hskc]
      · intro he
        have : (((c :: cs).takeWhile (fun d => !is_delim d)).take
            BMFONT_MAX_TOKEN_LENGTH).length = 0 := by rw [he]; rfl
        rw [List.length_take] at this
        have hpos : 0 < ((c :: cs).takeWhile (fun d => !is_delim d)).length :=
          List.length_pos.2 hne
        simp only [BMFONT_MAX_TOKEN_LENGTH] at this
        omega
      · exact Or.inr (Or.inr hmem)

theorem load_not_ready (p : BMFont__Parser) (hr : bmfont__parser_ready p = false) :
    token_state (bmfont__load_next_token p).2 = token_state p := by
  unfold bmfont__load_next_token
  simp only [bmfont__parser_ready, bmfont__parser_ok] at hr ⊢
  simp only [hr, Bool.false_eq_true, if_false]
  rfl

/-- Exact positions are kept by every call of `bmfont__load_next_token`. -/
theorem located_load (input : List Char) (q : BMFont__Parser) (h : token_located input q) :
    token_located input (bmfont__load_next_token q).2 := by
  obtain ⟨pre, chars, h1, h2, h3, h4, h5, h6, h7⟩ := h
  by_cases hr : bmfont__parser_ready q = true
  · exact load_located input (pre ++ chars) q hr h1 h4 h5
  · have hts := load_not_ready q (by simpa using hr)
    simp only [token_state, Prod.mk.injEq] at hts
    obtain ⟨e1, e2, e3, e4, e5, e6, e7⟩ := hts
    refine ⟨pre, chars, ?_, ?_, ?_, ?_, ?_, ?_, ?_⟩
    · rw [e7]; exact h1
    · rw [e2]; exact h2
    · rw [e3]; exact h3
    · rw [e4]; exact h4
    · rw [e5]; exact h5
    · rw [e6, e7]; exact h6
    · rw [e6, e1]; exact h7

theorem located_after_loads (input : List Char) :
    ∀ n, token_located input (after_loads (n + 1) input) := by
  intro n
  induction n with
  | zero =>
    exact load_located input [] (parser_at_start input) rfl rfl rfl rfl
  | succ n ih =>
    unfold after_loads at ih ⊢
    rw [Function.iterate_succ_apply']
    exact located_load input _ ih

theorem short_runs_suffix (a b : List Char) (h : short_runs (a ++ b)) : short_runs b := by
  intro pre w post hs hw
  exact h (a ++ pre) w post (by rw [hs]; simp only [List.append_assoc]) hw

theorem cstr_no_nul (w : List Char) (h : ∀ c ∈ w, c ≠ Char.ofNat 0) : cstr w = w := by
  unfold cstr
  rw [List.takeWhile_eq_self_iff]
  intro c hc
  simpa using h c hc

theorem dropWhile_length_le {α : Type} (f : α → Bool) (s : List α) :
    (s.dropWhile f).length ≤ s.length :=
  (List.dropWhile_sublist f).length_le

/-- The model of the token run agrees with the tokens of the specification. -/
theorem token_run_spec : ∀ (fuel : Nat) (p : BMFont__Parser),
    bmfont__parser_ready p = true → p.stream.length < fuel →
    (∀ c ∈ p.stream, c ≠ Char.ofNat 0) → short_runs p.stream →
    token_run fuel p = some (spec_tokens_from fuel p.stream) := by
  intro fuel
  induction fuel with
  | zero => intro p _ h; exact absurd h (by omega)
  | succ fuel ih =>
    intro p hr hlen hnul hshort
    have hsplit := stream_split p.stream
    have hdl := dropWhile_length_le is_blank p.stream
    rw [token_run, spec_tokens_from]
    cases hs : p.stream.dropWhile is_blank with
    | nil =>
      rw [load_at_end p hr hs]
      simp
    | cons c cs =>
      rw [hs] at hsplit hdl
      simp only [List.length_cons] at hdl
      have hsuf : short_runs (c :: cs) := by
        rw [hsplit] at hshort
        exact short_runs_suffix _ _ hshort
      have hnul2 : ∀ x ∈ c :: cs, x ≠ Char.ofNat 0 := by
        intro x hx
        apply hnul x
        rw [hsplit]
        exact List.mem_append_right _ hx
      have hready : p.ok = true ∧ p.eof = false := by
        simpa [bmfont__parser_ready, bmfont__parser_ok] using hr
      by_cases hm : c = '\n' ∨ c = '='
      · rw [load_at_mark p hr c cs hm hs]
        simp only [if_true, hready.2, Bool.false_eq_true, if_false, hm]
        rw [ih _ (by simp [bmfont__parser_ready, bmfont__parser_ok, hready.1, hready.2])
          (by simp only; omega)
          (fun x hx => hnul2 x (List.mem_cons_of_mem _ hx))
          (short_runs_suffix [c] cs hsuf)]
      · have hd : is_delim c = false := not_delim_of c (head_not_blank _ c cs hs) hm
        obtain ⟨h1, hts, h3⟩ := load_at_word p hr c cs hd hs
        simp only [token_state, Prod.mk.injEq] at hts
        obtain ⟨t1, _, _, _, _, t6, t7⟩ := hts
        have hw := word_chars (c :: cs)
        have hwl : ((c :: cs).takeWhile (fun d => !is_delim d)).length
            < BMFONT_MAX_TOKEN_LENGTH :=
          hsuf [] _ ((c :: cs).dropWhile (fun d => !is_delim d))
            (by simp [List.takeWhile_append_dropWhile]) hw.1
        have htake : ((c :: cs).takeWhile (fun d => !is_delim d)).take BMFONT_MAX_TOKEN_LENGTH
            = (c :: cs).takeWhile (fun d => !is_delim d) := List.take_of_length_le (by omega)
        have hdrop : ((c :: cs).takeWhile (fun d => !is_delim d)).drop BMFONT_MAX_TOKEN_LENGTH
            = [] := List.drop_of_length_le (by omega)
        have hwn : ∀ x ∈ (c :: cs).takeWhile (fun d => !is_delim d), x ≠ Char.ofNat 0 :=
          fun x hx => hnul2 x ((List.takeWhile_sublist _).subset hx)
        rw [htake, cstr_no_nul _ hwn] at t1
        rw [hdrop, List.nil_append] at t7
        have hl1 : (bmfont__load_next_token p).1 = true := by rw [h1]; simpa using hwl
        have hok2 : (bmfont__load_next_token p).2.ok = true := by rw [h3]; exact hl1
        have hdl2 := dropWhile_length_le (fun d => !is_delim d) (c :: cs)
        have hlt : ((c :: cs).dropWhile (fun d => !is_delim d)).length < (c :: cs).length := by
          have := congrArg List.length
            (List.takeWhile_append_dropWhile (fun d => !is_delim d) (c :: cs))
          rw [List.length_append] at this
          have hpos : 0 < ((c :: cs).takeWhile (fun d => !is_delim d)).length := by
            rw [List.takeWhile_cons]
            simp [hd]
          omega
        simp only [List.length_cons] at hlt
        have hrec := ih (bmfont__load_next_token p).2
          (by simp [bmfont__parser_ready, bmfont__parser_ok, hok2, t6])
          (by rw [t7]; omega)
          (by
            rw [t7]
            intro x hx
            exact hnul2 x ((List.dropWhile_sublist _).subset hx))
          (by
            rw [t7]
            have := hsuf
            rw [← List.takeWhile_append_dropWhile (fun d => !is_delim d) (c :: cs)] at this
            exact short_runs_suffix _ _ this)
        simp only [hl1, if_true, t6, Bool.false_eq_true, if_false, hrec, hm, t1, t7]

theorem blank_is_delim (c : Char) (h : is_blank c = true) : is_delim c = true := by
  simp only [is_blank, Bool.decide_or, Bool.or_eq_true, decide_eq_true_eq] at h
  rcases h with h | h <;> subst h <;> decide

theorem not_blank_of_not_delim (c : Char) (h : is_delim c = false) : is_blank c = false := by
  cases hb : is_blank c with
  | false => rfl
  | true => rw [blank_is_delim c hb] at h; exact absurd h (by simp)

theorem filter_blanks (s : List Char) :
    (s.takeWhile is_blank).filter (fun c => !is_blank c) = [] := by
  rw [List.filter_eq_nil_iff]
  intro c hc
  simp [List.mem_takeWhile_imp hc]

theorem filter_word (w : List Char) (h : ∀ c ∈ w, is_delim c = false) :
    w.filter (fun c => !is_blank c) = w := by
  rw [List.filter_eq_self]
  intro c hc
  simp [not_blank_of_not_delim c (h c hc)]

theorem ends_delim_blanks (s : List Char) : ends_delim (s.takeWhile is_blank) := by
  rcases List.eq_nil_or_concat (s.takeWhile is_blank) with h | ⟨l, b, h⟩
  · exact Or.inl h
  · rw [List.concat_eq_append] at h
    refine Or.inr ⟨l, b, h, blank_is_delim b ?_⟩
    have hb : b ∈ s.takeWhile is_blank := by rw [h]; simp
    exact List.mem_takeWhile_imp hb

theorem ends_delim_after (a b : List Char) (hb : b ≠ []) (h : ends_delim b) :
    ends_delim (a ++ b) := by
  rcases h with h | ⟨l, d, h, hd⟩
  · exact absurd h hb
  · exact Or.inr ⟨a ++ l, d, by rw [h, List.append_assoc], hd⟩

theorem drop_word_le (c : Char) (cs : List Char) (hd : is_delim c = false) :
    ((c :: cs).dropWhile (fun d => !is_delim d)).length ≤ cs.length := by
  rw [List.dropWhile_cons]
  simp only [hd, Bool.not_false, if_true]
  exact dropWhile_length_le _ cs

theorem spec_tokens_kinds : ∀ (fuel : Nat) (s : List Char),
    ∀ t ∈ spec_tokens_from fuel s,
      t = ['\n'] ∨ t = ['='] ∨ (t ≠ [] ∧ ∀ c ∈ t, is_delim c = false) := by
  intro fuel
  induction fuel with
  | zero => intro s t ht; simp [spec_tokens_from] at ht
  | succ fuel ih =>
    intro s t ht
    rw [spec_tokens_from] at ht
    cases hs : s.dropWhile is_blank with
    | nil => rw [hs] at ht; simp at ht
    | cons c cs =>
      rw [hs] at ht
      simp only at ht
      by_cases hm : c = '\n' ∨ c = '='
      · rw [if_pos hm] at ht
        rcases List.mem_cons.1 ht with h | h
        · rcases hm with hm | hm
          · exact Or.inl (by rw [h, hm])
          · exact Or.inr (Or.inl (by rw [h, hm]))
        · exact ih _ t h
      · rw [if_neg hm] at ht
        have hd : is_delim c = false := not_delim_of c (head_not_blank _ c cs hs) hm
        rcases List.mem_cons.1 ht with h | h
        · refine Or.inr (Or.inr ⟨?_, ?_⟩)
          · rw [h, List.takeWhile_cons]
            simp [hd]
          · rw [h]
            exact (word_chars (c :: cs)).1
        · exact ih _ t h

theorem spec_tokens_flatten : ∀ (fuel : Nat) (s : List Char), s.length < fuel →
    (spec_tokens_from fuel s).flatten = s.filter (fun c => !is_blank c) := by
  intro fuel
  induction fuel with
  | zero => intro s h; exact absurd h (by omega)
  | succ fuel ih =>
    intro s hlen
    have hsplit := stream_split s
    have hdl := dropWhile_length_le is_blank s
    have hfil : s.filter (fun c => !is_blank c)
        = (s.dropWhile is_blank).filter (fun c => !is_blank c) := by
      conv_lhs => rw [hsplit]
      rw [List.filter_append, filter_blanks, List.nil_append]
    rw [spec_tokens_from, hfil]
    cases hs : s.dropWhile is_blank with
    | nil => rfl
    | cons c cs =>
      rw [hs] at hdl
      simp only [List.length_cons] at hdl
      have hb := head_not_blank _ c cs hs
      simp only
      by_cases hm : c = '\n' ∨ c = '='
      · rw [if_pos hm, List.flatten_cons, ih cs (by omega), List.filter_cons]
        simp [hb]
      · rw [if_neg hm, List.flatten_cons]
        have hdl2 := drop_word_le c cs (not_delim_of c hb hm)
        rw [ih _ (by omega)]
        conv_rhs => rw [← List.takeWhile_append_dropWhile (fun d => !is_delim d) (c :: cs)]
        rw [List.filter_append, filter_word _ (word_chars (c :: cs)).1]

/-- Every word among the tokens of the specification is a maximal run of the
text, at the place the tokens before it and after it leave. -/
theorem spec_tokens_maximal : ∀ (fuel : Nat) (s : List Char), s.length < fuel →
    ∀ (ts1 : List (List Char)) (w : List Char) (ts2 : List (List Char)),
      spec_tokens_from fuel s = ts1 ++ w :: ts2 → w ≠ ['\n'] → w ≠ ['='] →
      ∃ pre post, s = pre ++ w ++ post ∧ ends_delim pre ∧ delim_start post = true ∧
        ts1.flatten = pre.filter (fun c => !is_blank c) ∧
        ts2.flatten = post.filter (fun c => !is_blank c) := by
  intro fuel
  induction fuel with
  | zero => intro s h; exact absurd h (by omega)
  | succ fuel ih =>
    intro s hlen ts1 w ts2 heq hw1 hw2
    have hsplit := stream_split s
    have hdl := dropWhile_length_le is_blank s
    rw [spec_tokens_from] at heq
    cases hs : s.dropWhile is_blank with
    | nil => rw [hs] at heq; simp at heq
    | cons c cs =>
      rw [hs] at heq hsplit hdl
      simp only [List.length_cons] at hdl
      simp only at heq
      have hb := head_not_blank _ c cs hs
      by_cases hm : c = '\n' ∨ c = '='
      · rw [if_pos hm] at heq
        cases ts1 with
        | nil =>
          simp only [List.nil_append, List.cons.injEq] at heq
          rcases hm with hm | hm
          · exact absurd (by rw [← heq.1, hm]) hw1
          · exact absurd (by rw [← heq.1, hm]) hw2
        | cons t ts1 =>
          simp only [List.cons_append, List.cons.injEq] at heq
          obtain ⟨pre, post, h1, h2, h3, h4, h5⟩ := ih cs (by omega) ts1 w ts2 heq.2 hw1 hw2
          refine ⟨s.takeWhile is_blank ++ c :: pre, post, ?_, ?_, h3, ?_, h5⟩
          · conv_lhs => rw [hsplit, h1]
            simp only [List.append_assoc, List.cons_append]
          · have hcd : is_delim c = true := by
              rcases hm with hm | hm <;> subst hm <;> decide
            by_cases hp : pre = []
            · subst hp
              exact Or.inr ⟨s.takeWhile is_blank, c, rfl, hcd⟩
            · have := ends_delim_after (s.takeWhile is_blank ++ [c]) pre hp h2
              simpa using this
          · rw [List.flatten_cons, ← heq.1, h4, List.filter_append, filter_blanks,
              List.nil_append, List.filter_cons]
            simp [hb]
      · rw [if_neg hm] at heq
        have hwc := word_chars (c :: cs)
        have htd := List.takeWhile_append_dropWhile (fun d => !is_delim d) (c :: cs)
        have hdl2 := drop_word_le c cs (not_delim_of c hb hm)
        cases ts1 with
        | nil =>
          simp only [List.nil_append, List.cons.injEq] at heq
          refine ⟨s.takeWhile is_blank, (c :: cs).dropWhile (fun d => !is_delim d), ?_,
            ends_delim_blanks s, hwc.2, ?_, ?_⟩
          · conv_lhs => rw [hsplit, ← htd]
            rw [← heq.1, List.append_assoc]
          · rw [filter_blanks]; rfl
          · rw [← heq.2]
            exact spec_tokens_flatten fuel _ (by omega)
        | cons t ts1 =>
          simp only [List.cons_append, List.cons.injEq] at heq
          obtain ⟨pre, post, h1, h2, h3, h4, h5⟩ := ih _ (by omega) ts1 w ts2 heq.2 hw1 hw2
          have hwk := spec_tokens_kinds fuel ((c :: cs).dropWhile (fun d => !is_delim d)) w
            (by rw [heq.2]; simp)
          have hword : w ≠ [] ∧ ∀ x ∈ w, is_delim x = false := by
            rcases hwk with h | h | h
            · exact absurd h hw1
            · exact absurd h hw2
            · exact h
          have hpne : pre ≠ [] := by
            intro hp
            subst hp
            obtain ⟨x, xs, hx⟩ : ∃ x xs, w = x :: xs := by
              cases w with
              | nil => exact absurd rfl hword.1
              | cons x xs => exact ⟨x, xs, rfl⟩
            have hds := hwc.2
            rw [h1, hx] at hds
            simp only [List.nil_append, List.cons_append, delim_start] at hds
            have := hword.2 x (by rw [hx]; simp)
            rw [this] at hds
            exact absurd hds (by simp)
          refine ⟨s.takeWhile is_blank ++ (c :: cs).takeWhile (fun d => !is_delim d) ++ pre,
            post, ?_, ?_, h3, ?_, h5⟩
          · conv_lhs => rw [hsplit, ← htd, h1]
            simp only [List.append_assoc]
          · exact ends_delim_after _ pre hpne h2
          · rw [List.flatten_cons, ← heq.1, h4, List.filter_append, List.filter_append,
              filter_blanks, List.nil_append, filter_word _ hwc.1]

theorem short_runs_of_length (s : List Char) (h : s.length < BMFONT_MAX_TOKEN_LENGTH) :
    short_runs s := by
  intro pre w post hs _
  have := congrArg List.length hs
  simp only [List.length_append] at this
  omega

theorem keep_not_blank :
    (fun c : Char => !is_blank c) = (fun c : Char => decide (c ≠ ' ' ∧ c ≠ '\r')) := by
  funext c
  simp [is_blank]

/-- The token run of a file whose runs are short and that holds no NUL. -/
theorem file_tokens_spec (input : List Char) (hnul : ∀ c ∈ input, c ≠ Char.ofNat 0)
    (hshort : short_runs input) : file_tokens input = some (spec_tokens input) :=
  token_run_spec (input.length + 1) (parser_at_start input) rfl (Nat.lt_succ_self _) hnul hshort

theorem message_token_too_long (l c : Nat) : parser_message (msg_token_too_long l c) = true :=
  rfl

theorem message_unexpected_eof (l c : Nat) : parser_message (msg_unexpected_eof l c) = true :=
  rfl

theorem message_unexpected_token (l c : Nat) (got expected : List Char) :
    parser_message (msg_unexpected_token l c got expected) = true := rfl

theorem message_expected_integer (l c : Nat) (got : List Char) :
    parser_message (msg_expected_integer l c got) = true := rfl

theorem message_out_of_range (l c : Nat) (v : Int) :
    parser_message (msg_out_of_range l c v) = true := rfl

theorem message_expected_quoted (l c : Nat) (got : List Char) :
    parser_message (msg_expected_quoted l c got) = true := rfl

theorem message_page_missing_filename (l : Nat) :
    parser_message (msg_page_missing_filename l) = true := rfl

theorem message_fewer (what : List Char) (n k : Nat) :
    parser_message (msg_fewer what n k) = true := rfl

theorem message_expected_eof (l c : Nat) (got : List Char) :
    parser_message (msg_expected_eof l c got) = true := rfl

theorem kept_expect_more {P : BMFont__Parser → Prop} (hP : OpClosed P)
    (p : BMFont__Parser) (h : P p) : P (bmfont__expect_more_tokens p).2 := by
  unfold bmfont__expect_more_tokens
  split
  · exact hP.error _ _ (message_unexpected_eof _ _) h
  · exact h

theorem kept_match {P : BMFont__Parser → Prop} (hP : OpClosed P) (p : BMFont__Parser)
    (tok : List Char) (h : P p) : P (bmfont__match_token_and_advance p tok).2 := by
  unfold bmfont__match_token_and_advance
  simp only
  split
  · exact kept_expect_more hP p h
  · exact hP.load _ (kept_expect_more hP p h)

theorem kept_expect {P : BMFont__Parser → Prop} (hP : OpClosed P) (p : BMFont__Parser)
    (tok : List Char) (h : P p) : P (bmfont__expect_token_and_advance p tok).2 := by
  unfold bmfont__expect_token_and_advance
  simp only
  split
  · split
    · exact hP.error _ _ (message_unexpected_token _ _ _ _) (kept_match hP p tok h)
    · exact kept_match hP p tok h
  · exact kept_match hP p tok h

theorem kept_match_key {P : BMFont__Parser → Prop} (hP : OpClosed P) (p : BMFont__Parser)
    (tok : List Char) (h : P p) : P (bmfont__match_key_and_advance_to_value p tok).2 := by
  unfold bmfont__match_key_and_advance_to_value
  split
  · simp only
    split
    · exact kept_match hP _ _ (hP.load p h)
    · exact hP.load p h
  · exact h

theorem kept_do_get {P : BMFont__Parser → Prop} (hP : OpClosed P) (p : BMFont__Parser)
    (lo hi : Int) (h : P p) : P (bmfont__do_get_token_as_int_and_advance p lo hi).2.1 := by
  unfold bmfont__do_get_token_as_int_and_advance
  simp only
  split
  · exact kept_expect_more hP p h
  · split
    · exact hP.error _ _ (message_expected_integer _ _ _) (kept_expect_more hP p h)
    · split
      · exact hP.error _ _ (message_out_of_range _ _ _) (kept_expect_more hP p h)
      · exact hP.load _ (kept_expect_more hP p h)

theorem kept_get_int16 {P : BMFont__Parser → Prop} (hP : OpClosed P) (p : BMFont__Parser)
    (h : P p) : P (bmfont__get_token_as_int16_and_advance p).2.1 := by
  unfold bmfont__get_token_as_int16_and_advance
  simp only
  split <;> exact kept_do_get hP p _ _ h

theorem kept_get_uint16 {P : BMFont__Parser → Prop} (hP : OpClosed P) (p : BMFont__Parser)
    (h : P p) : P (bmfont__get_token_as_uint16_and_advance p).2.1 := by
  unfold bmfont__get_token_as_uint16_and_advance
  simp only
  split <;> exact kept_do_get hP p _ _ h

theorem kept_get_uint32 {P : BMFont__Parser → Prop} (hP : OpClosed P) (p : BMFont__Parser)
    (h : P p) : P (bmfont__get_token_as_uint32_and_advance p).2.1 := by
  unfold bmfont__get_token_as_uint32_and_advance
  simp only
  split <;> exact kept_do_get hP p _ _ h

theorem kept_copy {P : BMFont__Parser → Prop} (hP : OpClosed P) (p : BMFont__Parser)
    (h : P p) : P (bmfont__copy_token_and_advance p).2.1 := by
  unfold bmfont__copy_token_and_advance
  simp only
  split
  · exact kept_expect_more hP p h
  · exact hP.load _ (kept_expect_more hP p h)

theorem kept_copy_quoted {P : BMFont__Parser → Prop} (hP : OpClosed P)
    (p : BMFont__Parser) (h : P p) : P (bmfont__copy_quoted_token_and_advance p).2.1 := by
  unfold bmfont__copy_quoted_token_and_advance
  simp only
  split
  · exact kept_expect_more hP p h
  · split
    · exact hP.error _ _ (message_expected_quoted _ _ _) (kept_expect_more hP p h)
    · exact hP.load _ (kept_expect_more hP p h)

theorem kept_skip_unknown {P : BMFont__Parser → Prop} (hP : OpClosed P)
    (p : BMFont__Parser) (h : P p) : P (skip_unknown_pair p) :=
  hP.load _ (kept_match hP p _ h)

theorem kept_dispatch {P : BMFont__Parser → Prop} (hP : OpClosed P) {α : Type}
    (table : List (List Char × (BMFont__Parser → α → BMFont__Parser × α)))
    (ht : ∀ kh ∈ table, HandlerClosed kh.2) :
    ∀ p a, P p → P (dispatch table p a).1 := by
  induction table with
  | nil => intro p a h; exact kept_skip_unknown hP p h
  | cons kh tl ih =>
    intro p a h
    obtain ⟨k, hd⟩ := kh
    simp only [dispatch]
    split
    · exact ht (k, hd) (by simp) P hP _ _ (kept_match_key hP p k h)
    · exact ih (fun kh hkh => ht kh (List.mem_cons_of_mem _ hkh)) _ _ (kept_match_key hP p k h)

theorem on_u16_closed {α : Type} (upd : α → Nat → α) : HandlerClosed (on_u16 upd) :=
  fun _ hQ q _ h => kept_get_uint16 hQ q h

theorem on_u32_closed {α : Type} (upd : α → Nat → α) : HandlerClosed (on_u32 upd) :=
  fun _ hQ q _ h => kept_get_uint32 hQ q h

theorem on_i16_closed {α : Type} (upd : α → Int → α) : HandlerClosed (on_i16 upd) :=
  fun _ hQ q _ h => kept_get_int16 hQ q h

theorem on_copy_closed {α : Type} (upd : α → List Char → α) : HandlerClosed (on_copy upd) :=
  fun _ hQ q _ h => kept_copy hQ q h

theorem on_quoted_closed {α : Type} (upd : α → List Char → α) :
    HandlerClosed (on_quoted upd) :=
  fun _ hQ q _ h => kept_copy_quoted hQ q h

theorem on_pages_closed : HandlerClosed on_pages :=
  fun _ hQ q _ h => kept_get_uint16 hQ q h

theorem on_chars_count_closed : HandlerClosed on_chars_count := by
  intro Q hQ q a h
  simp only [on_chars_count]
  split <;> exact kept_get_uint16 hQ q h

theorem on_kernings_count_closed : HandlerClosed on_kernings_count := by
  intro Q hQ q a h
  simp only [on_kernings_count]
  split <;> exact kept_get_uint16 hQ q h

theorem info_table_closed : ∀ kh ∈ info_table, HandlerClosed kh.2 := by
  intro kh hkh
  simp only [info_table, List.mem_cons, List.mem_singleton, List.not_mem_nil, or_false] at hkh
  rcases hkh with rfl | rfl
  · exact on_copy_closed _
  · exact on_i16_closed _

theorem common_table_closed : ∀ kh ∈ common_table, HandlerClosed kh.2 := by
  intro kh hkh
  simp only [common_table, List.mem_cons, List.mem_singleton, List.not_mem_nil, or_false] at hkh
  rcases hkh with rfl | rfl | rfl | rfl | rfl
  · exact on_u16_closed _
  · exact on_u16_closed _
  · exact on_u16_closed _
  · exact on_u16_closed _
  · exact on_pages_closed

theorem page_table_closed : ∀ kh ∈ page_table, HandlerClosed kh.2 := by
  intro kh hkh
  simp only [page_table, List.mem_cons, List.mem_singleton, List.not_mem_nil, or_false] at hkh
  rcases hkh with rfl | rfl
  · exact on_u32_closed _
  · exact on_quoted_closed _

theorem chars_count_table_closed : ∀ kh ∈ chars_count_table, HandlerClosed kh.2 := by
  intro kh hkh
  simp only [chars_count_table, List.mem_singleton] at hkh
  subst hkh
  exact on_chars_count_closed

theorem char_table_closed : ∀ kh ∈ char_table, HandlerClosed kh.2 := by
  intro kh hkh
  simp only [char_table, List.mem_cons, List.mem_singleton, List.not_mem_nil, or_false] at hkh
  rcases hkh with rfl | rfl | rfl | rfl | rfl | rfl | rfl | rfl
  · exact on_u32_closed _
  all_goals exact on_u16_closed _

theorem kernings_count_table_closed : ∀ kh ∈ kernings_count_table, HandlerClosed kh.2 := by
  intro kh hkh
  simp only [kernings_count_table, List.mem_singleton] at hkh
  subst hkh
  exact on_kernings_count_closed

theorem kerning_table_closed : ∀ kh ∈ kerning_table, HandlerClosed kh.2 := by
  intro kh hkh
  simp only [kerning_table, List.mem_cons, List.mem_singleton, List.not_mem_nil, or_false] at hkh
  rcases hkh with rfl | rfl | rfl
  · exact on_u32_closed _
  · exact on_u32_closed _
  · exact on_i16_closed _

theorem kept_info {P : BMFont__Parser → Prop} (hP : OpClosed P) (hL : LoopClosed P)
    (p : BMFont__Parser) (f : BMFont) (h : P p) : P (bmfont__parse_info p f).2.1 := by
  unfold bmfont__parse_info
  simp only
  split
  · exact kept_expect hP p _ h
  · exact hL _ info_table info_table_closed _ _ (kept_expect hP p _ h)

theorem kept_common {P : BMFont__Parser → Prop} (hP : OpClosed P) (hL : LoopClosed P)
    (p : BMFont__Parser) (f : BMFont) (h : P p) : P (bmfont__parse_common p f).2.1 := by
  unfold bmfont__parse_common
  simp only
  split
  · exact kept_expect hP p _ h
  · exact hL _ common_table common_table_closed _ _ (kept_expect hP p _ h)

theorem kept_store_page_name {P : BMFont__Parser → Prop} (hP : OpClosed P)
    (p : BMFont__Parser) (f : BMFont) (id : Nat) (s : List Char) (h : P p) :
    P (store_page_name p f id s).1 := by
  unfold store_page_name
  split
  · split
    · exact h
    · exact hP.oob p h
  · exact hP.oob p h

theorem kept_pages_loop {P : BMFont__Parser → Prop} (hP : OpClosed P) (hL : LoopClosed P) :
    ∀ (n i : Nat) (p : BMFont__Parser) (f : BMFont), P p →
      P (parse_pages_loop n i p f).2.2.1 := by
  intro n
  induction n with
  | zero => intro i p f h; exact h
  | succ n ih =>
    intro i p f h
    rw [parse_pages_loop]
    simp only
    split
    · exact kept_match hP p _ h
    · have hk : P (kv_loop parse_page_body
          (kv_fuel (bmfont__match_token_and_advance p "page".toList).2)
          (bmfont__match_token_and_advance p "page".toList).2 (0, none)).1 :=
        hL _ page_table page_table_closed _ _ (kept_match hP p _ h)
      generalize kv_loop parse_page_body
        (kv_fuel (bmfont__match_token_and_advance p "page".toList).2)
        (bmfont__match_token_and_advance p "page".toList).2 (0, none) = r at hk ⊢
      split
      · exact hP.error _ _ (message_page_missing_filename _) hk
      · exact ih _ _ _ (kept_store_page_name hP _ _ _ _ hk)

theorem kept_pages {P : BMFont__Parser → Prop} (hP : OpClosed P) (hL : LoopClosed P)
    (p : BMFont__Parser) (f : BMFont) (h : P p) : P (bmfont__parse_pages p f).2.1 := by
  unfold bmfont__parse_pages
  have hl := kept_pages_loop hP hL f.num_pages 0 p f h
  generalize parse_pages_loop f.num_pages 0 p f = r at hl ⊢
  have h1 : P { r.2.2.1 with pages_read := r.1 } := hP.pages_read r.2.2.1 _ hl
  simp only
  split
  · exact h1
  · simp only
    split
    · exact hP.error _ _ (message_fewer _ _ _) h1
    · exact h1

theorem kept_chars_loop {P : BMFont__Parser → Prop} (hP : OpClosed P) (hL : LoopClosed P) :
    ∀ (n i : Nat) (p : BMFont__Parser) (f : BMFont), P p →
      P (parse_chars_loop n i p f).2.1 := by
  intro n
  induction n with
  | zero => intro i p f h; exact h
  | succ n ih =>
    intro i p f h
    rw [parse_chars_loop]
    simp only
    have hk : ∀ c, P (kv_loop parse_char_body
        (kv_fuel (bmfont__match_token_and_advance p "char".toList).2)
        (bmfont__match_token_and_advance p "char".toList).2 c).1 := fun c =>
      hL _ char_table char_table_closed _ c (kept_match hP p _ h)
    split
    · exact kept_match hP p _ h
    · split
      · split
        · exact ih _ _ _ (hk _)
        · exact ih _ _ _ (hP.oob _ (hk default))
      · exact ih _ _ _ (hP.oob _ (hk default))

theorem kept_kernings_loop {P : BMFont__Parser → Prop} (hP : OpClosed P)
    (hL : LoopClosed P) :
    ∀ (n i : Nat) (p : BMFont__Parser) (f : BMFont), P p →
      P (parse_kernings_loop n i p f).2.1 := by
  intro n
  induction n with
  | zero => intro i p f h; exact h
  | succ n ih =>
    intro i p f h
    rw [parse_kernings_loop]
    simp only
    have hk : ∀ c, P (kv_loop parse_kerning_body
        (kv_fuel (bmfont__match_token_and_advance p "kerning".toList).2)
        (bmfont__match_token_and_advance p "kerning".toList).2 c).1 := fun c =>
      hL _ kerning_table kerning_table_closed _ c (kept_match hP p _ h)
    split
    · exact kept_match hP p _ h
    · split
      · split
        · exact ih _ _ _ (hk _)
        · exact ih _ _ _ (hP.oob _ (hk default))
      · exact ih _ _ _ (hP.oob _ (hk default))

theorem kept_chars {P : BMFont__Parser → Prop} (hP : OpClosed P) (hL : LoopClosed P)
    (p : BMFont__Parser) (f : BMFont) (h : P p) : P (bmfont__parse_chars p f).2.1 := by
  unfold bmfont__parse_chars
  simp only
  split
  · exact kept_expect hP p _ h
  · have hh : P (kv_loop parse_chars_count_body
        (kv_fuel (bmfont__expect_token_and_advance p "chars".toList).2)
        (bmfont__expect_token_and_advance p "chars".toList).2 f).1 :=
      hL _ chars_count_table chars_count_table_closed _ f (kept_expect hP p _ h)
    generalize kv_loop parse_chars_count_body
      (kv_fuel (bmfont__expect_token_and_advance p "chars".toList).2)
      (bmfont__expect_token_and_advance p "chars".toList).2 f = hd at hh ⊢
    have hl := kept_chars_loop hP hL hd.2.num_chars 0 hd.1 hd.2 hh
    generalize parse_chars_loop hd.2.num_chars 0 hd.1 hd.2 = r at hl ⊢
    have h1 : P { r.2.1 with chars_read := r.1 } := hP.chars_read r.2.1 _ hl
    split
    · exact hP.error _ _ (message_fewer _ _ _) h1
    · exact h1

theorem kept_kernings {P : BMFont__Parser → Prop} (hP : OpClosed P) (hL : LoopClosed P)
    (p : BMFont__Parser) (f : BMFont) (h : P p) : P (bmfont__parse_kernings p f).2.1 := by
  unfold bmfont__parse_kernings
  split
  · exact h
  · simp only
    have hh : P (kv_loop parse_kernings_count_body
        (kv_fuel (bmfont__expect_token_and_advance p "kernings".toList).2)
        (bmfont__expect_token_and_advance p "kernings".toList).2 f).1 :=
      hL _ kernings_count_table kernings_count_table_closed _ f (kept_expect hP p _ h)
    generalize kv_loop parse_kernings_count_body
      (kv_fuel (bmfont__expect_token_and_advance p "kernings".toList).2)
      (bmfont__expect_token_and_advance p "kernings".toList).2 f = hd at hh ⊢
    have hl := kept_kernings_loop hP hL hd.2.num_kernings 0 hd.1 hd.2 hh
    generalize parse_kernings_loop hd.2.num_kernings 0 hd.1 hd.2 = r at hl ⊢
    have h1 : P { r.2.1 with kernings_read := r.1 } := hP.kernings_read r.2.1 _ hl
    split
    · exact hP.error _ _ (message_fewer _ _ _) h1
    · exact h1

theorem kept_sections {P : BMFont__Parser → Prop} (hP : OpClosed P) (hL : LoopClosed P)
    (p : BMFont__Parser) (f : BMFont) (h : P p) : P (parse_sections p f).2.1 := by
  unfold parse_sections
  simp only
  have h1 := kept_info hP hL p f h
  split
  · exact h1
  · have h2 := kept_common hP hL _ (bmfont__parse_info p f).2.2 h1
    split
    · exact h2
    · have h3 := kept_pages hP hL _ (bmfont__parse_common (bmfont__parse_info p f).2.1
        (bmfont__parse_info p f).2.2).2.2 h2
      split
      · exact h3
      · have h4 := kept_chars hP hL _ (bmfont__parse_pages
          (bmfont__parse_common (bmfont__parse_info p f).2.1 (bmfont__parse_info p f).2.2).2.1
          (bmfont__parse_common (bmfont__parse_info p f).2.1
            (bmfont__parse_info p f).2.2).2.2).2.2 h3
        split
        · exact h4
        · exact kept_kernings hP hL _ _ h4

/-- Every property that holds at the start, that the primitive steps keep and
that the key/value loops keep holds when `bmfont_parse_file` returns. -/
theorem kept_parse_file {P : BMFont__Parser → Prop} (hP : OpClosed P) (hL : LoopClosed P)
    (input : List Char) (h : P (parser_at_start input)) :
    P (bmfont_parse_file input).parser := by
  have hs := kept_sections hP hL _ empty_font (hP.load _ h)
  unfold bmfont_parse_file
  simp only
  split
  · exact hs
  · split
    · exact hP.error _ _ (message_expected_eof _ _ _) hs
    · exact hs

/-- A property the primitive steps keep, and that setting the model-only
`fuel_out` flag keeps, is kept by the key/value loops at any fuel. -/
theorem kept_kv_loop {P : BMFont__Parser → Prop} (hP : OpClosed P)
    (hfo : ∀ p, P p → P { p with fuel_out := true }) {α : Type}
    (body : BMFont__Parser → α → BMFont__Parser × α)
    (hb : ∀ q a, P q → P (body q a).1) :
    ∀ (fuel : Nat) (p : BMFont__Parser) (a : α), P p → P (kv_loop body fuel p a).1 := by
  intro fuel
  induction fuel with
  | zero => intro p a h; exact hfo p h
  | succ fuel ih =>
    intro p a h
    rw [kv_loop]
    split
    · simp only
      split
      · exact kept_match hP p _ h
      · exact ih _ _ (hb _ _ (kept_match hP p _ h))
    · exact h

theorem loop_closed_of_fuel {P : BMFont__Parser → Prop} (hP : OpClosed P)
    (hfo : ∀ p, P p → P { p with fuel_out := true }) : LoopClosed P :=
  fun _ table ht p a h =>
    kept_kv_loop hP hfo (dispatch table) (kept_dispatch hP table ht) (kv_fuel p) p a h

/-- A property of the ok flag, the error buffer and the messages raised that
`bmfont__set_parser_error` keeps for the parser's messages is kept by every
primitive step. -/
theorem opclosed_of_errs {P : BMFont__Parser → Prop}
    (h1 : ∀ p q, errs q = errs p → P p → P q)
    (h2 : ∀ p msg, parser_message msg = true → P p → P (bmfont__set_parser_error p msg)) :
    OpClosed P := by
  refine ⟨?_, h2, fun p h => h1 p _ rfl h, fun p n h => h1 p _ rfl h,
    fun p n h => h1 p _ rfl h, fun p n h => h1 p _ rfl h⟩
  intro p h
  unfold bmfont__load_next_token
  simp only
  split
  · split
    · exact h1 p _ rfl h
    · split
      · exact h1 p _ rfl h
      · split
        · exact h1 p _ rfl h
        · split
          · exact h2 _ _ (message_token_too_long _ _) (h1 p _ rfl h)
          · exact h1 p _ rfl h
  · exact h1 p _ rfl h

theorem message_not_success (msg : List Char) (h : parser_message msg = true) :
    msg.take (bmfont__error_size - 1) ≠ "Success".toList := by
  cases msg with
  | nil => simp [parser_message] at h
  | cons c cs =>
    intro he
    have h3 : bmfont__error_size - 1 = 3070 + 1 := by decide
    rw [h3, List.take_succ_cons] at he
    have hc : c = 'S' := by
      have := congrArg List.head? he
      simpa using this
    subst hc
    simp [parser_message] at h

theorem error_matches_flag_closed : OpClosed error_matches_flag := by
  apply opclosed_of_errs
  · intro p q he hp
    simp only [errs, Prod.mk.injEq] at he
    simpa [error_matches_flag, he.1, he.2.1] using hp
  · intro p msg hm _
    refine ⟨fun h => ?_, fun _ => ?_⟩
    · simp [bmfont__set_parser_error] at h
    · simpa [bmfont__set_parser_error] using message_not_success msg hm

theorem error_matches_flag_loops : LoopClosed error_matches_flag :=
  loop_closed_of_fuel error_matches_flag_closed (fun _ h => h)

theorem assert_after_error_closed : OpClosed assert_after_error := by
  refine ⟨?_, fun p msg _ _ _ => rfl, fun p h => h, fun p n h => h, fun p n h => h,
    fun p n h => h⟩
  intro p h
  cases hok : p.ok with
  | false =>
    rw [load_in_place p hok]
    intro _
    exact hok
  | true =>
    unfold bmfont__load_next_token
    simp only [bmfont__parser_ok, hok, Bool.not_true, Bool.or_false]
    have hf : p.assert_failed = false := by
      cases ha : p.assert_failed with
      | false => rfl
      | true => rw [h ha] at hok; exact absurd hok (by decide)
    split
    · split
      · intro ha; simp [hf] at ha
      · split
        · intro ha; simp [hf] at ha
        · split
          · intro ha; simp [hf] at ha
          · split
            · intro _; rfl
            · intro ha; simp [hf] at ha
    · intro ha; simp [hf] at ha

theorem assert_after_error_loops : LoopClosed assert_after_error :=
  loop_closed_of_fuel assert_after_error_closed (fun _ h => h)

theorem page_store_slot (names : List (Option (List Char))) (pg : PageLine) (i : Nat)
    (hi : i < names.length) (hid : pg.id < 32768) :
    (page_store names pg).getD i none
      = if pg.id = i then some pg.file else names.getD i none := by
  unfold page_store
  rw [narrow32_small _ hid]
  by_cases h : pg.id = i
  · subst h
    simp [hi, List.getD_eq_getElem?_getD]
  · simp only [h, if_false]
    split
    · simp [List.getD_eq_getElem?_getD, List.getElem?_set_ne h]
    · rfl

theorem fill_pages_slot (i : Nat) :
    ∀ (pgs : List PageLine) (names : List (Option (List Char))), i < names.length →
      (∀ pg ∈ pgs, pg.id < 32768) →
      (fill_pages names pgs).getD i none
        = match slot_file pgs i with
          | some f => some f
          | none => names.getD i none := by
  intro pgs
  induction pgs with
  | nil => intro names _ _; rfl
  | cons pg pgs ih =>
    intro names hi hid
    simp only [fill_pages]
    rw [ih (page_store names pg) (by rw [page_store_length]; exact hi)
      (fun q hq => hid q (List.mem_cons_of_mem _ hq)),
      page_store_slot names pg i hi (hid pg (List.mem_cons_self _ _))]
    unfold slot_file
    by_cases h : pg.id = i
    · simp only [h, decide_True, List.filter_cons_of_pos, if_true]
      cases hl : (pgs.filter (fun pg => decide (pg.id = i))).getLast? with
      | none =>
        rw [List.getLast?_eq_none_iff] at hl
        simp [hl]
      | some x =>
        have hne : pgs.filter (fun pg => decide (pg.id = i)) ≠ [] := by
          intro h0; rw [h0] at hl; simp at hl
        obtain ⟨y, ys, hy⟩ := List.exists_cons_of_ne_nil hne
        rw [hy] at hl ⊢
        rw [List.getLast?_cons_cons, hl]
        rfl
    · have hd : decide (pg.id = i) = false := by simp [h]
      rw [List.filter_cons_of_neg (by simp [h])]
      simp only [h, if_false]

theorem slot_file_some (pgs : List PageLine) (i : Nat) :
    (slot_file pgs i).isSome = true ↔ ∃ pg ∈ pgs, pg.id = i := by
  unfold slot_file
  rw [Option.isSome_map']
  constructor
  · intro h
    obtain ⟨x, hx⟩ := Option.isSome_iff_exists.mp h
    have hm := List.mem_of_getLast?_eq_some hx
    rw [List.mem_filter] at hm
    exact ⟨x, hm.1, by simpa using hm.2⟩
  · rintro ⟨pg, hpg, hid⟩
    have hm : pg ∈ pgs.filter (fun pg => decide (pg.id = i)) := by
      rw [List.mem_filter]; exact ⟨hpg, by simpa using hid⟩
    cases hl : (pgs.filter (fun pg => decide (pg.id = i))).getLast? with
    | none =>
      rw [List.getLast?_eq_none_iff] at hl
      rw [hl] at hm
      simp at hm
    | some x => rfl

theorem swapped_preamble_ok : swapped_pages_preamble.preamble_ok :=
  ⟨by decide, by decide, by decide, by decide, by decide, by decide, by decide⟩

theorem swapped_pages_ok :
    swapped_pages_preamble.pages_ok swapped_pages_preamble.pages.length := by
  intro pg hpg
  simp only [swapped_pages_preamble, List.mem_cons, List.mem_singleton, List.not_mem_nil,
    or_false] at hpg
  rcases hpg with rfl | rfl
  · exact ⟨by decide, by decide⟩
  · exact ⟨by decide, by decide⟩

theorem render_lines_append (kw : List Char) (ls1 ls2 : List (List (List Char × List Char)))
    (rest : List Char) :
    render_lines kw (ls1 ++ ls2) rest = render_lines kw ls1 (render_lines kw ls2 rest) := by
  induction ls1 with
  | nil => rfl
  | cons ps ls ih =>
    show kw ++ render_pairs ps ('\n' :: render_lines kw (ls ++ ls2) rest) = _
    rw [ih]
    rfl

/-- The chars section with a declared count and char lines given by their
pairs, up to the record loop after the last of the lines. -/
theorem chars_lines_prefix {rest t1 s1 : List Char} {e1 : Bool} (nx : Next rest t1 s1 e1)
    (ls : List (List (List Char × List Char)))
    (hall : ∀ ps ∈ ls, ∀ kv ∈ ps, char_line_pair kv) (count extra : Nat)
    (hcount : count = ls.length + extra) (hc : count ≤ 65535)
    (p : BMFont__Parser) (font : BMFont) (b : Bool)
    (h : Good p "chars".toList
      (pair "count".toList (fmt_nat count) ('\n' :: render_lines "char".toList ls rest))
      false b) :
    ∃ q, Good q t1 s1 e1 b ∧
      bmfont__parse_chars p font
        = (let r := parse_chars_loop extra ls.length q
              { font with num_chars := count,
                          chars := some (ls.map build_char ++ List.replicate extra default) }
           let p1 := { r.2.1 with chars_read := r.1 }
           let p2 := if r.1 ≠ r.2.2.num_chars then
               bmfont__set_parser_error p1 (msg_fewer "chars".toList r.2.2.num_chars r.1)
             else p1
           (bmfont__parser_ok p2, p2, r.2.2)) := by
  subst hcount
  have hps : ∀ kv ∈ count_pairs (ls.length + extra),
      Handles chars_count_table (effect_of (chars_count_effects (ls.length + extra))) kv := by
    intro kv hkv
    simp only [count_pairs, List.mem_singleton] at hkv
    subst hkv
    exact handles_chars_count _ (ls.length + extra) hc (fun a => rfl)
  obtain ⟨m, q2, _, he, g2, hk⟩ := line_run chars_count_table rfl
    (effect_of (chars_count_effects (ls.length + extra)))
    (next_lines_ahead "char".toList (by decide) ls nx) (count_pairs (ls.length + extra)) hps h
  obtain ⟨q3, g3, e3⟩ := chars_loop_lines nx ls hall q2
    { font with num_chars := ls.length + extra,
                chars := some (List.replicate (ls.length + extra) default) }
    [] extra b (by simp) g2
  refine ⟨q3, g3, ?_⟩
  have hfold : (count_pairs (ls.length + extra)).foldl
      (fun x kv => effect_of (chars_count_effects (ls.length + extra)) kv.1 x) font
      = { font with num_chars := ls.length + extra,
                    chars := some (List.replicate (ls.length + extra) default) } := rfl
  have h4 := e3 extra
  simp only [Nat.zero_add, List.length_nil, List.nil_append] at h4
  simp only [bmfont__parse_chars, he, Bool.not_true, Bool.false_eq_true, if_false,
    parse_chars_count_body_eq, hk, hfold, h4]

theorem skip_blank_length (s : List Char) (col : Nat) :
    (skip_blank s col).1.length ≤ s.length := by
  rw [skip_blank_eq]
  exact (List.dropWhile_sublist _).length_le

theorem word_loop_length : ∀ (s : List Char) (len : Nat),
    (word_loop s len).2.length ≤ s.length - 1 := by
  intro s
  induction s with
  | nil => intro len; simp [word_loop]
  | cons c cs ih =>
    intro len
    rw [word_loop]
    split
    · have := ih (len + 1)
      simp only [List.length_cons, Nat.add_sub_cancel]
      omega
    · simp

theorem remaining_not_ready (p : BMFont__Parser) (h : bmfont__parser_ready p = false) :
    remaining p = 0 := by
  simp [remaining, h]

theorem remaining_ready (p : BMFont__Parser) (h : bmfont__parser_ready p = true) :
    remaining p = p.stream.length + 1 := by
  simp [remaining, h]

theorem remaining_le (p : BMFont__Parser) : remaining p ≤ p.stream.length + 1 := by
  unfold remaining
  split <;> omega

theorem load_fuel_out (p : BMFont__Parser) :
    (bmfont__load_next_token p).2.fuel_out = p.fuel_out := by
  unfold bmfont__load_next_token
  simp only
  split
  · split
    · rfl
    · split
      · rfl
      · split
        · rfl
        · split <;> rfl
  · rfl

/-- A call of `bmfont__load_next_token` with the parser ready consumes at
least one character, sets the EOF flag or clears the ok flag. -/
theorem load_strict (p : BMFont__Parser) (hr : bmfont__parser_ready p = true) :
    remaining (bmfont__load_next_token p).2 < remaining p := by
  rw [remaining_ready p hr]
  have hsk := skip_blank_length p.stream p.curr_col
  unfold bmfont__load_next_token
  simp only [bmfont__parser_ready, bmfont__parser_ok] at hr ⊢
  simp only [hr, if_true]
  split
  · simp [remaining, bmfont__parser_ready]
  · rename_i c cs hcs
    rw [hcs] at hsk
    simp only [List.length_cons] at hsk
    split
    · refine Nat.lt_of_le_of_lt (remaining_le _) ?_
      simp only
      omega
    · split
      · refine Nat.lt_of_le_of_lt (remaining_le _) ?_
        simp only
        omega
      · split
        · simp [remaining, bmfont__parser_ready, bmfont__parser_ok, bmfont__set_parser_error]
        · refine Nat.lt_of_le_of_lt (remaining_le _) ?_
          have hw := word_loop_length (c :: cs) 0
          simp only [List.length_cons, Nat.add_sub_cancel] at hw
          simp only
          omega

theorem load_idle (p : BMFont__Parser) (hr : bmfont__parser_ready p = false) :
    remaining (bmfont__load_next_token p).2 = 0 := by
  apply remaining_not_ready
  unfold bmfont__load_next_token
  simp only [bmfont__parser_ready, bmfont__parser_ok] at hr ⊢
  simp only [hr, Bool.false_eq_true, if_false]

theorem load_le (p : BMFont__Parser) :
    remaining (bmfont__load_next_token p).2 ≤ remaining p := by
  cases hr : bmfont__parser_ready p with
  | true => exact Nat.le_of_lt (load_strict p hr)
  | false => rw [load_idle p hr]; exact Nat.zero_le _

theorem within_closed (n : Nat) (b : Bool) : OpClosed (Within n b) := by
  refine ⟨?_, ?_, fun p h => h, fun p n h => h, fun p n h => h, fun p n h => h⟩
  · intro p h
    exact ⟨(load_fuel_out p).trans h.1, Nat.le_trans (load_le p) h.2⟩
  · intro p msg _ h
    refine ⟨h.1, ?_⟩
    simp [remaining, bmfont__parser_ready, bmfont__parser_ok, bmfont__set_parser_error]

theorem within_mono {n m : Nat} {b : Bool} {q : BMFont__Parser} (h : Within n b q)
    (hnm : n ≤ m) : Within m b q := ⟨h.1, Nat.le_trans h.2 hnm⟩

theorem within_self (p : BMFont__Parser) : Within (remaining p) p.fuel_out p :=
  ⟨rfl, Nat.le_refl _⟩

theorem within_load (p : BMFont__Parser) (hr : bmfont__parser_ready p = true) :
    Within (remaining p - 1) p.fuel_out (bmfont__load_next_token p).2 :=
  ⟨load_fuel_out p, by have := load_strict p hr; omega⟩

theorem ready_fields (p : BMFont__Parser) (hr : bmfont__parser_ready p = true) :
    p.ok = true ∧ p.eof = false := by
  simp only [bmfont__parser_ready, bmfont__parser_ok, Bool.and_eq_true, Bool.not_eq_true'] at hr
  exact hr

/-- With the parser ready, `bmfont__match_token_and_advance` either leaves the
parser as it is and returns false, or is the call of `bmfont__load_next_token`. -/
theorem match_ready (p : BMFont__Parser) (tok : List Char)
    (hr : bmfont__parser_ready p = true) :
    bmfont__match_token_and_advance p tok = (false, p) ∨
      bmfont__match_token_and_advance p tok = bmfont__load_next_token p := by
  obtain ⟨hok, heof⟩ := ready_fields p hr
  simp only [bmfont__match_token_and_advance, bmfont__expect_more_tokens, heof,
    Bool.false_eq_true, if_false, Bool.not_true, bmfont__parser_ok, hok, Bool.false_or]
  by_cases h : p.next_token = tok
  · right; simp [h]
  · left; simp [h]

/-- A successful `bmfont__match_token_and_advance` was entered with the parser
ready and is the call of `bmfont__load_next_token`. -/
theorem match_true (p : BMFont__Parser) (tok : List Char)
    (h : (bmfont__match_token_and_advance p tok).1 = true) :
    bmfont__parser_ready p = true ∧
      bmfont__match_token_and_advance p tok = bmfont__load_next_token p := by
  cases hr : bmfont__parser_ready p with
  | true =>
    refine ⟨rfl, ?_⟩
    rcases match_ready p tok hr with h1 | h1
    · rw [h1] at h; simp at h
    · exact h1
  | false =>
    exfalso
    revert h
    simp only [bmfont__parser_ready, bmfont__parser_ok, Bool.and_eq_false_iff,
      Bool.not_eq_false'] at hr
    unfold bmfont__match_token_and_advance bmfont__expect_more_tokens
    rcases hr with hok | heof
    · split <;> simp [bmfont__parser_ok, bmfont__set_parser_error, hok]
    · simp [heof, bmfont__parser_ok, bmfont__set_parser_error]

/-- The state a key/value loop runs its body on, when the loop condition held
at the ready state `p`: `p` itself, or a state with less left to read. -/
theorem match_false (p : BMFont__Parser) (tok : List Char)
    (hr : bmfont__parser_ready p = true) :
    (bmfont__match_token_and_advance p tok).2 = p ∨
      Within (remaining p - 1) p.fuel_out (bmfont__match_token_and_advance p tok).2 := by
  rcases match_ready p tok hr with h1 | h1
  · left; rw [h1]
  · right; rw [h1]; exact within_load p hr

/-- The key test of `bmfont__match_key_and_advance_to_value` either fails and
leaves the parser as it is, or the state left follows a call of
`bmfont__load_next_token` on the state at entry. -/
theorem match_key_cases (p : BMFont__Parser) (k : List Char) :
    bmfont__match_key_and_advance_to_value p k = (false, p) ∨
      ∀ P : BMFont__Parser → Prop, OpClosed P → P (bmfont__load_next_token p).2 →
        P (bmfont__match_key_and_advance_to_value p k).2 := by
  unfold bmfont__match_key_and_advance_to_value
  split
  · right
    intro P hP h
    simp only
    split
    · exact kept_match hP _ _ h
    · exact h
  · left; rfl

/-- One run of the body of a key/value loop from a ready state leaves less to
read. -/
theorem dispatch_strict {α : Type}
    (table : List (List Char × (BMFont__Parser → α → BMFont__Parser × α)))
    (ht : ∀ kh ∈ table, HandlerClosed kh.2) :
    ∀ (p : BMFont__Parser) (a : α), bmfont__parser_ready p = true →
      Within (remaining p - 1) p.fuel_out (dispatch table p a).1 := by
  induction table with
  | nil =>
    intro p a hr
    show Within _ _ (skip_unknown_pair p)
    unfold skip_unknown_pair
    rcases match_ready p ['='] hr with h1 | h1
    · rw [h1]; exact within_load p hr
    · rw [h1]; exact (within_closed _ _).load _ (within_load p hr)
  | cons kh tl ih =>
    intro p a hr
    obtain ⟨k, hd⟩ := kh
    have htl : ∀ kh ∈ tl, HandlerClosed kh.2 := fun kh hkh => ht kh (List.mem_cons_of_mem _ hkh)
    simp only [dispatch]
    rcases match_key_cases p k with h1 | h1
    · rw [h1]
      simp only [Bool.false_eq_true, if_false]
      exact ih htl p a hr
    · have hw := h1 _ (within_closed (remaining p - 1) p.fuel_out) (within_load p hr)
      split
      · exact ht (k, hd) (by simp) _ (within_closed _ _) _ _ hw
      · exact kept_dispatch (within_closed _ _) tl htl _ _ hw

/-- One iteration of a key/value loop, the failed match of the newline and the
body, leaves less to read. -/
theorem kv_step {α : Type}
    (table : List (List Char × (BMFont__Parser → α → BMFont__Parser × α)))
    (ht : ∀ kh ∈ table, HandlerClosed kh.2) (p : BMFont__Parser) (a : α)
    (hr : bmfont__parser_ready p = true) :
    Within (remaining p - 1) p.fuel_out
      (dispatch table (bmfont__match_token_and_advance p ['\n']).2 a).1 := by
  rcases match_false p ['\n'] hr with h1 | h1
  · rw [h1]; exact dispatch_strict table ht p a hr
  · exact kept_dispatch (within_closed _ _) table ht _ _ h1

/-- A key/value loop given more fuel than the parser has left to read ends by
its own condition: the fuel does not run out, and no more is left to read
than before. -/
theorem kv_loop_within {α : Type}
    (table : List (List Char × (BMFont__Parser → α → BMFont__Parser × α)))
    (ht : ∀ kh ∈ table, HandlerClosed kh.2) :
    ∀ (fuel : Nat) (p : BMFont__Parser) (a : α), remaining p < fuel →
      Within (remaining p) p.fuel_out (kv_loop (dispatch table) fuel p a).1 := by
  intro fuel
  induction fuel with
  | zero => intro p a h; exact absurd h (Nat.not_lt_zero _)
  | succ fuel ih =>
    intro p a hf
    rw [kv_loop]
    cases hr : bmfont__parser_ready p with
    | false => simp only [Bool.false_eq_true, if_false]; exact within_self p
    | true =>
      simp only [if_true]
      cases hm : (bmfont__match_token_and_advance p ['\n']).1 with
      | true =>
        simp only [if_true]
        exact kept_match (within_closed _ _) p _ (within_self p)
      | false =>
        simp only [Bool.false_eq_true, if_false]
        have hs := kv_step table ht p a hr
        have hpos := remaining_ready p hr
        generalize dispatch table (bmfont__match_token_and_advance p ['\n']).2 a = b at hs ⊢
        have hi := ih b.1 b.2 (by have := hs.2; omega)
        exact ⟨hi.1.trans hs.1, by have := hi.2; have := hs.2; omega⟩

theorem within_loops (n : Nat) (b : Bool) : LoopClosed (Within n b) := by
  intro α table ht p a h
  have hk := kv_loop_within table ht (kv_fuel p) p a
    (by have := remaining_le p; unfold kv_fuel; omega)
  exact ⟨hk.1.trans h.1, Nat.le_trans hk.2 h.2⟩

/-- The iterations of a key/value loop are paid by what is read: their number
and what is left to read afterwards do not exceed what was left before. -/
theorem kv_iterations_le {α : Type}
    (table : List (List Char × (BMFont__Parser → α → BMFont__Parser × α)))
    (ht : ∀ kh ∈ table, HandlerClosed kh.2) :
    ∀ (fuel : Nat) (p : BMFont__Parser) (a : α),
      remaining (kv_loop (dispatch table) fuel p a).1
        + kv_iterations (dispatch table) fuel p a ≤ remaining p := by
  intro fuel
  induction fuel with
  | zero => intro p a; exact Nat.le_refl _
  | succ fuel ih =>
    intro p a
    rw [kv_loop, kv_iterations]
    cases hr : bmfont__parser_ready p with
    | false => simp only [Bool.false_eq_true, if_false]; exact Nat.le_refl _
    | true =>
      simp only [if_true]
      cases hm : (bmfont__match_token_and_advance p ['\n']).1 with
      | true =>
        simp only [if_true]
        exact (kept_match (within_closed _ _) p _ (within_self p)).2
      | false =>
        simp only [Bool.false_eq_true, if_false]
        have hs := kv_step table ht p a hr
        have hpos := remaining_ready p hr
        generalize dispatch table (bmfont__match_token_and_advance p ['\n']).2 a = b at hs ⊢
        have hi := ih b.1 b.2
        have := hs.2
        omega

theorem remaining_set_error (p : BMFont__Parser) (msg : List Char) :
    remaining (bmfont__set_parser_error p msg) = 0 := by
  simp [remaining, bmfont__parser_ready, bmfont__parser_ok, bmfont__set_parser_error]

theorem remaining_store_page_name (p : BMFont__Parser) (f : BMFont) (id : Nat)
    (s : List Char) : remaining (store_page_name p f id s).1 = remaining p := by
  unfold store_page_name
  split
  · split <;> rfl
  · rfl

/-- The iterations of the record loop of `bmfont__parse_pages`, with those of
the key/value loops inside, are paid by what is read. -/
theorem pages_iterations_le : ∀ (n i : Nat) (p : BMFont__Parser) (font : BMFont),
    remaining (parse_pages_loop n i p font).2.2.1 + pages_iterations n i p font
      ≤ remaining p := by
  intro n
  induction n with
  | zero => intro i p font; exact Nat.le_refl _
  | succ n ih =>
    intro i p font
    rw [parse_pages_loop, pages_iterations]
    cases hm : (bmfont__match_token_and_advance p "page".toList).1 with
    | false =>
      simp only [Bool.not_false, if_true]
      exact (kept_match (within_closed _ _) p _ (within_self p)).2
    | true =>
      simp only [Bool.not_true, Bool.false_eq_true, if_false]
      obtain ⟨hr, he⟩ := match_true p _ hm
      have hw : remaining (bmfont__match_token_and_advance p "page".toList).2
          < remaining p := by rw [he]; exact load_strict p hr
      have hk := kv_iterations_le page_table page_table_closed
        (kv_fuel (bmfont__match_token_and_advance p "page".toList).2)
        (bmfont__match_token_and_advance p "page".toList).2 (0, none)
      rw [← parse_page_body_eq] at hk
      generalize kv_loop parse_page_body
        (kv_fuel (bmfont__match_token_and_advance p "page".toList).2)
        (bmfont__match_token_and_advance p "page".toList).2 (0, none) = r at hk ⊢
      generalize kv_iterations parse_page_body
        (kv_fuel (bmfont__match_token_and_advance p "page".toList).2)
        (bmfont__match_token_and_advance p "page".toList).2 (0, none) = c at hk ⊢
      cases hf : r.2.2 with
      | none =>
        simp only [remaining_set_error]
        omega
      | some filename =>
        simp only
        have hi := ih (i + 1) (store_page_name r.1 font r.2.1 filename).1
          (store_page_name r.1 font r.2.1 filename).2
        rw [remaining_store_page_name] at hi
        omega

/-- The iterations of the record loop of `bmfont__parse_chars`, with those of
the key/value loops inside, are paid by what is read. -/
theorem chars_iterations_le : ∀ (n i : Nat) (p : BMFont__Parser) (font : BMFont),
    remaining (parse_chars_loop n i p font).2.1 + chars_iterations n i p font
      ≤ remaining p := by
  intro n
  induction n with
  | zero => intro i p font; exact Nat.le_refl _
  | succ n ih =>
    intro i p font
    rw [parse_chars_loop, chars_iterations]
    cases hm : (bmfont__match_token_and_advance p "char".toList).1 with
    | false =>
      simp only [Bool.not_false, if_true]
      exact (kept_match (within_closed _ _) p _ (within_self p)).2
    | true =>
      simp only [Bool.not_true, Bool.false_eq_true, if_false]
      obtain ⟨hr, he⟩ := match_true p _ hm
      have hw : remaining (bmfont__match_token_and_advance p "char".toList).2
          < remaining p := by rw [he]; exact load_strict p hr
      have hk : ∀ c, remaining (kv_loop parse_char_body
            (kv_fuel (bmfont__match_token_and_advance p "char".toList).2)
            (bmfont__match_token_and_advance p "char".toList).2 c).1
          + kv_iterations parse_char_body
            (kv_fuel (bmfont__match_token_and_advance p "char".toList).2)
            (bmfont__match_token_and_advance p "char".toList).2 c
          ≤ remaining (bmfont__match_token_and_advance p "char".toList).2 := fun c =>
        kv_iterations_le char_table char_table_closed _ _ c
      have hoob : ∀ q : BMFont__Parser, remaining { q with oob := true } = remaining q :=
        fun _ => rfl
      cases hc : font.chars with
      | none =>
        simp only
        have h1 := hk default
        have hi := ih (i + 1) { (kv_loop parse_char_body
          (kv_fuel (bmfont__match_token_and_advance p "char".toList).2)
          (bmfont__match_token_and_advance p "char".toList).2 default).1 with oob := true }
          font
        rw [hoob] at hi
        simp only at hi
        omega
      | some cs =>
        simp only
        by_cases hlt : i < cs.length
        · simp only [hlt, if_true]
          have h1 := hk (cs.getD i default)
          have hi := ih (i + 1) (kv_loop parse_char_body
            (kv_fuel (bmfont__match_token_and_advance p "char".toList).2)
            (bmfont__match_token_and_advance p "char".toList).2 (cs.getD i default)).1
            { font with chars := some (cs.set i (kv_loop parse_char_body
              (kv_fuel (bmfont__match_token_and_advance p "char".toList).2)
              (bmfont__match_token_and_advance p "char".toList).2 (cs.getD i default)).2) }
          omega
        · simp only [hlt, if_false]
          have h1 := hk default
          have hi := ih (i + 1) { (kv_loop parse_char_body
            (kv_fuel (bmfont__match_token_and_advance p "char".toList).2)
            (bmfont__match_token_and_advance p "char".toList).2 default).1 with oob := true }
            font
          rw [hoob] at hi
          simp only at hi
          omega

/-- The iterations of the record loop of `bmfont__parse_kernings`, with those of
the key/value loops inside, are paid by what is read. -/
theorem kernings_iterations_le : ∀ (n i : Nat) (p : BMFont__Parser) (font : BMFont),
    remaining (parse_kernings_loop n i p font).2.1 + kernings_iterations n i p font
      ≤ remaining p := by
  intro n
  induction n with
  | zero => intro i p font; exact Nat.le_refl _
  | succ n ih =>
    intro i p font
    rw [parse_kernings_loop, kernings_iterations]
    cases hm : (bmfont__match_token_and_advance p "kerning".toList).1 with
    | false =>
      simp only [Bool.not_false, if_true]
      exact (kept_match (within_closed _ _) p _ (within_self p)).2
    | true =>
      simp only [Bool.not_true, Bool.false_eq_true, if_false]
      obtain ⟨hr, he⟩ := match_true p _ hm
      have hw : remaining (bmfont__match_token_and_advance p "kerning".toList).2
          < remaining p := by rw [he]; exact load_strict p hr
      have hk : ∀ c, remaining (kv_loop parse_kerning_body
            (kv_fuel (bmfont__match_token_and_advance p "kerning".toList).2)
            (bmfont__match_token_and_advance p "kerning".toList).2 c).1
          + kv_iterations parse_kerning_body
            (kv_fuel (bmfont__match_token_and_advance p "kerning".toList).2)
            (bmfont__match_token_and_advance p "kerning".toList).2 c
          ≤ remaining (bmfont__match_token_and_advance p "kerning".toList).2 := fun c =>
        kv_iterations_le kerning_table kerning_table_closed _ _ c
      have hoob : ∀ q : BMFont__Parser, remaining { q with oob := true } = remaining q :=
        fun _ => rfl
      cases hc : font.kernings with
      | none =>
        simp only
        have h1 := hk default
        have hi := ih (i + 1) { (kv_loop parse_kerning_body
          (kv_fuel (bmfont__match_token_and_advance p "kerning".toList).2)
          (bmfont__match_token_and_advance p "kerning".toList).2 default).1 with oob := true }
          font
        rw [hoob] at hi
        simp only at hi
        omega
      | some ks =>
        simp only
        by_cases hlt : i < ks.length
        · simp only [hlt, if_true]
          have h1 := hk (ks.getD i default)
          have hi := ih (i + 1) (kv_loop parse_kerning_body
            (kv_fuel (bmfont__match_token_and_advance p "kerning".toList).2)
            (bmfont__match_token_and_advance p "kerning".toList).2 (ks.getD i default)).1
            { font with kernings := some (ks.set i (kv_loop parse_kerning_body
              (kv_fuel (bmfont__match_token_and_advance p "kerning".toList).2)
              (bmfont__match_token_and_advance p "kerning".toList).2 (ks.getD i default)).2) }
          omega
        · simp only [hlt, if_false]
          have h1 := hk default
          have hi := ih (i + 1) { (kv_loop parse_kerning_body
            (kv_fuel (bmfont__match_token_and_advance p "kerning".toList).2)
            (bmfont__match_token_and_advance p "kerning".toList).2 default).1 with oob := true }
            font
          rw [hoob] at hi
          simp only at hi
          omega

theorem info_iterations_le (p : BMFont__Parser) (font : BMFont) :
    remaining (bmfont__parse_info p font).2.1 + info_iterations p font ≤ remaining p := by
  unfold bmfont__parse_info info_iterations
  have he := (kept_expect (within_closed _ _) p "info".toList (within_self p)).2
  have hk := kv_iterations_le info_table info_table_closed
    (kv_fuel (bmfont__expect_token_and_advance p "info".toList).2)
    (bmfont__expect_token_and_advance p "info".toList).2 font
  rw [← parse_info_body_eq] at hk
  simp only
  split
  · exact he
  · simp only
    omega

theorem common_iterations_le (p : BMFont__Parser) (font : BMFont) :
    remaining (bmfont__parse_common p font).2.1 + common_iterations p font ≤ remaining p := by
  unfold bmfont__parse_common common_iterations
  have he := (kept_expect (within_closed _ _) p "common".toList (within_self p)).2
  have hk := kv_iterations_le common_table common_table_closed
    (kv_fuel (bmfont__expect_token_and_advance p "common".toList).2)
    (bmfont__expect_token_and_advance p "common".toList).2 font
  rw [← parse_common_body_eq] at hk
  simp only
  split
  · exact he
  · simp only
    omega

theorem pages_section_le (p : BMFont__Parser) (font : BMFont) :
    remaining (bmfont__parse_pages p font).2.1 + pages_iterations font.num_pages 0 p font
      ≤ remaining p := by
  unfold bmfont__parse_pages
  have hl := pages_iterations_le font.num_pages 0 p font
  generalize parse_pages_loop font.num_pages 0 p font = r at hl ⊢
  have h1 : remaining { r.2.2.1 with pages_read := r.1 } = remaining r.2.2.1 := rfl
  simp only at h1
  simp only
  split
  · simp only
    omega
  · simp only
    split
    · rw [remaining_set_error]; omega
    · omega

theorem chars_section_le (p : BMFont__Parser) (font : BMFont) :
    remaining (bmfont__parse_chars p font).2.1 + chars_section_iterations p font
      ≤ remaining p := by
  unfold bmfont__parse_chars chars_section_iterations
  have he := (kept_expect (within_closed _ _) p "chars".toList (within_self p)).2
  have hk := kv_iterations_le chars_count_table chars_count_table_closed
    (kv_fuel (bmfont__expect_token_and_advance p "chars".toList).2)
    (bmfont__expect_token_and_advance p "chars".toList).2 font
  rw [← parse_chars_count_body_eq] at hk
  simp only
  split
  · exact he
  · generalize kv_loop parse_chars_count_body
      (kv_fuel (bmfont__expect_token_and_advance p "chars".toList).2)
      (bmfont__expect_token_and_advance p "chars".toList).2 font = hd at hk ⊢
    have hl := chars_iterations_le hd.2.num_chars 0 hd.1 hd.2
    generalize parse_chars_loop hd.2.num_chars 0 hd.1 hd.2 = r at hl ⊢
    have h1 : remaining { r.2.1 with chars_read := r.1 } = remaining r.2.1 := rfl
    simp only at h1
    simp only
    split
    · rw [remaining_set_error]; omega
    · omega

theorem kernings_section_le (p : BMFont__Parser) (font : BMFont) :
    remaining (bmfont__parse_kernings p font).2.1 + kernings_section_iterations p font
      ≤ remaining p := by
  unfold bmfont__parse_kernings kernings_section_iterations
  have he := (kept_expect (within_closed _ _) p "kernings".toList (within_self p)).2
  have hk := kv_iterations_le kernings_count_table kernings_count_table_closed
    (kv_fuel (bmfont__expect_token_and_advance p "kernings".toList).2)
    (bmfont__expect_token_and_advance p "kernings".toList).2 font
  rw [← parse_kernings_count_body_eq] at hk
  split
  · exact Nat.le_refl _
  · simp only
    generalize kv_loop parse_kernings_count_body
      (kv_fuel (bmfont__expect_token_and_advance p "kernings".toList).2)
      (bmfont__expect_token_and_advance p "kernings".toList).2 font = hd at hk ⊢
    have hl := kernings_iterations_le hd.2.num_kernings 0 hd.1 hd.2
    generalize parse_kernings_loop hd.2.num_kernings 0 hd.1 hd.2 = r at hl ⊢
    have h1 : remaining { r.2.1 with kernings_read := r.1 } = remaining r.2.1 := rfl
    simp only at h1
    split
    · rw [remaining_set_error]; omega
    · omega

/-- The iterations of all loops of the chain of section parsers are paid by
what is read. -/
theorem sections_iterations_le (p : BMFont__Parser) (font : BMFont) :
    remaining (parse_sections p font).2.1 + sections_iterations p font ≤ remaining p := by
  unfold parse_sections sections_iterations
  simp only
  have h1 := info_iterations_le p font
  generalize info_iterations p font = c1 at h1 ⊢
  generalize bmfont__parse_info p font = r1 at h1 ⊢
  cases hb1 : r1.1 with
  | false => simp only [Bool.not_false, if_true]; omega
  | true =>
    simp only [Bool.not_true, Bool.false_eq_true, if_false]
    have h2 := common_iterations_le r1.2.1 r1.2.2
    generalize common_iterations r1.2.1 r1.2.2 = c2 at h2 ⊢
    generalize bmfont__parse_common r1.2.1 r1.2.2 = r2 at h2 ⊢
    cases hb2 : r2.1 with
    | false => simp only [Bool.not_false, if_true]; omega
    | true =>
      simp only [Bool.not_true, Bool.false_eq_true, if_false]
      have h3 := pages_section_le r2.2.1 r2.2.2
      generalize pages_iterations r2.2.2.num_pages 0 r2.2.1 r2.2.2 = c3 at h3 ⊢
      generalize bmfont__parse_pages r2.2.1 r2.2.2 = r3 at h3 ⊢
      cases hb3 : r3.1 with
      | false => simp only [Bool.not_false, if_true]; omega
      | true =>
        simp only [Bool.not_true, Bool.false_eq_true, if_false]
        have h4 := chars_section_le r3.2.1 r3.2.2
        generalize chars_section_iterations r3.2.1 r3.2.2 = c4 at h4 ⊢
        generalize bmfont__parse_chars r3.2.1 r3.2.2 = r4 at h4 ⊢
        cases hb4 : r4.1 with
        | false => simp only [Bool.not_false, if_true]; omega
        | true =>
          simp only [Bool.not_true, Bool.false_eq_true, if_false]
          have h5 := kernings_section_le r4.2.1 r4.2.2
          omega

/-- The total number of loop iterations of a parse is at most the length of
the input plus one. -/
theorem parse_iterations_le (input : List Char) :
    parse_iterations input ≤ input.length + 1 := by
  unfold parse_iterations
  have h1 := sections_iterations_le (bmfont__load_next_token (parser_at_start input)).2
    empty_font
  have h2 := load_le (parser_at_start input)
  have h3 : remaining (parser_at_start input) = input.length + 1 := rfl
  omega

/-- No key/value loop of a parse runs out of the fuel the model gives it. -/
theorem parse_fuel_suffices (input : List Char) :
    (bmfont_parse_file input).parser.fuel_out = false :=
  (kept_parse_file (within_closed (input.length + 1) false)
    (within_loops (input.length + 1) false) input ⟨rfl, Nat.le_refl _⟩).1

theorem progress_of_within {p q : BMFont__Parser} {b : Bool}
    (hr : bmfont__parser_ready p = true) (h : Within (remaining p - 1) b q) :
    iteration_progress p q := by
  have h2 := h.2
  rw [remaining_ready p hr] at h2
  cases hq : bmfont__parser_ready q with
  | true =>
    rw [remaining_ready q hq] at h2
    left
    omega
  | false =>
    right
    simp only [bmfont__parser_ready, bmfont__parser_ok, Bool.and_eq_false_iff,
      Bool.not_eq_false'] at hq
    rcases hq with h3 | h3
    · right; exact h3
    · left; exact h3

theorem kv_progress_dispatch {α : Type}
    (table : List (List Char × (BMFont__Parser → α → BMFont__Parser × α)))
    (ht : ∀ kh ∈ table, HandlerClosed kh.2) : kv_progress (dispatch table) :=
  fun p a hr _ => progress_of_within hr (kv_step table ht p a hr)

/-- An iteration of the record loop of `bmfont__parse_pages` makes progress. -/
theorem pages_iteration_progress (p : BMFont__Parser) (font : BMFont) (i : Nat)
    (hm : (bmfont__match_token_and_advance p "page".toList).1 = true) :
    iteration_progress p (parse_pages_loop 1 i p font).2.2.1 := by
  obtain ⟨hr, he⟩ := match_true p _ hm
  have hw : Within (remaining p - 1) p.fuel_out
      (bmfont__match_token_and_advance p "page".toList).2 := by
    rw [he]; exact within_load p hr
  apply progress_of_within hr (b := p.fuel_out)
  rw [parse_pages_loop]
  simp only [hm, Bool.not_true, Bool.false_eq_true, if_false]
  have hk : Within (remaining p - 1) p.fuel_out (kv_loop parse_page_body
      (kv_fuel (bmfont__match_token_and_advance p "page".toList).2)
      (bmfont__match_token_and_advance p "page".toList).2 (0, none)).1 :=
    within_loops _ _ _ page_table page_table_closed _ _ hw
  generalize kv_loop parse_page_body
    (kv_fuel (bmfont__match_token_and_advance p "page".toList).2)
    (bmfont__match_token_and_advance p "page".toList).2 (0, none) = r at hk ⊢
  split
  · exact (within_closed _ _).error _ _ (message_page_missing_filename _) hk
  · rw [parse_pages_loop]
    exact kept_store_page_name (within_closed _ _) _ _ _ _ hk

/-- An iteration of the record loop of `bmfont__parse_chars` makes progress. -/
theorem chars_iteration_progress (p : BMFont__Parser) (font : BMFont) (i : Nat)
    (hm : (bmfont__match_token_and_advance p "char".toList).1 = true) :
    iteration_progress p (parse_chars_loop 1 i p font).2.1 := by
  obtain ⟨hr, he⟩ := match_true p _ hm
  have hw : Within (remaining p - 1) p.fuel_out
      (bmfont__match_token_and_advance p "char".toList).2 := by
    rw [he]; exact within_load p hr
  apply progress_of_within hr (b := p.fuel_out)
  have hk : ∀ c, Within (remaining p - 1) p.fuel_out (kv_loop parse_char_body
      (kv_fuel (bmfont__match_token_and_advance p "char".toList).2)
      (bmfont__match_token_and_advance p "char".toList).2 c).1 := fun c =>
    within_loops _ _ _ char_table char_table_closed _ c hw
  rw [parse_chars_loop]
  simp only [hm, Bool.not_true, Bool.false_eq_true, if_false]
  split
  · split
    · rw [parse_chars_loop]; exact hk _
    · rw [parse_chars_loop]; exact hk default
  · rw [parse_chars_loop]; exact hk default

/-- An iteration of the record loop of `bmfont__parse_kernings` makes
progress. -/
theorem kernings_iteration_progress (p : BMFont__Parser) (font : BMFont) (i : Nat)
    (hm : (bmfont__match_token_and_advance p "kerning".toList).1 = true) :
    iteration_progress p (parse_kernings_loop 1 i p font).2.1 := by
  obtain ⟨hr, he⟩ := match_true p _ hm
  have hw : Within (remaining p - 1) p.fuel_out
      (bmfont__match_token_and_advance p "kerning".toList).2 := by
    rw [he]; exact within_load p hr
  apply progress_of_within hr (b := p.fuel_out)
  have hk : ∀ c, Within (remaining p - 1) p.fuel_out (kv_loop parse_kerning_body
      (kv_fuel (bmfont__match_token_and_advance p "kerning".toList).2)
      (bmfont__match_token_and_advance p "kerning".toList).2 c).1 := fun c =>
    within_loops _ _ _ kerning_table kerning_table_closed _ c hw
  rw [parse_kernings_loop]
  simp only [hm, Bool.not_true, Bool.false_eq_true, if_false]
  split
  · split
    · rw [parse_kernings_loop]; exact hk _
    · rw [parse_kernings_loop]; exact hk default
  · rw [parse_kernings_loop]; exact hk default

/-- A key/value loop given more fuel than the parser has left to read gives
the same result with any larger amount of fuel. -/
theorem kv_loop_more_fuel {α : Type}
    (table : List (List Char × (BMFont__Parser → α → BMFont__Parser × α)))
    (ht : ∀ kh ∈ table, HandlerClosed kh.2) :
    ∀ (fuel : Nat) (p : BMFont__Parser) (a : α), remaining p < fuel →
      kv_loop (dispatch table) (fuel + 1) p a = kv_loop (dispatch table) fuel p a := by
  intro fuel
  induction fuel with
  | zero => intro p a h; exact absurd h (Nat.not_lt_zero _)
  | succ fuel ih =>
    intro p a hf
    rw [kv_loop]
    conv_rhs => rw [kv_loop]
    cases hr : bmfont__parser_ready p with
    | false => rfl
    | true =>
      simp only [if_true]
      cases hm : (bmfont__match_token_and_advance p ['\n']).1 with
      | true => rfl
      | false =>
        simp only [Bool.false_eq_true, if_false]
        have hs := kv_step table ht p a hr
        have hpos := remaining_ready p hr
        exact ih _ _ (by have := hs.2; omega)

set_option maxRecDepth 1000000 in
/-- A value of 1024 characters after the `=` of an unknown key: the token is
rejected, the ok flag is cleared, and the fall-through branch of the key/value
loop calls `bmfont__load_next_token` once more. -/
theorem long_value_violates_assert :
    (bmfont_parse_file ("info x=".toList ++ List.replicate 1024 'a')).parser.assert_failed
      = true := by
  decide

theorem pages_in_bounds (d : Doc) (hp : d.pages_ok d.pages.length)
    (hpc : d.pages.length ≤ 32768) :
    pages_oob (List.replicate d.pages.length (none : Option (List Char))).length d.pages
      = false := by
  rw [List.length_replicate]
  exact (pages_oob_iff d.pages.length (by omega) d.pages (fun pg hpg => (hp pg hpg).1)).2
    (fun pg hpg => Nat.lt_of_lt_of_le (hp pg hpg).1 hpc)

/-- The run of `bmfont_parse_file` on a document with at most 32768 page lines
whose char lines and kerning lines are given by their pairs: the font is
returned and the run stays inside defined behaviour. -/
theorem parse_with_lines_clean (d : Doc) (lines klines : List (List (List Char × List Char)))
    (hd : d.preamble_ok) (hp : d.pages_ok d.pages.length) (hpc : d.pages.length ≤ 32768)
    (hl : ∀ ps ∈ lines, ∀ kv ∈ ps, char_line_pair kv) (hlc : lines.length ≤ 65535)
    (hk : ∀ ps ∈ klines, ∀ kv ∈ ps, kerning_line_pair kv) (hkc : klines.length ≤ 65535) :
    (bmfont_parse_file (render_with_lines d lines klines)).returned
        = some (font_with_records d (lines.map build_char) (klines.map build_kerning)) ∧
      (bmfont_parse_file (render_with_lines d lines klines)).clean = true := by
  have hpc2 : d.pages.length ≤ 65535 := by omega
  have nk : Next (render_kernings_header klines.length
      (render_lines "kerning".toList klines [])) "kernings".toList _ false :=
    next_word "kernings".toList _ (by decide) (delim_start_pair _ _ _)
  have n3 : Next (render_chars_header lines.length (render_lines "char".toList lines
      (render_kernings_header klines.length (render_lines "kerning".toList klines []))))
      "chars".toList _ false := next_word "chars".toList _ (by decide) (delim_start_pair _ _ _)
  obtain ⟨q1, q2, f1, h1, h2, g2⟩ :=
    info_common_sections (next_pages_ahead n3 d.pages) d hd d.pages.length hpc2
  obtain ⟨q3, g3, _, h3⟩ := pages_section n3 d.pages (pages_ok_bound hp hpc2) q2
    (font_after_common d d.pages.length) (List.replicate d.pages.length none) false rfl rfl g2
  rw [pages_in_bounds d hp hpc] at g3
  obtain ⟨q4, g4, h4⟩ := chars_section_lines nk lines hl hlc q3 (font_after_pages d) _ g3
  obtain ⟨q5, g5, h5⟩ := kernings_section_lines (next_eof []) klines hk hkc q4 _ _ g4
  have hrun : bmfont_parse_file (render_with_lines d lines klines) = _ :=
    parse_file_eq _ (parse_sections_eq h1 h2 h3 h4 h5) g5.ok g5.eof
  rw [hrun]
  refine ⟨?_, ?_⟩
  · simp only [font_with_records, List.length_map]
  · rw [clean_of_flags (flags_of_good g5)]
    rfl

/-- A document whose chars line declares as many glyphs as it has char lines,
without kernings section: the glyphs are built from the lines, one each. -/
theorem parse_count_exact (d : Doc) (lines : List (List (List Char × List Char)))
    (hd : d.preamble_ok) (hp : d.pages_ok d.pages.length) (hpc : d.pages.length ≤ 32768)
    (hl : ∀ ps ∈ lines, ∀ kv ∈ ps, char_line_pair kv) (hlc : lines.length ≤ 65535) :
    (bmfont_parse_file (render_with_count d lines.length lines)).returned
        = some (font_with_records d (lines.map build_char) []) ∧
      (bmfont_parse_file (render_with_count d lines.length lines)).clean = true := by
  have hpc2 : d.pages.length ≤ 65535 := by omega
  have n3 : Next (render_chars_header lines.length (render_lines "char".toList lines []))
      "chars".toList _ false := next_word "chars".toList _ (by decide) (delim_start_pair _ _ _)
  obtain ⟨q1, q2, f1, h1, h2, g2⟩ :=
    info_common_sections (next_pages_ahead n3 d.pages) d hd d.pages.length hpc2
  obtain ⟨q3, g3, _, h3⟩ := pages_section n3 d.pages (pages_ok_bound hp hpc2) q2
    (font_after_common d d.pages.length) (List.replicate d.pages.length none) false rfl rfl g2
  rw [pages_in_bounds d hp hpc] at g3
  obtain ⟨q4, g4, h4⟩ := chars_section_lines (next_eof []) lines hl hlc q3
    (font_after_pages d) _ g3
  have h5 := kernings_absent q4 { font_after_pages d with
    num_chars := lines.length, chars := some (lines.map build_char) } (good_eof_not_ready g4)
  have hrun : bmfont_parse_file (render_with_count d lines.length lines) = _ :=
    parse_file_eq _ (parse_sections_eq h1 h2 h3 h4 h5) g4.ok g4.eof
  rw [hrun]
  refine ⟨?_, ?_⟩
  · simp only [font_with_records, List.length_map]
    rfl
  · rw [clean_of_flags (flags_of_good g4)]
    rfl

/-- A document whose chars line declares more glyphs than it has char lines. -/
theorem parse_count_short (d : Doc) (declared : Nat)
    (lines : List (List (List Char × List Char)))
    (hd : d.preamble_ok) (hp : d.pages_ok d.pages.length) (hpc : d.pages.length ≤ 32768)
    (hl : ∀ ps ∈ lines, ∀ kv ∈ ps, char_line_pair kv) (hdc : declared ≤ 65535)
    (hlt : lines.length < declared) :
    (bmfont_parse_file (render_with_count d declared lines)).returned = none ∧
      (bmfont_parse_file (render_with_count d declared lines)).clean = true := by
  have hpc2 : d.pages.length ≤ 65535 := by omega
  have n3 : Next (render_chars_header declared (render_lines "char".toList lines []))
      "chars".toList _ false := next_word "chars".toList _ (by decide) (delim_start_pair _ _ _)
  obtain ⟨q1, q2, f1, h1, h2, g2⟩ :=
    info_common_sections (next_pages_ahead n3 d.pages) d hd d.pages.length hpc2
  obtain ⟨q3, g3, _, h3⟩ := pages_section n3 d.pages (pages_ok_bound hp hpc2) q2
    (font_after_common d d.pages.length) (List.replicate d.pages.length none) false rfl rfl g2
  rw [pages_in_bounds d hp hpc] at g3
  obtain ⟨m, hm⟩ : ∃ m, declared = lines.length + (m + 1) :=
    ⟨declared - lines.length - 1, by omega⟩
  obtain ⟨q, gq, h4⟩ := chars_lines_prefix (next_eof []) lines hl declared (m + 1) hm hdc q3
    (font_after_pages d) _ g3
  have hs := match_stop gq "char".toList (fun h => absurd h (by decide))
  have hne : ¬ lines.length = declared := by omega
  rw [parse_chars_loop] at h4
  simp only [hs.1, Bool.not_false, if_true, ne_eq, hne, not_false_eq_true, bmfont__parser_ok,
    bmfont__set_parser_error] at h4
  have hrun : bmfont_parse_file (render_with_count d declared lines) = _ :=
    parse_file_fail _ (parse_sections_stop4 h1 h2 h3 h4) rfl
  rw [hrun]
  refine ⟨rfl, ?_⟩
  have hfl : Flags { (bmfont__match_token_and_advance q "char".toList).2 with
      chars_read := lines.length } false := hs.2
  exact (clean_of_flags (flags_set_error hfl _) _ _).trans rfl

/-- A document whose chars line declares fewer glyphs than it has char lines. -/
theorem parse_count_long (d : Doc) (declared : Nat)
    (lines : List (List (List Char × List Char)))
    (hd : d.preamble_ok) (hp : d.pages_ok d.pages.length) (hpc : d.pages.length ≤ 32768)
    (hl : ∀ ps ∈ lines, ∀ kv ∈ ps, char_line_pair kv) (hdc : declared ≤ 65535)
    (hlt : declared < lines.length) :
    (bmfont_parse_file (render_with_count d declared lines)).returned = none ∧
      (bmfont_parse_file (render_with_count d declared lines)).clean = true := by
  have hpc2 : d.pages.length ≤ 65535 := by omega
  obtain ⟨l1, ps, l2, hsplit, hlen⟩ : ∃ l1 ps l2, lines = l1 ++ ps :: l2 ∧
      l1.length = declared := by
    have hdrop : lines.drop declared ≠ [] := by
      intro h0
      have := congrArg List.length h0
      simp at this
      omega
    obtain ⟨ps, l2, h2⟩ := List.exists_cons_of_ne_nil hdrop
    refine ⟨lines.take declared, ps, l2, ?_, ?_⟩
    · rw [← h2, List.take_append_drop]
    · rw [List.length_take]; omega
  subst hsplit
  subst hlen
  have hl1 : ∀ qs ∈ l1, ∀ kv ∈ qs, char_line_pair kv :=
    fun qs hqs => hl qs (List.mem_append_left _ hqs)
  have nx : Next (render_lines "char".toList (ps :: l2) []) "char".toList
      (render_pairs ps ('\n' :: render_lines "char".toList l2 [])) false :=
    next_word "char".toList _ (by decide) (delim_start_pairs _ _)
  have n3 : Next (render_chars_header l1.length (render_lines "char".toList l1
      (render_lines "char".toList (ps :: l2) [])))
      "chars".toList _ false := next_word "chars".toList _ (by decide) (delim_start_pair _ _ _)
  obtain ⟨q1, q2, f1, h1, h2, g2⟩ :=
    info_common_sections (next_pages_ahead n3 d.pages) d hd d.pages.length hpc2
  obtain ⟨q3, g3, _, h3⟩ := pages_section n3 d.pages (pages_ok_bound hp hpc2) q2
    (font_after_common d d.pages.length) (List.replicate d.pages.length none) false rfl rfl g2
  rw [pages_in_bounds d hp hpc] at g3
  obtain ⟨q4, g4, h4⟩ := chars_section_lines nx l1 hl1 hdc q3 (font_after_pages d) _ g3
  obtain ⟨f4, hz, h4⟩ : ∃ f4 : BMFont, f4.num_kernings = 0 ∧
      bmfont__parse_chars q3 (font_after_pages d) = (true, q4, f4) := ⟨_, rfl, h4⟩
  have h5 := kernings_reject g4 (by decide) f4 hz
  unfold render_with_count
  rw [render_lines_append]
  have hrun : bmfont_parse_file (render_upto_pages d d.pages.length
      (render_chars_header l1.length (render_lines "char".toList l1
        (render_lines "char".toList (ps :: l2) [])))) = _ :=
    parse_file_fail _ (parse_sections_eq h1 h2 h3 h4 h5) rfl
  rw [hrun]
  refine ⟨rfl, ?_⟩
  exact (clean_of_flags (flags_set_kernings_read (flags_set_error (flags_of_good g4) _) 0)
    _ _).trans rfl

/-- The handlers of a key/value loop are entered with the ok flag set: a
successful `bmfont__match_key_and_advance_to_value` leaves the flag set. -/
theorem match_key_true_ok (q : BMFont__Parser) (k : List Char)
    (h : (bmfont__match_key_and_advance_to_value q k).1 = true) :
    (bmfont__match_key_and_advance_to_value q k).2.ok = true := by
  unfold bmfont__match_key_and_advance_to_value at h ⊢
  split
  · rename_i hk
    simp only [hk, if_true] at h
    simp only
    split
    · rename_i hl
      simp only [hl, if_true] at h
      obtain ⟨_, he⟩ := match_true _ _ h
      rw [he] at h ⊢
      rw [← load_fst_ok]
      exact h
    · rename_i hl
      simp [hl] at h
  · rename_i hk
    simp [hk] at h

/-- The body of a key/value loop entered with the ok flag cleared tries every
key in vain: the data, the flag and the token state are left as they are. -/
theorem dispatch_idle {α : Type}
    (table : List (List Char × (BMFont__Parser → α → BMFont__Parser × α)))
    (p : BMFont__Parser) :
    ∀ (q : BMFont__Parser), failed_in_place p (false, q) → ∀ a : α,
      (dispatch table q a).2 = a ∧ (dispatch table q a).1.ok = false ∧
        token_state (dispatch table q a).1 = token_state p := by
  induction table with
  | nil =>
    intro q hq a
    have hm := failed_match p q ['='] hq
    have hl := failed_load p (bmfont__match_token_and_advance q ['=']).2 ⟨rfl, hm.2.1, hm.2.2⟩
    exact ⟨rfl, hl.2.2, hl.2.1⟩
  | cons kh tl ih =>
    intro q hq a
    obtain ⟨k, h0⟩ := kh
    have hm := failed_match_key p q k hq
    simp only [dispatch, hm.1, Bool.false_eq_true, if_false]
    exact ih _ ⟨rfl, hm.2.1, hm.2.2⟩ a

theorem body_idle_dispatch {α : Type}
    (table : List (List Char × (BMFont__Parser → α → BMFont__Parser × α)))
    (p : BMFont__Parser) (hok : p.ok = false) : body_idle (dispatch table) p :=
  fun a => dispatch_idle table p p ⟨rfl, rfl, hok⟩ a

theorem kv_loop_extra_fuel {α : Type}
    (table : List (List Char × (BMFont__Parser → α → BMFont__Parser × α)))
    (ht : ∀ kh ∈ table, HandlerClosed kh.2) (p : BMFont__Parser) (a : α) (fuel : Nat)
    (h : remaining p < fuel) :
    ∀ k, kv_loop (dispatch table) (fuel + k) p a = kv_loop (dispatch table) fuel p a := by
  intro k
  induction k with
  | zero => rfl
  | succ k ih =>
    rw [← Nat.add_assoc, kv_loop_more_fuel table ht (fuel + k) p a (by omega), ih]

/-- Two amounts of fuel above what the parser has left to read give the same
result of a key/value loop. -/
theorem kv_loop_enough {α : Type}
    (table : List (List Char × (BMFont__Parser → α → BMFont__Parser × α)))
    (ht : ∀ kh ∈ table, HandlerClosed kh.2) (p : BMFont__Parser) (a : α) (f1 f2 : Nat)
    (h1 : remaining p < f1) (h2 : remaining p < f2) :
    kv_loop (dispatch table) f1 p a = kv_loop (dispatch table) f2 p a := by
  have e1 := kv_loop_extra_fuel table ht p a (remaining p + 1) (Nat.lt_succ_self _)
    (f1 - (remaining p + 1))
  have e2 := kv_loop_extra_fuel table ht p a (remaining p + 1) (Nat.lt_succ_self _)
    (f2 - (remaining p + 1))
  have a1 : remaining p + 1 + (f1 - (remaining p + 1)) = f1 := by omega
  have a2 : remaining p + 1 + (f2 - (remaining p + 1)) = f2 := by omega
  rw [a1] at e1
  rw [a2] at e2
  rw [e1, e2]

theorem kv_fuel_enough (p : BMFont__Parser) : remaining p < kv_fuel p := by
  have := remaining_le p
  unfold kv_fuel
  omega

/-- One iteration of a key/value loop run with the bound `kv_fuel`, when the
parser is ready and the token is not the newline. -/
theorem kv_run_step {α : Type}
    (table : List (List Char × (BMFont__Parser → α → BMFont__Parser × α)))
    (ht : ∀ kh ∈ table, HandlerClosed kh.2) (q : BMFont__Parser) (a : α)
    (hr : bmfont__parser_ready q = true)
    (hm : bmfont__match_token_and_advance q ['\n'] = (false, q)) :
    kv_loop (dispatch table) (kv_fuel q) q a
      = kv_loop (dispatch table) (kv_fuel (dispatch table q a).1) (dispatch table q a).1
          (dispatch table q a).2 := by
  have hs := dispatch_strict table ht q a hr
  have hq := remaining_ready q hr
  have hf : kv_fuel q = (q.stream.length + 1) + 1 := rfl
  rw [hf, kv_loop]
  simp only [hr, if_true, hm, Bool.false_eq_true, if_false]
  exact kv_loop_enough table ht _ _ _ _ (by have := hs.2; omega) (kv_fuel_enough _)

theorem render_pairs_length (ps : List (List Char × List Char)) (rest : List Char) :
    (render_pairs ps rest).length = (render_pairs ps []).length + rest.length := by
  induction ps with
  | nil => simp [render_pairs]
  | cons kv ps ih =>
    simp only [render_pairs_cons, pair, List.length_cons, List.length_append, ih]
    omega

theorem render_pairs_width_perm {ps ps' : List (List Char × List Char)} (h : ps.Perm ps') :
    (render_pairs ps []).length = (render_pairs ps' []).length := by
  induction h with
  | nil => rfl
  | cons x _ ih =>
    simp only [render_pairs_cons, pair, List.length_cons, List.length_append, ih]
  | swap x y l =>
    simp only [render_pairs_cons, pair, List.length_cons, List.length_append]
    omega
  | trans _ _ ih1 ih2 => exact ih1.trans ih2

/-- The tokenizer at the pairs of a line. -/
theorem load_pairs (p : BMFont__Parser) (hok : p.ok = true) (heof : p.eof = false) (c : Nat)
    (ps : List (List Char × List Char)) (hw : ∀ kv ∈ ps, is_word kv.1 = true)
    (rest t : List Char) (a b : Nat) :
    bmfont__load_next_token
        { p with stream := render_pairs ps ('\n' :: rest), curr_col := c, next_token := t,
                 start_line := a, start_col := b }
      = (true, pairs_state p c ps rest) := by
  cases ps with
  | nil =>
    exact load_nl_exact
      { p with stream := '\n' :: rest, curr_col := c, next_token := t, start_line := a,
               start_col := b } hok heof rest rfl
  | cons kv ps1 =>
    exact load_key_exact
      { p with stream := render_pairs (kv :: ps1) ('\n' :: rest), curr_col := c,
               next_token := t, start_line := a, start_col := b } hok heof kv.1
      ('=' :: (kv.2 ++ render_pairs ps1 ('\n' :: rest))) (hw kv (List.mem_cons_self _ _)) rfl rfl

theorem get_uint16_token (q : BMFont__Parser) (hok : q.ok = true) (heof : q.eof = false)
    (n : Nat) (hn : n ≤ 65535) (hs : strtol q.next_token = ((n : Int), []))
    (hl : (bmfont__load_next_token q).1 = true) :
    bmfont__get_token_as_uint16_and_advance q = (true, (bmfont__load_next_token q).2, some n) := by
  have hr : bmfont__parser_ready q = true := by
    simp [bmfont__parser_ready, bmfont__parser_ok, hok, heof]
  have hd := do_get_accept q 0 65535 hr n hs (by omega) (by omega)
  simp only [bmfont__get_token_as_uint16_and_advance, hd, hl, to_int16_u16 n hn]

theorem get_uint32_token (q : BMFont__Parser) (hok : q.ok = true) (heof : q.eof = false)
    (n : Nat) (hn : n ≤ 4294967295) (hs : strtol q.next_token = ((n : Int), []))
    (hl : (bmfont__load_next_token q).1 = true) :
    bmfont__get_token_as_uint32_and_advance q
      = (true, (bmfont__load_next_token q).2, some (narrow32 n)) := by
  have hr : bmfont__parser_ready q = true := by
    simp [bmfont__parser_ready, bmfont__parser_ok, hok, heof]
  have hd := do_get_accept q 0 4294967295 hr n hs (by omega) (by omega)
  simp only [bmfont__get_token_as_uint32_and_advance, hd, hl]
  rfl

/-- The handler of a tag on a token its reader accepts, when the next token
can be loaded. -/
theorem char_tag_handler_token (tag : CharTag) :
    ∃ hd, find_handler char_table tag.key = some hd ∧
      ∀ (q : BMFont__Parser), q.ok = true → q.eof = false → ∀ (n : Nat), n ≤ tag.limit →
        strtol q.next_token = ((n : Int), []) → (bmfont__load_next_token q).1 = true →
        ∀ g, hd q g = ((bmfont__load_next_token q).2, tag.store n g) := by
  cases tag
  case id =>
    refine ⟨_, rfl, ?_⟩
    intro q hok heof n hn hs hl g
    simp only [on_u32, get_uint32_token q hok heof n hn hs hl, store_opt, CharTag.store]
  all_goals
    refine ⟨_, rfl, ?_⟩
    intro q hok heof n hn hs hl g
    simp only [on_u16, get_uint16_token q hok heof n hn hs hl, store_opt, CharTag.store]

theorem char_table_miss (k : List Char) (h : char_tag_of k = none) :
    find_handler char_table k = none := by
  apply find_handler_none
  intro hmem
  simp only [char_table, List.map_cons, List.map_nil, List.mem_cons, List.mem_singleton,
    List.not_mem_nil, or_false] at hmem
  rcases hmem with rfl | rfl | rfl | rfl | rfl | rfl | rfl | rfl <;>
    exact absurd h (by decide)

theorem word_ne_mark {w : List Char} (hw : is_word w = true) (c : Char)
    (hc : is_delim c = true) : w ≠ [c] := by
  intro h
  have := is_word_not_delim hw c (by rw [h]; exact List.mem_singleton_self c)
  rw [hc] at this
  exact absurd this (by decide)

theorem pairs_state_ready (p : BMFont__Parser) (hok : p.ok = true) (heof : p.eof = false)
    (c : Nat) (ps : List (List Char × List Char)) (rest : List Char) :
    bmfont__parser_ready (pairs_state p c ps rest) = true := by
  cases ps <;> simp [bmfont__parser_ready, bmfont__parser_ok, pairs_state, at_newline, hok, heof]

/-- A pair of a char line whose key is a tag and whose value the reader
accepts: the body of the key/value loop stores the value and leaves the
tokenizer at the next pair. -/
theorem char_pair_known (p : BMFont__Parser) (hok : p.ok = true) (heof : p.eof = false)
    (c : Nat) (kv : List Char × List Char) (ps : List (List Char × List Char))
    (hw : ∀ x ∈ ps, is_word x.1 = true) (rest : List Char) (tag : CharTag)
    (ht : char_tag_of kv.1 = some tag) (hv : is_word kv.2 = true) (n : Nat)
    (hs : strtol kv.2 = ((n : Int), [])) (hn : n ≤ tag.limit) (g : BMFont_Char) :
    parse_char_body (pairs_state p c (kv :: ps) rest) g
      = (pairs_state p (c + (2 + kv.1.length + kv.2.length)) ps rest,
          char_pair_effect kv g) := by
  obtain ⟨hd, hf, hh⟩ := char_tag_handler_token tag
  have hk : tag.key = kv.1 := char_tag_of_some kv.1 tag ht
  rw [hk] at hf
  have hm := match_key_exact (pairs_state p c (kv :: ps) rest) hok heof kv.1 kv.2
    (render_pairs ps ('\n' :: rest)) hv (delim_start_pairs ps rest) rfl rfl
  have hl := load_pairs p hok heof (c + 1 + kv.1.length + 1 + kv.2.length) ps hw rest
    kv.2 p.curr_line (c + 1 + kv.1.length + 1)
  have hq := hh
    { p with stream := render_pairs ps ('\n' :: rest),
             curr_col := c + 1 + kv.1.length + 1 + kv.2.length,
             next_token := kv.2, start_line := p.curr_line,
             start_col := c + 1 + kv.1.length + 1 } hok heof n hn hs (by rw [hl]) g
  rw [hl] at hq
  have hc : c + 1 + kv.1.length + 1 + kv.2.length = c + (2 + kv.1.length + kv.2.length) := by
    omega
  have he : char_pair_effect kv g = tag.store n g := by
    simp only [char_pair_effect, ht, hs, Int.toNat_ofNat]
  rw [parse_char_body_eq, ← hc, he]
  exact (dispatch_find char_table kv.1 hd hf _ _ rfl hm g).trans hq

/-- The parser in the middle of a pair with an unknown key: the key has been
skipped and the equals sign is the current token. -/
theorem char_pair_skip_key (p : BMFont__Parser) (hok : p.ok = true) (heof : p.eof = false)
    (c : Nat) (kv : List Char × List Char) (ps : List (List Char × List Char))
    (rest : List Char) (hk : is_word kv.1 = true) (ht : char_tag_of kv.1 = none)
    (g : BMFont_Char) :
    parse_char_body (pairs_state p c (kv :: ps) rest) g
      = ({ p with stream := kv.2 ++ render_pairs ps ('\n' :: rest), next_token := ['='],
                  start_line := p.curr_line, start_col := c + 1 + kv.1.length,
                  curr_col := c + 1 + kv.1.length + 1 }, g) := by
  rw [parse_char_body_eq, dispatch_miss char_table _ (char_table_miss kv.1 ht) g]
  have hm := match_other_exact (pairs_state p c (kv :: ps) rest) heof ['=']
    (word_ne_mark hk '=' (by decide))
  have hl := load_eq_exact (pairs_state p c (kv :: ps) rest) hok heof
    (kv.2 ++ render_pairs ps ('\n' :: rest)) rfl
  unfold skip_unknown_pair
  rw [hm, hl]
  rfl

theorem char_pair_skip_value (p : BMFont__Parser) (hok : p.ok = true) (heof : p.eof = false)
    (c : Nat) (v : List Char) (ps : List (List Char × List Char))
    (hw : ∀ x ∈ ps, is_word x.1 = true) (rest : List Char) (hv : is_word v = true)
    (a b : Nat) (g : BMFont_Char) :
    parse_char_body
        { p with stream := v ++ render_pairs ps ('\n' :: rest), next_token := ['='],
                 start_line := a, start_col := b, curr_col := c } g
      = (pairs_state p (c + v.length) ps rest, g) := by
  have hmiss : find_handler char_table ['='] = none := char_table_miss ['='] (by decide)
  rw [parse_char_body_eq, dispatch_miss char_table _ hmiss g]
  have hm := match_same_exact
    { p with stream := v ++ render_pairs ps ('\n' :: rest), next_token := ['='],
             start_line := a, start_col := b, curr_col := c } hok heof ['='] rfl
  have hl := load_word_exact
    { p with stream := v ++ render_pairs ps ('\n' :: rest), next_token := ['='],
             start_line := a, start_col := b, curr_col := c } hok heof v
    (render_pairs ps ('\n' :: rest)) hv (delim_start_pairs ps rest) rfl
  have hl2 := load_pairs p hok heof (c + v.length) ps hw rest v p.curr_line c
  unfold skip_unknown_pair
  rw [hm, hl]
  simp only
  exact congrArg (fun s => (s, g)) (congrArg Prod.snd hl2)

/-- The key/value loop of a char record over the pairs of its line, up to the
newline: the glyph receives the changes of the pairs in their order. -/
theorem char_pairs_run (p : BMFont__Parser) (hok : p.ok = true) (heof : p.eof = false)
    (rest : List Char) :
    ∀ (ps : List (List Char × List Char)) (c : Nat) (g : BMFont_Char),
      (∀ kv ∈ ps, char_pair_valid kv) →
      kv_loop parse_char_body (kv_fuel (pairs_state p c ps rest)) (pairs_state p c ps rest) g
        = kv_loop parse_char_body
            (kv_fuel (at_newline p (c + (render_pairs ps []).length) rest))
            (at_newline p (c + (render_pairs ps []).length) rest) (apply_pairs g ps) := by
  intro ps
  induction ps with
  | nil =>
    intro c g _
    rfl
  | cons kv ps ih =>
    intro c g hv
    have hvk := hv kv (List.mem_cons_self _ _)
    have hvs : ∀ x ∈ ps, char_pair_valid x := fun x hx => hv x (List.mem_cons_of_mem _ hx)
    have hw : ∀ x ∈ ps, is_word x.1 = true := fun x hx => (hvs x hx).1
    have hr := pairs_state_ready p hok heof c (kv :: ps) rest
    have hm := match_other_exact (pairs_state p c (kv :: ps) rest) heof ['\n']
      (word_ne_mark hvk.1 '\n' (by decide))
    have hwid : c + (2 + kv.1.length + kv.2.length) + (render_pairs ps []).length
        = c + (render_pairs (kv :: ps) []).length := by
      simp only [render_pairs_cons, pair, List.length_cons, List.length_append]
      omega
    have hstep := kv_run_step char_table char_table_closed (pairs_state p c (kv :: ps) rest) g
      hr hm
    rw [← parse_char_body_eq] at hstep
    rw [hstep]
    cases ht : char_tag_of kv.1 with
    | some tag =>
      obtain ⟨n, hs, hn⟩ := hvk.2.2 tag ht
      rw [char_pair_known p hok heof c kv ps hw rest tag ht hvk.2.1 n hs hn g]
      simp only
      rw [ih _ _ hvs, hwid]
      rfl
    | none =>
      rw [char_pair_skip_key p hok heof c kv ps rest hvk.1 ht g]
      simp only
      have hr2 : bmfont__parser_ready
          { p with stream := kv.2 ++ render_pairs ps ('\n' :: rest), next_token := ['='],
                   start_line := p.curr_line, start_col := c + 1 + kv.1.length,
                   curr_col := c + 1 + kv.1.length + 1 } = true := by
        simp [bmfont__parser_ready, bmfont__parser_ok, hok, heof]
      have hm2 := match_other_exact
        { p with stream := kv.2 ++ render_pairs ps ('\n' :: rest), next_token := ['='],
                 start_line := p.curr_line, start_col := c + 1 + kv.1.length,
                 curr_col := c + 1 + kv.1.length + 1 } heof ['\n']
        (by decide : ['='] ≠ ['\n'])
      have hstep2 := kv_run_step char_table char_table_closed _ g hr2 hm2
      rw [← parse_char_body_eq] at hstep2
      rw [hstep2, char_pair_skip_value p hok heof (c + 1 + kv.1.length + 1) kv.2 ps hw rest
        hvk.2.1 p.curr_line (c + 1 + kv.1.length) g]
      simp only
      have hc : c + 1 + kv.1.length + 1 + kv.2.length = c + (2 + kv.1.length + kv.2.length) := by
        omega
      have he : char_pair_effect kv g = g := by
        simp only [char_pair_effect, ht]
      rw [hc, ih _ _ hvs, hwid]
      show _ = kv_loop parse_char_body _ _ (apply_pairs (char_pair_effect kv g) ps)
      rw [he]

theorem char_pair_effect_comm (x y : List Char × List Char) (h : x.1 ≠ y.1) (g : BMFont_Char) :
    char_pair_effect y (char_pair_effect x g) = char_pair_effect x (char_pair_effect y g) := by
  unfold char_pair_effect
  cases hx : char_tag_of x.1 with
  | none => rfl
  | some t1 =>
    cases hy : char_tag_of y.1 with
    | none => rfl
    | some t2 =>
      have hne : t1 ≠ t2 := by
        intro he
        apply h
        rw [← char_tag_of_some x.1 t1 hx, ← char_tag_of_some y.1 t2 hy, he]
      exact char_tag_store_comm t1 t2 hne _ _ g

theorem char_pair_effect_idem (x : List Char × List Char) (g : BMFont_Char) :
    char_pair_effect x (char_pair_effect x g) = char_pair_effect x g := by
  unfold char_pair_effect
  cases char_tag_of x.1 with
  | none => rfl
  | some t => exact char_tag_store_idem t _ g

theorem apply_pairs_perm {ps ps' : List (List Char × List Char)} (hperm : ps.Perm ps')
    (hkeys : (ps.map Prod.fst).Nodup) (g : BMFont_Char) :
    apply_pairs g ps = apply_pairs g ps' := by
  unfold apply_pairs
  apply List.Perm.foldl_eq' hperm
  intro x hx y hy z
  by_cases hxy : x.1 = y.1
  · have : x = y := List.inj_on_of_nodup_map hkeys hx hy hxy
    rw [this]
  · exact char_pair_effect_comm x y hxy z

theorem apply_pairs_holds {ps : List (List Char × List Char)}
    (hkeys : (ps.map Prod.fst).Nodup) (g : BMFont_Char) (kv : List Char × List Char)
    (hkv : kv ∈ ps) : char_pair_effect kv (apply_pairs g ps) = apply_pairs g ps := by
  obtain ⟨l, hl⟩ : ∃ l, ps.Perm (l ++ [kv]) := by
    obtain ⟨s, t, rfl⟩ := List.append_of_mem hkv
    exact ⟨s ++ t, by
      have : (s ++ kv :: t).Perm (kv :: (s ++ t)) := List.perm_middle
      exact this.trans (List.perm_append_singleton kv (s ++ t)).symm⟩
  rw [apply_pairs_perm hl hkeys g]
  unfold apply_pairs
  rw [List.foldl_append]
  simp only [List.foldl_cons, List.foldl_nil]
  exact char_pair_effect_idem _ _

/-- The keyword `char` in front of the pairs of a line is matched and the
tokenizer is left at the first pair. -/
theorem match_char_pairs (p : BMFont__Parser) (hok : p.ok = true) (heof : p.eof = false)
    (htok : p.next_token = "char".toList) (ps : List (List Char × List Char))
    (hw : ∀ kv ∈ ps, is_word kv.1 = true) (rest : List Char) :
    bmfont__match_token_and_advance { p with stream := render_pairs ps ('\n' :: rest) }
        "char".toList = (true, pairs_state p p.curr_col ps rest) :=
  (match_same_exact { p with stream := render_pairs ps ('\n' :: rest) } hok heof
    "char".toList htok).trans
    (load_pairs p hok heof p.curr_col ps hw rest p.next_token p.start_line p.start_col)

/-- A char record read from a line of valid pairs: the glyph holds the changes
of the pairs, and the parser is the one that continues from the newline
reached at the column after the pairs. -/
theorem read_char_record_valid (p : BMFont__Parser) (hok : p.ok = true) (heof : p.eof = false)
    (htok : p.next_token = "char".toList) (ps : List (List Char × List Char))
    (hv : ∀ kv ∈ ps, char_pair_valid kv) (rest : List Char) (g : BMFont_Char) :
    read_char_record { p with stream := render_pairs ps ('\n' :: rest) } g
      = ((kv_loop parse_char_body 2
            (at_newline p (p.curr_col + (render_pairs ps []).length) rest)
            (apply_pairs g ps)).1,
          apply_pairs g ps) := by
  have hml := match_char_pairs p hok heof htok ps (fun kv hkv => (hv kv hkv).1) rest
  have hn := char_loop_at_newline
    (at_newline p (p.curr_col + (render_pairs ps []).length) rest) hok heof rfl
    (apply_pairs g ps) rest.length
  unfold read_char_record
  rw [hml]
  simp only
  rw [char_pairs_run p hok heof rest ps p.curr_col g hv]
  have hf : kv_fuel (at_newline p (p.curr_col + (render_pairs ps []).length) rest)
      = rest.length + 2 := rfl
  rw [hf, hn.1]
  exact Prod.ext rfl hn.2

/-- The final value of the loop variable of `bmfont__parse_pages` is its start
value plus the number of `page` keywords matched, when the function has not
returned from inside the loop. -/
theorem pages_loop_matched : ∀ (n i : Nat) (p : BMFont__Parser) (f : BMFont),
    (parse_pages_loop n i p f).2.1 = false →
      (parse_pages_loop n i p f).1 = i + pages_matched n i p f := by
  intro n
  induction n with
  | zero => intro i p f _; rfl
  | succ n ih =>
    intro i p f
    rw [parse_pages_loop, pages_matched]
    cases hm : (bmfont__match_token_and_advance p "page".toList).1 with
    | false => intro _; rfl
    | true =>
      simp only [Bool.not_true, Bool.false_eq_true, if_false]
      generalize kv_loop parse_page_body
        (kv_fuel (bmfont__match_token_and_advance p "page".toList).2)
        (bmfont__match_token_and_advance p "page".toList).2 (0, none) = r
      cases hf : r.2.2 with
      | none => intro h; simp at h
      | some filename =>
        simp only
        intro h
        rw [ih _ _ _ h]
        omega

/-- The final value of the loop variable of `bmfont__parse_chars` is its start
value plus the number of `char` keywords matched. -/
theorem chars_loop_matched : ∀ (n i : Nat) (p : BMFont__Parser) (f : BMFont),
    (parse_chars_loop n i p f).1 = i + chars_matched n i p f := by
  intro n
  induction n with
  | zero => intro i p f; rfl
  | succ n ih =>
    intro i p f
    rw [parse_chars_loop, chars_matched]
    cases hm : (bmfont__match_token_and_advance p "char".toList).1 with
    | false => rfl
    | true =>
      simp only [Bool.not_true, Bool.false_eq_true, if_false]
      cases hc : f.chars with
      | none =>
        simp only
        rw [ih]
        omega
      | some cs =>
        simp only
        by_cases hlt : i < cs.length
        · simp only [hlt, if_true]
          rw [ih]
          omega
        · simp only [hlt, if_false]
          rw [ih]
          omega

/-- The final value of the loop variable of `bmfont__parse_kernings` is its
start value plus the number of `kerning` keywords matched. -/
theorem kernings_loop_matched : ∀ (n i : Nat) (p : BMFont__Parser) (f : BMFont),
    (parse_kernings_loop n i p f).1 = i + kernings_matched n i p f := by
  intro n
  induction n with
  | zero => intro i p f; rfl
  | succ n ih =>
    intro i p f
    rw [parse_kernings_loop, kernings_matched]
    cases hm : (bmfont__match_token_and_advance p "kerning".toList).1 with
    | false => rfl
    | true =>
      simp only [Bool.not_true, Bool.false_eq_true, if_false]
      cases hc : f.kernings with
      | none =>
        simp only
        rw [ih]
        omega
      | some ks =>
        simp only
        by_cases hlt : i < ks.length
        · simp only [hlt, if_true]
          rw [ih]
          omega
        · simp only [hlt, if_false]
          rw [ih]
          omega

theorem pages_read_matched (p : BMFont__Parser) (f : BMFont)
    (hok : (bmfont__parse_pages p f).2.1.ok = true) :
    (bmfont__parse_pages p f).2.1.pages_read = pages_matched f.num_pages 0 p f := by
  have hl := pages_loop_matched f.num_pages 0 p f
  have hs := (pages_loop_spec f.num_pages 0 p f).2.2.2.2.2
  unfold bmfont__parse_pages at hok ⊢
  generalize parse_pages_loop f.num_pages 0 p f = r at hl hs hok ⊢
  simp only at hok ⊢
  cases hin : r.2.1 with
  | true =>
    simp only [hin, if_true] at hok
    have := hs hin
    have hok2 : r.2.2.1.ok = true := hok
    rw [this] at hok2
    exact absurd hok2 (by decide)
  | false =>
    simp only [hin, Bool.false_eq_true, if_false] at hok ⊢
    have h1 := hl hin
    split at hok
    · simp [bmfont__set_parser_error] at hok
    · rename_i hne
      simp only [hne, if_false]
      show r.1 = _
      omega

theorem chars_read_matched (p : BMFont__Parser) (f : BMFont)
    (hok : (bmfont__parse_chars p f).2.1.ok = true) :
    (bmfont__parse_chars p f).2.1.chars_read = chars_section_matched p f := by
  unfold bmfont__parse_chars chars_section_matched at *
  simp only at hok ⊢
  cases he : (bmfont__expect_token_and_advance p "chars".toList).1 with
  | false =>
    simp only [he, Bool.not_false, if_true] at hok
    rw [expect_false_ok p _ he] at hok
    exact absurd hok (by decide)
  | true =>
    simp only [he, Bool.not_true, Bool.false_eq_true, if_false] at hok ⊢
    generalize kv_loop parse_chars_count_body
      (kv_fuel (bmfont__expect_token_and_advance p "chars".toList).2)
      (bmfont__expect_token_and_advance p "chars".toList).2 f = hd at hok ⊢
    have hl := chars_loop_matched hd.2.num_chars 0 hd.1 hd.2
    generalize parse_chars_loop hd.2.num_chars 0 hd.1 hd.2 = r at hl hok ⊢
    split at hok
    · simp [bmfont__set_parser_error] at hok
    · rename_i hne
      simp only [hne, if_false]
      show r.1 = _
      omega

theorem kernings_read_matched (p : BMFont__Parser) (f : BMFont)
    (hr : bmfont__parser_ready p = true)
    (hok : (bmfont__parse_kernings p f).2.1.ok = true) :
    (bmfont__parse_kernings p f).2.1.kernings_read = kernings_section_matched p f := by
  unfold bmfont__parse_kernings kernings_section_matched at *
  simp only [hr, Bool.not_true, Bool.false_eq_true, if_false] at hok ⊢
  generalize kv_loop parse_kernings_count_body
    (kv_fuel (bmfont__expect_token_and_advance p "kernings".toList).2)
    (bmfont__expect_token_and_advance p "kernings".toList).2 f = hd at hok ⊢
  have hl := kernings_loop_matched hd.2.num_kernings 0 hd.1 hd.2
  generalize parse_kernings_loop hd.2.num_kernings 0 hd.1 hd.2 = r at hl hok ⊢
  split at hok
  · simp [bmfont__set_parser_error] at hok
  · rename_i hne
    simp only [hne, if_false]
    show r.1 = _
    omega

/-- On a successful chain of section parsers the three loop variables, kept in
`pages_read`, `chars_read` and `kernings_read`, are the numbers of keywords the
record loops matched. -/
theorem sections_matched (p : BMFont__Parser) (hk : p.kernings_read = 0)
    (hok : (parse_sections p empty_font).2.1.ok = true) :
    records_matched_from p
      = ((parse_sections p empty_font).2.1.pages_read,
          (parse_sections p empty_font).2.1.chars_read,
          (parse_sections p empty_font).2.1.kernings_read) := by
  obtain ⟨r1, r2, r3, r4, e1, _, e2, _, e3, _, e4, _, ⟨_, _, o3, o4⟩, hps, _⟩ :=
    sections_each_true p hok
  rw [hps] at hok ⊢
  have s1 := info_spec p empty_font
  rw [← e1] at s1
  have b1 : page_part r1.2.2 = page_part empty_font := congrArg (fun c => c.1) s1.2.2
  have b2 : char_part r1.2.2 = char_part empty_font := congrArg (fun c => c.2.1) s1.2.2
  have b3 : kern_part r1.2.2 = kern_part empty_font := congrArg (fun c => c.2.2) s1.2.2
  have k1 : r1.2.1.kernings_read = p.kernings_read := congrArg (fun c => c.2.2) s1.2.1
  have s2 := common_spec r1.2.1 r1.2.2 (sized_pages_of_part b1 rfl)
  rw [← e2] at s2
  have k2 : r2.2.1.kernings_read = r1.2.1.kernings_read := congrArg (fun c => c.2.2) s2.2.1
  have s3 := pages_spec r2.2.1 r2.2.2 s2.2.2.1
  rw [← e3] at s3
  have hsc : sized_chars r3.2.2 :=
    sized_chars_of_part (s3.2.2.2.1.trans (s2.2.2.2.1.trans b2)) rfl
  have s4 := chars_spec r3.2.1 r3.2.2 hsc
  rw [← e4] at s4
  have hsk : sized_kernings r4.2.2 :=
    sized_kernings_of_part
      (s4.2.2.2.2.1.trans (s3.2.2.2.2.1.trans (s2.2.2.2.2.trans b3))) rfl
  have hp3 : r3.2.1.pages_read = pages_matched r2.2.2.num_pages 0 r2.2.1 r2.2.2 := by
    have := pages_read_matched r2.2.1 r2.2.2 (by rw [← e3]; exact o3)
    rw [← e3] at this
    exact this
  have hc4 : r4.2.1.chars_read = chars_section_matched r3.2.1 r3.2.2 := by
    have := chars_read_matched r3.2.1 r3.2.2 (by rw [← e4]; exact o4)
    rw [← e4] at this
    exact this
  have hp4 : r4.2.1.pages_read = r3.2.1.pages_read := s4.2.1
  have hk4 : r4.2.1.kernings_read = 0 := by
    rw [s4.2.2.1, s3.2.2.1, k2, k1, hk]
  have hm : records_matched_from p
      = (pages_matched r2.2.2.num_pages 0 r2.2.1 r2.2.2, chars_section_matched r3.2.1 r3.2.2,
          kernings_section_matched r4.2.1 r4.2.2) := by
    unfold records_matched_from
    simp only
    rw [← e1, ← e2, ← e3, ← e4]
  rw [hm, ← hp3, ← hp4, ← hc4]
  cases hr : bmfont__parser_ready r4.2.1 with
  | false =>
    rw [kernings_absent _ _ hr]
    have hz : kernings_section_matched r4.2.1 r4.2.2 = 0 := by
      simp [kernings_section_matched, hr]
    rw [hz, hk4]
  | true =>
    have s5 := kernings_spec r4.2.1 r4.2.2 hsk hr
    have h5 := kernings_read_matched r4.2.1 r4.2.2 hr hok
    rw [s5.1, s5.2.1, h5]

/-! ## Claims -/

/-- C1 (corrected): for every input on which `bmfont_parse_file` returns a
font, the page-name block has exactly `num_pages` slots and the record loop of
`bmfont__parse_pages` started exactly `num_pages` records, each by matching
one `page` keyword of the stream; the glyph block has exactly `num_chars`
entries and the char loop started exactly `num_chars` records, each by
matching one `char` keyword; the kerning block has exactly `num_kernings`
entries and the kerning loop started exactly `num_kernings` records, each by
matching one `kerning` keyword; when the stream is at its end as
`bmfont__parse_kernings` is entered (no kernings section), `num_kernings` is 0
and the kerning block is the empty, non-null one. The final values of the loop
variables `i`, kept in `pages_read`, `chars_read` and `kernings_read`, are
these numbers. The number of lines of the input that begin with the keyword
can be larger, since a record can read on past the end of its line. -/
theorem c1_collection_sizes (input : List Char) (f : BMFont)
    (h : (bmfont_parse_file input).returned = some f) :
    slots f.page_names = f.num_pages ∧
      (bmfont_parse_file input).parser.pages_read = f.num_pages ∧
      slots f.chars = f.num_chars ∧
      (bmfont_parse_file input).parser.chars_read = f.num_chars ∧
      slots f.kernings = f.num_kernings ∧
      (bmfont_parse_file input).parser.kernings_read = f.num_kernings ∧
      (kernings_section_absent input → f.num_kernings = 0 ∧ f.kernings = some []) ∧
      records_matched input = (f.num_pages, f.num_chars, f.num_kernings) := by
  obtain ⟨hok, hp, hf⟩ := parse_file_returned input f h
  have hk : (bmfont__load_next_token (parser_at_start input)).2.kernings_read = 0 :=
    congrArg (fun c => c.2.2) (counters_load (parser_at_start input))
  have hs := sections_spec (bmfont__load_next_token (parser_at_start input)).2 hk hok
  have hm := sections_matched (bmfont__load_next_token (parser_at_start input)).2 hk hok
  rw [hp, hf]
  refine ⟨hs.1, hs.2.1, hs.2.2.1, hs.2.2.2.1, hs.2.2.2.2.1, hs.2.2.2.2.2.1, hs.2.2.2.2.2.2, ?_⟩
  unfold records_matched
  rw [hm, hs.2.1, hs.2.2.2.1, hs.2.2.2.2.2.1]

/-- C1, at the two-page document without chars and kernings: a font is
returned, the kernings section is absent, the sizes are as stated, and the
record loops started two page records, no char record and no kerning record. -/
theorem c1_two_pages_no_kernings :
    (bmfont_parse_file (render (doc_with_pages 2 none))).returned
        = some (parsed_font (doc_with_pages 2 none)) ∧
      kernings_section_absent (render (doc_with_pages 2 none)) ∧
      slots (parsed_font (doc_with_pages 2 none)).page_names = 2 ∧
      (bmfont_parse_file (render (doc_with_pages 2 none))).parser.pages_read = 2 ∧
      (parsed_font (doc_with_pages 2 none)).num_kernings = 0 ∧
      (parsed_font (doc_with_pages 2 none)).kernings = some [] ∧
      records_matched (render (doc_with_pages 2 none)) = (2, 0, 0) := by
  have hwf : (doc_with_pages 2 none).well_formed :=
    many_pages_well_formed 2 (by omega) none (Or.inl rfl)
  obtain ⟨q, hrun, _⟩ := parse_well_formed (doc_with_pages 2 none) hwf
  have hret : (bmfont_parse_file (render (doc_with_pages 2 none))).returned
      = some (parsed_font (doc_with_pages 2 none)) := by rw [hrun]
  have habs := (absent_iff_no_kernings (doc_with_pages 2 none) hwf).2 rfl
  have hc := c1_collection_sizes (render (doc_with_pages 2 none))
    (parsed_font (doc_with_pages 2 none)) hret
  have hn : (parsed_font (doc_with_pages 2 none)).num_pages = 2 := rfl
  exact ⟨hret, habs, hc.1.trans hn, hc.2.1.trans hn, (hc.2.2.2.2.2.2.1 habs).1,
    (hc.2.2.2.2.2.2.1 habs).2, hc.2.2.2.2.2.2.2⟩

set_option maxRecDepth 100000 in
/-- C1 as stated fails when records are counted as lines of the input: a
document declares one page, one glyph and one kerning and has two lines that
begin with `page`, two that begin with `char` and two that begin with
`kerning`; it is parsed successfully, inside defined behaviour and up to the
end of the input, each record loop starts one record, and each collection has
one entry. The record that starts at `page foo=`, `char foo=` or
`kerning foo=` reads on through the line that follows. -/
theorem c1_lines_exceed_counts :
    (bmfont_parse_file document_lines_exceed_counts).returned.map
        (fun f => (f.num_pages, slots f.page_names, f.num_chars, slots f.chars,
          f.num_kernings, slots f.kernings))
      = some (1, 1, 1, 1, 1, 1) ∧
      records_matched document_lines_exceed_counts = (1, 1, 1) ∧
      keyword_lines "page".toList document_lines_exceed_counts = 2 ∧
      keyword_lines "char".toList document_lines_exceed_counts = 2 ∧
      keyword_lines "kerning".toList document_lines_exceed_counts = 2 ∧
      (bmfont_parse_file document_lines_exceed_counts).parser.eof = true ∧
      (bmfont_parse_file document_lines_exceed_counts).clean = true := by
  decide

/-- C2 (code_bug): on every well-formed document `bmfont_parse_file` returns,
in the model, a font whose `font_name`, `font_size`, `line_height`, `base`,
`scale_w`, `scale_h`, `num_pages`, `num_chars` and `num_kernings` are the
values written in the document; the run stays inside defined behaviour exactly
when every page id is below 32768. With 32769 or more page lines a page id of
32768 or more is narrowed through `int16_t` by the `uint32_t` overload and
`page_names[id]` is stored outside the block, so the C++ parse of such a
well-formed document does not succeed. -/
theorem c2_well_formed_document_fields (d : Doc) (hd : d.well_formed) :
    ∃ f, (bmfont_parse_file (render d)).returned = some f ∧
      f.font_name = some d.face ∧ f.font_size = d.size ∧ f.line_height = d.lineHeight ∧
      f.base = d.base ∧ f.scale_w = d.scaleW ∧ f.scale_h = d.scaleH ∧
      f.num_pages = d.pages.length ∧ f.num_chars = d.chars.length ∧
      f.num_kernings = (d.kernings.getD []).length ∧
      ((bmfont_parse_file (render d)).clean = true ↔ ∀ pg ∈ d.pages, pg.id < 32768) := by
  obtain ⟨q, hrun, hq⟩ := parse_well_formed d hd
  refine ⟨parsed_font d, by rw [hrun], rfl, rfl, rfl, rfl, rfl, rfl, rfl, rfl, rfl, ?_⟩
  rw [hrun, clean_of_good hq, ← pages_oob_iff d.pages.length hd.pages_count d.pages hd.page_ids]
  simp

/-- C2, at a well-formed document with 32769 page lines: the run leaves defined
behaviour. -/
theorem c2_many_pages_not_clean :
    (doc_with_pages 32769 (some [])).well_formed ∧
      (bmfont_parse_file (render (doc_with_pages 32769 (some [])))).clean = false := by
  have hwf : (doc_with_pages 32769 (some [])).well_formed :=
    many_pages_well_formed 32769 (by omega) (some []) (Or.inr rfl)
  refine ⟨hwf, ?_⟩
  obtain ⟨f, _, _, _, _, _, _, _, _, _, _, hclean⟩ :=
    c2_well_formed_document_fields (doc_with_pages 32769 (some [])) hwf
  obtain ⟨pg, hpg, hwide⟩ := many_pages_has_wide_id 32769 (by omega) (some [])
  cases hc : (bmfont_parse_file (render (doc_with_pages 32769 (some [])))).clean with
  | false => rfl
  | true => exact absurd (hclean.1 hc pg hpg) hwide

/-- C3 (code_bug): on every well-formed document the glyph collection of the
returned font has one entry per char line, and glyph `i` has `x`, `y`, `width`,
`height`, `x_offset`, `y_offset` and `x_advance` equal to the values written on
the `i`-th char line; its `id` is the written id narrowed through `int16_t`
and converted to `uint32_t`, which is the written id only when that is below
32768 or at least 4294934528. -/
theorem c3_glyph_fields (d : Doc) (hd : d.well_formed) :
    ∃ f gl, (bmfont_parse_file (render d)).returned = some f ∧ f.chars = some gl ∧
      gl.length = d.chars.length ∧
      ∀ (i : Nat) (c : CharLine), d.chars[i]? = some c →
        ∃ g, gl[i]? = some g ∧ g.x = c.x ∧ g.y = c.y ∧ g.width = c.width ∧
          g.height = c.height ∧ g.x_offset = c.xoffset ∧ g.y_offset = c.yoffset ∧
          g.x_advance = c.xadvance ∧ g.id = narrow32 c.id ∧
          (g.id = c.id ↔ c.id < 32768 ∨ 4294934528 ≤ c.id) := by
  obtain ⟨q, hrun, _⟩ := parse_well_formed d hd
  refine ⟨parsed_font d, d.chars.map (apply_char default), by rw [hrun], rfl, by simp, ?_⟩
  intro i c hc
  have hr := hd.chars c (List.getElem?_mem hc)
  refine ⟨apply_char default c, by simp [hc], ?_⟩
  simp only [apply_char, true_and]
  exact narrow32_eq_iff c.id hr.1

/-- C3, at a well-formed document whose char line has `id=70000`: the glyph id
of the returned font is 4464. -/
theorem c3_wide_glyph_id_narrowed :
    doc_wide_glyph_id.well_formed ∧
      ∃ f gl g, (bmfont_parse_file (render doc_wide_glyph_id)).returned = some f ∧
        f.chars = some gl ∧ gl[0]? = some g ∧ g.id = 4464 := by
  refine ⟨doc_wide_glyph_id_well_formed, ?_⟩
  obtain ⟨f, gl, h1, h2, _, h4⟩ := c3_glyph_fields doc_wide_glyph_id doc_wide_glyph_id_well_formed
  obtain ⟨g, hg, _, _, _, _, _, _, _, hid, _⟩ := h4 0 _ rfl
  refine ⟨f, gl, g, h1, h2, hg, ?_⟩
  rw [hid]
  decide

/-- C4 (code_bug): on every well-formed document with a kernings section the
kerning collection of the returned font has one entry per kerning line, in
file order, and kerning `j` has `amount` equal to the value written on the
`j`-th kerning line; its `first` and `second` are the written values narrowed
through `int16_t` and converted to `uint32_t`, which are the written values
only when those are below 32768 or at least 4294934528. -/
theorem c4_kerning_fields (d : Doc) (hd : d.well_formed) (ks : List KerningLine)
    (hks : d.kernings = some ks) :
    ∃ f kl, (bmfont_parse_file (render d)).returned = some f ∧ f.kernings = some kl ∧
      kl.length = ks.length ∧
      ∀ (j : Nat) (l : KerningLine), ks[j]? = some l →
        ∃ k, kl[j]? = some k ∧ k.amount = l.amount ∧
          k.first = narrow32 l.first ∧ k.second = narrow32 l.second ∧
          (k.first = l.first ↔ l.first < 32768 ∨ 4294934528 ≤ l.first) ∧
          (k.second = l.second ↔ l.second < 32768 ∨ 4294934528 ≤ l.second) := by
  obtain ⟨q, hrun, _⟩ := parse_well_formed d hd
  refine ⟨parsed_font d, ks.map (apply_kerning default), by rw [hrun],
    by simp [parsed_font, hks], by simp, ?_⟩
  intro j l hl
  have hr := hd.kernings ks hks l (List.getElem?_mem hl)
  refine ⟨apply_kerning default l, by simp [hl], ?_⟩
  simp only [apply_kerning, true_and]
  exact ⟨narrow32_eq_iff l.first hr.1, narrow32_eq_iff l.second hr.2.1⟩

/-- C4, at a well-formed document whose kerning line has `first=40000`: the
`first` of the returned kerning is 4294941760. -/
theorem c4_wide_kerning_id_narrowed :
    doc_wide_kerning_id.well_formed ∧
      ∃ f kl k, (bmfont_parse_file (render doc_wide_kerning_id)).returned = some f ∧
        f.kernings = some kl ∧ kl[0]? = some k ∧ k.first = 4294941760 ∧ k.second = 34 ∧
        k.amount = -4 := by
  refine ⟨doc_wide_kerning_id_well_formed, ?_⟩
  obtain ⟨f, kl, h1, h2, _, h4⟩ :=
    c4_kerning_fields doc_wide_kerning_id doc_wide_kerning_id_well_formed _ rfl
  obtain ⟨k, hk, ha, hf, hs, _, _⟩ := h4 0 _ rfl
  refine ⟨f, kl, k, h1, h2, hk, ?_, ?_, ha⟩
  · rw [hf]; decide
  · rw [hs]; decide

/-- C5 (code_bug): on every well-formed document that ends right after its
last char line `bmfont_parse_file` returns, in the model, a font with
`num_kernings = 0` and an empty, non-null kerning collection, and every other
field is as in the font returned for the same document followed by any
kernings section; the run stays inside defined behaviour exactly when every
page id is below 32768 (with 32769 or more page lines the store
`page_names[id]` of a narrowed id is out of bounds). -/
theorem c5_no_kernings_section (d : Doc) (hd : d.well_formed) (hnone : d.kernings = none) :
    ∃ f, (bmfont_parse_file (render d)).returned = some f ∧
      f.num_kernings = 0 ∧ f.kernings = some [] ∧
      (∀ ks : List KerningLine, ks.length ≤ 65535 → (∀ k ∈ ks, k.in_range) →
        ∃ f1, (bmfont_parse_file (render { d with kernings := some ks })).returned = some f1 ∧
          f = { f1 with num_kernings := 0, kernings := some [] }) ∧
      ((bmfont_parse_file (render d)).clean = true ↔ ∀ pg ∈ d.pages, pg.id < 32768) := by
  obtain ⟨q, hrun, hq⟩ := parse_well_formed d hd
  refine ⟨parsed_font d, by rw [hrun], by simp [parsed_font, hnone],
    by simp [parsed_font, hnone], ?_, ?_⟩
  · intro ks hlen hks
    have hd1 : Doc.well_formed { d with kernings := some ks } := by
      constructor
      · exact hd.face
      · exact hd.size_lo
      · exact hd.size_hi
      · exact hd.lineHeight
      · exact hd.base
      · exact hd.scaleW
      · exact hd.scaleH
      · exact hd.pages_count
      · exact hd.page_ids
      · exact hd.page_ids_distinct
      · exact hd.page_files
      · exact hd.chars_count
      · exact hd.chars
      · intro l hl
        simp only [Option.some.injEq] at hl
        subst hl; exact hlen
      · intro l hl
        simp only [Option.some.injEq] at hl
        subst hl; exact hks
    obtain ⟨q1, hrun1, _⟩ := parse_well_formed _ hd1
    refine ⟨_, by rw [hrun1], ?_⟩
    simp [parsed_font, hnone]
  · rw [hrun, clean_of_good hq, ← pages_oob_iff d.pages.length hd.pages_count d.pages hd.page_ids]
    simp

/-- C5, at a well-formed document with 32769 page lines and no kernings
section: the run leaves defined behaviour. -/
theorem c5_many_pages_not_clean :
    (doc_with_pages 32769 none).well_formed ∧
      (bmfont_parse_file (render (doc_with_pages 32769 none))).clean = false := by
  have hwf : (doc_with_pages 32769 none).well_formed :=
    many_pages_well_formed 32769 (by omega) none (Or.inl rfl)
  refine ⟨hwf, ?_⟩
  obtain ⟨f, _, _, _, _, hclean⟩ := c5_no_kernings_section (doc_with_pages 32769 none) hwf rfl
  obtain ⟨pg, hpg, hwide⟩ := many_pages_has_wide_id 32769 (by omega) none
  cases hc : (bmfont_parse_file (render (doc_with_pages 32769 none))).clean with
  | false => rfl
  | true => exact absurd (hclean.1 hc pg hpg) hwide

/-- C6 (code_bug): a document that declares more page lines, char lines or
kerning lines than it supplies, the supplied records being well-formed and
followed by the end of the input or (pages, chars) by the next section header,
makes `bmfont_parse_file` return no font in the model, and the error string
afterwards is `Fewer pages|chars|kernings than specified in file. Expected: N,
actual: k`; the run stays inside defined behaviour exactly when every supplied
page id is below 32768 (a page id of 32768 or more, well-formed for a font
that declares more than 32768 pages, is narrowed through `int16_t` and stored
out of bounds before the count is compared). -/
theorem c6_too_few_records :
    (∀ (d : Doc) (declared : Nat) (rest : List Char), d.preamble_ok → d.pages_ok declared →
      d.pages.length < declared → declared ≤ 65535 → ends_or_continues "chars".toList rest →
      (bmfont_parse_file (render_upto_pages d declared rest)).returned = none ∧
      bmfont_get_error_string (bmfont_parse_file (render_upto_pages d declared rest))
        = msg_fewer "pages".toList declared d.pages.length ∧
      ((bmfont_parse_file (render_upto_pages d declared rest)).clean = true
        ↔ ∀ pg ∈ d.pages, pg.id < 32768)) ∧
    (∀ (d : Doc) (declared : Nat) (rest : List Char), d.preamble_ok →
      d.pages_ok d.pages.length → d.pages.length ≤ 65535 → (∀ c ∈ d.chars, c.in_range) →
      d.chars.length < declared → declared ≤ 65535 →
      ends_or_continues "kernings".toList rest →
      (bmfont_parse_file (render_upto_chars d declared rest)).returned = none ∧
      bmfont_get_error_string (bmfont_parse_file (render_upto_chars d declared rest))
        = msg_fewer "chars".toList declared d.chars.length ∧
      ((bmfont_parse_file (render_upto_chars d declared rest)).clean = true
        ↔ ∀ pg ∈ d.pages, pg.id < 32768)) ∧
    (∀ (d : Doc) (ks : List KerningLine) (declared : Nat), d.preamble_ok →
      d.pages_ok d.pages.length → d.pages.length ≤ 65535 → (∀ c ∈ d.chars, c.in_range) →
      d.chars.length ≤ 65535 → (∀ k ∈ ks, k.in_range) →
      ks.length < declared → declared ≤ 65535 →
      (bmfont_parse_file (render_upto_kernings d ks declared [])).returned = none ∧
      bmfont_get_error_string (bmfont_parse_file (render_upto_kernings d ks declared []))
        = msg_fewer "kernings".toList declared ks.length ∧
      ((bmfont_parse_file (render_upto_kernings d ks declared [])).clean = true
        ↔ ∀ pg ∈ d.pages, pg.id < 32768)) :=
  ⟨fun d declared rest hd hp hlt hdec hr => too_few_pages d declared rest hd hp hlt hdec hr,
   fun d declared rest hd hp hpc hc hlt hdec hr =>
     too_few_chars d declared rest hd hp hpc hc hlt hdec hr,
   fun d ks declared hd hp hpc hc hcc hk hlt hdec =>
     too_few_kernings d ks declared hd hp hpc hc hcc hk hlt hdec⟩

/-- C6, at the input that declares `pages=40000` and supplies the one page line
`page id=32768 file="p"`: no font is returned, the error string is the
count-mismatch message, and the run has left defined behaviour. -/
theorem c6_wide_page_id_not_clean :
    doc_one_wide_page.preamble_ok ∧ doc_one_wide_page.pages_ok 40000 ∧
      (bmfont_parse_file (render_upto_pages doc_one_wide_page 40000 [])).returned = none ∧
      bmfont_get_error_string (bmfont_parse_file (render_upto_pages doc_one_wide_page 40000 []))
        = "Fewer pages than specified in file. Expected: 40000, actual: 1".toList ∧
      (bmfont_parse_file (render_upto_pages doc_one_wide_page 40000 [])).clean = false := by
  have h1 : doc_one_wide_page.preamble_ok := by
    constructor <;> decide
  have h2 : doc_one_wide_page.pages_ok 40000 := by
    intro pg hpg
    have : pg = { id := 32768, file := ['p'] } := by simpa [doc_one_wide_page] using hpg
    subst this
    exact ⟨by show 32768 < 40000; omega, by decide⟩
  obtain ⟨hr, he, hc⟩ := c6_too_few_records.1 doc_one_wide_page 40000 [] h1 h2
    (by show 1 < 40000; omega) (by omega) (Or.inl rfl)
  refine ⟨h1, h2, hr, ?_, ?_⟩
  · rw [he]; decide
  · cases hcl : (bmfont_parse_file (render_upto_pages doc_one_wide_page 40000 [])).clean with
    | false => rfl
    | true =>
      have := hc.1 hcl { id := 32768, file := ['p'] } (by simp [doc_one_wide_page])
      simp at this

/-- C7 (code_bug): a document that declares `N` page lines, char lines or
kerning lines and supplies `N` well-formed records of that kind followed by the
start of one more (the record keyword and a space, then anything) makes
`bmfont_parse_file` return no font in the model, with exactly `N` records of
that kind consumed; the run stays inside defined behaviour exactly when every
page id is below 32768 (a page id of 32768 or more, well-formed for a font
that declares more than 32768 pages, is narrowed through `int16_t` and stored
out of bounds before the extra record is reached). -/
theorem c7_too_many_records :
    (∀ (d : Doc) (tail : List Char), d.preamble_ok → d.pages_ok d.pages.length →
      d.pages.length ≤ 65535 →
      (bmfont_parse_file (render_upto_pages d d.pages.length
          ("page".toList ++ ' ' :: tail))).returned = none ∧
      (bmfont_parse_file (render_upto_pages d d.pages.length
          ("page".toList ++ ' ' :: tail))).parser.pages_read = d.pages.length ∧
      ((bmfont_parse_file (render_upto_pages d d.pages.length
          ("page".toList ++ ' ' :: tail))).clean = true ↔ ∀ pg ∈ d.pages, pg.id < 32768)) ∧
    (∀ (d : Doc) (tail : List Char), d.preamble_ok → d.pages_ok d.pages.length →
      d.pages.length ≤ 65535 → (∀ c ∈ d.chars, c.in_range) → d.chars.length ≤ 65535 →
      (bmfont_parse_file (render_upto_chars d d.chars.length
          ("char".toList ++ ' ' :: tail))).returned = none ∧
      (bmfont_parse_file (render_upto_chars d d.chars.length
          ("char".toList ++ ' ' :: tail))).parser.chars_read = d.chars.length ∧
      ((bmfont_parse_file (render_upto_chars d d.chars.length
          ("char".toList ++ ' ' :: tail))).clean = true ↔ ∀ pg ∈ d.pages, pg.id < 32768)) ∧
    (∀ (d : Doc) (ks : List KerningLine) (tail : List Char), d.preamble_ok →
      d.pages_ok d.pages.length → d.pages.length ≤ 65535 → (∀ c ∈ d.chars, c.in_range) →
      d.chars.length ≤ 65535 → (∀ k ∈ ks, k.in_range) → ks.length ≤ 65535 →
      (bmfont_parse_file (render_upto_kernings d ks ks.length
          ("kerning".toList ++ ' ' :: tail))).returned = none ∧
      (bmfont_parse_file (render_upto_kernings d ks ks.length
          ("kerning".toList ++ ' ' :: tail))).parser.kernings_read = ks.length ∧
      ((bmfont_parse_file (render_upto_kernings d ks ks.length
          ("kerning".toList ++ ' ' :: tail))).clean = true ↔ ∀ pg ∈ d.pages, pg.id < 32768)) :=
  ⟨fun d tail hd hp hpc => too_many_pages d tail hd hp hpc,
   fun d tail hd hp hpc hc hcc => too_many_chars d tail hd hp hpc hc hcc,
   fun d ks tail hd hp hpc hc hcc hk hkc => too_many_kernings d ks tail hd hp hpc hc hcc hk hkc⟩

/-- C7, at the input that declares `pages=32769` and supplies the 32769 page
lines with ids 0 to 32768 followed by one more page line: no font is returned
and the run has left defined behaviour. -/
theorem c7_many_pages_not_clean :
    (doc_with_pages 32769 none).preamble_ok ∧
      (doc_with_pages 32769 none).pages_ok (doc_with_pages 32769 none).pages.length ∧
      (bmfont_parse_file (render_upto_pages (doc_with_pages 32769 none)
        (doc_with_pages 32769 none).pages.length
        ("page".toList ++ ' ' :: "id=0 file=\"p\"\n".toList))).returned = none ∧
      (bmfont_parse_file (render_upto_pages (doc_with_pages 32769 none)
        (doc_with_pages 32769 none).pages.length
        ("page".toList ++ ' ' :: "id=0 file=\"p\"\n".toList))).clean = false := by
  have hwf := many_pages_well_formed 32769 (by omega) none (Or.inl rfl)
  have h1 : (doc_with_pages 32769 none).preamble_ok :=
    ⟨hwf.face, hwf.size_lo, hwf.size_hi, hwf.lineHeight, hwf.base, hwf.scaleW, hwf.scaleH⟩
  have h2 : (doc_with_pages 32769 none).pages_ok (doc_with_pages 32769 none).pages.length :=
    fun pg hpg => ⟨hwf.page_ids pg hpg, hwf.page_files pg hpg⟩
  obtain ⟨hr, _, hc⟩ := c7_too_many_records.1 (doc_with_pages 32769 none)
    "id=0 file=\"p\"\n".toList h1 h2 hwf.pages_count
  refine ⟨h1, h2, hr, ?_⟩
  obtain ⟨pg, hpg, hwide⟩ := many_pages_has_wide_id 32769 (by omega) none
  cases hcl : (bmfont_parse_file (render_upto_pages (doc_with_pages 32769 none)
      (doc_with_pages 32769 none).pages.length
      ("page".toList ++ ' ' :: "id=0 file=\"p\"\n".toList))).clean with
  | false => rfl
  | true => exact absurd (hc.1 hcl pg hpg) hwide

/-- C8 (corrected): `bmfont__do_get_token_as_int_and_advance`, called with the
parser ok and not at the end of the stream and with one of the three pairs of
bounds, returns true iff the current token is accepted by `strtol` as a whole
(it is empty, with value 0, or it is an integer literal of C base-0 syntax
after any leading white space) with a value `v` inside the bounds, and the
next token can be loaded; whenever the token is accepted with `v` inside the
bounds, `v` is written and the result is that of `bmfont__load_next_token`;
a token that is not accepted fails with the `Expected an integer value`
message and a value outside the bounds with the `Integer value out of range`
message, and in both cases the ok flag is cleared, the token and the stream
are left as they were and nothing is written. -/
theorem c8_int_token (p : BMFont__Parser) (lo hi : Int)
    (hr : bmfont__parser_ready p = true)
    (hb : (lo, hi) = (-32768, 32767) ∨ (lo, hi) = (0, 65535) ∨ (lo, hi) = (0, 4294967295)) :
    ((bmfont__do_get_token_as_int_and_advance p lo hi).1 = true ↔
      ∃ v, accepted_value p.next_token = some v ∧ lo ≤ v ∧ v ≤ hi ∧
        (bmfont__load_next_token p).1 = true) ∧
    (∀ v, accepted_value p.next_token = some v → lo ≤ v → v ≤ hi →
      bmfont__do_get_token_as_int_and_advance p lo hi
        = ((bmfont__load_next_token p).1, (bmfont__load_next_token p).2, some v)) ∧
    (accepted_value p.next_token = none →
      bmfont__do_get_token_as_int_and_advance p lo hi
        = (false, bmfont__set_parser_error p
            (msg_expected_integer p.start_line p.start_col p.next_token), none)) ∧
    (∀ v, accepted_value p.next_token = some v → v < lo ∨ hi < v →
      bmfont__do_get_token_as_int_and_advance p lo hi
        = (false, bmfont__set_parser_error p
            (msg_out_of_range p.start_line p.start_col (strtol p.next_token).1), none)) ∧
    (∀ msg, (bmfont__set_parser_error p msg).ok = false ∧
      (bmfont__set_parser_error p msg).next_token = p.next_token ∧
      (bmfont__set_parser_error p msg).stream = p.stream) := by
  have hlo : LONG_MIN < lo := by
    rcases hb with h | h | h <;> simp only [Prod.mk.injEq] at h <;> rw [h.1] <;>
      unfold LONG_MIN <;> omega
  have hhi : hi < LONG_MAX := by
    rcases hb with h | h | h <;> simp only [Prod.mk.injEq] at h <;> rw [h.2] <;>
      unfold LONG_MAX <;> omega
  obtain ⟨hacc, hrej⟩ := accepted_spec p.next_token lo hi hlo hhi
  have hin : ∀ v, accepted_value p.next_token = some v → lo ≤ v → v ≤ hi →
      bmfont__do_get_token_as_int_and_advance p lo hi
        = ((bmfont__load_next_token p).1, (bmfont__load_next_token p).2, some v) := by
    intro v hv h1 h2
    obtain ⟨he, hval, _, _⟩ := hacc v hv
    have hv1 := hval h1 h2
    rw [do_get_ready p lo hi hr, he, hv1]
    have hn : ¬ (v < lo ∨ v > hi) := by omega
    simp only [ne_eq, not_true_eq_false, if_false, hn]
  have hnone : accepted_value p.next_token = none →
      bmfont__do_get_token_as_int_and_advance p lo hi
        = (false, bmfont__set_parser_error p
            (msg_expected_integer p.start_line p.start_col p.next_token), none) := by
    intro hv
    rw [do_get_ready p lo hi hr, if_pos (hrej hv)]
  have hout : ∀ v, accepted_value p.next_token = some v → v < lo ∨ hi < v →
      bmfont__do_get_token_as_int_and_advance p lo hi
        = (false, bmfont__set_parser_error p
            (msg_out_of_range p.start_line p.start_col (strtol p.next_token).1), none) := by
    intro v hv h
    obtain ⟨he, _, hl, hh⟩ := hacc v hv
    have hc : (strtol p.next_token).1 < lo ∨ (strtol p.next_token).1 > hi := by
      rcases h with h | h
      · exact Or.inl (hl h)
      · exact Or.inr (hh h)
    rw [do_get_ready p lo hi hr, he]
    simp only [ne_eq, not_true_eq_false, if_false, hc, if_true]
  refine ⟨?_, hin, hnone, hout, fun msg => ⟨rfl, rfl, rfl⟩⟩
  constructor
  · intro h
    cases hv : accepted_value p.next_token with
    | none => rw [hnone hv] at h; exact absurd h (by simp)
    | some v =>
      by_cases hc : v < lo ∨ hi < v
      · rw [hout v hv hc] at h; exact absurd h (by simp)
      · have h1 : lo ≤ v := by omega
        have h2 : v ≤ hi := by omega
        rw [hin v hv h1 h2] at h
        exact ⟨v, rfl, h1, h2, h⟩
  · rintro ⟨v, hv, h1, h2, hl⟩
    rw [hin v hv h1 h2]
    exact hl

/-- C8, at the token `42` with the bounds of `uint16_t` and nothing left in the
stream: the value 42 is written and the result is that of loading the next
token. -/
theorem c8_decimal_token :
    bmfont__parser_ready (parser_holding ['4', '2'] []) = true ∧
      bmfont__do_get_token_as_int_and_advance (parser_holding ['4', '2'] []) 0 65535
        = ((bmfont__load_next_token (parser_holding ['4', '2'] [])).1,
           (bmfont__load_next_token (parser_holding ['4', '2'] [])).2, some 42) :=
  ⟨rfl, (c8_int_token (parser_holding ['4', '2'] []) 0 65535 rfl (Or.inr (Or.inl rfl))).2.1 42
    (by decide) (by decide) (by decide)⟩

/-- C8 as stated fails in both directions: the token made of a tab and `5` is
not an integer literal and the call succeeds; the token `5` is an integer
literal with a value inside the bounds and the call fails, after it has
written 5, since the word that follows fills the token buffer. -/
theorem c8_not_iff_literal :
    (bmfont__parser_ready (parser_holding ['\t', '5'] []) = true ∧
      c_int_literal ['\t', '5'] = none ∧
      (bmfont__do_get_token_as_int_and_advance (parser_holding ['\t', '5'] []) 0 65535).1
        = true) ∧
    (bmfont__parser_ready (parser_holding ['5'] long_word) = true ∧
      c_int_literal ['5'] = some 5 ∧
      (bmfont__do_get_token_as_int_and_advance (parser_holding ['5'] long_word) 0 65535).1
        = false ∧
      (bmfont__do_get_token_as_int_and_advance (parser_holding ['5'] long_word) 0 65535).2.2
        = some 5) := by
  have hs : strtol (parser_holding ['5'] long_word).next_token = (5, []) := by
    show strtol ['5'] = (5, [])
    decide
  have hd := do_get_accept (parser_holding ['5'] long_word) 0 65535 rfl 5 hs (by decide)
    (by decide)
  refine ⟨⟨rfl, by decide, by decide⟩, rfl, by decide, ?_, ?_⟩
  · have hl := load_long_word (parser_holding ['5'] long_word) rfl rfl
    simp only [hd]
    exact hl.1
  · simp only [hd]

/-- C9 (corrected): `bmfont__copy_quoted_token_and_advance`, called with the
parser ok and not at the end of the stream. When the current token has fewer
than 2 characters or its first or last character is not a double quote, it
returns false with the `Expected quoted string` message, the ok flag cleared,
the token and the stream left as they were and nothing written. Otherwise the
token is a double quote, a body and a double quote, the body is written, and
the result is that of `bmfont__load_next_token`; so the call returns false iff
the token fails the check or the next token cannot be loaded. A page line
`page id=<id> file=<tok>` whose file value fails the check, after well-formed
page lines with ids below 32768 and before the declared number of pages is
reached, makes `bmfont_parse_file` return no font. -/
theorem c9_quoted_token :
    (∀ p : BMFont__Parser, bmfont__parser_ready p = true →
      (quotes_missing p.next_token →
        bmfont__copy_quoted_token_and_advance p
          = (false, bmfont__set_parser_error p
              (msg_expected_quoted p.start_line p.start_col p.next_token), none)) ∧
      (¬ quotes_missing p.next_token →
        ∃ body, p.next_token = '"' :: (body ++ ['"']) ∧
          bmfont__copy_quoted_token_and_advance p
            = ((bmfont__load_next_token p).1, (bmfont__load_next_token p).2, some body)) ∧
      ((bmfont__copy_quoted_token_and_advance p).1 = false ↔
        quotes_missing p.next_token ∨ (bmfont__load_next_token p).1 = false) ∧
      (∀ msg, (bmfont__set_parser_error p msg).ok = false ∧
        (bmfont__set_parser_error p msg).next_token = p.next_token ∧
        (bmfont__set_parser_error p msg).stream = p.stream)) ∧
    (∀ (d : Doc) (declared id : Nat) (tok rest : List Char), d.preamble_ok →
      d.pages_ok declared → (∀ pg ∈ d.pages, pg.id < 32768) → d.pages.length < declared →
      declared ≤ 65535 → id ≤ 4294967295 → is_word tok = true → quotes_missing tok →
      (bmfont_parse_file (render_upto_pages d declared (render_page_raw id tok rest))).returned
          = none ∧
        (bmfont_parse_file (render_upto_pages d declared (render_page_raw id tok rest))).clean
          = true) := by
  constructor
  · intro p hr
    have hc := copy_quoted_ready p hr
    refine ⟨?_, ?_, ?_, fun msg => ⟨rfl, rfl, rfl⟩⟩
    · intro hbad
      rw [hc, if_pos hbad]
    · intro hgood
      obtain ⟨body, hb, htake⟩ := quoted_body p.next_token hgood
      refine ⟨body, hb, ?_⟩
      rw [hc, if_neg hgood, htake]
    · by_cases hbad : quotes_missing p.next_token
      · rw [hc, if_pos hbad]
        simp [hbad]
      · rw [hc, if_neg hbad]
        simp [hbad]
  · intro d declared id tok rest hd hp hids hlt hdec hid hw hbad
    obtain ⟨hret, hclean⟩ := bad_quote_fails d declared id tok rest hd hp hlt hdec hid hw hbad
    exact ⟨hret, hclean.2 hids⟩

/-- C9, at the token `"p` (no closing quote): the call fails with the
quoted-string error, and the input whose only page line is `page id=0 file="p`
makes `bmfont_parse_file` return no font. -/
theorem c9_unclosed_quote :
    bmfont__copy_quoted_token_and_advance (parser_holding ['"', 'p'] [])
        = (false, bmfont__set_parser_error (parser_holding ['"', 'p'] [])
            (msg_expected_quoted 0 0 ['"', 'p']), none) ∧
      (bmfont_parse_file
        (render_upto_pages (doc_with_pages 0 none) 1 (render_page_raw 0 ['"', 'p'] []))).returned
        = none := by
  refine ⟨(c9_quoted_token.1 (parser_holding ['"', 'p'] []) rfl).1 (by decide), ?_⟩
  have hd : (doc_with_pages 0 none).preamble_ok := by
    constructor <;> decide
  exact (c9_quoted_token.2 (doc_with_pages 0 none) 1 0 ['"', 'p'] [] hd
    (by intro pg hpg; simp [doc_with_pages, many_pages] at hpg)
    (by intro pg hpg; simp [doc_with_pages, many_pages] at hpg)
    (by decide) (by omega) (by omega) (by decide) (by decide)).1

/-- C9 as stated fails at the token `"a"` followed by a word that fills the
token buffer: the token passes the quote check and the call still returns
false, with the token-length error, after it has written `a`. -/
theorem c9_fails_on_quoted_token :
    bmfont__parser_ready (parser_holding ['"', 'a', '"'] long_word) = true ∧
      ¬ quotes_missing ['"', 'a', '"'] ∧
      (bmfont__copy_quoted_token_and_advance (parser_holding ['"', 'a', '"'] long_word)).1
        = false ∧
      (bmfont__copy_quoted_token_and_advance (parser_holding ['"', 'a', '"'] long_word)).2.2
        = some ['a'] ∧
      (bmfont__copy_quoted_token_and_advance (parser_holding ['"', 'a', '"'] long_word)).2.1.error
        = "Token length is too large to parse (line 1, col 1).".toList := by
  have hc := copy_quoted_ready (parser_holding ['"', 'a', '"'] long_word) rfl
  have hgood : ¬ quotes_missing (parser_holding ['"', 'a', '"'] long_word).next_token := by
    show ¬ quotes_missing ['"', 'a', '"']
    decide
  rw [if_neg hgood] at hc
  have hl := load_long_word (parser_holding ['"', 'a', '"'] long_word) rfl rfl
  refine ⟨rfl, by decide, ?_, ?_, ?_⟩
  · simp only [hc]
    exact hl.1
  · simp only [hc]
    rfl
  · simp only [hc]
    rw [hl.2]
    decide

/-- C10 (code_bug): on every well-formed document, whatever the order of its
page lines, the page-name collection of the returned font has one slot per
page line, and for each page line `page id=i file="f"` with `i` below 32768
the slot `i` holds `f`. A page line with an id of 32768 or more (possible with
32769 or more page lines) leaves its slot empty: the id is narrowed through
`int16_t` and the store goes outside the block. -/
theorem c10_page_names_by_id (d : Doc) (hd : d.well_formed) :
    ∃ f names, (bmfont_parse_file (render d)).returned = some f ∧
      f.page_names = some names ∧ names.length = d.pages.length ∧
      ∀ pg ∈ d.pages,
        (pg.id < 32768 → names[pg.id]? = some (some pg.file)) ∧
        (32768 ≤ pg.id → names[pg.id]? = some none ∧
          (bmfont_parse_file (render d)).parser.oob = true) := by
  obtain ⟨q, hrun, hq⟩ := parse_well_formed d hd
  refine ⟨parsed_font d, fill_pages (List.replicate d.pages.length none) d.pages,
    by rw [hrun], rfl, by rw [fill_pages_length]; simp, ?_⟩
  intro pg hpg
  have hlen : (List.replicate d.pages.length (none : Option (List Char))).length ≤ 65535 := by
    simpa using hd.pages_count
  constructor
  · intro hsmall
    exact fill_pages_get_stored d.pages _ hlen (by simpa using hd.page_ids)
      hd.page_ids_distinct pg hpg hsmall
  · intro hwide
    constructor
    · rw [fill_pages_get_other pg.id d.pages _ hlen
        (fun x hx => by have := hd.page_ids x hx; have := hd.pages_count; omega)
        (fun x _ hx => by omega)]
      simp [hd.page_ids pg hpg]
    · rw [hrun]
      show q.oob = true
      rw [hq.oob]
      by_contra hc
      have hno := (pages_oob_iff d.pages.length hd.pages_count d.pages hd.page_ids).1
        (by simpa using hc) pg hpg
      omega

/-- C10, at a well-formed document with 32769 page lines: slot 32768 of the
page-name collection is left empty. -/
theorem c10_many_pages_slot_empty :
    (doc_with_pages 32769 (some [])).well_formed ∧
      ∃ f names, (bmfont_parse_file (render (doc_with_pages 32769 (some [])))).returned = some f ∧
        f.page_names = some names ∧ names[32768]? = some none := by
  have hwf : (doc_with_pages 32769 (some [])).well_formed :=
    many_pages_well_formed 32769 (by omega) (some []) (Or.inr rfl)
  refine ⟨hwf, ?_⟩
  obtain ⟨f, names, h1, h2, _, h4⟩ := c10_page_names_by_id (doc_with_pages 32769 (some [])) hwf
  have hmem := many_pages_mem 32769 32768 (by omega) (some [])
  exact ⟨f, names, h1, h2, ((h4 _ hmem).2 (le_refl _)).1⟩

/-- C11 (code_bug): the index of the store `page_names[id] = filename` is the
value the `uint32_t` overload writes for the id literal, which is the literal
narrowed through `int16_t`. On every well-formed document (ids in `[0, P)`,
`P` up to 65535) the index of a page line is its id, and below `P`, exactly
when the id is below 32768, and the run performs no out-of-bounds store
exactly when every id is below 32768. -/
theorem c11_page_store_index (d : Doc) (hd : d.well_formed) :
    (∀ (p : BMFont__Parser) (s t1 s1 : List Char) (e b : Bool) (n : Nat),
      Good p (fmt_nat n) s false b → n ≤ 4294967295 → Next s t1 s1 e →
      (bmfont__get_token_as_uint32_and_advance p).2.2 = some (narrow32 n)) ∧
    (∀ pg ∈ d.pages, (narrow32 pg.id = pg.id ↔ pg.id < 32768) ∧
      (narrow32 pg.id < d.pages.length ↔ pg.id < 32768)) ∧
    ((bmfont_parse_file (render d)).parser.oob = false ↔ ∀ pg ∈ d.pages, pg.id < 32768) := by
  refine ⟨fun p s t1 s1 e b n h hn nx => (get_uint32_good h hn nx).2.1, ?_, ?_⟩
  · intro pg hpg
    have h1 := hd.page_ids pg hpg
    have h2 := hd.pages_count
    constructor
    · rw [narrow32_eq_iff pg.id (by omega)]
      constructor
      · intro h; omega
      · intro h; exact Or.inl h
    · exact narrow32_lt_iff pg.id d.pages.length h1 h2
  · obtain ⟨q, hrun, hq⟩ := parse_well_formed d hd
    rw [hrun]
    show q.oob = false ↔ _
    rw [hq.oob]
    exact pages_oob_iff d.pages.length hd.pages_count d.pages hd.page_ids

/-- C11, at a well-formed document with 32769 page lines: the page line with
id 32768 is stored through the index 4294934528, outside the block. -/
theorem c11_wide_id_out_of_bounds :
    (doc_with_pages 32769 (some [])).well_formed ∧
      narrow32 32768 = 4294934528 ∧
      (bmfont_parse_file (render (doc_with_pages 32769 (some [])))).parser.oob = true := by
  have hwf : (doc_with_pages 32769 (some [])).well_formed :=
    many_pages_well_formed 32769 (by omega) (some []) (Or.inr rfl)
  refine ⟨hwf, by unfold narrow32 to_int16; omega, ?_⟩
  obtain ⟨_, _, hoob⟩ := c11_page_store_index (doc_with_pages 32769 (some [])) hwf
  obtain ⟨pg, hpg, hwide⟩ := many_pages_has_wide_id 32769 (by omega) (some [])
  cases hc : (bmfont_parse_file (render (doc_with_pages 32769 (some [])))).parser.oob with
  | true => rfl
  | false => exact absurd (hoob.1 hc pg hpg) hwide

/-- C12 (amended): the v0.2 parser does not check that a page record has an id
pair; the variable `id` starts at 0, so a page line `page file="f"` stores `f`
at index 0 of the page-name block. For every well-formed document with page
ids below 32768, writing one page line without its id pair makes
`bmfont_parse_file` return a font, inside defined behaviour: the font of the
document except that the page-name block is filled as if that line had the id
0. When the line is the one with id 0, the font returned is that of the
document itself. -/
theorem c12_page_without_id (d : Doc) (hd : d.well_formed) (i : Nat) (hi : i < d.pages.length)
    (hids : ∀ pg ∈ d.pages, pg.id < 32768) :
    (bmfont_parse_file (render_without_id d i)).returned
        = some { parsed_font d with
            page_names := some (fill_pages (List.replicate d.pages.length none)
              (zero_id i d.pages)) } ∧
      (bmfont_parse_file (render_without_id d i)).clean = true ∧
      ((d.pages.get ⟨i, hi⟩).id = 0 →
        (bmfont_parse_file (render_without_id d i)).returned
          = (bmfont_parse_file (render d)).returned) := by
  obtain ⟨q, hrun, gq⟩ := parse_without_id d hd i hi
  have hoob : pages_oob d.pages.length (zero_id i d.pages) = false := by
    have hlt : ∀ pg ∈ zero_id i d.pages, pg.id < d.pages.length := by
      intro x hx
      obtain ⟨y, hy, h1, _⟩ := zero_id_mem i d.pages x hx
      exact Nat.lt_of_le_of_lt h1 (hd.page_ids y hy)
    rw [pages_oob_iff d.pages.length hd.pages_count (zero_id i d.pages) hlt]
    intro x hx
    obtain ⟨y, hy, h1, _⟩ := zero_id_mem i d.pages x hx
    exact Nat.lt_of_le_of_lt h1 (hids y hy)
  refine ⟨by rw [hrun], ?_, ?_⟩
  · rw [hrun, clean_of_good gq, hoob]
    rfl
  · intro hz
    obtain ⟨q0, hrun0, _⟩ := parse_well_formed d hd
    rw [hrun, hrun0, zero_id_same i d.pages hi hz]
    rfl

/-- C12, at the one-page document whose page line is `page file="p"`: the
parse returns the font of the document with the line `page id=0 file="p"`. -/
theorem c12_single_page_without_id :
    (doc_with_pages 1 (some [])).well_formed ∧
      render_without_id (doc_with_pages 1 (some [])) 0 = no_id_document ∧
      (bmfont_parse_file (render_without_id (doc_with_pages 1 (some [])) 0)).clean = true ∧
      (bmfont_parse_file (render_without_id (doc_with_pages 1 (some [])) 0)).returned
        = (bmfont_parse_file (render (doc_with_pages 1 (some [])))).returned := by
  have hw := many_pages_well_formed 1 (by omega) (some []) (Or.inr rfl)
  have h := c12_page_without_id (doc_with_pages 1 (some [])) hw 0 (by decide)
    (by intro pg hpg
        have : { id := 0, file := ['p'] } = pg := by
          simpa [doc_with_pages, many_pages] using hpg
        subst this
        show 0 < 32768
        omega)
  exact ⟨hw, by decide, h.2.1, h.2.2 (by decide)⟩

set_option maxRecDepth 100000 in
/-- C12 as stated fails: the one-page document whose page line is
`page file="p"`, well-formed except for the missing id pair, is parsed into a
font with `p` at index 0 of the page-name block. -/
theorem c12_no_id_returns_font :
    (bmfont_parse_file no_id_document).returned ≠ none ∧
      ((bmfont_parse_file no_id_document).returned.map (fun f => f.page_names))
        = some (some [some ['p']]) ∧
      (bmfont_parse_file no_id_document).clean = true := by
  decide

/-- C13 (code_bug): a page line without file pair, `page id=<id>`, after
well-formed page lines and before the declared number of pages is reached,
followed by the end of the input, a further page line or the chars line. In the
model `bmfont_parse_file` returns no font, the error string is `Page tag
missing filename (line ...)`, and the page-name block of the font that is
released holds what the preceding page lines stored and nothing for this
record. The run stays inside defined behaviour exactly when every preceding
page id is below 32768 (a page id of 32768 or more, well-formed for a font that
declares more than 32768 pages, is narrowed through `int16_t` and stored out of
bounds before the line without file pair is reached). -/
theorem c13_page_without_file (d : Doc) (declared id : Nat) (rest : List Char)
    (hd : d.preamble_ok) (hp : d.pages_ok declared) (hlt : d.pages.length < declared)
    (hdec : declared ≤ 65535) (hid : id ≤ 4294967295)
    (hrest : ends_or_continues "page".toList rest ∨ ends_or_continues "chars".toList rest) :
    (bmfont_parse_file (render_upto_pages d declared (render_page_no_file id rest))).returned
        = none ∧
      (∃ line,
        bmfont_get_error_string
            (bmfont_parse_file (render_upto_pages d declared (render_page_no_file id rest)))
          = (msg_page_missing_filename line).take (bmfont__error_size - 1)) ∧
      (bmfont_parse_file
          (render_upto_pages d declared (render_page_no_file id rest))).built.page_names
        = some (fill_pages (List.replicate declared none) d.pages) ∧
      ((bmfont_parse_file (render_upto_pages d declared (render_page_no_file id rest))).clean
        = true ↔ ∀ pg ∈ d.pages, pg.id < 32768) :=
  no_file_fails d declared id rest hd hp hlt hdec hid hrest

/-- C13, at the input that declares `pages=40000` and supplies the page line
`page id=32768 file="p"` and then the page line `page id=1`: no font is
returned and the run has left defined behaviour. -/
theorem c13_wide_page_id_not_clean :
    doc_one_wide_page.preamble_ok ∧ doc_one_wide_page.pages_ok 40000 ∧
      (bmfont_parse_file
        (render_upto_pages doc_one_wide_page 40000 (render_page_no_file 1 []))).returned
        = none ∧
      (bmfont_parse_file
        (render_upto_pages doc_one_wide_page 40000 (render_page_no_file 1 []))).clean
        = false := by
  have h1 : doc_one_wide_page.preamble_ok := by
    constructor <;> decide
  have h2 : doc_one_wide_page.pages_ok 40000 := by
    intro pg hpg
    have : pg = { id := 32768, file := ['p'] } := by simpa [doc_one_wide_page] using hpg
    subst this
    exact ⟨by show 32768 < 40000; omega, by decide⟩
  obtain ⟨hr, _, _, hc⟩ := c13_page_without_file doc_one_wide_page 40000 1 [] h1 h2
    (by show 1 < 40000; omega) (by omega) (by omega) (Or.inl (Or.inl rfl))
  refine ⟨h1, h2, hr, ?_⟩
  cases hcl : (bmfont_parse_file
      (render_upto_pages doc_one_wide_page 40000 (render_page_no_file 1 []))).clean with
  | false => rfl
  | true =>
    have := hc.1 hcl { id := 32768, file := ['p'] } (by simp [doc_one_wide_page])
    simp at this
/-- C14 (confirmed): `bmfont_parse_file` returns a font only if the tokenizer
has reached the end of the stream; and on every input on which the five
section parsers succeed (the ok flag is set after the chain, and then each of
the five has returned true) while a token remains, it returns no font and the
error buffer holds `Expected EOF (line L, col C). Got: <token>` for the start
position and the text of that token. -/
theorem c14_trailing_content (input : List Char) :
    (∀ f, (bmfont_parse_file input).returned = some f →
      (bmfont_parse_file input).parser.eof = true) ∧
    ((parse_sections (bmfont__load_next_token (parser_at_start input)).2 empty_font).2.1.ok
        = true →
      (parse_sections (bmfont__load_next_token (parser_at_start input)).2 empty_font).2.1.eof
        = false →
      (parse_sections (bmfont__load_next_token (parser_at_start input)).2 empty_font).1 = true ∧
      (bmfont_parse_file input).returned = none ∧
      bmfont_get_error_string (bmfont_parse_file input)
        = (msg_expected_eof
            (parse_sections (bmfont__load_next_token (parser_at_start input)).2
              empty_font).2.1.start_line
            (parse_sections (bmfont__load_next_token (parser_at_start input)).2
              empty_font).2.1.start_col
            (parse_sections (bmfont__load_next_token (parser_at_start input)).2
              empty_font).2.1.next_token).take (bmfont__error_size - 1)) := by
  constructor
  · intro f h
    unfold bmfont_parse_file at h ⊢
    simp only at h ⊢
    split at h
    · simp at h
    · rename_i hok
      simp only [hok, if_false]
      split at h
      · simp at h
      · rename_i heof
        simp only [heof, if_false]
        simpa using heof
  · intro hok heof
    have hrun := parse_file_trailing input
      (rfl : parse_sections (bmfont__load_next_token (parser_at_start input)).2 empty_font
        = (_, _, _)) hok heof
    refine ⟨?_, by rw [hrun], by rw [hrun]; rfl⟩
    obtain ⟨r1, r2, r3, r4, _, _, _, _, _, _, _, _, _, hps, hk⟩ := sections_each_true _ hok
    rw [hps] at heof ⊢
    rcases hk with hk | ⟨he, _⟩
    · exact hk
    · have hr : bmfont__parser_ready r4.2.1 = false := by
        simp [bmfont__parser_ready, he]
      rw [kernings_absent _ _ hr] at heof
      rw [he] at heof
      exact absurd heof (by decide)

set_option maxRecDepth 100000 in
/-- C14, at a complete document followed by a blank line: the five section
parsers succeed, the newline token remains, no font is returned and the error
string is `Expected EOF (line 6, col 1). Got: ` followed by the newline. -/
theorem c14_blank_line_after_document :
    (parse_sections (bmfont__load_next_token (parser_at_start (small_document ++ ['\n']))).2
        empty_font).1 = true ∧
      (bmfont_parse_file (small_document ++ ['\n'])).returned = none ∧
      bmfont_get_error_string (bmfont_parse_file (small_document ++ ['\n']))
        = "Expected EOF (line 6, col 1). Got: \n".toList := by
  have h := (c14_trailing_content (small_document ++ ['\n'])).2 (by decide) (by decide)
  refine ⟨h.1, h.2.1, ?_⟩
  rw [h.2.2]
  decide

/-- C15 (corrected): on every input whose first token, read as the C string
that `strcmp` sees, is not the word `info`
(the stream ends before any token, the first word does not fit the token buffer,
or the first token is another one) `bmfont_parse_file` returns no font; in
particular on an input of `n` spaces, the empty input included, and on an
input that starts with a newline. A font is returned only if the five section
parsers were run in the order info, common, pages, chars, kernings, each on
the state the one before left, and each succeeded, that is, left the ok flag
set: the first four then returned true, and `bmfont__parse_kernings` returned
true or was entered at the end of the stream (where it returns false without
raising an error); the font returned is the one `bmfont__parse_kernings`
leaves. -/
theorem c15_sections_in_order (input : List Char) :
    (((bmfont__load_next_token (parser_at_start input)).2.eof = true ∨
        (bmfont__load_next_token (parser_at_start input)).2.ok = false ∨
        (bmfont__load_next_token (parser_at_start input)).2.next_token ≠ "info".toList) →
      (bmfont_parse_file input).returned = none) ∧
    (∀ n, (bmfont_parse_file (List.replicate n ' ')).returned = none) ∧
    (∀ rest, (bmfont_parse_file ('\n' :: rest)).returned = none) ∧
    (∀ f, (bmfont_parse_file input).returned = some f →
      ∃ r1 r2 r3 r4 r5 : Bool × BMFont__Parser × BMFont,
        r1 = bmfont__parse_info (bmfont__load_next_token (parser_at_start input)).2 empty_font ∧
        r2 = bmfont__parse_common r1.2.1 r1.2.2 ∧
        r3 = bmfont__parse_pages r2.2.1 r2.2.2 ∧
        r4 = bmfont__parse_chars r3.2.1 r3.2.2 ∧
        r5 = bmfont__parse_kernings r4.2.1 r4.2.2 ∧
        r1.2.1.ok = true ∧ r2.2.1.ok = true ∧ r3.2.1.ok = true ∧ r4.2.1.ok = true ∧
        r5.2.1.ok = true ∧
        r1.1 = true ∧ r2.1 = true ∧ r3.1 = true ∧ r4.1 = true ∧
        (r5.1 = true ∨ (r4.2.1.eof = true ∧ r5.1 = false)) ∧
        f = r5.2.2) := by
  refine ⟨?_, ?_, ?_, ?_⟩
  · intro h
    exact parse_file_no_info input (expect_fails_of _ _ h)
  · intro n
    exact parse_file_no_info _ (expect_fails_of _ _ (Or.inl (load_spaces_eof n)))
  · intro rest
    have g := ((next_nl rest) _ _ _ (good_initial ('\n' :: rest))).2
    refine parse_file_no_info _ (expect_fails_of _ _ (Or.inr (Or.inr ?_)))
    rw [g.tok rfl]
    decide
  · intro f h
    obtain ⟨hok, _, hf⟩ := parse_file_returned input f h
    obtain ⟨r1, r2, r3, r4, e1, t1, e2, t2, e3, t3, e4, t4, ⟨o1, o2, o3, o4⟩, hps, hk⟩ :=
      sections_each_true _ hok
    rw [hps] at hok
    exact ⟨r1, r2, r3, r4, _, e1, e2, e3, e4, rfl, o1, o2, o3, o4, hok, t1, t2, t3, t4, hk,
      by rw [hf, hps]⟩

set_option maxRecDepth 100000 in
/-- C15, at the input `common` followed by a newline: the first token is not
`info` and no font is returned. -/
theorem c15_first_token_common :
    (bmfont__load_next_token (parser_at_start "common\n".toList)).2.next_token
        ≠ "info".toList ∧
      (bmfont_parse_file "common\n".toList).returned = none :=
  ⟨by decide, (c15_sections_in_order "common\n".toList).1 (Or.inr (Or.inr (by decide)))⟩

set_option maxRecDepth 100000 in
/-- C15 as stated fails in both parts. On a document that ends after its chars
section the chain of section parsers ends with `bmfont__parse_kernings`
returning false, and the font is returned. On a document whose first word is
`info`, a NUL character and `x`, the first token is not the word `info`, the
comparison stops at the NUL, and the font is returned. -/
theorem c15_font_without_kernings_success :
    ((parse_leading_sections
        (bmfont__load_next_token (parser_at_start document_without_kernings)).2
        empty_font).1 = true ∧
      (parse_sections (bmfont__load_next_token (parser_at_start document_without_kernings)).2
        empty_font).1 = false ∧
      (bmfont_parse_file document_without_kernings).returned ≠ none) ∧
    ((spec_tokens document_nul_in_keyword).head? = some ("info".toList ++ [Char.ofNat 0, 'x']) ∧
      "info".toList ++ [Char.ofNat 0, 'x'] ≠ "info".toList ∧
      (bmfont_parse_file document_nul_in_keyword).returned ≠ none ∧
      (bmfont_parse_file document_nul_in_keyword).clean = true) := by
  decide

/-- C17: the order of the pairs of a char line is irrelevant. For a parser that
is ok, not at the end of the stream and holds the keyword `char`, and a line of
pairs ` <key>=<value>` with pairwise distinct keys and valid values (key and
value are words; for one of the eight tags of a char record the value is any
token its reader accepts, decimal, octal or hexadecimal; for any other key the
value is any word), every permutation of the pairs gives the same result of
reading the record: the same glyph, which holds the value of every pair, and
the same parser state after the line. So the record loop of
`bmfont__parse_chars` continues in the same way. -/
theorem c17_char_tags_any_order (ps ps' : List (List Char × List Char))
    (hperm : ps.Perm ps') (hkeys : (ps.map Prod.fst).Nodup)
    (hval : ∀ kv ∈ ps, char_pair_valid kv)
    (p : BMFont__Parser) (hok : p.ok = true) (heof : p.eof = false)
    (htok : p.next_token = "char".toList) (rest : List Char) (g : BMFont_Char) :
    read_char_record { p with stream := render_pairs ps ('\n' :: rest) } g
        = read_char_record { p with stream := render_pairs ps' ('\n' :: rest) } g ∧
      (read_char_record { p with stream := render_pairs ps ('\n' :: rest) } g).2
        = apply_pairs g ps ∧
      (∀ kv ∈ ps,
        char_pair_effect kv
            (read_char_record { p with stream := render_pairs ps ('\n' :: rest) } g).2
          = (read_char_record { p with stream := render_pairs ps ('\n' :: rest) } g).2) ∧
      ∀ (n i : Nat) (font : BMFont),
        parse_chars_loop (n + 1) i { p with stream := render_pairs ps ('\n' :: rest) } font
          = parse_chars_loop (n + 1) i { p with stream := render_pairs ps' ('\n' :: rest) }
              font := by
  have hval' : ∀ kv ∈ ps', char_pair_valid kv := fun kv hkv => hval kv (hperm.mem_iff.2 hkv)
  have h1 := fun g => read_char_record_valid p hok heof htok ps hval rest g
  have h2 := fun g => read_char_record_valid p hok heof htok ps' hval' rest g
  have hw := render_pairs_width_perm hperm
  have ha := fun g => apply_pairs_perm hperm hkeys g
  have heq : ∀ g, read_char_record { p with stream := render_pairs ps ('\n' :: rest) } g
      = read_char_record { p with stream := render_pairs ps' ('\n' :: rest) } g := by
    intro g
    rw [h1, h2, hw, ha]
  refine ⟨heq g, by rw [h1], ?_, ?_⟩
  · intro kv hkv
    rw [h1]
    exact apply_pairs_holds hkeys g kv hkv
  · intro n i font
    have hm : ∀ qs : List (List Char × List Char), (∀ kv ∈ qs, char_pair_valid kv) →
        bmfont__match_token_and_advance { p with stream := render_pairs qs ('\n' :: rest) }
          "char".toList = (true, pairs_state p p.curr_col qs rest) := fun qs hqs =>
      match_char_pairs p hok heof htok qs (fun kv hkv => (hqs kv hkv).1) rest
    have hk : ∀ g, kv_loop parse_char_body (kv_fuel (pairs_state p p.curr_col ps rest))
          (pairs_state p p.curr_col ps rest) g
        = kv_loop parse_char_body (kv_fuel (pairs_state p p.curr_col ps' rest))
            (pairs_state p p.curr_col ps' rest) g := by
      intro g
      have := heq g
      unfold read_char_record at this
      rw [hm ps hval, hm ps' hval'] at this
      exact this
    rw [parse_chars_loop, parse_chars_loop]
    simp only [hm ps hval, hm ps' hval', hk, Bool.not_true, Bool.false_eq_true, if_false]

/-- C17, at the line ` x=0x10 chnl=15 id=65` and its permutation
` id=65 x=0x10 chnl=15`, read by a parser that holds the keyword `char`: both
give the glyph with id 65 and x 16 and the same parser state; the value of `x`
is written in hexadecimal and the key `chnl` is not a tag. -/
theorem c17_pairs_swapped :
    read_char_record
        { parser_holding "char".toList [] with
          stream := render_pairs
            [("x".toList, "0x10".toList), ("chnl".toList, "15".toList),
              ("id".toList, "65".toList)] ['\n'] } default
      = read_char_record
        { parser_holding "char".toList [] with
          stream := render_pairs
            [("id".toList, "65".toList), ("x".toList, "0x10".toList),
              ("chnl".toList, "15".toList)] ['\n'] } default ∧
    (read_char_record
        { parser_holding "char".toList [] with
          stream := render_pairs
            [("x".toList, "0x10".toList), ("chnl".toList, "15".toList),
              ("id".toList, "65".toList)] ['\n'] } default).2
      = { (default : BMFont_Char) with id := 65, x := 16 } := by
  have hval : ∀ kv ∈ ([("x".toList, "0x10".toList), ("chnl".toList, "15".toList),
      ("id".toList, "65".toList)] : List (List Char × List Char)), char_pair_valid kv := by
    intro kv hkv
    simp only [List.mem_cons, List.mem_singleton, List.not_mem_nil, or_false] at hkv
    rcases hkv with rfl | rfl | rfl
    · refine ⟨by decide, by decide, fun tag ht => ?_⟩
      have : tag = CharTag.x := by
        have h2 : char_tag_of "x".toList = some CharTag.x := by decide
        rw [h2] at ht
        exact (Option.some.inj ht).symm
      subst this
      exact ⟨16, by decide, by decide⟩
    · refine ⟨by decide, by decide, fun tag ht => ?_⟩
      have h2 : char_tag_of "chnl".toList = none := by decide
      rw [h2] at ht
      exact absurd ht (by simp)
    · refine ⟨by decide, by decide, fun tag ht => ?_⟩
      have : tag = CharTag.id := by
        have h2 : char_tag_of "id".toList = some CharTag.id := by decide
        rw [h2] at ht
        exact (Option.some.inj ht).symm
      subst this
      exact ⟨65, by decide, by decide⟩
  have hperm : ([("x".toList, "0x10".toList), ("chnl".toList, "15".toList),
      ("id".toList, "65".toList)] : List (List Char × List Char)).Perm
      [("id".toList, "65".toList), ("x".toList, "0x10".toList),
        ("chnl".toList, "15".toList)] :=
    List.perm_append_singleton ("id".toList, "65".toList)
      [("x".toList, "0x10".toList), ("chnl".toList, "15".toList)]
  have h := c17_char_tags_any_order _ _ hperm (by decide) hval
    (parser_holding "char".toList []) rfl rfl rfl [] default
  refine ⟨h.1, ?_⟩
  rw [h.2.1]
  decide
/-- C18 (corrected): `bmfont__load_next_token`, called on a ready parser whose
stream, after the blanks, is a maximal run `w` of word characters starting at
column `c`: it fails iff `w` has `BMFONT_MAX_TOKEN_LENGTH` (1024) or more
characters, and then the ok flag is cleared and the error buffer holds
`Token length is too large to parse (line L, col C).` for the start position
of the word; a word of fewer than 1024 characters is accepted, the token being
its text as a C string, with the start position recorded. -/
theorem c18_token_length (p : BMFont__Parser) (w rest : List Char) (c : Nat)
    (hr : bmfont__parser_ready p = true)
    (hsk : skip_blank p.stream p.curr_col = (w ++ rest, c))
    (hne : w ≠ []) (hw : ∀ ch ∈ w, is_delim ch = false) (hrest : delim_start rest = true) :
    ((bmfont__load_next_token p).1 = false ↔ BMFONT_MAX_TOKEN_LENGTH ≤ w.length) ∧
    (BMFONT_MAX_TOKEN_LENGTH ≤ w.length →
      (bmfont__load_next_token p).2.ok = false ∧
      (bmfont__load_next_token p).2.error
        = (msg_token_too_long p.curr_line c).take (bmfont__error_size - 1) ∧
      (bmfont__load_next_token p).2.start_line = p.curr_line ∧
      (bmfont__load_next_token p).2.start_col = c) ∧
    (w.length < BMFONT_MAX_TOKEN_LENGTH →
      (bmfont__load_next_token p).2.ok = true ∧
      (bmfont__load_next_token p).2.next_token = cstr w ∧
      (bmfont__load_next_token p).2.stream = rest ∧
      (bmfont__load_next_token p).2.start_line = p.curr_line ∧
      (bmfont__load_next_token p).2.start_col = c ∧
      (bmfont__load_next_token p).2.error = p.error) := by
  have hl := load_word_run p hr w rest c hsk hne hw hrest
  have hok : p.ok = true := by
    simp only [bmfont__parser_ready, bmfont__parser_ok, Bool.and_eq_true] at hr
    exact hr.1
  by_cases hlen : BMFONT_MAX_TOKEN_LENGTH ≤ w.length
  · have ht : (w.take BMFONT_MAX_TOKEN_LENGTH).length = BMFONT_MAX_TOKEN_LENGTH := by
      rw [List.length_take]; omega
    rw [if_pos ht] at hl
    rw [hl]
    refine ⟨⟨fun _ => hlen, fun _ => rfl⟩, fun _ => ⟨rfl, rfl, rfl, rfl⟩, fun h => ?_⟩
    omega
  · have ht : ¬ (w.take BMFONT_MAX_TOKEN_LENGTH).length = BMFONT_MAX_TOKEN_LENGTH := by
      rw [List.length_take]; omega
    have htk : w.take BMFONT_MAX_TOKEN_LENGTH = w := List.take_of_length_le (by omega)
    have hdr : w.drop BMFONT_MAX_TOKEN_LENGTH = [] := List.drop_of_length_le (by omega)
    rw [if_neg ht] at hl
    rw [hl]
    refine ⟨⟨fun h => absurd h (by simp), fun h => absurd h hlen⟩, fun h => absurd h hlen,
      fun _ => ⟨hok, by rw [htk], by simp [hdr], rfl, rfl, rfl⟩⟩

/-- C18, at the two-character word `ab` in front of a newline: the word is
accepted as the token. -/
theorem c18_short_word_accepted :
    (bmfont__load_next_token (parser_holding [] ['a', 'b', '\n'])).2.next_token = ['a', 'b'] ∧
      (bmfont__load_next_token (parser_holding [] ['a', 'b', '\n'])).2.stream = ['\n'] := by
  have h := (c18_token_length (parser_holding [] ['a', 'b', '\n']) ['a', 'b'] ['\n'] 1 rfl rfl
    (by decide) (by decide) (by decide)).2.2 (by decide)
  exact ⟨h.2.1, h.2.2.1⟩

/-- C18 as stated fails at a word of exactly 1024 characters: it is rejected,
with the token-length error. -/
theorem c18_word_of_1024_rejected :
    long_word.length = 1024 ∧
      (bmfont__load_next_token (parser_holding [] long_word)).1 = false ∧
      (bmfont__load_next_token (parser_holding [] long_word)).2.error
        = "Token length is too large to parse (line 1, col 1).".toList := by
  have hl := load_long_word (parser_holding [] long_word) rfl rfl
  refine ⟨(List.length_replicate _ _).trans rfl, hl.1, ?_⟩
  rw [hl.2]
  decide

/-- C19 (amended): first error wins only for the ok flag. For every input on
which `bmfont_parse_file` fails, the ok flag is cleared, at least one error was
raised during the parse, and the string returned by `bmfont_get_error_string`
is the message of the last error raised: `bmfont__set_parser_error` writes the
buffer unconditionally, so each error raised replaces the one before it. After
every parse, failing or not, the flag is set exactly when no error was raised
(allocation failures, which clear the flag without a message, are outside the
model). -/
theorem c19_last_error_kept (input : List Char)
    (hfail : (bmfont_parse_file input).returned = none) :
    (bmfont_parse_file input).parser.ok = false ∧
      (∃ earlier last, (bmfont_parse_file input).parser.raised = earlier ++ [last] ∧
        bmfont_get_error_string (bmfont_parse_file input) = last) ∧
      ∀ other : List Char,
        ((bmfont_parse_file other).parser.ok = true ↔
          (bmfont_parse_file other).parser.raised = []) := by
  have hk : ∀ i, last_error_kept (bmfont_parse_file i).parser := fun i =>
    closed_parse_file last_error_kept_closed i
      ⟨by simp [parser_at_start], by simp [parser_at_start]⟩
  have hok : (bmfont_parse_file input).parser.ok = false := by
    revert hfail
    unfold bmfont_parse_file
    simp only [bmfont__parser_ok]
    split
    · rename_i h
      intro _
      simpa using h
    · split
      · intro _
        simp [bmfont__set_parser_error]
      · intro h
        simp at h
  refine ⟨hok, ?_, fun i => (hk i).1⟩
  have h := hk input
  have hne : (bmfont_parse_file input).parser.raised ≠ [] := by
    intro he
    have := h.1.2 he
    rw [hok] at this
    exact Bool.noConfusion this
  refine ⟨(bmfont_parse_file input).parser.raised.dropLast,
    (bmfont_parse_file input).parser.raised.getLast hne,
    (List.dropLast_append_getLast hne).symm, ?_⟩
  rw [bmfont_get_error_string, h.2, List.getLast?_eq_getLast _ hne]
  rfl

set_option maxRecDepth 100000 in
/-- C19, witness: a blank line after a complete document raises one error, the
end-of-file check, and that message is the error string. -/
theorem c19_single_error :
    (bmfont_parse_file (small_document ++ ['\n'])).returned = none ∧
      (bmfont_parse_file (small_document ++ ['\n'])).parser.raised =
        ["Expected EOF (line 6, col 1). Got: \n".toList] ∧
      (bmfont_parse_file (small_document ++ ['\n'])).parser.ok = false ∧
      (∃ earlier last,
        (bmfont_parse_file (small_document ++ ['\n'])).parser.raised = earlier ++ [last] ∧
        bmfont_get_error_string (bmfont_parse_file (small_document ++ ['\n'])) = last) :=
  ⟨by decide, by decide,
    (c19_last_error_kept (small_document ++ ['\n']) (by decide)).1,
    (c19_last_error_kept (small_document ++ ['\n']) (by decide)).2.1⟩

set_option maxRecDepth 100000 in
/-- C19, counterexample: on a page line whose file name lacks the closing quote
the parse fails, the first error raised is the quoted-string error and the error
string is the later message of the page loop. -/
theorem c19_first_error_overwritten :
    (bmfont_parse_file unclosed_quote_document).returned = none ∧
      (bmfont_parse_file unclosed_quote_document).parser.raised =
        ["Expected quoted string (line 3, col 16). Got: \"p".toList,
          "Page tag missing filename (line 3)".toList] ∧
      bmfont_get_error_string (bmfont_parse_file unclosed_quote_document) =
        "Page tag missing filename (line 3)".toList ∧
      bmfont_get_error_string (bmfont_parse_file unclosed_quote_document) ≠
        "Expected quoted string (line 3, col 16). Got: \"p".toList := by
  decide
/-- C20 (code_bug): on every failing parse `bmfont_parse_file` returns no font
and `bmfont_free` releases every block the font record points to at the end of
the parse other than the kerning array: the font record, the font name, the
page-name array, every page name in it and the glyph array. The kerning array
is never released. -/
theorem c20_release_on_failure (input : List Char)
    (_hfail : (bmfont_parse_file input).returned = none) :
    (∀ b ∈ font_blocks (bmfont_parse_file input).built, b ≠ Block.kernings →
      b ∈ bmfont_free (bmfont_parse_file input).built) ∧
    Block.kernings ∉ bmfont_free (bmfont_parse_file input).built := by
  have hs := built_sized_pages input
  generalize (bmfont_parse_file input).built = font at hs ⊢
  constructor
  · intro b hb hne
    unfold font_blocks at hb
    unfold bmfont_free
    simp only [sized_pages, slots] at hs
    cases hpn : font.page_names with
    | none =>
      simp only [hpn, List.append_nil, List.mem_append, List.mem_singleton,
        List.mem_ite_nil_right] at hb ⊢
      tauto
    | some names =>
      simp only [hpn, Option.getD_some] at hs
      simp only [hpn, hs, List.mem_append, List.mem_singleton, List.mem_ite_nil_right,
        List.mem_cons] at hb ⊢
      tauto
  · unfold bmfont_free
    cases font.page_names <;> simp

set_option maxRecDepth 100000 in
/-- C20, at a document that declares two kerning lines and supplies one: no
font is returned, the kerning array was allocated, and `bmfont_free` does not
release it. -/
theorem c20_kerning_array_leaked :
    (bmfont_parse_file short_kernings_document).returned = none ∧
      (bmfont_parse_file short_kernings_document).built.kernings.isSome = true ∧
      Block.kernings ∈ font_blocks (bmfont_parse_file short_kernings_document).built ∧
      Block.kernings ∉ bmfont_free (bmfont_parse_file short_kernings_document).built := by
  have hret : (bmfont_parse_file short_kernings_document).returned = none := by decide
  refine ⟨hret, by decide, by decide, (c20_release_on_failure short_kernings_document hret).2⟩

/-- C21: the token sequence. For every input without NUL in which no run of
characters other than `=`, space, carriage return and newline reaches 1024
characters, priming and then calling `bmfont__load_next_token` until the
end-of-stream flag is set succeeds and sets the flag within one call per
character plus one, and the tokens produced are the tokens of the
specification. Each token is the newline, the equals sign, or a non-empty word
without any of the four delimiters. Each word is a maximal run of the input:
the input is a text `pre`, the word and a text `post`, where `pre` is empty or
ends with a delimiter, `post` is empty or starts with one, and the tokens
before and after the word are the tokens of `pre` and of `post`. The
concatenation of all tokens is the input with every space and carriage return
removed. -/
theorem c21_token_sequence (input : List Char) (hnul : ∀ c ∈ input, c ≠ Char.ofNat 0)
    (hshort : ∀ pre w post, input = pre ++ w ++ post → (∀ c ∈ w, is_delim c = false) →
      w.length < BMFONT_MAX_TOKEN_LENGTH) :
    ∃ toks, file_tokens input = some toks ∧ toks = spec_tokens input ∧
      (∀ t ∈ toks, t = ['\n'] ∨ t = ['='] ∨ (t ≠ [] ∧ ∀ c ∈ t, is_delim c = false)) ∧
      (∀ (ts1 : List (List Char)) (w : List Char) (ts2 : List (List Char)),
        toks = ts1 ++ w :: ts2 → w ≠ ['\n'] → w ≠ ['='] →
        ∃ pre post, input = pre ++ w ++ post ∧
          (pre = [] ∨ ∃ pre1 d, pre = pre1 ++ [d] ∧ is_delim d = true) ∧
          delim_start post = true ∧
          ts1.flatten = pre.filter (fun c => decide (c ≠ ' ' ∧ c ≠ '\r')) ∧
          ts2.flatten = post.filter (fun c => decide (c ≠ ' ' ∧ c ≠ '\r'))) ∧
      toks.flatten = input.filter (fun c => decide (c ≠ ' ' ∧ c ≠ '\r')) := by
  refine ⟨spec_tokens input, file_tokens_spec input hnul hshort, rfl,
    spec_tokens_kinds _ input, ?_, ?_⟩
  · intro ts1 w ts2 h h1 h2
    have := spec_tokens_maximal (input.length + 1) input (Nat.lt_succ_self _) ts1 w ts2 h h1 h2
    rw [keep_not_blank] at this
    exact this
  · have := spec_tokens_flatten (input.length + 1) input (Nat.lt_succ_self _)
    rw [keep_not_blank] at this
    exact this

/-- C21, on the input `info  face=a` with a carriage return and a newline at
its end: the tokens are `info`, `face`, `=`, `a` and the newline, and their
concatenation is the input without its two spaces and its carriage return. -/
theorem c21_info_line :
    file_tokens "info  face=a\r\n".toList
        = some ["info".toList, "face".toList, ['='], ['a'], ['\n']] ∧
      ∃ toks, file_tokens "info  face=a\r\n".toList = some toks ∧
        toks = spec_tokens "info  face=a\r\n".toList ∧
        toks.flatten = "infoface=a\n".toList := by
  obtain ⟨toks, h1, h2, _, _, h5⟩ := c21_token_sequence "info  face=a\r\n".toList (by decide)
    (short_runs_of_length _ (by decide))
  refine ⟨by decide, toks, h1, h2, ?_⟩
  rw [h5]
  decide

/-- C22 (amended): `bmfont__match_token_and_advance(token)` returns true iff the
parser is ok, not at the end of the stream, the current token equals the
literal and loading the next token succeeds, and the call is then exactly one
call of `bmfont__load_next_token`. It returns false and leaves the whole parser
record untouched only when the parser is not at the end of the stream and the
ok flag is cleared or the current token differs. At the end of the stream it
returns false after raising `Unexpectedly reached EOF` (the ok flag is cleared
and the error string rewritten); and when the token matches but the following
token cannot be loaded it returns false with the tokenizer advanced and the
token-length error raised. -/
theorem c22_match_frame (p : BMFont__Parser) (token : List Char) :
    ((bmfont__match_token_and_advance p token).1 = true ↔
      p.ok = true ∧ p.eof = false ∧ p.next_token = token ∧
        (bmfont__load_next_token p).1 = true) ∧
    ((bmfont__match_token_and_advance p token).1 = true →
      bmfont__match_token_and_advance p token = bmfont__load_next_token p) ∧
    (p.eof = false → (p.ok = false ∨ p.next_token ≠ token) →
      bmfont__match_token_and_advance p token = (false, p)) ∧
    (p.eof = true →
      bmfont__match_token_and_advance p token =
        (false, bmfont__set_parser_error p (msg_unexpected_eof p.start_line p.start_col))) ∧
    (p.ok = true → p.eof = false → p.next_token = token →
      (bmfont__load_next_token p).1 = false →
      bmfont__match_token_and_advance p token = (false, (bmfont__load_next_token p).2) ∧
        (bmfont__load_next_token p).2.ok = false) := by
  have heofc : p.eof = true →
      bmfont__match_token_and_advance p token =
        (false, bmfont__set_parser_error p (msg_unexpected_eof p.start_line p.start_col)) := by
    intro h
    simp [bmfont__match_token_and_advance, bmfont__expect_more_tokens, h]
  have hframe : p.eof = false → (p.ok = false ∨ p.next_token ≠ token) →
      bmfont__match_token_and_advance p token = (false, p) := by
    intro h hc
    rcases hc with hc | hc
    · simp [bmfont__match_token_and_advance, bmfont__expect_more_tokens, h, bmfont__parser_ok, hc]
    · simp [bmfont__match_token_and_advance, bmfont__expect_more_tokens, h, hc]
  have hsame : p.ok = true → p.eof = false → p.next_token = token →
      bmfont__match_token_and_advance p token = bmfont__load_next_token p :=
    fun h1 h2 h3 => match_same_exact p h1 h2 token h3
  have hiff : (bmfont__match_token_and_advance p token).1 = true ↔
      p.ok = true ∧ p.eof = false ∧ p.next_token = token ∧
        (bmfont__load_next_token p).1 = true := by
    constructor
    · intro h
      cases heof : p.eof
      · cases hok : p.ok
        · rw [hframe heof (Or.inl hok)] at h
          exact absurd h (by simp)
        · by_cases ht : p.next_token = token
          · rw [hsame hok heof ht] at h
            exact ⟨rfl, rfl, ht, h⟩
          · rw [hframe heof (Or.inr ht)] at h
            exact absurd h (by simp)
      · rw [heofc heof] at h
        exact absurd h (by simp)
    · rintro ⟨h1, h2, h3, h4⟩
      rw [hsame h1 h2 h3]
      exact h4
  refine ⟨hiff, fun h => ?_, hframe, heofc, fun h1 h2 h3 h4 => ?_⟩
  · obtain ⟨h1, h2, h3, _⟩ := hiff.1 h
    exact hsame h1 h2 h3
  · rw [hsame h1 h2 h3]
    exact ⟨Prod.ext h4 rfl, load_false_ok p h4⟩

/-- C22, at the token `info` in front of ` face`: matching `info` loads the
next token, and matching `common` returns false with the parser untouched. -/
theorem c22_match_and_mismatch :
    bmfont__match_token_and_advance (parser_holding "info".toList " face".toList) "info".toList
        = bmfont__load_next_token (parser_holding "info".toList " face".toList) ∧
      bmfont__match_token_and_advance (parser_holding "info".toList " face".toList)
        "common".toList = (false, parser_holding "info".toList " face".toList) :=
  ⟨(c22_match_frame (parser_holding "info".toList " face".toList) "info".toList).2.1
      (by decide),
    (c22_match_frame (parser_holding "info".toList " face".toList) "common".toList).2.2.1
      (by decide) (Or.inr (by decide))⟩

/-- C22 as stated fails at the end of the stream: the call returns false, but
the ok flag, set before the call, is cleared and the error string `Success` is
replaced by the end-of-stream message. -/
theorem c22_match_at_end_of_stream :
    parser_at_end.ok = true ∧ parser_at_end.eof = true ∧
      parser_at_end.error = "Success".toList ∧
      (bmfont__match_token_and_advance parser_at_end ['\n']).1 = false ∧
      (bmfont__match_token_and_advance parser_at_end ['\n']).2.ok = false ∧
      (bmfont__match_token_and_advance parser_at_end ['\n']).2.error
        = "Unexpectedly reached EOF (line 1, col 3). Expected token.".toList := by
  decide

/-- C23 (code_bug): once the ok flag is cleared it stays cleared, through every
helper, every section parser and the whole chain of sections, and every helper
called afterwards returns failure without moving the current token, the
position counters, the end-of-stream flag or the stream. The typed integer
extractions leave their destination unwritten. The extractions and the two
copies are entered by the section parsers only after
`bmfont__match_key_and_advance_to_value` has returned true, which it does only
with the flag set, so no destination is written after an error: the body of
each of the seven key/value loops, called with the flag cleared, leaves its
font or record as it is. The helpers do not simply return failure, though:
every call of `bmfont__load_next_token` made with the flag cleared violates
the assertion at its entry. -/
theorem c23_ok_flag_sticky (p : BMFont__Parser) (hok : p.ok = false) (tok : List Char)
    (font : BMFont) :
    failed_in_place p (bmfont__load_next_token p) ∧
    failed_in_place p (bmfont__match_token_and_advance p tok) ∧
    failed_in_place p (bmfont__expect_token_and_advance p tok) ∧
    failed_in_place p (bmfont__match_key_and_advance_to_value p tok) ∧
    (failed_in_place p ((bmfont__get_token_as_int16_and_advance p).1,
        (bmfont__get_token_as_int16_and_advance p).2.1) ∧
      (bmfont__get_token_as_int16_and_advance p).2.2 = none) ∧
    (failed_in_place p ((bmfont__get_token_as_uint16_and_advance p).1,
        (bmfont__get_token_as_uint16_and_advance p).2.1) ∧
      (bmfont__get_token_as_uint16_and_advance p).2.2 = none) ∧
    (failed_in_place p ((bmfont__get_token_as_uint32_and_advance p).1,
        (bmfont__get_token_as_uint32_and_advance p).2.1) ∧
      (bmfont__get_token_as_uint32_and_advance p).2.2 = none) ∧
    failed_in_place p ((bmfont__copy_token_and_advance p).1,
        (bmfont__copy_token_and_advance p).2.1) ∧
    failed_in_place p ((bmfont__copy_quoted_token_and_advance p).1,
        (bmfont__copy_quoted_token_and_advance p).2.1) ∧
    (∀ (q : BMFont__Parser) (k : List Char),
      (bmfont__match_key_and_advance_to_value q k).1 = true →
        (bmfont__match_key_and_advance_to_value q k).2.ok = true) ∧
    (body_idle parse_info_body p ∧ body_idle parse_common_body p ∧
      body_idle parse_page_body p ∧ body_idle parse_chars_count_body p ∧
      body_idle parse_char_body p ∧ body_idle parse_kernings_count_body p ∧
      body_idle parse_kerning_body p) ∧
    (bmfont__load_next_token p).2.assert_failed = true ∧
    ((bmfont__parse_info p font).2.1.ok = false ∧
      (bmfont__parse_common p font).2.1.ok = false ∧
      (bmfont__parse_pages p font).2.1.ok = false ∧
      (bmfont__parse_chars p font).2.1.ok = false ∧
      (bmfont__parse_kernings p font).2.1.ok = false ∧
      (parse_sections p font).2.1.ok = false) := by
  have h0 : failed_in_place p (false, p) := ⟨rfl, rfl, hok⟩
  have hd := fun lo hi => failed_do_get p p lo hi h0
  refine ⟨failed_load p p h0, failed_match p p tok h0, failed_expect p p tok h0,
    failed_match_key p p tok h0, ?_, ?_, ?_, (failed_copy p hok).1, (failed_copy_quoted p hok).1,
    match_key_true_ok,
    ⟨body_idle_dispatch info_table p hok, body_idle_dispatch common_table p hok,
      body_idle_dispatch page_table p hok, body_idle_dispatch chars_count_table p hok,
      body_idle_dispatch char_table p hok, body_idle_dispatch kernings_count_table p hok,
      body_idle_dispatch kerning_table p hok⟩, ?_,
    closed_info ok_cleared_closed p font hok, closed_common ok_cleared_closed p font hok,
    closed_pages ok_cleared_closed p font hok, closed_chars ok_cleared_closed p font hok,
    closed_kernings ok_cleared_closed p font hok, closed_sections ok_cleared_closed p font hok⟩
  · rw [failed_get_int16 p hok]
    exact ⟨⟨rfl, (hd _ _).2.1, (hd _ _).2.2⟩, rfl⟩
  · rw [failed_get_uint16 p hok]
    exact ⟨⟨rfl, (hd _ _).2.1, (hd _ _).2.2⟩, rfl⟩
  · rw [failed_get_uint32 p hok]
    exact ⟨⟨rfl, (hd _ _).2.1, (hd _ _).2.2⟩, rfl⟩
  · rw [load_in_place p hok]

set_option maxRecDepth 100000 in
/-- C23, in the parse of the file `info size`: the test for the key `size`
reaches the end of the input and clears the ok flag, with the assertion not
yet violated; the fall-through branch of the loop body then calls
`bmfont__load_next_token`, which returns failure without moving the token
state and is entered against its assertion; the parse ends with the assertion
violated and returns no font. -/
theorem c23_load_after_failed_key :
    parser_after_failed_key.ok = false ∧
      parser_after_failed_key.assert_failed = false ∧
      failed_in_place parser_after_failed_key
        (bmfont__load_next_token parser_after_failed_key) ∧
      (bmfont__load_next_token parser_after_failed_key).2.assert_failed = true ∧
      (bmfont_parse_file document_size_at_end).parser.assert_failed = true ∧
      (bmfont_parse_file document_size_at_end).returned = none :=
  ⟨by decide, by decide,
    (c23_ok_flag_sticky parser_after_failed_key (by decide) [] empty_font).1,
    (c23_ok_flag_sticky parser_after_failed_key (by decide) [] empty_font).2.2.2.2.2.2.2.2.2.2.2.1,
    by decide, by decide⟩

/-- C24: end-of-stream is sticky. Once the end-of-stream flag is set, every
further call of `bmfont__load_next_token` with the ok flag still set returns
true and leaves the parser record as it is (token text, start and current line
and column, flags, stream), so any number of further calls produces no token;
and a call from a ready parser sets the flag exactly when nothing but spaces
and carriage returns is left in the stream. -/
theorem c24_end_of_stream_sticky (p : BMFont__Parser) (hok : p.ok = true) :
    (p.eof = true →
      bmfont__load_next_token p = (true, p) ∧
      ∀ n : Nat, Nat.iterate (fun q => (bmfont__load_next_token q).2) n p = p) ∧
    (p.eof = false →
      ((bmfont__load_next_token p).2.eof = true ↔ (skip_blank p.stream p.curr_col).1 = [])) := by
  constructor
  · intro heof
    have h1 : bmfont__load_next_token p = (true, p) := by
      cases p
      simp only at hok heof
      subst hok heof
      simp [bmfont__load_next_token, bmfont__parser_ready, bmfont__parser_ok]
    refine ⟨h1, fun n => ?_⟩
    induction n with
    | zero => rfl
    | succ n ih =>
      rw [Function.iterate_succ_apply]
      simp only [h1]
      exact ih
  · intro heof
    unfold bmfont__load_next_token
    simp only [bmfont__parser_ready, bmfont__parser_ok, hok, heof, Bool.not_false, Bool.and_self,
      if_true]
    split
    · rename_i h
      simp [h]
    · rename_i c cs h
      rw [h]
      split
      · simp [heof]
      · split
        · simp [heof]
        · split <;> simp [heof, bmfont__set_parser_error]

/-- C24, on a file of two spaces: the first call sets the end-of-stream flag,
and three more calls leave the parser where it was. -/
theorem c24_blank_file :
    parser_at_end.eof = true ∧
      bmfont__load_next_token parser_at_end = (true, parser_at_end) ∧
      (bmfont__load_next_token (bmfont__load_next_token
        (bmfont__load_next_token parser_at_end).2).2).2 = parser_at_end :=
  ⟨by decide, ((c24_end_of_stream_sticky parser_at_end (by decide)).1 (by decide)).1,
    ((c24_end_of_stream_sticky parser_at_end (by decide)).1 (by decide)).2 3⟩

/-- C25 (amended): the section parsers return the accumulated validity flag,
with one exception. For every parser state and font record the boolean returned
by `bmfont__parse_info`, `bmfont__parse_common`, `bmfont__parse_pages` and
`bmfont__parse_chars` equals the parser's ok flag at the moment of return. For
`bmfont__parse_kernings` this holds exactly when the function is not entered at
the end of the stream with the ok flag set: entered there (a file without
kernings section) it returns false, leaves the parser as it is, ok flag still
set, and stores the empty kerning collection. -/
theorem c25_section_flags (p : BMFont__Parser) (font : BMFont) :
    (bmfont__parse_info p font).1 = (bmfont__parse_info p font).2.1.ok ∧
    (bmfont__parse_common p font).1 = (bmfont__parse_common p font).2.1.ok ∧
    (bmfont__parse_pages p font).1 = (bmfont__parse_pages p font).2.1.ok ∧
    (bmfont__parse_chars p font).1 = (bmfont__parse_chars p font).2.1.ok ∧
    ((bmfont__parse_kernings p font).1 = (bmfont__parse_kernings p font).2.1.ok ↔
      ¬ (p.ok = true ∧ p.eof = true)) ∧
    (p.ok = true → p.eof = true →
      bmfont__parse_kernings p font = (false, p, { font with kernings := some [] })) := by
  refine ⟨(info_spec p font).1, common_flag p font, pages_flag p font, chars_flag p font, ?_, ?_⟩
  · cases hok : p.ok
    · have hr : bmfont__parser_ready p = false := by
        simp [bmfont__parser_ready, bmfont__parser_ok, hok]
      rw [kernings_absent p font hr]
      simp [hok]
    · cases heof : p.eof
      · have hr : bmfont__parser_ready p = true := by
          simp [bmfont__parser_ready, bmfont__parser_ok, hok, heof]
        simp [kernings_flag p font hr]
      · have hr : bmfont__parser_ready p = false := by
          simp [bmfont__parser_ready, bmfont__parser_ok, hok, heof]
        rw [kernings_absent p font hr]
        simp [hok]
  · intro hok heof
    exact kernings_absent p font (by simp [bmfont__parser_ready, bmfont__parser_ok, hok, heof])

/-- C25, at the token `kernings` in front of ` count=0`: entered on a ready
parser, `bmfont__parse_kernings` returns the ok flag. -/
theorem c25_kernings_entered_ready :
    (bmfont__parse_kernings (parser_holding "kernings".toList " count=0\n".toList)
        empty_font).1 =
      (bmfont__parse_kernings (parser_holding "kernings".toList " count=0\n".toList)
        empty_font).2.1.ok :=
  (c25_section_flags (parser_holding "kernings".toList " count=0\n".toList) empty_font).2.2.2.2.1.2
    (by decide)

set_option maxRecDepth 100000 in
/-- C25 as stated fails for `bmfont__parse_kernings` on a document that ends
after its chars section: the four leading sections leave the parser at the end
of the stream with the ok flag set, `bmfont__parse_kernings` returns false
there with the flag still set, and `bmfont_parse_file` returns the font. -/
theorem c25_kernings_false_with_ok_set :
    (parse_leading_sections
        (bmfont__load_next_token (parser_at_start document_without_kernings)).2
        empty_font).1 = true ∧
      (bmfont__parse_kernings
        (parse_leading_sections
          (bmfont__load_next_token (parser_at_start document_without_kernings)).2
          empty_font).2.1
        (parse_leading_sections
          (bmfont__load_next_token (parser_at_start document_without_kernings)).2
          empty_font).2.2).1 = false ∧
      (bmfont__parse_kernings
        (parse_leading_sections
          (bmfont__load_next_token (parser_at_start document_without_kernings)).2
          empty_font).2.1
        (parse_leading_sections
          (bmfont__load_next_token (parser_at_start document_without_kernings)).2
          empty_font).2.2).2.1.ok = true ∧
      (bmfont_parse_file document_without_kernings).returned ≠ none := by
  decide

/-- C26: token positions are 1-based and exact. The parser starts at line 1,
column 1. After any number of calls of `bmfont__load_next_token` on a file, the
input is a text `pre`, the characters `chars` of the current token and the
unread stream, and `start_line` is 1 plus the number of newline characters of
`pre`, `start_col` is 1 plus the number of characters other than carriage
return between the last newline of `pre` (or the start of the input) and the
first character of the token. At the end of the stream `chars` is empty and
nothing is unread, so the position is the one after the whole input;
otherwise the token is the text of `chars`, which is a newline, an equals sign
or a run without delimiter. The property is kept by every further call, from
any state that has it. -/
theorem c26_token_positions (input : List Char) (n : Nat) :
    ((parser_at_start input).curr_line = 1 ∧ (parser_at_start input).curr_col = 1) ∧
    (∃ pre chars,
      input = pre ++ chars ++ (after_loads (n + 1) input).stream ∧
      (after_loads (n + 1) input).start_line = 1 + pre.count '\n' ∧
      (after_loads (n + 1) input).start_col
        = 1 + ((pre.reverse.takeWhile (fun c => c ≠ '\n')).filter
            (fun c => c ≠ '\r')).length ∧
      ((after_loads (n + 1) input).eof = true →
        chars = [] ∧ (after_loads (n + 1) input).stream = []) ∧
      ((after_loads (n + 1) input).eof = false →
        chars ≠ [] ∧ (after_loads (n + 1) input).next_token = cstr chars ∧
          (chars = ['\n'] ∨ chars = ['='] ∨ ∀ c ∈ chars, is_delim c = false))) ∧
    (∀ q, token_located input q → token_located input (bmfont__load_next_token q).2) := by
  refine ⟨⟨rfl, rfl⟩, ?_, located_load input⟩
  obtain ⟨pre, chars, h1, h2, h3, _, _, h6, h7⟩ := located_after_loads input n
  exact ⟨pre, chars, h1, h2, h3, h6, h7⟩

/-- C26, on the input of the two lines `a` (ended by carriage return and
newline) and ` b=c`: the third token is `b` at line 2, column 2, the newline
before it is at line 1, column 2, and the end of the stream is at line 2,
column 5. -/
theorem c26_second_line :
    (after_loads 2 ['a', '\r', '\n', ' ', 'b', '=', 'c']).next_token = ['\n'] ∧
      (after_loads 2 ['a', '\r', '\n', ' ', 'b', '=', 'c']).start_line = 1 ∧
      (after_loads 2 ['a', '\r', '\n', ' ', 'b', '=', 'c']).start_col = 2 ∧
      (after_loads 3 ['a', '\r', '\n', ' ', 'b', '=', 'c']).next_token = ['b'] ∧
      (after_loads 3 ['a', '\r', '\n', ' ', 'b', '=', 'c']).start_line = 2 ∧
      (after_loads 3 ['a', '\r', '\n', ' ', 'b', '=', 'c']).start_col = 2 ∧
      (after_loads 6 ['a', '\r', '\n', ' ', 'b', '=', 'c']).eof = true ∧
      (after_loads 6 ['a', '\r', '\n', ' ', 'b', '=', 'c']).start_line = 2 ∧
      (after_loads 6 ['a', '\r', '\n', ' ', 'b', '=', 'c']).start_col = 5 ∧
      ∃ pre chars,
        ['a', '\r', '\n', ' ', 'b', '=', 'c']
          = pre ++ chars ++ (after_loads 3 ['a', '\r', '\n', ' ', 'b', '=', 'c']).stream ∧
        (after_loads 3 ['a', '\r', '\n', ' ', 'b', '=', 'c']).start_line
          = 1 + pre.count '\n' ∧
        (after_loads 3 ['a', '\r', '\n', ' ', 'b', '=', 'c']).start_col
          = 1 + ((pre.reverse.takeWhile (fun c => c ≠ '\n')).filter
              (fun c => c ≠ '\r')).length ∧
        ((after_loads 3 ['a', '\r', '\n', ' ', 'b', '=', 'c']).eof = true →
          chars = [] ∧ (after_loads 3 ['a', '\r', '\n', ' ', 'b', '=', 'c']).stream = []) ∧
        ((after_loads 3 ['a', '\r', '\n', ' ', 'b', '=', 'c']).eof = false →
          chars ≠ [] ∧
          (after_loads 3 ['a', '\r', '\n', ' ', 'b', '=', 'c']).next_token = cstr chars ∧
            (chars = ['\n'] ∨ chars = ['='] ∨ ∀ c ∈ chars, is_delim c = false)) :=
  ⟨by decide, by decide, by decide, by decide, by decide, by decide, by decide, by decide,
    by decide, (c26_token_positions ['a', '\r', '\n', ' ', 'b', '=', 'c'] 2).2.1⟩

/-- C28 (corrected): the font name is the raw token text when the info line is
made of `key=value` pairs. For an info line at the start of
a file that holds the pair `face=<t>`, `t` a word token, among pairs `size=<v>`
and pairs of words with other keys, in any order and number, followed by a
newline and a token that can be loaded: `bmfont__parse_info` returns true and the font name
is `t` character for character, with nothing stripped. -/
theorem c28_font_name_raw (t : List Char) (v : Int) (ps : List (List Char × List Char))
    (rest t1 s1 : List Char) (e : Bool) (font : BMFont)
    (ht : is_word t = true) (h1 : -32768 ≤ v) (h2 : v ≤ 32767)
    (hps : ∀ kv ∈ ps, info_line_pair t v kv) (hface : ("face".toList, t) ∈ ps)
    (nx : Next rest t1 s1 e) :
    (bmfont__parse_info
        (bmfont__load_next_token
          (parser_at_start ("info".toList ++ render_pairs ps ('\n' :: rest)))).2 font).1
        = true ∧
      (bmfont__parse_info
        (bmfont__load_next_token
          (parser_at_start ("info".toList ++ render_pairs ps ('\n' :: rest)))).2 font).2.2.font_name
        = some t := by
  obtain ⟨q, _, hq⟩ := info_line_parsed t v ht h1 h2 ps hps nx font
  rw [hq]
  exact ⟨rfl, face_stored t v ps font hps hface⟩

set_option maxRecDepth 100000 in
/-- C28, on the info line `info face="Arial" size=8` at the end of a file, and
on two complete documents: `face="Arial"` gives a name of 7 characters that
begins and ends with a double quote, and `face=valid` gives `valid`. -/
theorem c28_quotes_kept :
    (bmfont__parse_info
        (bmfont__load_next_token
          (parser_at_start ("info".toList ++ render_pairs
            [("face".toList, "\"Arial\"".toList), ("size".toList, fmt_int 8)]
            ['\n']))).2 empty_font).2.2.font_name = some "\"Arial\"".toList ∧
      "\"Arial\"".toList.length = 7 ∧
      ((bmfont_parse_file document_quoted_face).returned.map (fun f => f.font_name))
        = some (some ['"', 'A', 'r', 'i', 'a', 'l', '"']) ∧
      ((bmfont_parse_file document_plain_face).returned.map (fun f => f.font_name))
        = some (some "valid".toList) :=
  ⟨(c28_font_name_raw "\"Arial\"".toList 8
      [("face".toList, "\"Arial\"".toList), ("size".toList, fmt_int 8)] [] [] [] true empty_font
      (by decide) (by decide) (by decide)
      (fun kv hkv => by
        simp only [List.mem_cons, List.mem_singleton, List.not_mem_nil, or_false] at hkv
        rcases hkv with rfl | rfl
        · exact Or.inl rfl
        · exact Or.inr (Or.inl rfl))
      (by simp) (next_eof [])).2,
    by decide, by decide, by decide⟩

set_option maxRecDepth 100000 in
/-- C28 as stated fails on info lines that hold `face=<t>` but are not made of
pairs, or hold it twice: in `info foo= face=a size=1` the word `face` is taken
as the value of `foo`, the document is parsed successfully and the font name is
left null; in `info face=a face=b size=1` the font name is `b`. -/
theorem c28_face_pair_not_read :
    (bmfont_parse_file document_face_after_empty_value).returned.map (fun f => f.font_name)
        = some none ∧
      (bmfont_parse_file document_face_after_empty_value).clean = true ∧
      (bmfont_parse_file document_two_faces).returned.map (fun f => f.font_name)
        = some (some ['b']) := by
  decide

/-- C29 (corrected): records start zero-valued. For a document with any valid
info line, common line and page lines (at most 32768 of them, ids below their
number), whose char lines hold any pairs among the eight
tags (values written in decimal, in the range of their readers) and pairs with
other keys, in any order and number, and whose kerning lines hold any pairs
among `first`, `second`, `amount` and pairs with other keys, the counts being
the numbers of lines: `bmfont_parse_file` succeeds inside defined behaviour,
the font has one glyph per
char line and one kerning per kerning line, and every field of a glyph or of a
kerning whose key does not occur on the line of its record is 0. -/
theorem c29_records_start_zero (d : Doc) (lines klines : List (List (List Char × List Char)))
    (hd : d.preamble_ok) (hp : d.pages_ok d.pages.length) (hpc : d.pages.length ≤ 32768)
    (hl : ∀ ps ∈ lines, ∀ kv ∈ ps, char_line_pair kv) (hlc : lines.length ≤ 65535)
    (hk : ∀ ps ∈ klines, ∀ kv ∈ ps, kerning_line_pair kv) (hkc : klines.length ≤ 65535) :
    ∃ font cs ks,
      (bmfont_parse_file (render_with_lines d lines klines)).returned = some font ∧
      (bmfont_parse_file (render_with_lines d lines klines)).clean = true ∧
      font.chars = some cs ∧ cs.length = lines.length ∧
      font.kernings = some ks ∧ ks.length = klines.length ∧
      (∀ (j : Nat) (tag : CharTag), tag.key ∉ (lines.getD j []).map Prod.fst →
        tag.field (cs.getD j default) = 0) ∧
      (∀ (j : Nat) (tag : KerningTag), tag.key ∉ (klines.getD j []).map Prod.fst →
        tag.field (ks.getD j default) = 0) := by
  refine ⟨_, lines.map build_char, klines.map build_kerning,
    (parse_with_lines_clean d lines klines hd hp hpc hl hlc hk hkc).1,
    (parse_with_lines_clean d lines klines hd hp hpc hl hlc hk hkc).2, rfl,
    List.length_map _ _, rfl, List.length_map _ _, ?_, ?_⟩
  · intro j tag h
    rw [getD_map_build build_char default rfl lines j]
    exact (char_field_absent tag _ default h).trans (char_field_default tag)
  · intro j tag h
    rw [getD_map_build build_kerning default rfl klines j]
    exact (kerning_field_absent tag _ default h).trans (kerning_field_default tag)

set_option maxRecDepth 100000 in
/-- C29, on a document with the char lines `char id=65 width=7` and `char` and
the kerning line `kerning second=66`: the first glyph has id 65, width 7 and 0
in its other fields, the second glyph is all zero, and the kerning has second
66 with first and amount 0. -/
theorem c29_sparse_records :
    render_with_lines sparse_preamble
        [[("id".toList, "65".toList), ("width".toList, ['7'])], []]
        [[("second".toList, "66".toList)]] = document_sparse_records ∧
      ((bmfont_parse_file document_sparse_records).returned.map (fun f => (f.chars, f.kernings)))
        = some (some [{ id := 65, x := 0, y := 0, width := 7, height := 0, x_offset := 0,
                        y_offset := 0, x_advance := 0, page := 0, channel := 0 },
                      { id := 0, x := 0, y := 0, width := 0, height := 0, x_offset := 0,
                        y_offset := 0, x_advance := 0, page := 0, channel := 0 }],
                some [{ first := 0, second := 66, amount := 0 }]) ∧
      ∃ font cs ks,
        (bmfont_parse_file (render_with_lines sparse_preamble
          [[("id".toList, "65".toList), ("width".toList, ['7'])], []]
          [[("second".toList, "66".toList)]])).returned = some font ∧
        (bmfont_parse_file (render_with_lines sparse_preamble
          [[("id".toList, "65".toList), ("width".toList, ['7'])], []]
          [[("second".toList, "66".toList)]])).clean = true ∧
        font.chars = some cs ∧ cs.length = 2 ∧ font.kernings = some ks ∧ ks.length = 1 ∧
        (∀ (j : Nat) (tag : CharTag),
          tag.key ∉ (([[("id".toList, "65".toList), ("width".toList, ['7'])], []] :
            List (List (List Char × List Char))).getD j []).map Prod.fst →
          tag.field (cs.getD j default) = 0) ∧
        (∀ (j : Nat) (tag : KerningTag),
          tag.key ∉ (([[("second".toList, "66".toList)]] :
            List (List (List Char × List Char))).getD j []).map Prod.fst →
          tag.field (ks.getD j default) = 0) :=
  ⟨by decide, by decide,
    c29_records_start_zero sparse_preamble
      [[("id".toList, "65".toList), ("width".toList, ['7'])], []]
      [[("second".toList, "66".toList)]] sparse_preamble_ok sparse_pages_ok (by decide)
      (by
        intro ps hps kv hkv
        simp only [List.mem_cons, List.mem_singleton, List.not_mem_nil, or_false] at hps
        rcases hps with rfl | rfl
        · simp only [List.mem_cons, List.mem_singleton, List.not_mem_nil, or_false] at hkv
          rcases hkv with rfl | rfl
          · exact Or.inl ⟨CharTag.id, 65, by decide, rfl⟩
          · exact Or.inl ⟨CharTag.width, 7, by decide, rfl⟩
        · simp at hkv)
      (by decide)
      (by
        intro ps hps kv hkv
        simp only [List.mem_singleton] at hps
        subst hps
        simp only [List.mem_singleton] at hkv
        subst hkv
        exact Or.inr (Or.inl ⟨66, by decide, rfl⟩))
      (by decide)⟩

set_option maxRecDepth 100000 in
/-- C29 as stated fails when a record reads past its line: in a document with
`chars count=1`, the lines `char foo=` and `char width=9`, `kernings count=1`
and the lines `kerning foo=` and `kerning amount=3`, the parse succeeds inside
defined behaviour; the key `width` does not occur on the line of the one char
record and its glyph has the width 9, the key `amount` does not occur on the
line of the one kerning record and its kerning has the amount 3. -/
theorem c29_absent_key_not_zero :
    (bmfont_parse_file document_records_read_on).returned.map
        (fun f => (f.num_chars, f.chars.map (fun cs => cs.map (fun g => g.width)),
          f.num_kernings, f.kernings.map (fun ks => ks.map (fun k => k.amount))))
      = some (1, some [9], 1, some [3]) ∧
      (bmfont_parse_file document_records_read_on).clean = true := by
  decide

/-- C30: the page and channel of every glyph and the four channel fields of the
font are never assigned. For every input on which `bmfont_parse_file` succeeds,
the returned font has `alpha_channel`, `red_channel`, `green_channel` and
`blue_channel` equal to 0 and every glyph of its block has `page` and `channel`
equal to 0, whatever the input holds after `page=`, `chnl=`, `alphaChnl=`,
`redChnl=`, `greenChnl=` or `blueChnl=`: no key is stored in these fields. -/
theorem c30_channels_never_assigned (input : List Char) (font : BMFont)
    (h : (bmfont_parse_file input).returned = some font) :
    font.alpha_channel = 0 ∧ font.red_channel = 0 ∧ font.green_channel = 0 ∧
      font.blue_channel = 0 ∧
      ∀ cs, font.chars = some cs → ∀ c ∈ cs, c.page = 0 ∧ c.channel = 0 := by
  have hf := (parse_file_returned input font h).2.2
  have hc := channels_sections (bmfont__load_next_token (parser_at_start input)).2 empty_font
    channels_empty_font
  rw [← hf] at hc
  exact hc

set_option maxRecDepth 100000 in
/-- C30, on a document whose common line holds `alphaChnl=1 redChnl=2
greenChnl=3 blueChnl=4` and whose char line holds `page=5 chnl=15`: the parse
succeeds, the glyph has the id and x of its line, and all six fields are 0. -/
theorem c30_channel_keys_discarded :
    (bmfont_parse_file document_with_channels).returned =
        some font_of_document_with_channels ∧
      font_of_document_with_channels.alpha_channel = 0 ∧
      font_of_document_with_channels.red_channel = 0 ∧
      font_of_document_with_channels.green_channel = 0 ∧
      font_of_document_with_channels.blue_channel = 0 ∧
      ∀ cs, font_of_document_with_channels.chars = some cs →
        ∀ c ∈ cs, c.page = 0 ∧ c.channel = 0 :=
  ⟨by decide,
    c30_channels_never_assigned document_with_channels font_of_document_with_channels
      (by decide)⟩

/-- C31 (code_bug): for every file contents, if the entry assertion of
`bmfont__load_next_token` is violated at some call made during
`bmfont_parse_file`, then the ok flag is cleared when the parse ends and no
font is returned: on every successful parse the assertion holds at every call.
It does not hold on every input. -/
theorem c31_assert_violated_only_after_error (input : List Char)
    (h : (bmfont_parse_file input).parser.assert_failed = true) :
    (bmfont_parse_file input).parser.ok = false ∧
      (bmfont_parse_file input).returned = none := by
  have hk : assert_after_error (bmfont_parse_file input).parser :=
    kept_parse_file assert_after_error_closed assert_after_error_loops input
      (fun ha => absurd ha (by decide : ¬ false = true))
  have hok := hk h
  refine ⟨hok, ?_⟩
  revert hok
  unfold bmfont_parse_file
  simp only
  split
  · intro _; rfl
  · split
    · intro _; rfl
    · rename_i h1 _
      intro hok
      have hok2 : (parse_sections (bmfont__load_next_token (parser_at_start input)).2
          empty_font).2.1.ok = false := hok
      simp [bmfont__parser_ok, hok2] at h1

set_option maxRecDepth 100000 in
/-- C31, at the file `info face`, which ends right after a key: the helper that
looks for `=` clears the ok flag at the end of the input, and the fall-through
branch of the key/value loop then calls `bmfont__load_next_token` with the
flag cleared. -/
theorem c31_key_at_end_of_input :
    (bmfont_parse_file document_key_at_end).parser.assert_failed = true ∧
      (bmfont_parse_file document_key_at_end).parser.ok = false ∧
      (bmfont_parse_file document_key_at_end).returned = none :=
  ⟨by decide, c31_assert_violated_only_after_error document_key_at_end (by decide)⟩

/-- C32 (corrected): for every document without kernings section whose info,
common and page lines are well-formed (at most 32768 page lines, ids below
their number), whose chars line declares `declared`
glyphs and whose char lines are made of `key=value` pairs of words (a
recognised key with a value its reader accepts, or another key with any
word), the run of `bmfont_parse_file` stays inside defined behaviour, it
returns a font exactly when the document has
`declared` char lines, and then the glyph `i` is built from the pairs of the
i-th char line alone. The key/value loop of a record can read past its line
when a key is not followed by `=` and a value on the same line. -/
theorem c32_record_per_line (d : Doc) (declared : Nat)
    (lines : List (List (List Char × List Char)))
    (hd : d.preamble_ok) (hp : d.pages_ok d.pages.length) (hpc : d.pages.length ≤ 32768)
    (hl : ∀ ps ∈ lines, ∀ kv ∈ ps, char_line_pair kv) (hdc : declared ≤ 65535) :
    (bmfont_parse_file (render_with_count d declared lines)).clean = true ∧
    ((bmfont_parse_file (render_with_count d declared lines)).returned ≠ none ↔
      declared = lines.length) ∧
    (declared = lines.length →
      ∃ font cs,
        (bmfont_parse_file (render_with_count d declared lines)).returned = some font ∧
        font.num_chars = declared ∧ font.chars = some cs ∧ cs.length = declared ∧
        ∀ i, i < declared → cs.getD i default = build_char (lines.getD i [])) := by
  have hex : declared = lines.length →
      (bmfont_parse_file (render_with_count d declared lines)).returned
        = some (font_with_records d (lines.map build_char) []) := by
    intro he
    subst he
    exact (parse_count_exact d lines hd hp hpc hl hdc).1
  refine ⟨?_, ⟨fun hne => ?_, fun he => by rw [hex he]; exact Option.some_ne_none _⟩,
    fun he => ⟨_, _, hex he, ?_, rfl, ?_, ?_⟩⟩
  · rcases Nat.lt_trichotomy declared lines.length with hlt | heq | hgt
    · exact (parse_count_long d declared lines hd hp hpc hl hdc hlt).2
    · subst heq
      exact (parse_count_exact d lines hd hp hpc hl hdc).2
    · exact (parse_count_short d declared lines hd hp hpc hl hdc hgt).2
  · rcases Nat.lt_trichotomy declared lines.length with hlt | heq | hgt
    · exact absurd (parse_count_long d declared lines hd hp hpc hl hdc hlt).1 hne
    · exact heq
    · exact absurd (parse_count_short d declared lines hd hp hpc hl hdc hgt).1 hne
  · simp [font_with_records, he]
  · simp [he]
  · intro i _
    exact getD_map_build build_char default rfl lines i

set_option maxRecDepth 100000 in
/-- C32, at a document that declares two glyphs and has two char lines, the
second one without pairs: the run stays inside defined behaviour, a font is
returned, the glyph 0 has the id and the
width of the first line and the glyph 1 is left at zero. -/
theorem c32_two_char_lines :
    (bmfont_parse_file (render_with_count sparse_preamble 2
        [[("id".toList, "65".toList), ("width".toList, ['7'])], []])).clean = true ∧
    ((bmfont_parse_file (render_with_count sparse_preamble 2
        [[("id".toList, "65".toList), ("width".toList, ['7'])], []])).returned ≠ none ↔
      2 = ([[("id".toList, "65".toList), ("width".toList, ['7'])], []] :
        List (List (List Char × List Char))).length) ∧
    (2 = ([[("id".toList, "65".toList), ("width".toList, ['7'])], []] :
        List (List (List Char × List Char))).length →
      ∃ font cs,
        (bmfont_parse_file (render_with_count sparse_preamble 2
          [[("id".toList, "65".toList), ("width".toList, ['7'])], []])).returned = some font ∧
        font.num_chars = 2 ∧ font.chars = some cs ∧ cs.length = 2 ∧
        ∀ i, i < 2 → cs.getD i default
          = build_char (([[("id".toList, "65".toList), ("width".toList, ['7'])], []] :
              List (List (List Char × List Char))).getD i [])) :=
  c32_record_per_line sparse_preamble 2
    [[("id".toList, "65".toList), ("width".toList, ['7'])], []]
    sparse_preamble_ok sparse_pages_ok (by decide)
    (by
      intro ps hps kv hkv
      simp only [List.mem_cons, List.mem_singleton, List.not_mem_nil, or_false] at hps
      rcases hps with rfl | rfl
      · simp only [List.mem_cons, List.mem_singleton, List.not_mem_nil, or_false] at hkv
        rcases hkv with rfl | rfl
        · exact Or.inl ⟨CharTag.id, 65, by decide, rfl⟩
        · exact Or.inl ⟨CharTag.width, 7, by decide, rfl⟩
      · simp at hkv)
    (by decide)

set_option maxRecDepth 100000 in
/-- C32, counterexample: a document that declares one glyph and has two lines
beginning with `char`, the first one `char foo=`, is parsed successfully,
inside defined behaviour; the record loop of the glyph 0 takes the newline of
its line as the value of `foo`, reads on through the second line, and the
glyph gets the id 7 written there. -/
theorem c32_record_reads_next_line :
    (bmfont_parse_file document_value_less_key).returned.map
        (fun f => (f.num_chars, f.chars.map (fun cs => cs.map (fun g => g.id))))
      = some (1, some [7]) ∧
      (bmfont_parse_file document_value_less_key).clean = true := by
  decide

/-- C33 (corrected): for every document with a well-formed info line, common
line and page lines (at most 32768 of them, as many as declared, ids below that
number) and any char and kerning lines, `bmfont_parse_file` returns a font with
`num_pages` slots in which the slot `i` holds the file name of the last page
line written with the id `i`, and nothing when no page line has that id: a
slot holds a file name exactly when some page line names it. -/
theorem c33_page_slots (d : Doc) (lines klines : List (List (List Char × List Char)))
    (hd : d.preamble_ok) (hp : d.pages_ok d.pages.length) (hpc : d.pages.length ≤ 32768)
    (hl : ∀ ps ∈ lines, ∀ kv ∈ ps, char_line_pair kv) (hlc : lines.length ≤ 65535)
    (hk : ∀ ps ∈ klines, ∀ kv ∈ ps, kerning_line_pair kv) (hkc : klines.length ≤ 65535) :
    ∃ font names,
      (bmfont_parse_file (render_with_lines d lines klines)).returned = some font ∧
      font.num_pages = d.pages.length ∧ font.page_names = some names ∧
      names.length = font.num_pages ∧
      ∀ i, i < font.num_pages →
        names.getD i none = slot_file d.pages i ∧
        ((names.getD i none).isSome = true ↔ ∃ pg ∈ d.pages, pg.id = i) := by
  refine ⟨_, _, parse_with_lines d lines klines hd hp (by omega) hl hlc hk hkc, rfl, rfl, ?_, ?_⟩
  · rw [fill_pages_length]
    simp [font_with_records, font_after_pages, font_after_common]
  · intro i hi
    have hi2 : i < d.pages.length := hi
    have hs := fill_pages_slot i d.pages (List.replicate d.pages.length none)
      (by rw [List.length_replicate]; exact hi2)
      (fun pg hpg => Nat.lt_of_lt_of_le (hp pg hpg).1 hpc)
    have hn : (List.replicate d.pages.length (none : Option (List Char))).getD i none
        = none := by
      simp [List.getD_eq_getElem?_getD]
    rw [hn] at hs
    have he : (fill_pages (List.replicate d.pages.length none) d.pages).getD i none
        = slot_file d.pages i := by
      rw [hs]
      cases slot_file d.pages i <;> rfl
    refine ⟨he, ?_⟩
    rw [he]
    exact slot_file_some d.pages i

/-- C33, at a document whose two page lines are written with the ids 1 and 0:
both slots hold their file names. -/
theorem c33_two_pages_swapped :
    ∃ font names,
      (bmfont_parse_file (render_with_lines swapped_pages_preamble [] [])).returned
        = some font ∧
      font.num_pages = 2 ∧ font.page_names = some names ∧
      names.length = font.num_pages ∧
      ∀ i, i < font.num_pages →
        names.getD i none = slot_file swapped_pages_preamble.pages i ∧
        ((names.getD i none).isSome = true ↔ ∃ pg ∈ swapped_pages_preamble.pages, pg.id = i) :=
  c33_page_slots swapped_pages_preamble [] [] swapped_preamble_ok swapped_pages_ok
    (by decide) (fun _ h => absurd h (List.not_mem_nil _)) (by decide)
    (fun _ h => absurd h (List.not_mem_nil _)) (by decide)

set_option maxRecDepth 100000 in
/-- C33, counterexample: a document that declares two pages and names the id 0
on both page lines is parsed successfully, inside defined behaviour; the font
has `num_pages = 2`, the slot 0 holds the second file name and the slot 1 is
left null. -/
theorem c33_slot_left_null :
    (bmfont_parse_file document_repeated_page_id).returned.map
        (fun f => (f.num_pages, f.page_names))
      = some (2, some [some ['b'], none]) ∧
      (bmfont_parse_file document_repeated_page_id).clean = true := by
  decide

/-- C34: `bmfont_parse_file` terminates on every input. No key/value loop runs
out of the bound the model gives it (the length of the unread input plus two),
so every loop ends by its own condition; the total number of iterations of all
key/value loops and record loops is at most the length of the input plus one;
and every iteration of each of the seven key/value loops and of the three
record loops consumes at least one input character, sets the EOF flag or
clears the ok flag. -/
theorem c34_parse_terminates (input : List Char) :
    (bmfont_parse_file input).parser.fuel_out = false ∧
    parse_iterations input ≤ input.length + 1 ∧
    (kv_progress parse_info_body ∧ kv_progress parse_common_body ∧
      kv_progress parse_page_body ∧ kv_progress parse_chars_count_body ∧
      kv_progress parse_char_body ∧ kv_progress parse_kernings_count_body ∧
      kv_progress parse_kerning_body) ∧
    (∀ (p : BMFont__Parser) (font : BMFont) (i : Nat),
      ((bmfont__match_token_and_advance p "page".toList).1 = true →
        iteration_progress p (parse_pages_loop 1 i p font).2.2.1) ∧
      ((bmfont__match_token_and_advance p "char".toList).1 = true →
        iteration_progress p (parse_chars_loop 1 i p font).2.1) ∧
      ((bmfont__match_token_and_advance p "kerning".toList).1 = true →
        iteration_progress p (parse_kernings_loop 1 i p font).2.1)) :=
  ⟨parse_fuel_suffices input, parse_iterations_le input,
    ⟨kv_progress_dispatch info_table info_table_closed,
      kv_progress_dispatch common_table common_table_closed,
      kv_progress_dispatch page_table page_table_closed,
      kv_progress_dispatch chars_count_table chars_count_table_closed,
      kv_progress_dispatch char_table char_table_closed,
      kv_progress_dispatch kernings_count_table kernings_count_table_closed,
      kv_progress_dispatch kerning_table kerning_table_closed⟩,
    fun p font i => ⟨pages_iteration_progress p font i, chars_iteration_progress p font i,
      kernings_iteration_progress p font i⟩⟩

set_option maxRecDepth 100000 in
/-- C34, at a document of 164 characters with two glyphs and one kerning: the
loops run 18 iterations in all and none runs out of its bound. -/
theorem c34_sparse_document_iterations :
    document_sparse_records.length = 164 ∧
      parse_iterations document_sparse_records = 18 ∧
      (bmfont_parse_file document_sparse_records).parser.fuel_out = false ∧
      parse_iterations document_sparse_records ≤ document_sparse_records.length + 1 :=
  ⟨by decide, by decide, (c34_parse_terminates document_sparse_records).1,
    (c34_parse_terminates document_sparse_records).2.1⟩

/-- C35: for every file contents, after `bmfont_parse_file` returns the error
string is exactly `Success` if and only if a font was returned: a successful
parse leaves no message behind and a failed parse never leaves `Success`. -/
theorem c35_success_iff_font (input : List Char) :
    bmfont_get_error_string (bmfont_parse_file input) = "Success".toList ↔
      (bmfont_parse_file input).returned ≠ none := by
  have hs : error_matches_flag
      (parse_sections (bmfont__load_next_token (parser_at_start input)).2 empty_font).2.1 :=
    kept_sections error_matches_flag_closed error_matches_flag_loops _ empty_font
      (error_matches_flag_closed.load _
        ⟨fun _ => rfl, fun h => absurd h (by decide : ¬ true = false)⟩)
  unfold bmfont_get_error_string bmfont_parse_file
  simp only
  generalize (parse_sections (bmfont__load_next_token (parser_at_start input)).2
    empty_font) = r at hs ⊢
  cases hok : r.2.1.ok with
  | false =>
    simp only [bmfont__parser_ok, hok, Bool.not_false, if_true, ne_eq, not_true_eq_false,
      iff_false]
    exact hs.2 hok
  | true =>
    simp only [bmfont__parser_ok, hok, Bool.not_true, Bool.false_eq_true, if_false]
    cases he : r.2.1.eof with
    | false =>
      simp only [Bool.not_false, if_true, ne_eq, not_true_eq_false, iff_false]
      simpa [bmfont__set_parser_error] using
        message_not_success _ (message_expected_eof r.2.1.start_line r.2.1.start_col
          r.2.1.next_token)
    | true =>
      simp only [Bool.not_true, Bool.false_eq_true, if_false, ne_eq, reduceCtorEq,
        not_false_eq_true, iff_true]
      exact hs.1 hok

set_option maxRecDepth 100000 in
/-- C35, at a document that parses and at a file that ends right after a key:
the first leaves `Success` and a font, the second leaves the end-of-input
message and no font. -/
theorem c35_success_and_failure :
    bmfont_get_error_string (bmfont_parse_file document_sparse_records) = "Success".toList ∧
      (bmfont_parse_file document_key_at_end).returned = none ∧
      bmfont_get_error_string (bmfont_parse_file document_key_at_end) ≠ "Success".toList :=
  ⟨(c35_success_iff_font document_sparse_records).mpr (by decide), by decide,
    fun h => (c35_success_iff_font document_key_at_end).mp h (by decide)⟩

end cmp
